import Mathlib

/-!
# cpp-base: probabilistic filters, sketches, the LRU map and the ring buffer

A shallow embedding of `data-struct/bloom-filter/bloom_filter.{h,cc}`,
`data-struct/bloom-filter/expandable_bloom_filter.{h,cc}`,
`data-struct/cuckoo-filter/{cuckoo_filter,single_table,util}.h`,
`data-struct/count_min_sketch.h`, `data-struct/lru_map.h` and
`data-struct/ring_buffer.h`, with the reference queue `DequeBasedRingBuffer`
of `data-struct/ring_buffer_test.cc`.

Conventions of the embedding:

* `uint8`, `uint32`, `uint64` values are natural numbers reduced modulo `2^8`,
  `2^32`, `2^64` wherever the C++ arithmetic can wrap; `int64` counters are
  integers wrapped by `wrap_int64`, `int` values by `wrap_int32`; `%` on `int`
  truncates (`Int.tmod`).
* A byte buffer (`uint8*`) is a `List Nat`; a read is `List.getD _ _ 0`, a
  write is `List.set`.
* `Hash64NumWithSeed` is declared in `cpp-base/hash/hash.h`, whose code is not
  embedded: it is a parameter `hash : Nat → Nat → Nat`, and every use reduces
  its result modulo `2^64`.
* A `std::mt19937_64` generator is the stream `Nat → Nat` of its successive
  outputs together with the number of outputs drawn so far.
* A failed `CHECK` or a `LOG(FATAL)` is the result `none`.
* A `std::list` is the list of its nodes from the front; a node carries an
  identity, which is what a list iterator holds. A `hash_map` is the list of
  its entries, in no particular order.
-/

set_option autoImplicit false

namespace cpp_base

/-! ## Machine integers -/

/-- Wrap-around of an integer into the `int64` range, as two-complement
arithmetic does. -/
def wrap_int64 (x : Int) : Int := (x + 2 ^ 63) % 2 ^ 64 - 2 ^ 63

/-! ## BloomFilter (`bloom_filter.h`, `bloom_filter.cc`) -/

/-- The data members of `class BloomFilter`. -/
structure BloomFilter where
  /-- Size in bytes. -/
  byte_size_ : Nat
  /-- Size in bits. -/
  bit_size_ : Nat
  /-- The underlying bit vector, one list element per byte. -/
  data_ : List Nat
  /-- Num elements inserted so far. -/
  num_inserts_ : Int
  /-- Used for logging a warning if the filter is over-used. -/
  expected_num_elements_ : Int
  /-- Counter regulating the rate of that warning. -/
  log_regulator_ : Int
  /-- Random keys used for hashing. -/
  hash_keys_ : List Nat

namespace BloomFilter

/-- The helper `static bool IsPowerOf2(int64 x) { return (x & (x - 1)) == 0 || x == 1; }`. -/
def IsPowerOf2 (x : Int) : Bool := (Int.land x (x - 1) == 0) || x == 1

/-- The constructor `BloomFilter::BloomFilter(int64 bit_size, int64 expected_num_elements)`.

`rounded` is the value of the floating-point expression
`std::round(bit_size_ * 1. / expected_num_elements * std::log(2))`, which is
not computed here; it is non-negative because both arguments are positive.
`rand_gen` lists the outputs of `std::mt19937_64 rand_gen(1000)`.
The sizes are natural numbers: for `bit_size = 0` the truncated subtraction
gives `byte_size_ = 1`, as the C++ division `(-1) / 8 = 0` does. -/
def new (bit_size : Nat) (expected_num_elements : Int) (rounded : Nat)
    (rand_gen : Nat → Nat) : BloomFilter :=
  let byte_size := (bit_size - 1) / 8 + 1
  let num_hashes := if rounded = 0 then 1 else if rounded > 8 then 8 else rounded
  { byte_size_ := byte_size
    bit_size_ := byte_size * 8
    data_ := List.replicate byte_size 0
    num_inserts_ := 0
    expected_num_elements_ := expected_num_elements
    log_regulator_ := 0
    hash_keys_ := (List.range num_hashes).map rand_gen }

/-- The `for` loop of `BloomFilter::Insert` over the remaining hash keys,
threading the buffer and the flag `inserted`. -/
def Insert.loop (hash : Nat → Nat → Nat) (bit_size key : Nat) :
    List Nat → List Nat → Bool → List Nat × Bool
  | [], data, inserted => (data, inserted)
  | seed :: rest, data, inserted =>
    let mix := hash key seed % 2 ^ 64
    let index := mix % bit_size
    let byte := index / 8
    let bit := index % 8
    let prev := data.getD byte 0
    let data1 := data.set byte ((prev ||| (1 <<< bit)) % 256)
    Insert.loop hash bit_size key rest data1
      (if prev != data1.getD byte 0 then true else inserted)

/-- The method `bool BloomFilter::Insert(uint64 key)`: the returned flag and the new state.
The warning itself is not part of the state; `log_regulator_` is incremented
exactly when the left operand of `&&` holds. -/
def Insert (hash : Nat → Nat → Nat) (s : BloomFilter) (key : Nat) : Bool × BloomFilter :=
  let r := Insert.loop hash s.bit_size_ key s.hash_keys_ s.data_ false
  let num := wrap_int64 (s.num_inserts_ + 1)
  let reg := if num > s.expected_num_elements_ then wrap_int64 (s.log_regulator_ + 1)
             else s.log_regulator_
  (r.2, { s with data_ := r.1, num_inserts_ := num, log_regulator_ := reg })

/-- The `for` loop of `BloomFilter::Contains` over the remaining hash keys. -/
def Contains.loop (hash : Nat → Nat → Nat) (bit_size key : Nat) (data : List Nat) :
    List Nat → Bool
  | [] => true
  | seed :: rest =>
    let mix := hash key seed % 2 ^ 64
    let index := mix % bit_size
    let byte := index / 8
    let bit := index % 8
    if (data.getD byte 0 &&& (1 <<< bit)) = 0 then false
    else Contains.loop hash bit_size key data rest

/-- The method `bool BloomFilter::Contains(uint64 key) const`. -/
def Contains (hash : Nat → Nat → Nat) (s : BloomFilter) (key : Nat) : Bool :=
  Contains.loop hash s.bit_size_ key s.data_ s.hash_keys_

/-- The method `void BloomFilter::Clear()`. -/
def Clear (s : BloomFilter) : BloomFilter :=
  { s with data_ := List.replicate s.byte_size_ 0, num_inserts_ := 0 }

/-- The accessor `int64 NumElements() const`. -/
def NumElements (s : BloomFilter) : Int := s.num_inserts_

/-- The accessor `int64 BitSize() const`. -/
def BitSize (s : BloomFilter) : Int := s.bit_size_

/-- The state after a sequence of `Insert` calls (results discarded). -/
def InsertAll (hash : Nat → Nat → Nat) (s : BloomFilter) : List Nat → BloomFilter
  | [] => s
  | k :: ks => InsertAll hash (Insert hash s k).2 ks

/-- The states a filter constructed by `BloomFilter(bit_size, expected_num_elements)`
can be in: the constructed one, and what `Insert` and `Clear` make of a
reachable one. -/
inductive Reachable (hash : Nat → Nat → Nat) (bit_size : Nat) (expected_num_elements : Int)
    (rounded : Nat) (rand_gen : Nat → Nat) : BloomFilter → Prop
  | constructed : Reachable hash bit_size expected_num_elements rounded rand_gen
      (new bit_size expected_num_elements rounded rand_gen)
  | insert (s : BloomFilter) (key : Nat) :
      Reachable hash bit_size expected_num_elements rounded rand_gen s →
      Reachable hash bit_size expected_num_elements rounded rand_gen (Insert hash s key).2
  | clear (s : BloomFilter) :
      Reachable hash bit_size expected_num_elements rounded rand_gen s →
      Reachable hash bit_size expected_num_elements rounded rand_gen (Clear s)

/-- The representation invariant of a filter: the buffer has `byte_size_`
bytes, each a `uint8`, `bit_size_` counts its bits, and there is at least one
hash key. -/
structure WF (s : BloomFilter) : Prop where
  bytes_pos : 0 < s.byte_size_
  bits : s.bit_size_ = s.byte_size_ * 8
  len : s.data_.length = s.byte_size_
  bytes : ∀ x ∈ s.data_, x < 256
  keys : s.hash_keys_ ≠ []

/-- Bit `index` of a byte buffer, counted as `BloomFilter` does: bit
`index % 8` of byte `index / 8`. -/
def bitAt (data : List Nat) (index : Nat) : Bool :=
  (data.getD (index / 8) 0).testBit (index % 8)

/-- The bit index probed for `key` under hash key `seed`. -/
def probe (hash : Nat → Nat → Nat) (bit_size key seed : Nat) : Nat :=
  hash key seed % 2 ^ 64 % bit_size

/-- The buffer after `data_[byte] |= 1 << bit` for `byte = index / 8`,
`bit = index % 8`. -/
def setBit (data : List Nat) (index : Nat) : List Nat :=
  data.set (index / 8) ((data.getD (index / 8) 0 ||| (1 <<< (index % 8))) % 256)

end BloomFilter

/-! ## util.h: bit utilities -/

/-- The macro `haszero4(x) (((x) - 0x1111ULL) & (~(x)) & 0x8888ULL)` on a `uint64`. -/
def haszero4 (x : Nat) : Nat :=
  (((x + 2 ^ 64 - 0x1111) % 2 ^ 64) &&& (2 ^ 64 - 1 - x % 2 ^ 64)) &&& 0x8888

/-- The macro `hasvalue4(x,n) (haszero4((x) ^ (0x1111ULL * (n))))`. -/
def hasvalue4 (x n : Nat) : Nat := haszero4 (x ^^^ ((0x1111 * n) % 2 ^ 64))

/-- The macro `haszero8(x) (((x) - 0x01010101ULL) & (~(x)) & 0x80808080ULL)`. -/
def haszero8 (x : Nat) : Nat :=
  (((x + 2 ^ 64 - 0x01010101) % 2 ^ 64) &&& (2 ^ 64 - 1 - x % 2 ^ 64)) &&& 0x80808080

/-- The macro `hasvalue8(x,n) (haszero8((x) ^ (0x01010101ULL * (n))))`. -/
def hasvalue8 (x n : Nat) : Nat := haszero8 (x ^^^ ((0x01010101 * n) % 2 ^ 64))

/-- The macro `haszero12(x) (((x) - 0x001001001001ULL) & (~(x)) & 0x800800800800ULL)`. -/
def haszero12 (x : Nat) : Nat :=
  (((x + 2 ^ 64 - 0x001001001001) % 2 ^ 64) &&& (2 ^ 64 - 1 - x % 2 ^ 64)) &&& 0x800800800800

/-- The macro `hasvalue12(x,n) (haszero12((x) ^ (0x001001001001ULL * (n))))`. -/
def hasvalue12 (x n : Nat) : Nat := haszero12 (x ^^^ ((0x001001001001 * n) % 2 ^ 64))

/-- The macro
`haszero16(x) (((x) - 0x0001000100010001ULL) & (~(x)) & 0x8000800080008000ULL)`. -/
def haszero16 (x : Nat) : Nat :=
  (((x + 2 ^ 64 - 0x0001000100010001) % 2 ^ 64) &&& (2 ^ 64 - 1 - x % 2 ^ 64))
    &&& 0x8000800080008000

/-- The macro `hasvalue16(x,n) (haszero16((x) ^ (0x0001000100010001ULL * (n))))`. -/
def hasvalue16 (x n : Nat) : Nat := haszero16 (x ^^^ ((0x0001000100010001 * n) % 2 ^ 64))

/-- The function `uint64_t upperpower2(uint64_t x)`; `x--` wraps around at 0. -/
def upperpower2 (x : Nat) : Nat :=
  let x := if x = 0 then 2 ^ 64 - 1 else x - 1
  let x := x ||| (x >>> 1)
  let x := x ||| (x >>> 2)
  let x := x ||| (x >>> 4)
  let x := x ||| (x >>> 8)
  let x := x ||| (x >>> 16)
  let x := x ||| (x >>> 32)
  (x + 1) % 2 ^ 64

/-- The function `bool is_power_of_2(int64 x) { return (x & (x - 1)) == 0 || x == 1; }`. -/
def is_power_of_2 (x : Int) : Bool := (Int.land x (x - 1) == 0) || x == 1

/-! ## Little-endian memory access -/

/-- Read of a `uint16` through `*((uint16*) p)` at byte offset `p`. -/
def load16 (data : List Nat) (p : Nat) : Nat :=
  data.getD p 0 + 256 * data.getD (p + 1) 0

/-- Read of a `uint32` through `*((uint32*) p)` at byte offset `p`. -/
def load32 (data : List Nat) (p : Nat) : Nat :=
  data.getD p 0 + 256 * data.getD (p + 1) 0 + 65536 * data.getD (p + 2) 0
    + 16777216 * data.getD (p + 3) 0

/-- Read of a `uint64` through `*((uint64*) p)` at byte offset `p`. -/
def load64 (data : List Nat) (p : Nat) : Nat :=
  load32 data p + 4294967296 * load32 data (p + 4)

/-- Write of the `uint16` value `v` at byte offset `p`. -/
def store16 (data : List Nat) (p v : Nat) : List Nat :=
  (data.set p (v % 256)).set (p + 1) (v / 256 % 256)

/-- Write of the `uint32` value `v` at byte offset `p`. -/
def store32 (data : List Nat) (p v : Nat) : List Nat :=
  (((data.set p (v % 256)).set (p + 1) (v / 256 % 256)).set (p + 2) (v / 65536 % 256)).set
    (p + 3) (v / 16777216 % 256)

/-! ## SingleTable (`single_table.h`) -/

/-- The data members of `class SingleTable`; `rand_gen_` with `rand_pos_` is the
`std::mt19937_64` generator. -/
structure SingleTable where
  num_buckets_ : Nat
  tags_per_bucket_ : Nat
  bytes_per_bucket_ : Nat
  bits_per_tag_ : Nat
  tag_mask_ : Nat
  /-- The byte array `data_`, of `num_buckets * bytes_per_bucket_ + 8` bytes. -/
  data_ : List Nat
  /-- The successive outputs of `rand_gen_`. -/
  rand_gen_ : Nat → Nat
  /-- The number of outputs of `rand_gen_` drawn so far. -/
  rand_pos_ : Nat

namespace SingleTable

/-- The constructor `SingleTable(int64 num_buckets, int tags_per_bucket, int bits_per_tag)`
on arguments that are not negative; `none` when one of the four `CHECK_GT`
fails. The arguments are natural numbers, so the arithmetic is that of the
constructor only while `bits_per_tag * tags_per_bucket + 7` is an `int` value
(below `2^31`), `bits_per_tag < 64` (the shift `1ULL << bits_per_tag_`) and
the buffer size `num_buckets * bytes_per_bucket_ + 8` is an `int64` value; the
`CuckooFilter` constructor passes 4 tags per bucket. The last 8 bytes of the
array are not touched by `memset`: they hold `uninit 0 .. uninit 7`.
`rand_gen` lists the outputs of `rand_gen_(12345678)`. -/
def new (num_buckets tags_per_bucket bits_per_tag : Nat) (uninit : Nat → Nat)
    (rand_gen : Nat → Nat) : Option SingleTable :=
  let bytes_per_bucket := (bits_per_tag * tags_per_bucket + 7) >>> 3
  if 0 < num_buckets ∧ 0 < tags_per_bucket ∧ 0 < bytes_per_bucket ∧ 0 < bits_per_tag then
    some
      { num_buckets_ := num_buckets
        tags_per_bucket_ := tags_per_bucket
        bytes_per_bucket_ := bytes_per_bucket
        bits_per_tag_ := bits_per_tag
        tag_mask_ := ((1 <<< bits_per_tag) % 2 ^ 64 + 2 ^ 64 - 1) % 2 ^ 64 % 2 ^ 32
        data_ := List.replicate (num_buckets * bytes_per_bucket) 0 ++
          (List.range 8).map (fun k => uninit k % 256)
        rand_gen_ := rand_gen
        rand_pos_ := 0 }
  else none

/-- The method `void Clear()`: `memset(data_, 0, num_buckets_ * bytes_per_bucket_)`. -/
def Clear (t : SingleTable) : SingleTable :=
  { t with data_ := List.replicate (t.num_buckets_ * t.bytes_per_bucket_) 0 ++
      t.data_.drop (t.num_buckets_ * t.bytes_per_bucket_) }

/-- The method `int64 NumBuckets() const`. -/
def NumBuckets (t : SingleTable) : Nat := t.num_buckets_

/-- The method `uint32 ReadTag(const int64 i, const int64 j) const`: read tag from
pos(i,j); `none` is `LOG(FATAL) << "Unsupported bits_per_tag "`. -/
def ReadTag (t : SingleTable) (i j : Nat) : Option Nat :=
  let p := i * t.bytes_per_bucket_
  if t.bits_per_tag_ = 2 then
    some ((t.data_.getD p 0 >>> (j * 2)) % 2 ^ 32 &&& t.tag_mask_)
  else if t.bits_per_tag_ = 4 then
    let p := p + (j >>> 1)
    some ((t.data_.getD p 0 >>> ((j &&& 1) <<< 2)) % 2 ^ 32 &&& t.tag_mask_)
  else if t.bits_per_tag_ = 8 then
    let p := p + j
    some (t.data_.getD p 0 &&& t.tag_mask_)
  else if t.bits_per_tag_ = 12 then
    let p := p + (j + (j >>> 1))
    some ((load16 t.data_ p >>> ((j &&& 1) <<< 2)) % 2 ^ 32 &&& t.tag_mask_)
  else if t.bits_per_tag_ = 16 then
    let p := p + (j <<< 1)
    some (load16 t.data_ p &&& t.tag_mask_)
  else if t.bits_per_tag_ = 32 then
    some (load32 t.data_ (p + 4 * j) &&& t.tag_mask_)
  else none

/-- The method `void WriteTag(const int64 i, const int64 j, const uint32 __tag)`: write
tag to pos(i,j). Stores through `uint8*` and `uint16*` keep the low 8 and 16
bits. -/
def WriteTag (t : SingleTable) (i j __tag : Nat) : SingleTable :=
  let p := i * t.bytes_per_bucket_
  let tag := __tag &&& t.tag_mask_
  if t.bits_per_tag_ = 2 then
    { t with data_ := t.data_.set p ((t.data_.getD p 0 ||| (tag <<< (2 * j))) % 256) }
  else if t.bits_per_tag_ = 4 then
    let p := p + (j >>> 1)
    if j &&& 1 = 0 then
      { t with data_ := t.data_.set p (((t.data_.getD p 0 &&& 0xf0) ||| tag) % 256) }
    else
      { t with data_ := t.data_.set p (((t.data_.getD p 0 &&& 0x0f) ||| (tag <<< 4)) % 256) }
  else if t.bits_per_tag_ = 8 then
    { t with data_ := t.data_.set (p + j) (tag % 256) }
  else if t.bits_per_tag_ = 12 then
    let p := p + (j + (j >>> 1))
    if j &&& 1 = 0 then
      { t with data_ := store16 t.data_ p (((load16 t.data_ p &&& 0xf000) ||| tag) % 65536) }
    else
      { t with data_ :=
          store16 t.data_ p (((load16 t.data_ p &&& 0x000f) ||| (tag <<< 4)) % 65536) }
  else if t.bits_per_tag_ = 16 then
    { t with data_ := store16 t.data_ (p + 2 * j) (tag % 65536) }
  else if t.bits_per_tag_ = 32 then
    { t with data_ := store32 t.data_ (p + 4 * j) tag }
  else t

/-- The scan `for (int64 j = 0; j < tags_per_bucket_; j++)` of `FindTagInBuckets`,
from slot `j` with `n` slots left. -/
def FindTagInBuckets.loop (t : SingleTable) (i1 i2 tag : Nat) : Nat → Nat → Option Bool
  | 0, _ => some false
  | n + 1, j =>
    match t.ReadTag i1 j with
    | none => none
    | some a =>
      if a = tag then some true
      else
        match t.ReadTag i2 j with
        | none => none
        | some b =>
          if b = tag then some true else FindTagInBuckets.loop t i1 i2 tag n (j + 1)

/-- The method `bool FindTagInBuckets(const int64 i1, const int64 i2, const uint32 tag) const`. -/
def FindTagInBuckets (t : SingleTable) (i1 i2 tag : Nat) : Option Bool :=
  let v1 := load64 t.data_ (i1 * t.bytes_per_bucket_)
  let v2 := load64 t.data_ (i2 * t.bytes_per_bucket_)
  if t.bits_per_tag_ = 4 ∧ t.tags_per_bucket_ = 4 then
    some (hasvalue4 v1 tag != 0 || hasvalue4 v2 tag != 0)
  else if t.bits_per_tag_ = 8 ∧ t.tags_per_bucket_ = 4 then
    some (hasvalue8 v1 tag != 0 || hasvalue8 v2 tag != 0)
  else if t.bits_per_tag_ = 12 ∧ t.tags_per_bucket_ = 4 then
    some (hasvalue12 v1 tag != 0 || hasvalue12 v2 tag != 0)
  else if t.bits_per_tag_ = 16 ∧ t.tags_per_bucket_ = 4 then
    some (hasvalue16 v1 tag != 0 || hasvalue16 v2 tag != 0)
  else FindTagInBuckets.loop t i1 i2 tag t.tags_per_bucket_ 0

/-- The scan of `FindTagInBucket`, from slot `j` with `n` slots left. -/
def FindTagInBucket.loop (t : SingleTable) (i tag : Nat) : Nat → Nat → Option Bool
  | 0, _ => some false
  | n + 1, j =>
    match t.ReadTag i j with
    | none => none
    | some a => if a = tag then some true else FindTagInBucket.loop t i tag n (j + 1)

/-- The method `bool FindTagInBucket(const int64 i, const uint32 tag) const`. -/
def FindTagInBucket (t : SingleTable) (i tag : Nat) : Option Bool :=
  let val := load64 t.data_ (i * t.bytes_per_bucket_)
  if t.bits_per_tag_ = 4 ∧ t.tags_per_bucket_ = 4 then some (hasvalue4 val tag != 0)
  else if t.bits_per_tag_ = 8 ∧ t.tags_per_bucket_ = 4 then some (hasvalue8 val tag != 0)
  else if t.bits_per_tag_ = 12 ∧ t.tags_per_bucket_ = 4 then some (hasvalue12 val tag != 0)
  else if t.bits_per_tag_ = 16 ∧ t.tags_per_bucket_ = 4 then some (hasvalue16 val tag != 0)
  else FindTagInBucket.loop t i tag t.tags_per_bucket_ 0

/-- The scan of `DeleteTagFromBucket`, from slot `j` with `n` slots left; `none`
when `ReadTag` is fatal or `CHECK(FindTagInBucket(i, tag))` fails. -/
def DeleteTagFromBucket.loop (t : SingleTable) (i tag : Nat) :
    Nat → Nat → Option (Bool × SingleTable)
  | 0, _ => some (false, t)
  | n + 1, j =>
    match t.ReadTag i j with
    | none => none
    | some a =>
      if a = tag then
        match t.FindTagInBucket i tag with
        | some true => some (true, t.WriteTag i j 0)
        | _ => none
      else DeleteTagFromBucket.loop t i tag n (j + 1)

/-- The method `bool DeleteTagFromBucket(const int64 i, const uint32 tag)`. -/
def DeleteTagFromBucket (t : SingleTable) (i tag : Nat) : Option (Bool × SingleTable) :=
  DeleteTagFromBucket.loop t i tag t.tags_per_bucket_ 0

/-- The scan for an empty slot in `InsertTagToBucket`, from slot `j` with `n`
slots left: the table with the tag written, if a slot read 0. -/
def InsertTagToBucket.loop (t : SingleTable) (i tag : Nat) :
    Nat → Nat → Option (Option SingleTable)
  | 0, _ => some none
  | n + 1, j =>
    match t.ReadTag i j with
    | none => none
    | some a =>
      if a = 0 then some (some (t.WriteTag i j tag))
      else InsertTagToBucket.loop t i tag n (j + 1)

/-- The method
`bool InsertTagToBucket(const int64 i, const uint32 tag, const bool kickout, uint32& oldtag)`:
the returned flag, the value of `oldtag` afterwards, and the table. -/
def InsertTagToBucket (t : SingleTable) (i tag : Nat) (kickout : Bool) (oldtag : Nat) :
    Option (Bool × Nat × SingleTable) :=
  match InsertTagToBucket.loop t i tag t.tags_per_bucket_ 0 with
  | none => none
  | some (some t1) => some (true, oldtag, t1)
  | some none =>
    if kickout then
      let r := (t.rand_gen_ t.rand_pos_ % 2 ^ 64) % t.tags_per_bucket_
      let t1 := { t with rand_pos_ := t.rand_pos_ + 1 }
      match t1.ReadTag i r with
      | none => none
      | some old => some (false, old, t1.WriteTag i r tag)
    else some (false, oldtag, t)

/-- The representation invariant of a table built for a `CuckooFilter` with a
supported tag width other than 2: four tags per bucket, a byte array of
`num_buckets_ * bytes_per_bucket_ + 8` bytes, each a `uint8`. -/
structure WF (t : SingleTable) : Prop where
  buckets_pos : 0 < t.num_buckets_
  tags : t.tags_per_bucket_ = 4
  width : t.bits_per_tag_ = 4 ∨ t.bits_per_tag_ = 8 ∨ t.bits_per_tag_ = 12 ∨
    t.bits_per_tag_ = 16 ∨ t.bits_per_tag_ = 32
  bucket_bytes : t.bytes_per_bucket_ = (t.bits_per_tag_ * 4 + 7) / 8
  mask : t.tag_mask_ = 2 ^ t.bits_per_tag_ - 1
  len : t.data_.length = t.num_buckets_ * t.bytes_per_bucket_ + 8
  bytes : ∀ x ∈ t.data_, x < 256

/-- The tag `ReadTag(i, j)` returns, 0 where it is fatal. -/
def slot (t : SingleTable) (i j : Nat) : Nat := (t.ReadTag i j).getD 0

/-- The number of slots of bucket `i` that do not read 0 (what
`NumTagsInBucket(i)` counts). -/
def occupied (t : SingleTable) (i : Nat) : Nat :=
  (if t.slot i 0 = 0 then 0 else 1) + (if t.slot i 1 = 0 then 0 else 1) +
    (if t.slot i 2 = 0 then 0 else 1) + (if t.slot i 3 = 0 then 0 else 1)

/-- One of the four slots of bucket `i` reads `tag`. -/
def hasTag (t : SingleTable) (i tag : Nat) : Bool :=
  decide (t.slot i 0 = tag ∨ t.slot i 1 = tag ∨ t.slot i 2 = tag ∨ t.slot i 3 = tag)

end SingleTable

/-! ## CuckooFilter (`cuckoo_filter.h`) -/

/-- The constant `kMaxCuckooCount`: maximum number of cuckoo kicks before claiming failure. -/
def kMaxCuckooCount : Nat := 500

/-- The members of `struct LastVictim`. -/
structure LastVictim where
  index : Nat
  tag : Nat
  used : Bool

/-- The data members of `class CuckooFilter`. -/
structure CuckooFilter where
  bits_per_element_ : Nat
  /-- Storage of items. -/
  table_ : SingleTable
  /-- Number of items stored. -/
  num_elements_ : Int
  last_victim_ : LastVictim
  /-- Used for logging a warning if the filter is over-used. -/
  expected_num_elements_ : Int
  log_regulator_ : Int

namespace CuckooFilter

/-- The constructor `CuckooFilter(int64 expected_num_elements, int bits_per_element)`; `none`
when a `CHECK_GT` of the `SingleTable` constructor fails.

The `double` arithmetic is done on rationals, which is exact for
`expected_num_elements <= 2^53`: `std::ceil(expected_num_elements * 1. / 4)` is
`(expected_num_elements + 3) / 4`, and `frac >= 0.96` compares
`expected_num_elements / (4 * num_buckets)` with the `double` nearest to 0.96,
which is `1080863910568919 / 2^50`. -/
def new (expected_num_elements bits_per_element : Nat) (uninit : Nat → Nat)
    (rand_gen : Nat → Nat) : Option CuckooFilter :=
  let kAssociativity := 4
  let num_buckets := upperpower2 ((expected_num_elements + 3) / 4)
  let num_buckets :=
    if expected_num_elements * 2 ^ 50 ≥ 1080863910568919 * (kAssociativity * num_buckets) then
      num_buckets * 2
    else num_buckets
  match SingleTable.new num_buckets kAssociativity bits_per_element uninit rand_gen with
  | none => none
  | some table =>
    some
      { bits_per_element_ := bits_per_element
        table_ := table
        num_elements_ := 0
        last_victim_ := { index := 0, tag := 0, used := false }
        expected_num_elements_ := expected_num_elements
        log_regulator_ := 0 }

/-- The method `int64 BucketIndexHash(uint32 val) const`. -/
def BucketIndexHash (f : CuckooFilter) (val : Nat) : Nat :=
  val % f.table_.NumBuckets

/-- The method `uint32 TagHash(uint32 val) const`. -/
def TagHash (f : CuckooFilter) (val : Nat) : Nat :=
  let tag := (val &&& (((1 <<< f.bits_per_element_) % 2 ^ 64 + 2 ^ 64 - 1) % 2 ^ 64)) % 2 ^ 32
  (tag + (if tag = 0 then 1 else 0)) % 2 ^ 32

/-- The method `void GetIndexAndTag(uint64 key, int64* bucket_index, uint32* tag)`: the pair
`(bucket_index, tag)`. -/
def GetIndexAndTag (hash : Nat → Nat → Nat) (f : CuckooFilter) (key : Nat) : Nat × Nat :=
  let h := hash key 0xa5b85c5e198ed849 % 2 ^ 64
  (f.BucketIndexHash ((h >>> 32) % 2 ^ 32), f.TagHash ((h &&& 0xFFFFFFFF) % 2 ^ 32))

/-- The method `int64 AltIndex(int64 index, uint32 tag) const`. -/
def AltIndex (f : CuckooFilter) (index tag : Nat) : Nat :=
  f.BucketIndexHash ((index ^^^ ((tag * 0x5bd1e995) % 2 ^ 32)) % 2 ^ 32)

/-- The `for` loop of `AddInternal` with `n` iterations left, at iteration
`count`, followed by the code after the loop. -/
def AddInternal.loop : Nat → CuckooFilter → Nat → Nat → Nat → Option (Bool × CuckooFilter)
  | 0, f, _, curindex, curtag =>
    some (true, { f with last_victim_ := { index := curindex, tag := curtag, used := true } })
  | n + 1, f, count, curindex, curtag =>
    let kickout := decide (count > 0)
    match f.table_.InsertTagToBucket curindex curtag kickout 0 with
    | none => none
    | some (true, _, table) =>
      some (true, { f with table_ := table, num_elements_ := wrap_int64 (f.num_elements_ + 1) })
    | some (false, oldtag, table) =>
      let f1 := { f with table_ := table }
      let curtag := if kickout then oldtag else curtag
      let curindex := f1.AltIndex curindex curtag
      AddInternal.loop n f1 (count + 1) curindex curtag

/-- The method `bool AddInternal(const int64 bucket_index, const uint32 tag)`. -/
def AddInternal (f : CuckooFilter) (bucket_index tag : Nat) : Option (Bool × CuckooFilter) :=
  AddInternal.loop kMaxCuckooCount f 0 bucket_index tag

/-- The method `bool Insert(uint64 key)`: add an item to the filter. -/
def Insert (hash : Nat → Nat → Nat) (f : CuckooFilter) (key : Nat) :
    Option (Bool × CuckooFilter) :=
  if f.last_victim_.used then some (false, f)
  else
    let it := GetIndexAndTag hash f key
    match f.AddInternal it.1 it.2 with
    | none => none
    | some (ret, f1) =>
      let reg :=
        if f1.num_elements_ > f1.expected_num_elements_ then wrap_int64 (f1.log_regulator_ + 1)
        else f1.log_regulator_
      some (ret, { f1 with log_regulator_ := reg })

/-- The method `bool Contains(uint64 key)`; `none` when the `CHECK_EQ` fails or `ReadTag` is
fatal. -/
def Contains (hash : Nat → Nat → Nat) (f : CuckooFilter) (key : Nat) : Option Bool :=
  let it := GetIndexAndTag hash f key
  let bucket_index1 := it.1
  let tag := it.2
  let bucket_index2 := f.AltIndex bucket_index1 tag
  if bucket_index1 ≠ f.AltIndex bucket_index2 tag then none
  else if f.last_victim_.used ∧ tag = f.last_victim_.tag ∧
      (bucket_index1 = f.last_victim_.index ∨ bucket_index2 = f.last_victim_.index) then
    some true
  else
    match f.table_.FindTagInBuckets bucket_index1 bucket_index2 tag with
    | none => none
    | some true => some true
    | some false => some false

/-- The code of `Delete` from the label `TryEliminateVictim` on. -/
def TryEliminateVictim (f : CuckooFilter) : Option (Bool × CuckooFilter) :=
  if f.last_victim_.used then
    let f1 := { f with last_victim_ := { f.last_victim_ with used := false } }
    match f1.AddInternal f.last_victim_.index f.last_victim_.tag with
    | none => none
    | some (_, f2) => some (true, f2)
  else some (true, f)

/-- The method `bool Delete(uint64 key)`: delete a key from the filter. -/
def Delete (hash : Nat → Nat → Nat) (f : CuckooFilter) (key : Nat) :
    Option (Bool × CuckooFilter) :=
  let it := GetIndexAndTag hash f key
  let bucket_index1 := it.1
  let tag := it.2
  let bucket_index2 := f.AltIndex bucket_index1 tag
  if bucket_index1 ≠ f.AltIndex bucket_index2 tag then none
  else
    match f.table_.DeleteTagFromBucket bucket_index1 tag with
    | none => none
    | some (true, table) =>
      TryEliminateVictim
        { f with table_ := table, num_elements_ := wrap_int64 (f.num_elements_ - 1) }
    | some (false, table) =>
      match table.DeleteTagFromBucket bucket_index2 tag with
      | none => none
      | some (true, table2) =>
        TryEliminateVictim
          { f with table_ := table2, num_elements_ := wrap_int64 (f.num_elements_ - 1) }
      | some (false, table2) =>
        if f.last_victim_.used ∧ tag = f.last_victim_.tag ∧
            (bucket_index1 = f.last_victim_.index ∨ bucket_index2 = f.last_victim_.index) then
          some (true, { f with table_ := table2,
                               last_victim_ := { f.last_victim_ with used := false } })
        else some (false, { f with table_ := table2 })

/-- The method `void Clear()`. -/
def Clear (f : CuckooFilter) : CuckooFilter :=
  { f with table_ := f.table_.Clear, num_elements_ := 0,
           last_victim_ := { index := 0, tag := 0, used := false } }

/-- The method `int64 NumElements() const`: number of inserted items so far. -/
def NumElements (f : CuckooFilter) : Int := f.num_elements_

/-- A bucket index that `BucketIndexHash` can return: below `num_buckets_` and a `uint32`. -/
def validIndex (f : CuckooFilter) (i : Nat) : Prop :=
  i < f.table_.num_buckets_ ∧ i < 2 ^ 32

/-- A tag that `TagHash` can return: not zero and of `bits_per_element_` bits. -/
def validTag (f : CuckooFilter) (tag : Nat) : Prop :=
  0 < tag ∧ tag < 2 ^ f.bits_per_element_

/-- The representation invariant of a filter with a supported tag width
other than 2: the table is well formed, `num_buckets_` is a power of two, and
a pending victim holds a bucket index and a tag. -/
structure WF (f : CuckooFilter) : Prop where
  table : f.table_.WF
  bits : f.bits_per_element_ = f.table_.bits_per_tag_
  pow2 : ∃ k, f.table_.num_buckets_ = 2 ^ k
  victim : f.last_victim_.used = true →
    f.validIndex f.last_victim_.index ∧ f.validTag f.last_victim_.tag

/-- The tag `tag` of a key with primary bucket `i` is where `Contains` looks
for it: in bucket `i`, in the alternate bucket, or in the victim slot for one
of the two buckets. -/
def holds (f : CuckooFilter) (i tag : Nat) : Bool :=
  f.table_.hasTag i tag || f.table_.hasTag (f.AltIndex i tag) tag ||
    (f.last_victim_.used && decide (tag = f.last_victim_.tag) &&
      (decide (i = f.last_victim_.index) || decide (f.AltIndex i tag = f.last_victim_.index)))

/-- An empty filter: every slot of the table is zero, no victim is pending and
`num_elements_` is 0. -/
structure IsEmpty (f : CuckooFilter) : Prop where
  slots : ∀ i j, i < f.table_.num_buckets_ → j < 4 → f.table_.slot i j = 0
  victim : f.last_victim_.used = false
  num : f.num_elements_ = 0

/-- The states a filter constructed by
`CuckooFilter(expected_num_elements, bits_per_element)` can be in: the
constructed one, and what `Insert`, `Delete` and `Clear` make of a reachable
one. -/
inductive Reachable (hash : Nat → Nat → Nat) (expected_num_elements bits_per_element : Nat)
    (uninit : Nat → Nat) (rand_gen : Nat → Nat) : CuckooFilter → Prop
  | constructed (f : CuckooFilter) :
      new expected_num_elements bits_per_element uninit rand_gen = some f →
      Reachable hash expected_num_elements bits_per_element uninit rand_gen f
  | insert (f : CuckooFilter) (key : Nat) (ret : Bool) (f1 : CuckooFilter) :
      Reachable hash expected_num_elements bits_per_element uninit rand_gen f →
      Insert hash f key = some (ret, f1) →
      Reachable hash expected_num_elements bits_per_element uninit rand_gen f1
  | delete (f : CuckooFilter) (key : Nat) (ret : Bool) (f1 : CuckooFilter) :
      Reachable hash expected_num_elements bits_per_element uninit rand_gen f →
      Delete hash f key = some (ret, f1) →
      Reachable hash expected_num_elements bits_per_element uninit rand_gen f1
  | clear (f : CuckooFilter) :
      Reachable hash expected_num_elements bits_per_element uninit rand_gen f →
      Reachable hash expected_num_elements bits_per_element uninit rand_gen (Clear f)

/-- A sample hash for concrete runs: the high and the low 32 bits of the hash
of `key` are both `key`. -/
def sampleHash (key _seed : Nat) : Nat := key * 4294967297

/-- The filter `CuckooFilter(10, 8)` of `cuckoo_filter_test.cc` (4 buckets of 4
bytes), with the uninitialised bytes and the eviction draws all 0. -/
def sampleFilter : CuckooFilter :=
  { bits_per_element_ := 8
    table_ :=
      { num_buckets_ := 4, tags_per_bucket_ := 4, bytes_per_bucket_ := 4, bits_per_tag_ := 8,
        tag_mask_ := 255, data_ := List.replicate 24 0, rand_gen_ := fun _ => 0, rand_pos_ := 0 }
    num_elements_ := 0
    last_victim_ := { index := 0, tag := 0, used := false }
    expected_num_elements_ := 10
    log_regulator_ := 0 }

/-- While `AddInternal` carries the tag `curtag` to bucket `curindex`: the tag
`tag` of a key with primary bucket `i` is in one of its two buckets, or is the
one being carried to one of them. -/
def covers (f : CuckooFilter) (curindex curtag i tag : Nat) : Prop :=
  f.table_.hasTag i tag = true ∨ f.table_.hasTag (f.AltIndex i tag) tag = true ∨
    (tag = curtag ∧ (i = curindex ∨ f.AltIndex i tag = curindex))

/-- The state after a sequence of `Insert` calls, with the list of their
results; `none` when a call is fatal. -/
def InsertAll (hash : Nat → Nat → Nat) :
    CuckooFilter → List Nat → Option (List Bool × CuckooFilter)
  | f, [] => some ([], f)
  | f, key :: keys =>
    match Insert hash f key with
    | none => none
    | some (ret, f1) =>
      match InsertAll hash f1 keys with
      | none => none
      | some (rets, f2) => some (ret :: rets, f2)

end CuckooFilter

namespace SingleTable

/-- A table of four tags per bucket with one of the six tag widths that
`ReadTag` and `WriteTag` handle: as `WF`, with the width 2 allowed too. -/
structure Packed (t : SingleTable) : Prop where
  buckets_pos : 0 < t.num_buckets_
  tags : t.tags_per_bucket_ = 4
  width : t.bits_per_tag_ = 2 ∨ t.bits_per_tag_ = 4 ∨ t.bits_per_tag_ = 8 ∨
    t.bits_per_tag_ = 12 ∨ t.bits_per_tag_ = 16 ∨ t.bits_per_tag_ = 32
  bucket_bytes : t.bytes_per_bucket_ = (t.bits_per_tag_ * 4 + 7) / 8
  mask : t.tag_mask_ = 2 ^ t.bits_per_tag_ - 1
  len : t.data_.length = t.num_buckets_ * t.bytes_per_bucket_ + 8
  bytes : ∀ x ∈ t.data_, x < 256

/-- A sample table of two buckets of 4-bit tags: bucket 0 holds the tags 1, 2,
3, 4 and bucket 1 the tags 5, 6, 7, 8; the 8 bytes after them are 0. -/
def sampleTable : SingleTable :=
  { num_buckets_ := 2, tags_per_bucket_ := 4, bytes_per_bucket_ := 2, bits_per_tag_ := 4,
    tag_mask_ := 15, data_ := [0x21, 0x43, 0x65, 0x87, 0, 0, 0, 0, 0, 0, 0, 0],
    rand_gen_ := fun _ => 0, rand_pos_ := 0 }

end SingleTable

/-! ## ExpandableBloomFilter (`expandable_bloom_filter.h`, `expandable_bloom_filter.cc`) -/

/-- The members of `struct BfInstance`; `bf_` is the filter the `unique_ptr` owns. -/
structure BfInstance where
  bf_ : BloomFilter
  cutoff_size_ : Int

/-- The data members of `class ExpandableBloomFilter`. -/
structure ExpandableBloomFilter where
  instances_ : List BfInstance
  num_inserts_ : Int

namespace ExpandableBloomFilter

/-- The constructor
`ExpandableBloomFilter(int64 initial_bit_size, int64 initial_cutoff_size)`.

`rounded bit_size expected_num_elements` is the value of the floating-point
expression `std::round(bit_size_ * 1. / expected_num_elements * std::log(2))`
in the constructor call `BloomFilter(bit_size, expected_num_elements)`.
Every `BloomFilter` seeds its generator with 1000, so all of them draw the
same outputs `rand_gen`. -/
def new (initial_bit_size : Nat) (initial_cutoff_size : Int) (rounded : Nat → Int → Nat)
    (rand_gen : Nat → Nat) : ExpandableBloomFilter :=
  { instances_ :=
      [{ bf_ := BloomFilter.new initial_bit_size initial_cutoff_size
                  (rounded initial_bit_size initial_cutoff_size) rand_gen
         cutoff_size_ := initial_cutoff_size }]
    num_inserts_ := 0 }

/-- The `for` loop of `ExpandableBloomFilter::Contains` over the instances that
are left, the last one first. -/
def Contains.loop (hash : Nat → Nat → Nat) (key : Nat) : List BfInstance → Bool
  | [] => false
  | it :: rest =>
    if BloomFilter.Contains hash it.bf_ key then true else Contains.loop hash key rest

/-- The method `bool ExpandableBloomFilter::Contains(uint64 key) const`: search the
list of bloom filters from last to first. -/
def Contains (hash : Nat → Nat → Nat) (s : ExpandableBloomFilter) (key : Nat) : Bool :=
  Contains.loop hash key s.instances_.reverse

/-- The `for` loop of `Insert` that adds up `capacity` and `bit_size` over the
instances that are left; the `int64` sums wrap around. -/
def Insert.sums : List BfInstance → Int → Int → Int × Int
  | [], capacity, bit_size => (capacity, bit_size)
  | b :: rest, capacity, bit_size =>
    Insert.sums rest (wrap_int64 (capacity + b.cutoff_size_))
      (wrap_int64 (bit_size + BloomFilter.BitSize b.bf_))

/-- The method `bool ExpandableBloomFilter::Insert(uint64 key)`: the returned flag and
the new state. The result is `none` when `CHECK_LE` or `CHECK(last->bf_->Insert(key))`
fails. It is `none` as well when the `int64` sums have wrapped around to a
`bit_size` below 0 or a `capacity` that is not positive, where the embedding
of `BloomFilter(bit_size, capacity)` ends: a negative `bit_size` has no buffer
to allocate, and with such a `capacity` the number of hash keys is not the
rounding of a positive number (the program then aborts at this `CHECK` or, at
the latest, at the `CHECK_LE` of the next call that inserts). -/
def Insert (hash : Nat → Nat → Nat) (rounded : Nat → Int → Nat) (rand_gen : Nat → Nat)
    (s : ExpandableBloomFilter) (key : Nat) : Option (Bool × ExpandableBloomFilter) :=
  if s.Contains hash key then some (false, s)
  else
    match s.instances_.getLast? with
    | none => none
    | some last =>
      if last.bf_.NumElements > last.cutoff_size_ then none
      else
        let grown : Option (List BfInstance) :=
          if last.bf_.NumElements = last.cutoff_size_ then
            let sums := Insert.sums s.instances_ 0 0
            let capacity := sums.1
            let bit_size := sums.2
            if bit_size < 0 ∨ capacity ≤ 0 then none
            else
              some (s.instances_ ++
                [{ bf_ := BloomFilter.new bit_size.toNat capacity
                            (rounded bit_size.toNat capacity) rand_gen
                   cutoff_size_ := capacity }])
          else some s.instances_
        match grown with
        | none => none
        | some instances =>
          match instances.getLast? with
          | none => none
          | some last =>
            let r := BloomFilter.Insert hash last.bf_ key
            if r.1 then
              some (true,
                { instances_ := instances.dropLast ++ [{ last with bf_ := r.2 }]
                  num_inserts_ := wrap_int64 (s.num_inserts_ + 1) })
            else none

/-- The method `void ExpandableBloomFilter::Clear()`; `none` for an empty vector, where
`resize(1)` makes an instance with a null `bf_`. -/
def Clear (s : ExpandableBloomFilter) : Option ExpandableBloomFilter :=
  match s.instances_ with
  | [] => none
  | front :: _ =>
    some { instances_ := [{ front with bf_ := BloomFilter.Clear front.bf_ }], num_inserts_ := 0 }

/-- The `for` loop of `BitSize` over the instances that are left. -/
def BitSize.loop : List BfInstance → Int → Int
  | [], sum => sum
  | b :: rest, sum => BitSize.loop rest (wrap_int64 (sum + BloomFilter.BitSize b.bf_))

/-- The method `int64 ExpandableBloomFilter::BitSize() const`. -/
def BitSize (s : ExpandableBloomFilter) : Int := BitSize.loop s.instances_ 0

/-- The accessor `int64 NumInserts() const`. -/
def NumInserts (s : ExpandableBloomFilter) : Int := s.num_inserts_

/-- The states a filter constructed by
`ExpandableBloomFilter(initial_bit_size, initial_cutoff_size)` can be in: the
constructed one, and what `Insert` and `Clear` make of a reachable one. -/
inductive Reachable (hash : Nat → Nat → Nat) (initial_bit_size : Nat)
    (initial_cutoff_size : Int) (rounded : Nat → Int → Nat) (rand_gen : Nat → Nat) :
    ExpandableBloomFilter → Prop
  | constructed :
      Reachable hash initial_bit_size initial_cutoff_size rounded rand_gen
        (new initial_bit_size initial_cutoff_size rounded rand_gen)
  | insert (s : ExpandableBloomFilter) (key : Nat) (ret : Bool) (s1 : ExpandableBloomFilter) :
      Reachable hash initial_bit_size initial_cutoff_size rounded rand_gen s →
      Insert hash rounded rand_gen s key = some (ret, s1) →
      Reachable hash initial_bit_size initial_cutoff_size rounded rand_gen s1
  | clear (s s1 : ExpandableBloomFilter) :
      Reachable hash initial_bit_size initial_cutoff_size rounded rand_gen s →
      Clear s = some s1 →
      Reachable hash initial_bit_size initial_cutoff_size rounded rand_gen s1

/-- The state after a sequence of `Insert` calls, with the list of their
results; `none` when a call is fatal. -/
def InsertAll (hash : Nat → Nat → Nat) (rounded : Nat → Int → Nat) (rand_gen : Nat → Nat) :
    ExpandableBloomFilter → List Nat → Option (List Bool × ExpandableBloomFilter)
  | s, [] => some ([], s)
  | s, key :: keys =>
    match Insert hash rounded rand_gen s key with
    | none => none
    | some (ret, s1) =>
      match InsertAll hash rounded rand_gen s1 keys with
      | none => none
      | some (rets, s2) => some (ret :: rets, s2)

/-- The sum of the cutoff sizes of all instances, over the integers. -/
def capacity (s : ExpandableBloomFilter) : Int :=
  (s.instances_.map (fun b => b.cutoff_size_)).sum

/-- The sum of the bit sizes of all instances, over the integers. -/
def bits (s : ExpandableBloomFilter) : Int :=
  (s.instances_.map (fun b => BloomFilter.BitSize b.bf_)).sum

/-- The representation invariant of a filter constructed with the bit size
`initial_bit_size`: there is an instance; every instance is a well-formed
`BloomFilter` with a cutoff size of at least 1 and a count that is not
negative; the last instance holds no more keys than its cutoff size; the
first instance has the bit size the constructor gave it. -/
structure WF (initial_bit_size : Nat) (s : ExpandableBloomFilter) : Prop where
  nonempty : s.instances_ ≠ []
  gens : ∀ b ∈ s.instances_, b.bf_.WF ∧ 1 ≤ b.cutoff_size_ ∧ b.cutoff_size_ < 2 ^ 63 ∧
    0 ≤ b.bf_.num_inserts_
  last : ∀ b, s.instances_.getLast? = some b → b.bf_.num_inserts_ ≤ b.cutoff_size_
  front : ∀ b, s.instances_.head? = some b →
    b.bf_.bit_size_ = ((initial_bit_size - 1) / 8 + 1) * 8

/-- The instances, newest first, of a filter constructed with `B` bits (a
multiple of 8) and the cutoff size `c` whose sums have not overflowed: the two
oldest instances have the cutoff size `c` and `B` bits, every later one has
the cutoff size and the bits of all instances before it together. -/
def Chain (B c : Nat) : List BfInstance → Prop
  | [] => False
  | [b] => b.cutoff_size_ = (c : Int) ∧ b.bf_.bit_size_ = B
  | b :: b1 :: rest =>
    b.cutoff_size_ = ((c * 2 ^ rest.length : Nat) : Int) ∧
      b.bf_.bit_size_ = B * 2 ^ rest.length ∧ Chain B c (b1 :: rest)

/-- The state of a filter constructed with `B` bits (a multiple of 8) and the
cutoff size `c` whose sums have not overflowed: the instances form a `Chain`,
all instances but the last are full, an instance added by an expansion holds
at least one key, and `num_inserts_` counts the keys of all instances. -/
structure Grown (B c : Nat) (s : ExpandableBloomFilter) : Prop where
  chain : Chain B c s.instances_.reverse
  count : ∀ b, s.instances_.getLast? = some b →
    0 ≤ b.bf_.num_inserts_ ∧ b.bf_.num_inserts_ ≤ b.cutoff_size_ ∧
    (s.instances_.length = 1 → s.num_inserts_ = b.bf_.num_inserts_) ∧
    (2 ≤ s.instances_.length → 1 ≤ b.bf_.num_inserts_ ∧
      s.num_inserts_ = ((c * 2 ^ (s.instances_.length - 2) : Nat) : Int) + b.bf_.num_inserts_)

/-- The filter `ExpandableBloomFilter(8, 1)` after `Insert(25)`, for one hash key 0
and the hash `key + seed`: bit 1 of its one byte is set, and its only
instance is full. -/
def sampleExpandable : ExpandableBloomFilter :=
  { instances_ :=
      [{ bf_ :=
           { byte_size_ := 1, bit_size_ := 8, data_ := [2], num_inserts_ := 1,
             expected_num_elements_ := 1, log_regulator_ := 0, hash_keys_ := [0] }
         cutoff_size_ := 1 }]
    num_inserts_ := 1 }

end ExpandableBloomFilter

/-! ## CountMinSketch (`count_min_sketch.h`) -/

/-- The data members of `class CountMinSketch<T>`, for a cell type `T` of `T`
bits (8, 16 or 32): `matrix_` lists the rows, each a list of cells. -/
structure CountMinSketch (T : Nat) where
  num_rows_ : Int
  num_cols_ : Int
  matrix_ : List (List Nat)
  /-- Overall sum across all increments and decrements. -/
  sum_counts_ : Int

namespace CountMinSketch

/-- The constructor `CountMinSketch(int64 mem_budget_bytes, double delta)` for a
`delta > 0`; `rows` is the value of `ceil(log(1. / delta))` as an `int64`.
The result is `none` when a `CHECK_GT` fails or `num_rows_` is 0, which the
initialiser of `num_cols_` divides by. `sizeof(T)` is `T / 8`. -/
def new (T : Nat) (mem_budget_bytes : Int) (rows : Int) : Option (CountMinSketch T) :=
  if mem_budget_bytes ≤ 0 ∨ rows ≤ 0 then none
  else
    let num_cols := mem_budget_bytes.toNat / (T / 8) / rows.toNat
    if num_cols = 0 then none
    else
      some
        { num_rows_ := rows
          num_cols_ := num_cols
          matrix_ := List.replicate rows.toNat (List.replicate num_cols 0)
          sum_counts_ := 0 }

/-- The `for` loop of `GetCount` from row `row` with `n` rows left. -/
def GetCount.loop {T : Nat} (hash : Nat → Nat → Nat) (s : CountMinSketch T) (key : Nat) :
    Nat → Nat → Nat → Nat
  | 0, _, min => min
  | n + 1, row, min =>
    let col := hash key (row + 1) % 2 ^ 64 % s.num_cols_.toNat
    GetCount.loop hash s key n (row + 1) (Nat.min min ((s.matrix_.getD row []).getD col 0))

/-- The method `T GetCount(uint64 key) const`: the current count for the key. -/
def GetCount {T : Nat} (hash : Nat → Nat → Nat) (s : CountMinSketch T) (key : Nat) : Nat :=
  GetCount.loop hash s key s.num_rows_.toNat 0 (2 ^ T - 1)

/-- The `for` loop of `AddCount` from row `row` with `n` rows left, threading
the matrix and `min`. The `int64` sum `matrix_[row][col] + inc` wraps around;
the stores into cells of type `T` keep the low `T` bits. -/
def AddCount.loop (T : Nat) (hash : Nat → Nat → Nat) (num_cols : Nat) (key : Nat) (inc : Int) :
    Nat → Nat → List (List Nat) → Nat → List (List Nat) × Nat
  | 0, _, matrix, min => (matrix, min)
  | n + 1, row, matrix, min =>
    let max : Int := 2 ^ T - 1
    let col := hash key (row + 1) % 2 ^ 64 % num_cols
    let value := wrap_int64 (((matrix.getD row []).getD col 0 : Nat) + inc)
    let value := if value < 0 then 0 else value
    let value := if value > max then max else value
    let matrix := matrix.set row ((matrix.getD row []).set col (value % 2 ^ T).toNat)
    let min := if value < min then (value % 2 ^ T).toNat else min
    AddCount.loop T hash num_cols key inc n (row + 1) matrix min

/-- The method `T AddCount(uint64 key, int64 inc)`: the returned count and the new
state. -/
def AddCount {T : Nat} (hash : Nat → Nat → Nat) (s : CountMinSketch T) (key : Nat) (inc : Int) :
    Nat × CountMinSketch T :=
  let r := AddCount.loop T hash s.num_cols_.toNat key inc s.num_rows_.toNat 0 s.matrix_
    (2 ^ T - 1)
  (r.2, { s with matrix_ := r.1, sum_counts_ := wrap_int64 (s.sum_counts_ + inc) })

/-- The representation invariant of a sketch: `T` is one of the three cell
types, the matrix has `num_rows_` rows of `num_cols_` cells of type `T`, and
there is at least one column. -/
structure WF {T : Nat} (s : CountMinSketch T) : Prop where
  width : T = 8 ∨ T = 16 ∨ T = 32
  rows_pos : 0 < s.num_rows_
  cols_pos : 0 < s.num_cols_
  rows : s.matrix_.length = s.num_rows_.toNat
  cols : ∀ r ∈ s.matrix_, r.length = s.num_cols_.toNat
  cells : ∀ r ∈ s.matrix_, ∀ x ∈ r, x < 2 ^ T

/-- The cell of row `row` at column `col`. -/
def cell {T : Nat} (s : CountMinSketch T) (row col : Nat) : Nat :=
  (s.matrix_.getD row []).getD col 0

/-- The value `AddCount` stores in a cell that holds `old`: the wrapped `int64`
sum, raised to 0 if negative and cut to the maximum of `T`. -/
def stored (T : Nat) (old : Nat) (inc : Int) : Nat :=
  let max : Int := 2 ^ T - 1
  let value := wrap_int64 ((old : Int) + inc)
  let value := if value < 0 then 0 else value
  let value := if value > max then max else value
  (value % 2 ^ T).toNat

/-- The column of `key` in row `row`: `Hash64NumWithSeed(key, row + 1) % num_cols_`. -/
def column {T : Nat} (hash : Nat → Nat → Nat) (s : CountMinSketch T) (key row : Nat) : Nat :=
  hash key (row + 1) % 2 ^ 64 % s.num_cols_.toNat

/-- A sample sketch of `uint8` cells with 2 rows and 3 columns. -/
def sampleSketch : CountMinSketch 8 :=
  { num_rows_ := 2, num_cols_ := 3, matrix_ := [[1, 250, 3], [7, 0, 255]], sum_counts_ := 0 }

/-- The constructor `CountMinSketch(int64 mem_budget_bytes, double delta)` for any
`delta`: `delta_gt_0` is the value of the comparison `delta > 0` in
`CHECK_GT(delta, 0)` and `rows` the value of `ceil(log(1. / delta))` as an
`int64`. The initialiser of `num_cols_` divides in `uint64`, because
`sizeof(T)` is a `size_t`; it is fatal for `num_rows_ = 0`. Then come the four
`CHECK_GT`. `sizeof(T)` is `T / 8`. -/
def construct (T : Nat) (mem_budget_bytes : Int) (delta_gt_0 : Bool) (rows : Int) :
    Option (CountMinSketch T) :=
  if rows = 0 then none
  else
    let num_cols : Int :=
      wrap_int64 (((mem_budget_bytes % 2 ^ 64).toNat / (T / 8) / (rows % 2 ^ 64).toNat : Nat) : Int)
    if ¬ mem_budget_bytes > 0 then none
    else if ¬ delta_gt_0 = true then none
    else if ¬ rows > 0 then none
    else if ¬ num_cols > 0 then none
    else
      some
        { num_rows_ := rows
          num_cols_ := num_cols
          matrix_ := List.replicate rows.toNat (List.replicate num_cols.toNat 0)
          sum_counts_ := 0 }

/-- The `for` loop of `Clear` from row `row` with `n` rows left:
`memset(matrix_[row], 0, sizeof(T) * num_cols_)` zeroes the first `num_cols_`
cells of the row. -/
def Clear.loop (num_cols : Nat) : Nat → Nat → List (List Nat) → List (List Nat)
  | 0, _, matrix => matrix
  | n + 1, row, matrix =>
    Clear.loop num_cols n (row + 1)
      (matrix.set row (List.replicate num_cols 0 ++ (matrix.getD row []).drop num_cols))

/-- The method `void Clear()`. -/
def Clear {T : Nat} (s : CountMinSketch T) : CountMinSketch T :=
  { s with matrix_ := Clear.loop s.num_cols_.toNat s.num_rows_.toNat 0 s.matrix_,
           sum_counts_ := 0 }

/-- The method `T Increment(uint64 key) { return AddCount(key, 1); }`. -/
def Increment {T : Nat} (hash : Nat → Nat → Nat) (s : CountMinSketch T) (key : Nat) :
    Nat × CountMinSketch T :=
  AddCount hash s key 1

/-- The method `T Decrement(uint64 key) { return AddCount(key, -1); }`. -/
def Decrement {T : Nat} (hash : Nat → Nat → Nat) (s : CountMinSketch T) (key : Nat) :
    Nat × CountMinSketch T :=
  AddCount hash s key (-1)

/-- The method `int64 SumCounts() const`. -/
def SumCounts {T : Nat} (s : CountMinSketch T) : Int := s.sum_counts_

/-- The states a sketch constructed by `CountMinSketch<T>(mem_budget_bytes, delta)`
can be in, for a `delta > 0` with `rows = ceil(log(1. / delta))`: the
constructed one, and what `AddCount` and `Clear` make of a reachable one. -/
inductive Reachable (hash : Nat → Nat → Nat) (T : Nat) (mem_budget_bytes rows : Int) :
    CountMinSketch T → Prop
  | constructed (s : CountMinSketch T) :
      new T mem_budget_bytes rows = some s → Reachable hash T mem_budget_bytes rows s
  | addCount (s : CountMinSketch T) (key : Nat) (inc : Int) :
      Reachable hash T mem_budget_bytes rows s →
      Reachable hash T mem_budget_bytes rows (AddCount hash s key inc).2
  | clear (s : CountMinSketch T) :
      Reachable hash T mem_budget_bytes rows s →
      Reachable hash T mem_budget_bytes rows (Clear s)

/-- A sketch right after its construction or right after a call of `Clear()`. -/
inductive Fresh (hash : Nat → Nat → Nat) (T : Nat) (mem_budget_bytes rows : Int) :
    CountMinSketch T → Prop
  | constructed (s : CountMinSketch T) :
      new T mem_budget_bytes rows = some s → Fresh hash T mem_budget_bytes rows s
  | cleared (s : CountMinSketch T) :
      Reachable hash T mem_budget_bytes rows s → Fresh hash T mem_budget_bytes rows (Clear s)

/-- A call that changes the counts: `AddCount(key, inc)`, `Increment(key)` or
`Decrement(key)`. -/
inductive Call where
  | addCount (key : Nat) (inc : Int)
  | increment (key : Nat)
  | decrement (key : Nat)

/-- The delta a call passes: `Increment` is +1, `Decrement` is -1. -/
def Call.delta : Call → Int
  | .addCount _ inc => inc
  | .increment _ => 1
  | .decrement _ => -1

/-- The state after a call. -/
def Call.run {T : Nat} (hash : Nat → Nat → Nat) (s : CountMinSketch T) : Call → CountMinSketch T
  | .addCount key inc => (AddCount hash s key inc).2
  | .increment key => (Increment hash s key).2
  | .decrement key => (Decrement hash s key).2

/-- The state after a sequence of calls. -/
def runAll {T : Nat} (hash : Nat → Nat → Nat) : CountMinSketch T → List Call → CountMinSketch T
  | s, [] => s
  | s, c :: rest => runAll hash (c.run hash s) rest

end CountMinSketch

/-! ## LruMap (`lru_map.h`) -/

namespace LruMap

/-- A node of `list_` (a `std::list<std::pair<KeyType, ValueType>>`): `id` is
the identity of the node, which is what a `ListType::iterator` holds and what
`splice` keeps; `first` and `second` are the members of the pair. -/
structure Node (K V : Type) where
  id : Nat
  first : K
  second : V

end LruMap

/-- The data members of `class LruMap<KeyType, ValueType>`: `list_` from its
front (the newest entry) to its back, `map_` as the pairs of a key and the
list iterator mapped to it, in no particular order, and `capacity_`. -/
structure LruMap (K V : Type) where
  list_ : List (LruMap.Node K V)
  map_ : List (K × Nat)
  capacity_ : Int

namespace LruMap

/-- The call `map_.find(key)`: the iterator mapped to `key`, `none` for
`map_.end()`. -/
def MapType.find {K : Type} [DecidableEq K] (m : List (K × Nat)) (key : K) : Option Nat :=
  (m.find? (fun p => decide (p.1 = key))).map Prod.snd

/-- The call `map_.erase(key)`, also `map_.erase(map_it)` for the entry of `key`. -/
def MapType.erase {K : Type} [DecidableEq K] (m : List (K × Nat)) (key : K) : List (K × Nat) :=
  m.filter (fun p => decide (p.1 ≠ key))

/-- The assignments `map_[key] = it` and `map_it->second = it` for the entry of
`key`. -/
def MapType.assign {K : Type} [DecidableEq K] (m : List (K × Nat)) (key : K) (it : Nat) :
    List (K × Nat) :=
  (key, it) :: MapType.erase m key

/-- The iterator `list_.begin()`, `none` when it is `list_.end()`. -/
def ListType.begin {K V : Type} (l : List (Node K V)) : Option Nat :=
  l.head?.map Node.id

/-- The node an iterator points to, `none` for an iterator to no node of the list. -/
def ListType.deref {K V : Type} (l : List (Node K V)) (it : Nat) : Option (Node K V) :=
  l.find? (fun n => decide (n.id = it))

/-- The call `list_.erase(list_it)`. -/
def ListType.erase {K V : Type} (l : List (Node K V)) (it : Nat) : List (Node K V) :=
  l.filter (fun n => decide (n.id ≠ it))

/-- The call `list_.splice(list_.begin(), list_, list_it)`: the node moves to
the front and keeps its identity. -/
def ListType.splice_begin {K V : Type} (l : List (Node K V)) (it : Nat) : List (Node K V) :=
  match ListType.deref l it with
  | some n => n :: ListType.erase l it
  | none => l

/-- The assignment `list_it->second = value`. -/
def ListType.set_second {K V : Type} (l : List (Node K V)) (it : Nat) (value : V) :
    List (Node K V) :=
  l.map (fun n => if n.id = it then { n with second := value } else n)

/-- The identity of the node `push_front` allocates: it differs from that of
every node in the list. -/
def ListType.fresh {K V : Type} (l : List (Node K V)) : Nat :=
  (l.map Node.id).foldr max 0 + 1

/-- The constructor `LruMap(int64 capacity)`. -/
def new (K V : Type) (capacity : Int) : LruMap K V :=
  { list_ := [], map_ := [], capacity_ := capacity }

/-- The constructor `LruMap()`, with `std::numeric_limits<int64>::max()`. -/
def new_default (K V : Type) : LruMap K V :=
  { list_ := [], map_ := [], capacity_ := 2 ^ 63 - 1 }

/-- The method `void SetCapacity(int64 capacity)`. -/
def SetCapacity {K V : Type} (s : LruMap K V) (capacity : Int) : LruMap K V :=
  { s with capacity_ := capacity }

/-- The value of `capacity_` in a comparison with `map_.size()`, a `size_t`:
converted to `uint64`. -/
def capacity_u64 {K V : Type} (s : LruMap K V) : Nat :=
  (s.capacity_ % 2 ^ 64).toNat

/-- The method `bool Empty() const`. -/
def Empty {K V : Type} (s : LruMap K V) : Bool := s.map_.isEmpty

/-- The method `size_t Size() const`. -/
def Size {K V : Type} (s : LruMap K V) : Nat := s.map_.length

/-- The method `bool Contains(const KeyType& key) const`. -/
def Contains {K V : Type} [DecidableEq K] (s : LruMap K V) (key : K) : Bool :=
  (MapType.find s.map_ key).isSome

/-- The method `void Clear()`. -/
def Clear {K V : Type} (s : LruMap K V) : LruMap K V :=
  { s with list_ := [], map_ := [] }

/-- The method `bool OldestKey(KeyType* key) const`: the key written to `*key`,
`none` when it returns false. -/
def OldestKey {K V : Type} (s : LruMap K V) : Option K :=
  match s.list_.getLast? with
  | none => none
  | some back => some back.first

/-- The method `bool OldestValue(ValueType* value) const`: the value written to
`*value`, `none` when it returns false. -/
def OldestValue {K V : Type} (s : LruMap K V) : Option V :=
  match s.list_.getLast? with
  | none => none
  | some back => some back.second

/-- The method `bool EvictOldest(ValueType* value)`: the returned flag, the value
written to `*value` for a non-null `value`, and the new state; `none` when
`CHECK_EQ(ret, 1)` fails. -/
def EvictOldest {K V : Type} [DecidableEq K] (s : LruMap K V) :
    Option (Bool × Option V × LruMap K V) :=
  match s.list_.getLast? with
  | none => some (false, none, s)
  | some back =>
    let key := back.first
    let list := s.list_.dropLast
    let map := MapType.erase s.map_ key
    let ret := s.map_.length - map.length
    if ret = 1 then some (true, some back.second, { s with list_ := list, map_ := map })
    else none

/-- The statement
`if (list_it != list_.begin()) { list_.splice(list_.begin(), list_, list_it); map_it->second = list_.begin(); }`
of `Put` and `GetWithTouch`, where `map_it` is the entry of `key`: after the
splice `list_.begin()` is the node of `list_it`. -/
def move_to_begin {K V : Type} [DecidableEq K] (s : LruMap K V) (key : K) (list_it : Nat) :
    LruMap K V :=
  if some list_it ≠ ListType.begin s.list_ then
    { s with list_ := ListType.splice_begin s.list_ list_it,
             map_ := MapType.assign s.map_ key list_it }
  else s

/-- The statements
`list_.push_front(std::pair<KeyType, ValueType>(key, value)); map_[key] = list_.begin();`
of `Put`. -/
def push_front {K V : Type} [DecidableEq K] (s : LruMap K V) (key : K) (value : V) :
    LruMap K V :=
  let n : Node K V := { id := ListType.fresh s.list_, first := key, second := value }
  { s with list_ := n :: s.list_, map_ := MapType.assign s.map_ key n.id }

/-- The method `bool Put(key, value, evicted_value)`: the returned flag, the
value written to `*evicted_value` for a non-null `evicted_value`, and the new
state; `none` when a `CHECK` fails or an iterator of `map_` points to no node. -/
def Put {K V : Type} [DecidableEq K] (s : LruMap K V) (key : K) (value : V) :
    Option (Bool × Option V × LruMap K V) :=
  match MapType.find s.map_ key with
  | none =>
    if ¬ s.map_.length ≤ s.capacity_u64 then none
    else
      match (if s.map_.length = s.capacity_u64 then EvictOldest s else some (true, none, s)) with
      | some (true, evicted_value, s1) =>
        let s2 := push_front s1 key value
        if ¬ s2.map_.length ≤ s2.capacity_u64 then none else some (false, evicted_value, s2)
      | _ => none
  | some list_it =>
    match ListType.deref s.list_ list_it with
    | none => none
    | some n =>
      if ¬ n.first = key then none
      else
        let s1 : LruMap K V := { s with list_ := ListType.set_second s.list_ list_it value }
        let s2 := move_to_begin s1 key list_it
        if ¬ s2.map_.length ≤ s2.capacity_u64 then none else some (true, none, s2)

/-- The method `bool GetWithoutTouch(key, value) const`: the returned flag and
the value written to `*value`; `none` when the `CHECK` fails or the iterator
points to no node. -/
def GetWithoutTouch {K V : Type} [DecidableEq K] (s : LruMap K V) (key : K) :
    Option (Bool × Option V) :=
  match MapType.find s.map_ key with
  | none => some (false, none)
  | some list_it =>
    match ListType.deref s.list_ list_it with
    | none => none
    | some n => if ¬ n.first = key then none else some (true, some n.second)

/-- The method `bool GetWithTouch(key, value)`: the returned flag, the value
written to `*value` for a non-null `value`, and the new state. -/
def GetWithTouch {K V : Type} [DecidableEq K] (s : LruMap K V) (key : K) :
    Option (Bool × Option V × LruMap K V) :=
  match MapType.find s.map_ key with
  | none => some (false, none, s)
  | some list_it =>
    match ListType.deref s.list_ list_it with
    | none => none
    | some n =>
      if ¬ n.first = key then none
      else some (true, some n.second, move_to_begin s key list_it)

/-- The method `bool Touch(key) { return GetWithTouch(key, nullptr); }`. -/
def Touch {K V : Type} [DecidableEq K] (s : LruMap K V) (key : K) :
    Option (Bool × LruMap K V) :=
  (GetWithTouch s key).map (fun r => (r.1, r.2.2))

/-- The method `bool Erase(key, value)`: the returned flag, the value written
to `*value` for a non-null `value`, and the new state. -/
def Erase {K V : Type} [DecidableEq K] (s : LruMap K V) (key : K) :
    Option (Bool × Option V × LruMap K V) :=
  match MapType.find s.map_ key with
  | none => some (false, none, s)
  | some list_it =>
    match ListType.deref s.list_ list_it with
    | none => none
    | some n =>
      if ¬ n.first = key then none
      else
        some (true, some n.second,
          { s with list_ := ListType.erase s.list_ list_it, map_ := MapType.erase s.map_ key })

/-- The method `RawList() const`: a vector of `map_.size()` value-initialised
pairs `init`, filled from its end by the entries of `list_` from the front;
`none` when `list_` has more entries than the vector. -/
def RawList {K V : Type} (init : K × V) (s : LruMap K V) : Option (List (K × V)) :=
  if s.list_.length ≤ s.map_.length then
    some (List.replicate (s.map_.length - s.list_.length) init ++
      (s.list_.map (fun n => (n.first, n.second))).reverse)
  else none

/-- The entries of `list_` from the back (the oldest) to the front. -/
def entries {K V : Type} (s : LruMap K V) : List (K × V) :=
  (s.list_.map (fun n => (n.first, n.second))).reverse

/-- A call of a method of `LruMap`. -/
inductive Op (K V : Type) where
  | Put (key : K) (value : V)
  | GetWithTouch (key : K)
  | GetWithoutTouch (key : K)
  | Touch (key : K)
  | Erase (key : K)
  | EvictOldest
  | Clear

/-- The state after a call, `none` when the call is fatal. -/
def Op.run {K V : Type} [DecidableEq K] (s : LruMap K V) : Op K V → Option (LruMap K V)
  | .Put key value => (LruMap.Put s key value).map (fun r => r.2.2)
  | .GetWithTouch key => (LruMap.GetWithTouch s key).map (fun r => r.2.2)
  | .GetWithoutTouch key => (LruMap.GetWithoutTouch s key).map (fun _ => s)
  | .Touch key => (LruMap.Touch s key).map (fun r => r.2)
  | .Erase key => (LruMap.Erase s key).map (fun r => r.2.2)
  | .EvictOldest => (LruMap.EvictOldest s).map (fun r => r.2.2)
  | .Clear => some (LruMap.Clear s)

/-- The state after a sequence of calls, `none` when one of them is fatal. -/
def runOps {K V : Type} [DecidableEq K] : LruMap K V → List (Op K V) → Option (LruMap K V)
  | s, [] => some s
  | s, op :: rest =>
    match op.run s with
    | none => none
    | some s1 => runOps s1 rest

/-- The states of an `LruMap` constructed with `capacity`: the constructed one,
and what a call that is not fatal makes of a reachable one. -/
inductive Reachable {K V : Type} [DecidableEq K] (capacity : Int) : LruMap K V → Prop
  | constructed : Reachable capacity (new K V capacity)
  | step (s : LruMap K V) (op : Op K V) (s1 : LruMap K V) :
      Reachable capacity s → op.run s = some s1 → Reachable capacity s1

/-- The representation invariant of an `LruMap`: the nodes of `list_` have
distinct keys and distinct identities, and `map_` holds exactly one entry for
each node, made of its key and an iterator to it. -/
structure WF {K V : Type} (s : LruMap K V) : Prop where
  keys : (s.list_.map Node.first).Nodup
  ids : (s.list_.map Node.id).Nodup
  perm : s.map_.Perm (s.list_.map (fun n => (n.first, n.id)))

/-! ### The recency list of the specification

The map as a list of (key, value) pairs with distinct keys, ordered oldest
first. -/

/-- Spec side: the entry of `key` becomes the newest one, with `value`; the
relative order of the others is kept. -/
def RecencyList.move_to_newest {K V : Type} [DecidableEq K] (l : List (K × V)) (key : K)
    (value : V) : List (K × V) :=
  l.filter (fun p => decide (p.1 ≠ key)) ++ [(key, value)]

/-- Spec side: the value of `key`, if present. -/
def RecencyList.lookup {K V : Type} [DecidableEq K] (l : List (K × V)) (key : K) : Option V :=
  (l.find? (fun p => decide (p.1 = key))).map Prod.snd

/-- Spec side, `Put`: an existing key moves to the newest position (returns
true); a new key is appended as newest, after the oldest entry is removed
when the size is the capacity (returns false). -/
def RecencyList.Put {K V : Type} [DecidableEq K] (capacity : Nat) (l : List (K × V)) (key : K)
    (value : V) : Bool × List (K × V) :=
  match RecencyList.lookup l key with
  | some _ => (true, RecencyList.move_to_newest l key value)
  | none => (false, (if l.length = capacity then l.tail else l) ++ [(key, value)])

/-- Spec side, `GetWithTouch` and `Touch`: an existing key moves to the newest
position, a missing key changes nothing. -/
def RecencyList.Touch {K V : Type} [DecidableEq K] (l : List (K × V)) (key : K) :
    Bool × List (K × V) :=
  match RecencyList.lookup l key with
  | some value => (true, RecencyList.move_to_newest l key value)
  | none => (false, l)

/-- Spec side, `Erase`: removes only that key. -/
def RecencyList.Erase {K V : Type} [DecidableEq K] (l : List (K × V)) (key : K) :
    Bool × List (K × V) :=
  ((RecencyList.lookup l key).isSome, l.filter (fun p => decide (p.1 ≠ key)))

/-- Spec side, `EvictOldest`: removes the first entry of the list. -/
def RecencyList.EvictOldest {K V : Type} (l : List (K × V)) : Bool × List (K × V) :=
  (!l.isEmpty, l.tail)

/-- A sample map of capacity 3 after `Put(1, 10)`, `Put(3, 30)` and `Put(6, 60)`. -/
def sampleLru : LruMap Nat Nat :=
  { list_ := [{ id := 3, first := 6, second := 60 }, { id := 2, first := 3, second := 30 },
      { id := 1, first := 1, second := 10 }]
    map_ := [(6, 3), (3, 2), (1, 1)]
    capacity_ := 3 }

end LruMap

/-! ## RingBuffer (`ring_buffer.h`) and the reference queue of `ring_buffer_test.cc` -/

/-- Wrap-around of an integer into the `int` range, as two-complement
arithmetic does. -/
def wrap_int32 (x : Int) : Int := (x + 2 ^ 31) % 2 ^ 32 - 2 ^ 31

/-- The data members of `class RingBuffer<T>`; the `int` members are integers. -/
structure RingBuffer (T : Type) where
  capacity_ : Int
  front_ : Int
  count_ : Int
  data_ : List T

/-- The data members of `class DequeBasedRingBuffer<T>` of `ring_buffer_test.cc`. -/
structure DequeBasedRingBuffer (T : Type) where
  capacity_ : Int
  queue_ : List T

/-- A call of `TryPut(element)` or of `TryGet(&element)`. -/
inductive QueueOp (T : Type) where
  | TryPut (element : T)
  | TryGet

/-- What the test compares after a call: the result of the call, the element
`TryGet` has written, and `Count()`, `Empty()` and `Full()` afterwards. -/
structure Observation (T : Type) where
  ret : Bool
  element : Option T
  count : Int
  empty : Bool
  full : Bool

namespace RingBuffer

/-- The constructor `RingBuffer(int capacity)`; `init` is a value-initialised `T`.
The result is `none` when `CHECK_GT(capacity_, 0)` fails, or before that when
`data_(capacity)` throws for a negative `capacity`. -/
def new {T : Type} (init : T) (capacity : Int) : Option (RingBuffer T) :=
  if ¬ capacity > 0 then none
  else
    some { capacity_ := capacity, front_ := 0, count_ := 0,
           data_ := List.replicate capacity.toNat init }

/-- The method `bool TryPut(T&& element)`: the returned flag and the new state.
The `int` sum `front_ + count_` wraps around and `%` truncates; the result is
`none` when `CHECK_LE` fails or `end` is not an index of `data_`. -/
def TryPut {T : Type} (s : RingBuffer T) (element : T) : Option (Bool × RingBuffer T) :=
  if ¬ s.count_ ≤ s.capacity_ then none
  else if s.count_ = s.capacity_ then some (false, s)
  else
    let end_ := Int.tmod (wrap_int32 (s.front_ + s.count_)) s.capacity_
    if 0 ≤ end_ ∧ end_ < s.data_.length then
      some (true,
        { s with data_ := s.data_.set end_.toNat element, count_ := wrap_int32 (s.count_ + 1) })
    else none

/-- The method `bool TryGet(T* element)`: the returned flag, the element written
to `*element`, and the new state; `none` when `CHECK_GE` fails or `front_` is
not an index of `data_`. The slot read keeps its value. -/
def TryGet {T : Type} (s : RingBuffer T) : Option (Bool × Option T × RingBuffer T) :=
  if ¬ s.count_ ≥ 0 then none
  else if s.count_ = 0 then some (false, none, s)
  else
    match (if 0 ≤ s.front_ then s.data_[s.front_.toNat]? else none) with
    | none => none
    | some x =>
      some (true, some x,
        { s with front_ := Int.tmod (wrap_int32 (s.front_ + 1)) s.capacity_,
                 count_ := wrap_int32 (s.count_ - 1) })

/-- The method `int Count() const`. -/
def Count {T : Type} (s : RingBuffer T) : Int := s.count_

/-- The method `int Capacity() const`. -/
def Capacity {T : Type} (s : RingBuffer T) : Int := s.capacity_

/-- The method `bool Empty() const`. -/
def Empty {T : Type} (s : RingBuffer T) : Bool := decide (s.count_ = 0)

/-- The method `bool Full() const`. -/
def Full {T : Type} (s : RingBuffer T) : Bool := decide (s.count_ = s.capacity_)

/-- A call with what is observed after it; `none` when the call is fatal. -/
def step {T : Type} (s : RingBuffer T) : QueueOp T → Option (Observation T × RingBuffer T)
  | .TryPut element =>
    match s.TryPut element with
    | none => none
    | some (ret, s1) =>
      some ({ ret := ret, element := none, count := s1.Count, empty := s1.Empty,
              full := s1.Full }, s1)
  | .TryGet =>
    match s.TryGet with
    | none => none
    | some (ret, element, s1) =>
      some ({ ret := ret, element := element, count := s1.Count, empty := s1.Empty,
              full := s1.Full }, s1)

/-- A sequence of calls: the observations and the final state; `none` when a
call is fatal. -/
def run {T : Type} : RingBuffer T → List (QueueOp T) → Option (List (Observation T) × RingBuffer T)
  | s, [] => some ([], s)
  | s, op :: ops =>
    match s.step op with
    | none => none
    | some (o, s1) =>
      match run s1 ops with
      | none => none
      | some (os, s2) => some (o :: os, s2)

/-- The representation invariant of a ring buffer of the capacity `capacity`:
`front_` is an index of `data_`, which has `capacity` slots, and `count_` is
between 0 and the capacity. -/
structure WF {T : Type} (capacity : Nat) (s : RingBuffer T) : Prop where
  cap : s.capacity_ = capacity
  pos : 0 < capacity
  front : 0 ≤ s.front_ ∧ s.front_ < capacity
  count : 0 ≤ s.count_ ∧ s.count_ ≤ capacity
  len : s.data_.length = capacity

end RingBuffer

namespace DequeBasedRingBuffer

/-- The constructor `DequeBasedRingBuffer(int capacity)`. -/
def new {T : Type} (capacity : Int) : DequeBasedRingBuffer T :=
  { capacity_ := capacity, queue_ := [] }

/-- The method `bool TryPut(T&& element)` of the reference; the comparison
`queue_.size() >= capacity_` converts `capacity_` to `size_t`. -/
def TryPut {T : Type} (q : DequeBasedRingBuffer T) (element : T) :
    Bool × DequeBasedRingBuffer T :=
  if q.queue_.length ≥ (q.capacity_ % 2 ^ 64).toNat then (false, q)
  else (true, { q with queue_ := q.queue_ ++ [element] })

/-- The method `bool TryGet(T* element)` of the reference. -/
def TryGet {T : Type} (q : DequeBasedRingBuffer T) :
    Bool × Option T × DequeBasedRingBuffer T :=
  match q.queue_ with
  | [] => (false, none, q)
  | x :: rest => (true, some x, { q with queue_ := rest })

/-- The method `int Count() const` of the reference: `queue_.size()` as an `int`. -/
def Count {T : Type} (q : DequeBasedRingBuffer T) : Int := wrap_int32 q.queue_.length

/-- The method `bool Empty() const` of the reference. -/
def Empty {T : Type} (q : DequeBasedRingBuffer T) : Bool := q.queue_.isEmpty

/-- The method `bool Full() const` of the reference. -/
def Full {T : Type} (q : DequeBasedRingBuffer T) : Bool :=
  decide (q.queue_.length ≥ (q.capacity_ % 2 ^ 64).toNat)

/-- A call on the reference with what is observed after it. -/
def step {T : Type} (q : DequeBasedRingBuffer T) :
    QueueOp T → Observation T × DequeBasedRingBuffer T
  | .TryPut element =>
    let r := q.TryPut element
    ({ ret := r.1, element := none, count := r.2.Count, empty := r.2.Empty, full := r.2.Full },
      r.2)
  | .TryGet =>
    let r := q.TryGet
    ({ ret := r.1, element := r.2.1, count := r.2.2.Count, empty := r.2.2.Empty,
       full := r.2.2.Full }, r.2.2)

/-- A sequence of calls on the reference: the observations and the final state. -/
def run {T : Type} :
    DequeBasedRingBuffer T → List (QueueOp T) → List (Observation T) × DequeBasedRingBuffer T
  | q, [] => ([], q)
  | q, op :: ops =>
    let r := q.step op
    let rest := run r.2 ops
    (r.1 :: rest.1, rest.2)

end DequeBasedRingBuffer

namespace RingBuffer

/-- The ring buffer `s` holds the queue `q`: the `count_` elements from `front_`
on, around the end of `data_`, are the elements of `queue_` in their order. -/
structure Holds {T : Type} (s : RingBuffer T) (q : DequeBasedRingBuffer T) : Prop where
  cap : q.capacity_ = s.capacity_
  len : (q.queue_.length : Int) = s.count_
  elems : ∀ k : Nat, k < q.queue_.length →
    q.queue_[k]? = s.data_[(s.front_.toNat + k) % s.capacity_.toNat]?

end RingBuffer

namespace BloomFilter

/-- Whether a call of `Insert` on the state `s` logs the warning: the condition
`num_inserts_ > expected_num_elements_ && IsPowerOf2(++log_regulator_)`,
evaluated after `++num_inserts_`. -/
def Insert.warns (s : BloomFilter) : Bool :=
  let num := wrap_int64 (s.num_inserts_ + 1)
  decide (num > s.expected_num_elements_) && IsPowerOf2 (wrap_int64 (s.log_regulator_ + 1))

/-- The states of a filter constructed by `BloomFilter(bit_size, expected_num_elements)`,
each with the number of `Insert` calls since the construction after which
`NumElements()` exceeded `expected_num_elements`. -/
inductive Overused (hash : Nat → Nat → Nat) (bit_size : Nat) (expected_num_elements : Int)
    (rounded : Nat) (rand_gen : Nat → Nat) : BloomFilter → Nat → Prop
  | constructed : Overused hash bit_size expected_num_elements rounded rand_gen
      (new bit_size expected_num_elements rounded rand_gen) 0
  | insert (s : BloomFilter) (n : Nat) (key : Nat) :
      Overused hash bit_size expected_num_elements rounded rand_gen s n →
      Overused hash bit_size expected_num_elements rounded rand_gen (Insert hash s key).2
        (if (Insert hash s key).2.NumElements > expected_num_elements then n + 1 else n)
  | clear (s : BloomFilter) (n : Nat) :
      Overused hash bit_size expected_num_elements rounded rand_gen s n →
      Overused hash bit_size expected_num_elements rounded rand_gen (Clear s) n

end BloomFilter

namespace ExpandableBloomFilter

/-- The sum of `NumElements()` over all instances, over the integers. -/
def elements (s : ExpandableBloomFilter) : Int :=
  (s.instances_.map (fun b => b.bf_.NumElements)).sum

/-- The states of a filter constructed by
`ExpandableBloomFilter(initial_bit_size, initial_cutoff_size)`, each with the
number of `Insert` calls that returned true since the construction or the last
`Clear()`. -/
inductive Counted (hash : Nat → Nat → Nat) (initial_bit_size : Nat)
    (initial_cutoff_size : Int) (rounded : Nat → Int → Nat) (rand_gen : Nat → Nat) :
    ExpandableBloomFilter → Nat → Prop
  | constructed :
      Counted hash initial_bit_size initial_cutoff_size rounded rand_gen
        (new initial_bit_size initial_cutoff_size rounded rand_gen) 0
  | insert (s : ExpandableBloomFilter) (n : Nat) (key : Nat) (ret : Bool)
      (s1 : ExpandableBloomFilter) :
      Counted hash initial_bit_size initial_cutoff_size rounded rand_gen s n →
      Insert hash rounded rand_gen s key = some (ret, s1) →
      Counted hash initial_bit_size initial_cutoff_size rounded rand_gen s1
        (if ret = true then n + 1 else n)
  | clear (s : ExpandableBloomFilter) (n : Nat) (s1 : ExpandableBloomFilter) :
      Counted hash initial_bit_size initial_cutoff_size rounded rand_gen s n →
      Clear s = some s1 →
      Counted hash initial_bit_size initial_cutoff_size rounded rand_gen s1 0

end ExpandableBloomFilter

namespace CountMinSketch

/-- The key a call passes. -/
def Call.key : Call → Nat
  | .addCount key _ => key
  | .increment key => key
  | .decrement key => key

/-- The sum of the deltas that the calls of a sequence pass for the key `k`. -/
def keyMass (calls : List Call) (k : Nat) : Int :=
  ((calls.filter (fun c => decide (c.key = k))).map Call.delta).sum

/-- The invariant of a sketch under non-negative updates: no cell exceeds the
mass `tot` added so far, and every cell of the key `k` holds at least the mass
`m` added for `k`, cut to the maximum of `T`. -/
structure Lower {T : Nat} (hash : Nat → Nat → Nat) (s : CountMinSketch T) (k : Nat)
    (tot m : Int) : Prop where
  wf : WF s
  tot_nonneg : 0 ≤ tot
  below : ∀ r c, (s.cell r c : Int) ≤ tot
  above : ∀ r, r < s.num_rows_.toNat →
    min (2 ^ T - 1) m ≤ (s.cell r (s.column hash k r) : Int)

end CountMinSketch

namespace SingleTable

/-- The number of slots `(i, j)` of the table, `i < num_buckets_` and
`j < tags_per_bucket_`, whose bucket index and tag satisfy `p`. -/
def countSlots (t : SingleTable) (p : Nat → Nat → Bool) : Nat :=
  ((List.range t.num_buckets_).map (fun i =>
    ((List.range t.tags_per_bucket_).map (fun j =>
      if p i (t.slot i j) = true then 1 else 0)).sum)).sum

/-- The number of non-zero slots of the table: the size of
`{(i, j) : ReadTag(i, j) != 0}`. -/
def numOccupied (t : SingleTable) : Nat :=
  t.countSlots (fun _ x => decide (x ≠ 0))

end SingleTable

namespace CuckooFilter

/-- A copy of the tag `t` kept for bucket `b` is one that `Contains` and
`Delete` find for a key with primary bucket `i` and tag `tag`: the tags are
equal, and `b` is `i` or the alternate bucket of `i`. -/
def sameClass (f : CuckooFilter) (i tag b t : Nat) : Bool :=
  decide (t = tag ∧ (b = i ∨ b = f.AltIndex i tag))

/-- The number of slots and victims that satisfy `p`: the slots of the table
counted by `countSlots`, plus 1 for a pending victim whose index and tag
satisfy `p`. -/
def weight (f : CuckooFilter) (p : Nat → Nat → Bool) : Nat :=
  f.table_.countSlots p +
    (if (f.last_victim_.used && p f.last_victim_.index f.last_victim_.tag) = true then 1 else 0)

/-- The number of copies the filter keeps for a key with primary bucket `i`
and tag `tag`: the slots of its two buckets that hold `tag`, and the pending
victim if it is `tag` for one of the two buckets. -/
def copies (f : CuckooFilter) (i tag : Nat) : Nat :=
  f.weight (f.sameClass i tag)

/-- The number of keys of the list `stored` that share their two buckets and
their tag with a key with primary bucket `i` and tag `tag`. -/
def storedLike (hash : Nat → Nat → Nat) (f : CuckooFilter) (stored : List Nat) (i tag : Nat) :
    Nat :=
  stored.countP (fun k =>
    f.sameClass i tag (GetIndexAndTag hash f k).1 (GetIndexAndTag hash f k).2)

/-- The states a filter constructed by
`CuckooFilter(expected_num_elements, bits_per_element)` reaches by `Insert`
and `Delete` calls in which each `Delete` targets a key that has been
successfully inserted more often than deleted, each with the list of the keys
currently stored: a successful `Insert` adds its key, a `Delete` removes one
occurrence of its key. -/
inductive Disciplined (hash : Nat → Nat → Nat) (expected_num_elements bits_per_element : Nat)
    (uninit : Nat → Nat) (rand_gen : Nat → Nat) : CuckooFilter → List Nat → Prop
  | constructed (f : CuckooFilter) :
      new expected_num_elements bits_per_element uninit rand_gen = some f →
      Disciplined hash expected_num_elements bits_per_element uninit rand_gen f []
  | insert (f : CuckooFilter) (stored : List Nat) (key : Nat) (ret : Bool) (f1 : CuckooFilter) :
      Disciplined hash expected_num_elements bits_per_element uninit rand_gen f stored →
      Insert hash f key = some (ret, f1) →
      Disciplined hash expected_num_elements bits_per_element uninit rand_gen f1
        (if ret = true then key :: stored else stored)
  | delete (f : CuckooFilter) (stored : List Nat) (key : Nat) (ret : Bool) (f1 : CuckooFilter) :
      Disciplined hash expected_num_elements bits_per_element uninit rand_gen f stored →
      key ∈ stored →
      Delete hash f key = some (ret, f1) →
      Disciplined hash expected_num_elements bits_per_element uninit rand_gen f1
        (stored.erase key)

/-- The filter `sampleFilter` after `Insert(25)` for the hash `sampleHash`:
the tag 25 is in slot 0 of bucket 1. -/
def sampleInserted : CuckooFilter :=
  { sampleFilter with
    table_ := { sampleFilter.table_ with
      data_ := [0, 0, 0, 0, 25, 0, 0, 0, 0, 0, 0, 0, 0, 0, 0, 0, 0, 0, 0, 0, 0, 0, 0, 0] }
    num_elements_ := 1 }

/-- The filter `sampleInserted` after `Insert(35)`: the tag 35 is in slot 0 of
bucket 3. -/
def sampleInsertedTwice : CuckooFilter :=
  { sampleFilter with
    table_ := { sampleFilter.table_ with
      data_ := [0, 0, 0, 0, 25, 0, 0, 0, 0, 0, 0, 0, 35, 0, 0, 0, 0, 0, 0, 0, 0, 0, 0, 0] }
    num_elements_ := 2 }

end CuckooFilter

/-! # Theorems -/

/-! ## Byte buffers and bits -/

theorem getD_set_buf (l : List Nat) (i j a : Nat) :
    (l.set i a).getD j 0 = if i = j ∧ i < l.length then a else l.getD j 0 := by
  simp only [List.getD_eq_getElem?_getD, List.getElem?_set]
  by_cases h : i = j
  · subst h
    by_cases h2 : i < l.length
    · simp [h2]
    · simp [h2, List.getElem?_eq_none (Nat.le_of_not_lt h2)]
  · simp [h]

theorem getD_lt_256 (l : List Nat) (h : ∀ x ∈ l, x < 256) (i : Nat) : l.getD i 0 < 256 := by
  rw [List.getD_eq_getElem?_getD]
  cases hi : l[i]? with
  | none => simp
  | some x => exact h x (List.getElem?_mem hi)

theorem testBit_or_bit_mod (p b c : Nat) (hc : c < 8) :
    ((p ||| (1 <<< b)) % 256).testBit c = (p.testBit c || decide (b = c)) := by
  have h : (256 : Nat) = 2 ^ 8 := by norm_num
  rw [h, Nat.testBit_mod_two_pow, Nat.one_shiftLeft, Nat.testBit_or, Nat.testBit_two_pow]
  simp [hc]

theorem and_one_shiftLeft_eq_zero (x b : Nat) :
    (x &&& (1 <<< b)) = 0 ↔ x.testBit b = false := by
  rw [Nat.one_shiftLeft, Nat.and_two_pow]
  cases x.testBit b <;> simp

theorem byte_eq_of_testBit (x y : Nat) (hx : x < 256) (hy : y < 256)
    (h : ∀ c, c < 8 → x.testBit c = y.testBit c) : x = y := by
  apply Nat.eq_of_testBit_eq
  intro i
  by_cases hi : i < 8
  · exact h i hi
  · have h8 : (256 : Nat) ≤ 2 ^ i := by
      calc (256 : Nat) = 2 ^ 8 := by norm_num
        _ ≤ 2 ^ i := Nat.pow_le_pow_right (by norm_num) (by omega)
    rw [Nat.testBit_lt_two_pow (by omega), Nat.testBit_lt_two_pow (by omega)]

/-! ## BloomFilter -/

namespace BloomFilter

theorem any_eq_of_forall (l : List Nat) (f g : Nat → Bool) (h : ∀ x, f x = g x) :
    l.any f = l.any g := by
  have hfg : f = g := funext h
  rw [hfg]

theorem probe_lt (hash : Nat → Nat → Nat) (bit_size key seed : Nat) (h : 0 < bit_size) :
    probe hash bit_size key seed < bit_size :=
  Nat.mod_lt _ h

theorem setBit_length (data : List Nat) (index : Nat) :
    (setBit data index).length = data.length := by
  simp [setBit]

theorem setBit_bytes (data : List Nat) (index : Nat) (h : ∀ x ∈ data, x < 256) :
    ∀ x ∈ setBit data index, x < 256 := by
  intro x hx
  rcases List.mem_or_eq_of_mem_set hx with h1 | h1
  · exact h x h1
  · rw [h1]
    exact Nat.mod_lt _ (by norm_num)

theorem bitAt_setBit (data : List Nat) (index i : Nat) (h : index < 8 * data.length) :
    bitAt (setBit data index) i = (bitAt data i || decide (i = index)) := by
  unfold bitAt setBit
  rw [getD_set_buf]
  by_cases hb : index / 8 = i / 8
  · have hlen : index / 8 < data.length := by omega
    rw [if_pos ⟨hb, hlen⟩, testBit_or_bit_mod _ _ _ (Nat.mod_lt _ (by norm_num)), hb]
    congr 1
    apply decide_eq_decide.mpr
    constructor <;> intro h1 <;> omega
  · have hne : i ≠ index := by
      intro h1
      exact hb (by rw [h1])
    rw [if_neg (fun h1 => hb h1.1)]
    simp [hne]

theorem setBit_changed (data : List Nat) (index : Nat) (h : index < 8 * data.length)
    (hb : ∀ x ∈ data, x < 256) :
    (data.getD (index / 8) 0 != (setBit data index).getD (index / 8) 0) = !bitAt data index := by
  have hlen : index / 8 < data.length := by omega
  have hp := getD_lt_256 data hb (index / 8)
  unfold setBit
  rw [getD_set_buf, if_pos ⟨rfl, hlen⟩]
  cases hbit : bitAt data index
  · unfold bitAt at hbit
    simp only [Bool.not_false, bne_iff_ne, ne_eq]
    intro heq
    have h1 := testBit_or_bit_mod (data.getD (index / 8) 0) (index % 8) (index % 8)
      (Nat.mod_lt _ (by norm_num))
    rw [← heq, hbit] at h1
    simp at h1
  · unfold bitAt at hbit
    simp only [Bool.not_true, bne_eq_false_iff_eq]
    apply byte_eq_of_testBit _ _ hp (Nat.mod_lt _ (by norm_num))
    intro c hc
    rw [testBit_or_bit_mod _ _ _ hc]
    by_cases hcc : index % 8 = c
    · rw [← hcc, hbit]
      simp
    · simp [hcc]

theorem Insert.loop_cons (hash : Nat → Nat → Nat) (bit_size key seed : Nat)
    (rest data : List Nat) (inserted : Bool) :
    Insert.loop hash bit_size key (seed :: rest) data inserted =
      Insert.loop hash bit_size key rest (setBit data (probe hash bit_size key seed))
        (if data.getD (probe hash bit_size key seed / 8) 0 !=
              (setBit data (probe hash bit_size key seed)).getD
                (probe hash bit_size key seed / 8) 0
          then true else inserted) := rfl

theorem Insert.loop_length (hash : Nat → Nat → Nat) (bit_size key : Nat) (seeds : List Nat) :
    ∀ (data : List Nat) (inserted : Bool),
      (Insert.loop hash bit_size key seeds data inserted).1.length = data.length := by
  induction seeds with
  | nil => intro data inserted; rfl
  | cons seed rest ih =>
    intro data inserted
    rw [Insert.loop_cons, ih, setBit_length]

theorem Insert.loop_bytes (hash : Nat → Nat → Nat) (bit_size key : Nat) (seeds : List Nat) :
    ∀ (data : List Nat) (inserted : Bool), (∀ x ∈ data, x < 256) →
      ∀ x ∈ (Insert.loop hash bit_size key seeds data inserted).1, x < 256 := by
  induction seeds with
  | nil => intro data inserted h; exact h
  | cons seed rest ih =>
    intro data inserted h
    rw [Insert.loop_cons]
    exact ih _ _ (setBit_bytes data _ h)

theorem Insert.loop_bitAt (hash : Nat → Nat → Nat) (bit_size key : Nat) (seeds : List Nat) :
    ∀ (data : List Nat) (inserted : Bool) (i : Nat), 0 < bit_size →
      bit_size = 8 * data.length →
      bitAt (Insert.loop hash bit_size key seeds data inserted).1 i =
        (bitAt data i || seeds.any (fun seed => decide (i = probe hash bit_size key seed))) := by
  induction seeds with
  | nil => intro data inserted i _ _; simp [Insert.loop]
  | cons seed rest ih =>
    intro data inserted i hpos hsize
    have hlt : probe hash bit_size key seed < 8 * data.length := by
      rw [← hsize]; exact probe_lt hash bit_size key seed hpos
    rw [Insert.loop_cons, ih _ _ i hpos (by rw [setBit_length]; exact hsize),
      bitAt_setBit data _ i hlt, List.any_cons, Bool.or_assoc]

theorem Insert.loop_flag (hash : Nat → Nat → Nat) (bit_size key : Nat) (seeds : List Nat) :
    ∀ (data : List Nat) (inserted : Bool), 0 < bit_size →
      bit_size = 8 * data.length → (∀ x ∈ data, x < 256) →
      (Insert.loop hash bit_size key seeds data inserted).2 =
        (inserted || seeds.any (fun seed => !bitAt data (probe hash bit_size key seed))) := by
  induction seeds with
  | nil => intro data inserted _ _ _; simp [Insert.loop]
  | cons seed rest ih =>
    intro data inserted hpos hsize hb
    have hlt : probe hash bit_size key seed < 8 * data.length := by
      rw [← hsize]; exact probe_lt hash bit_size key seed hpos
    rw [Insert.loop_cons, ih _ _ hpos (by rw [setBit_length]; exact hsize)
      (setBit_bytes data _ hb), setBit_changed data _ hlt hb, List.any_cons]
    have hrest : ∀ seed2, bitAt (setBit data (probe hash bit_size key seed))
        (probe hash bit_size key seed2) =
        (bitAt data (probe hash bit_size key seed2) ||
          decide (probe hash bit_size key seed2 = probe hash bit_size key seed)) :=
      fun seed2 => bitAt_setBit data _ _ hlt
    simp only [hrest]
    cases h0 : bitAt data (probe hash bit_size key seed)
    · simp
    · simp only [Bool.not_true, Bool.false_eq_true, ↓reduceIte, Bool.false_or]
      congr 1
      apply any_eq_of_forall
      intro seed2
      cases h2 : bitAt data (probe hash bit_size key seed2)
      · have hne : probe hash bit_size key seed2 ≠ probe hash bit_size key seed := by
          intro heq; rw [heq, h0] at h2; cases h2
        simp [hne]
      · simp

theorem Contains.loop_eq_all (hash : Nat → Nat → Nat) (bit_size key : Nat)
    (data seeds : List Nat) :
    Contains.loop hash bit_size key data seeds =
      seeds.all (fun seed => bitAt data (probe hash bit_size key seed)) := by
  induction seeds with
  | nil => rfl
  | cons seed rest ih =>
    simp only [Contains.loop, List.all_cons, and_one_shiftLeft_eq_zero]
    rw [ih]
    unfold bitAt probe
    cases (data.getD (hash key seed % 2 ^ 64 % bit_size / 8) 0).testBit
      (hash key seed % 2 ^ 64 % bit_size % 8) <;> simp

theorem bitAt_replicate_zero (n i : Nat) : bitAt (List.replicate n 0) i = false := by
  unfold bitAt
  rw [List.getD_eq_getElem?_getD, List.getElem?_replicate]
  split <;> simp

theorem new_WF (bit_size : Nat) (expected_num_elements : Int) (rounded : Nat)
    (rand_gen : Nat → Nat) : WF (new bit_size expected_num_elements rounded rand_gen) where
  bytes_pos := by simp [new]
  bits := by simp [new]
  len := by simp [new]
  bytes := by
    intro x hx
    simp only [new] at hx
    rw [List.eq_of_mem_replicate hx]
    norm_num
  keys := by
    simp only [new, ne_eq, List.map_eq_nil_iff, List.range_eq_nil]
    split
    · omega
    · split <;> omega

theorem Insert_WF (hash : Nat → Nat → Nat) (s : BloomFilter) (key : Nat) (h : WF s) :
    WF (Insert hash s key).2 where
  bytes_pos := h.bytes_pos
  bits := h.bits
  len := by
    simp only [Insert]
    rw [Insert.loop_length]
    exact h.len
  bytes := by
    simp only [Insert]
    exact Insert.loop_bytes hash _ key _ _ _ h.bytes
  keys := h.keys

theorem bloom_Clear_WF (s : BloomFilter) (h : WF s) : WF (Clear s) where
  bytes_pos := h.bytes_pos
  bits := h.bits
  len := by simp [Clear]
  bytes := by
    intro x hx
    simp only [Clear] at hx
    rw [List.eq_of_mem_replicate hx]
    norm_num
  keys := h.keys

theorem Reachable.bloom_wf {hash : Nat → Nat → Nat} {bit_size : Nat} {expected_num_elements : Int}
    {rounded : Nat} {rand_gen : Nat → Nat} {s : BloomFilter}
    (h : Reachable hash bit_size expected_num_elements rounded rand_gen s) : WF s := by
  induction h with
  | constructed => exact new_WF _ _ _ _
  | insert s key _ ih => exact Insert_WF hash s key ih
  | clear s _ ih => exact bloom_Clear_WF s ih

theorem WF.bit_size_pos {s : BloomFilter} (h : WF s) : 0 < s.bit_size_ := by
  have h1 := h.bytes_pos
  have h2 := h.bits
  omega

theorem WF.bit_size_eq {s : BloomFilter} (h : WF s) : s.bit_size_ = 8 * s.data_.length := by
  have h1 := h.len
  have h2 := h.bits
  omega

theorem Contains_eq_all (hash : Nat → Nat → Nat) (s : BloomFilter) (key : Nat) :
    Contains hash s key =
      s.hash_keys_.all (fun seed => bitAt s.data_ (probe hash s.bit_size_ key seed)) :=
  Contains.loop_eq_all hash _ key _ _

theorem Insert_fst (hash : Nat → Nat → Nat) (s : BloomFilter) (key : Nat) (h : WF s) :
    (Insert hash s key).1 =
      s.hash_keys_.any (fun seed => !bitAt s.data_ (probe hash s.bit_size_ key seed)) := by
  simp only [Insert]
  rw [Insert.loop_flag hash _ key _ _ _ h.bit_size_pos h.bit_size_eq h.bytes]
  simp

theorem Insert_bitAt (hash : Nat → Nat → Nat) (s : BloomFilter) (key i : Nat) (h : WF s) :
    bitAt (Insert hash s key).2.data_ i =
      (bitAt s.data_ i ||
        s.hash_keys_.any (fun seed => decide (i = probe hash s.bit_size_ key seed))) := by
  simp only [Insert]
  exact Insert.loop_bitAt hash _ key _ _ _ i h.bit_size_pos h.bit_size_eq

theorem Insert_hash_keys (hash : Nat → Nat → Nat) (s : BloomFilter) (key : Nat) :
    (Insert hash s key).2.hash_keys_ = s.hash_keys_ := rfl

theorem Insert_bit_size (hash : Nat → Nat → Nat) (s : BloomFilter) (key : Nat) :
    (Insert hash s key).2.bit_size_ = s.bit_size_ := rfl

theorem Insert_mono (hash : Nat → Nat → Nat) (s : BloomFilter) (key i : Nat) (h : WF s)
    (hi : bitAt s.data_ i = true) : bitAt (Insert hash s key).2.data_ i = true := by
  rw [Insert_bitAt hash s key i h, hi]
  rfl

theorem Contains_Insert_mono (hash : Nat → Nat → Nat) (s : BloomFilter) (key k : Nat)
    (h : WF s) (hk : Contains hash s k = true) : Contains hash (Insert hash s key).2 k = true := by
  rw [Contains_eq_all, List.all_eq_true] at *
  intro seed hseed
  rw [Insert_bit_size]
  exact Insert_mono hash s key _ h (hk seed hseed)

theorem Contains_Insert_self (hash : Nat → Nat → Nat) (s : BloomFilter) (k : Nat)
    (h : WF s) : Contains hash (Insert hash s k).2 k = true := by
  rw [Contains_eq_all, List.all_eq_true]
  intro seed hseed
  rw [Insert_bit_size, Insert_bitAt hash s k _ h]
  have : s.hash_keys_.any
      (fun seed2 => decide (probe hash s.bit_size_ k seed = probe hash s.bit_size_ k seed2))
      = true := by
    rw [List.any_eq_true]
    exact ⟨seed, hseed, by simp⟩
  rw [this]
  simp

theorem InsertAll_WF (hash : Nat → Nat → Nat) (keys : List Nat) :
    ∀ (s : BloomFilter), WF s → WF (InsertAll hash s keys) := by
  induction keys with
  | nil => intro s h; exact h
  | cons key rest ih => intro s h; exact ih _ (Insert_WF hash s key h)

theorem Contains_InsertAll_mono (hash : Nat → Nat → Nat) (keys : List Nat) (k : Nat) :
    ∀ (s : BloomFilter), WF s → Contains hash s k = true →
      Contains hash (InsertAll hash s keys) k = true := by
  induction keys with
  | nil => intro s _ hk; exact hk
  | cons key rest ih =>
    intro s h hk
    exact ih _ (Insert_WF hash s key h) (Contains_Insert_mono hash s key k h hk)

theorem wrap_int64_succ (n : Int) (h0 : 0 ≤ n) (h1 : n < 2 ^ 63 - 1) :
    wrap_int64 (n + 1) = n + 1 := by
  unfold wrap_int64
  omega

theorem InsertAll_num_inserts (hash : Nat → Nat → Nat) (keys : List Nat) :
    ∀ (s : BloomFilter), 0 ≤ s.num_inserts_ →
      s.num_inserts_ + (keys.length : Int) ≤ 2 ^ 63 - 1 →
      (InsertAll hash s keys).num_inserts_ = s.num_inserts_ + keys.length := by
  induction keys with
  | nil => intro s _ _; simp [InsertAll]
  | cons key rest ih =>
    intro s h0 h1
    simp only [List.length_cons, Nat.cast_add, Nat.cast_one] at h1 ⊢
    have hstep : (Insert hash s key).2.num_inserts_ = s.num_inserts_ + 1 := by
      simp only [Insert]
      exact wrap_int64_succ _ h0 (by omega)
    simp only [InsertAll]
    rw [ih _ (by omega) (by omega), hstep]
    omega

theorem bloom_Contains_empty (hash : Nat → Nat → Nat) (s : BloomFilter) (k : Nat) (h : WF s)
    (hz : ∀ i, bitAt s.data_ i = false) : Contains hash s k = false := by
  rw [Contains_eq_all]
  cases hk : s.hash_keys_ with
  | nil => exact absurd hk h.keys
  | cons seed rest => simp [hz]

/-- C1. No false negatives: in every state of a filter constructed with
`bit_size >= 1` and `expected_num_elements >= 1`, `Contains(k)` is true right
after `Insert(k)` and after any sequence `later` of further `Insert` calls,
and an `Insert` never turns a set bit back to 0. -/
theorem no_false_negatives (hash : Nat → Nat → Nat) (bit_size : Nat)
    (expected_num_elements : Int) (rounded : Nat) (rand_gen : Nat → Nat)
    (_hbits : 1 ≤ bit_size) (_hexp : 1 ≤ expected_num_elements) (s : BloomFilter)
    (hs : Reachable hash bit_size expected_num_elements rounded rand_gen s)
    (k : Nat) (later : List Nat) :
    Contains hash (Insert hash s k).2 k = true ∧
    Contains hash (InsertAll hash (Insert hash s k).2 later) k = true ∧
    ∀ key i, bitAt s.data_ i = true → bitAt (Insert hash s key).2.data_ i = true := by
  have hwf := hs.bloom_wf
  refine ⟨Contains_Insert_self hash s k hwf, ?_, ?_⟩
  · exact Contains_InsertAll_mono hash later k _ (Insert_WF hash s k hwf)
      (Contains_Insert_self hash s k hwf)
  · intro key i hi
    exact Insert_mono hash s key i hwf hi

/-- Witness of C1: `BloomFilter(1000, 100)` with 7 hash keys, `Insert(25)`
followed by `Insert(35)` and `Insert(45)`. -/
theorem no_false_negatives_witness :
    (1 ≤ 1000 ∧ (1 : Int) ≤ 100 ∧
      Reachable (fun key seed => key + seed) 1000 100 7 (fun i => i)
        (new 1000 100 7 (fun i => i))) ∧
    Contains (fun key seed => key + seed)
      (InsertAll (fun key seed => key + seed)
        (Insert (fun key seed => key + seed) (new 1000 100 7 (fun i => i)) 25).2 [35, 45])
      25 = true :=
  ⟨⟨by decide, by decide, Reachable.constructed⟩,
    (no_false_negatives (fun key seed => key + seed) 1000 100 7 (fun i => i) (by decide)
      (by decide) _ Reachable.constructed 25 [35, 45]).2.1⟩

/-- C2. In every state of a filter constructed with `bit_size >= 1` and
`expected_num_elements >= 1`, `Insert(k)` returns true exactly when
`Contains(k)` was false just before the call, and a second `Insert` of the
same key returns false. -/
theorem Insert_true_iff_not_Contains (hash : Nat → Nat → Nat) (bit_size : Nat)
    (expected_num_elements : Int) (rounded : Nat) (rand_gen : Nat → Nat)
    (_hbits : 1 ≤ bit_size) (_hexp : 1 ≤ expected_num_elements) (s : BloomFilter)
    (hs : Reachable hash bit_size expected_num_elements rounded rand_gen s) (k : Nat) :
    ((Insert hash s k).1 = true ↔ Contains hash s k = false) ∧
    (Insert hash (Insert hash s k).2 k).1 = false := by
  have hwf := hs.bloom_wf
  have key : ∀ (t : BloomFilter), WF t →
      ((Insert hash t k).1 = true ↔ Contains hash t k = false) := by
    intro t ht
    rw [Insert_fst hash t k ht, Contains_eq_all, List.any_eq_true, List.all_eq_false]
    constructor
    · rintro ⟨seed, hseed, hbit⟩
      exact ⟨seed, hseed, by simpa using hbit⟩
    · rintro ⟨seed, hseed, hbit⟩
      exact ⟨seed, hseed, by simpa using hbit⟩
  refine ⟨key s hwf, ?_⟩
  have h2 := key _ (Insert_WF hash s k hwf)
  have h3 := Contains_Insert_self hash s k hwf
  cases hr : (Insert hash (Insert hash s k).2 k).1
  · rfl
  · rw [h2.mp hr] at h3
    cases h3

/-- Witness of C2: `BloomFilter(1000, 100)` with 7 hash keys and key 25. -/
theorem Insert_true_iff_not_Contains_witness :
    (1 ≤ 1000 ∧ (1 : Int) ≤ 100 ∧
      Reachable (fun key seed => key + seed) 1000 100 7 (fun i => i)
        (new 1000 100 7 (fun i => i))) ∧
    (Insert (fun key seed => key + seed)
      (Insert (fun key seed => key + seed) (new 1000 100 7 (fun i => i)) 25).2 25).1 = false :=
  ⟨⟨by decide, by decide, Reachable.constructed⟩,
    (Insert_true_iff_not_Contains (fun key seed => key + seed) 1000 100 7 (fun i => i)
      (by decide) (by decide) _ Reachable.constructed 25).2⟩

/-- C3. `NumElements()` counts `Insert` calls: after the `Insert` calls
`keys` (duplicates allowed, results ignored) on a filter just constructed, or
just cleared from any state `s`, `NumElements()` is the number of calls, for
every number of calls that an `int64` can hold. -/
theorem NumElements_counts_Insert_calls (hash : Nat → Nat → Nat) (bit_size : Nat)
    (expected_num_elements : Int) (rounded : Nat) (rand_gen : Nat → Nat)
    (s : BloomFilter) (_hs : Reachable hash bit_size expected_num_elements rounded rand_gen s)
    (keys : List Nat) (hn : keys.length < 2 ^ 63) :
    NumElements (InsertAll hash (new bit_size expected_num_elements rounded rand_gen) keys)
      = keys.length ∧
    NumElements (InsertAll hash (Clear s) keys) = keys.length := by
  have hcast : (keys.length : Int) < 2 ^ 63 := by exact_mod_cast hn
  constructor
  · unfold NumElements
    rw [InsertAll_num_inserts hash keys _ (by simp [new]) (by simp only [new]; omega)]
    simp [new]
  · unfold NumElements
    rw [InsertAll_num_inserts hash keys _ (by simp [Clear]) (by simp only [Clear]; omega)]
    simp [Clear]

/-- Witness of C3: three `Insert` calls with a duplicate key on
`BloomFilter(1000, 100)`. -/
theorem NumElements_counts_Insert_calls_witness :
    (Reachable (fun key seed => key + seed) 1000 100 7 (fun i => i)
        (new 1000 100 7 (fun i => i)) ∧ [25, 25, 35].length < 2 ^ 63) ∧
    NumElements (InsertAll (fun key seed => key + seed) (new 1000 100 7 (fun i => i))
      [25, 25, 35]) = 3 :=
  ⟨⟨Reachable.constructed, by decide⟩,
    (NumElements_counts_Insert_calls (fun key seed => key + seed) 1000 100 7 (fun i => i)
      _ Reachable.constructed [25, 25, 35] (by decide)).1⟩

/-- C4. An empty filter has no members: for a filter just constructed with
`bit_size >= 1` and `expected_num_elements >= 1`, and for a filter on which
`Clear()` was just called from any state `s`, `Contains(k)` is false for every
key `k` and `NumElements()` is 0. -/
theorem empty_has_no_members (hash : Nat → Nat → Nat) (bit_size : Nat)
    (expected_num_elements : Int) (rounded : Nat) (rand_gen : Nat → Nat)
    (_hbits : 1 ≤ bit_size) (_hexp : 1 ≤ expected_num_elements) (s : BloomFilter)
    (hs : Reachable hash bit_size expected_num_elements rounded rand_gen s) (k : Nat) :
    (Contains hash (new bit_size expected_num_elements rounded rand_gen) k = false ∧
      NumElements (new bit_size expected_num_elements rounded rand_gen) = 0) ∧
    (Contains hash (Clear s) k = false ∧ NumElements (Clear s) = 0) := by
  refine ⟨⟨?_, rfl⟩, ⟨?_, rfl⟩⟩
  · exact bloom_Contains_empty hash _ k (new_WF _ _ _ _) (fun i => bitAt_replicate_zero _ i)
  · exact bloom_Contains_empty hash _ k (bloom_Clear_WF s hs.bloom_wf) (fun i => bitAt_replicate_zero _ i)

/-- Witness of C4: `BloomFilter(1000, 100)` fresh, and cleared after
`Insert(25)`. -/
theorem empty_has_no_members_witness :
    (1 ≤ 1000 ∧ (1 : Int) ≤ 100 ∧
      Reachable (fun key seed => key + seed) 1000 100 7 (fun i => i)
        (Insert (fun key seed => key + seed) (new 1000 100 7 (fun i => i)) 25).2) ∧
    Contains (fun key seed => key + seed)
      (Clear (Insert (fun key seed => key + seed) (new 1000 100 7 (fun i => i)) 25).2) 25
      = false :=
  ⟨⟨by decide, by decide, Reachable.insert _ 25 Reachable.constructed⟩,
    (empty_has_no_members (fun key seed => key + seed) 1000 100 7 (fun i => i) (by decide)
      (by decide) _ (Reachable.insert _ 25 Reachable.constructed) 25).2.1⟩

end BloomFilter

/-! ## Bitwise operations of the tag table as arithmetic -/

theorem and_15 (x : Nat) : x &&& 15 = x % 16 := Nat.and_pow_two_sub_one_eq_mod x 4
theorem and_255 (x : Nat) : x &&& 255 = x % 256 := Nat.and_pow_two_sub_one_eq_mod x 8
theorem and_4095 (x : Nat) : x &&& 4095 = x % 4096 := Nat.and_pow_two_sub_one_eq_mod x 12
theorem and_65535 (x : Nat) : x &&& 65535 = x % 65536 := Nat.and_pow_two_sub_one_eq_mod x 16
theorem and_4294967295 (x : Nat) : x &&& 4294967295 = x % 4294967296 :=
  Nat.and_pow_two_sub_one_eq_mod x 32

theorem testBit_high_mask (n k i : Nat) (hk : k ≤ n) :
    (2 ^ n - 2 ^ k).testBit i = (decide (k ≤ i) && decide (i < n)) := by
  have h1 : 2 ^ k ≤ 2 ^ n := Nat.pow_le_pow_right (by norm_num) hk
  have h2 : 0 < 2 ^ k := Nat.two_pow_pos k
  have h3 : 2 ^ n - 2 ^ k = 2 ^ n - ((2 ^ k - 1) + 1) := by omega
  rw [h3, Nat.testBit_two_pow_sub_succ (by omega), Nat.testBit_two_pow_sub_one]
  by_cases a : i < k <;> by_cases b : i < n <;> simp [a, b] <;> omega

theorem and_high_mask (x n k : Nat) (hk : k ≤ n) (hx : x < 2 ^ n) :
    x &&& (2 ^ n - 2 ^ k) = x / 2 ^ k * 2 ^ k := by
  apply Nat.eq_of_testBit_eq
  intro i
  rw [Nat.testBit_and, testBit_high_mask n k i hk, ← Nat.shiftRight_eq_div_pow,
    ← Nat.shiftLeft_eq, Nat.testBit_shiftLeft, Nat.testBit_shiftRight]
  by_cases a : k ≤ i
  · have hki : k + (i - k) = i := by omega
    by_cases b : i < n
    · simp [a, b, hki]
    · have hxi : x.testBit i = false :=
        Nat.testBit_lt_two_pow (lt_of_lt_of_le hx (Nat.pow_le_pow_right (by norm_num) (by omega)))
      simp [a, b, hki, hxi]
  · simp [a]

theorem or_low (a b k : Nat) (hb : b < 2 ^ k) : a * 2 ^ k ||| b = a * 2 ^ k + b := by
  rw [Nat.mul_comm, ← Nat.mul_add_lt_is_or hb]

theorem or_high (a b k : Nat) (hb : b < 2 ^ k) : b ||| a * 2 ^ k = a * 2 ^ k + b := by
  rw [Nat.lor_comm, or_low a b k hb]

/-- 4-bit tags, even slot: `*p &= 0xf0; *p |= tag`. -/
theorem write4_even (b tag : Nat) (hb : b < 256) (ht : tag < 16) :
    (b &&& 0xf0) ||| tag = b / 16 * 16 + tag := by
  have h := and_high_mask b 8 4 (by norm_num) (by norm_num; exact hb)
  norm_num at h
  rw [h]
  exact or_low (b / 16) tag 4 (by norm_num; exact ht)

/-- 4-bit tags, odd slot: `*p &= 0x0f; *p |= (tag << 4)`. -/
theorem write4_odd (b tag : Nat) :
    (b &&& 0x0f) ||| (tag <<< 4) = tag * 16 + b % 16 := by
  rw [and_15, Nat.shiftLeft_eq]
  exact or_high tag (b % 16) 4 (Nat.mod_lt _ (by norm_num))

/-- 12-bit tags, even slot: `((uint16*) p)[0] &= 0xf000; ((uint16*) p)[0] |= tag`. -/
theorem write12_even (w tag : Nat) (hw : w < 65536) (ht : tag < 4096) :
    (w &&& 0xf000) ||| tag = w / 4096 * 4096 + tag := by
  have h := and_high_mask w 16 12 (by norm_num) (by norm_num; exact hw)
  norm_num at h
  rw [h]
  exact or_low (w / 4096) tag 12 (by norm_num; exact ht)

/-- 12-bit tags, odd slot: `((uint16*) p)[0] &= 0x000f; ((uint16*) p)[0] |= (tag << 4)`. -/
theorem write12_odd (w tag : Nat) :
    (w &&& 0x000f) ||| (tag <<< 4) = tag * 16 + w % 16 := by
  rw [and_15, Nat.shiftLeft_eq]
  exact or_high tag (w % 16) 4 (Nat.mod_lt _ (by norm_num))

/-! ## The packed-word tests `haszeroN` and `hasvalueN` of `util.h` -/

theorem and_two_pow_eq_zero (a k : Nat) : a &&& 2 ^ k = 0 ↔ a.testBit k = false := by
  rw [Nat.and_two_pow]
  cases a.testBit k <;> simp

theorem lor_eq_zero (a b : Nat) : a ||| b = 0 ↔ a = 0 ∧ b = 0 := by
  constructor
  · intro h
    have hb : ∀ i, (a ||| b).testBit i = false := by
      intro i; rw [h]; exact Nat.zero_testBit i
    constructor
    · apply Nat.zero_of_testBit_eq_false
      intro i
      have := hb i
      rw [Nat.testBit_or, Bool.or_eq_false_iff] at this
      exact this.1
    · apply Nat.zero_of_testBit_eq_false
      intro i
      have := hb i
      rw [Nat.testBit_or, Bool.or_eq_false_iff] at this
      exact this.2
  · rintro ⟨ha, hb⟩
    rw [ha, hb]
    rfl

theorem testBit_not64 (x k : Nat) (hk : k < 64) :
    (2 ^ 64 - 1 - x % 2 ^ 64).testBit k = !x.testBit k := by
  have h : 2 ^ 64 - 1 - x % 2 ^ 64 = 2 ^ 64 - (x % 2 ^ 64 + 1) := by omega
  rw [h, Nat.testBit_two_pow_sub_succ (Nat.mod_lt _ (by norm_num)), Nat.testBit_mod_two_pow]
  simp [hk]

theorem sub_and_not_bit (z x k : Nat) (hk : k < 64) :
    ((z &&& (2 ^ 64 - 1 - x % 2 ^ 64)) &&& 2 ^ k ≠ 0) ↔
      (z / 2 ^ k % 2 = 1 ∧ ¬ x / 2 ^ k % 2 = 1) := by
  rw [ne_eq, and_two_pow_eq_zero, Nat.testBit_and, testBit_not64 x k hk,
    Nat.testBit_to_div_mod, Nat.testBit_to_div_mod]
  by_cases a : z / 2 ^ k % 2 = 1 <;> by_cases b : x / 2 ^ k % 2 = 1 <;> simp [a, b]

theorem haszero_core (z x k0 k1 k2 k3 : Nat) (h0 : k0 < 64) (h1 : k1 < 64) (h2 : k2 < 64)
    (h3 : k3 < 64) :
    ((z &&& (2 ^ 64 - 1 - x % 2 ^ 64)) &&& (2 ^ k0 ||| 2 ^ k1 ||| 2 ^ k2 ||| 2 ^ k3) ≠ 0) ↔
      ((z / 2 ^ k0 % 2 = 1 ∧ ¬ x / 2 ^ k0 % 2 = 1) ∨ (z / 2 ^ k1 % 2 = 1 ∧ ¬ x / 2 ^ k1 % 2 = 1) ∨
       (z / 2 ^ k2 % 2 = 1 ∧ ¬ x / 2 ^ k2 % 2 = 1) ∨ (z / 2 ^ k3 % 2 = 1 ∧ ¬ x / 2 ^ k3 % 2 = 1)) := by
  rw [← sub_and_not_bit z x k0 h0, ← sub_and_not_bit z x k1 h1, ← sub_and_not_bit z x k2 h2,
    ← sub_and_not_bit z x k3 h3, Nat.and_or_distrib_left, Nat.and_or_distrib_left,
    Nat.and_or_distrib_left, ne_eq, lor_eq_zero, lor_eq_zero, lor_eq_zero]
  tauto

theorem haszero4_iff (x : Nat) (hx : x < 2 ^ 64) :
    haszero4 x ≠ 0 ↔ (x % 16 = 0 ∨ x / 16 % 16 = 0 ∨ x / 256 % 16 = 0 ∨ x / 4096 % 16 = 0) := by
  have hm : (0x8888 : Nat) = 2 ^ 3 ||| 2 ^ 7 ||| 2 ^ 11 ||| 2 ^ 15 := by decide
  unfold haszero4
  rw [hm, haszero_core _ x 3 7 11 15 (by norm_num) (by norm_num) (by norm_num) (by norm_num)]
  omega

theorem haszero8_iff (x : Nat) (hx : x < 2 ^ 64) :
    haszero8 x ≠ 0 ↔
      (x % 256 = 0 ∨ x / 256 % 256 = 0 ∨ x / 65536 % 256 = 0 ∨ x / 16777216 % 256 = 0) := by
  have hm : (0x80808080 : Nat) = 2 ^ 7 ||| 2 ^ 15 ||| 2 ^ 23 ||| 2 ^ 31 := by decide
  unfold haszero8
  rw [hm, haszero_core _ x 7 15 23 31 (by norm_num) (by norm_num) (by norm_num) (by norm_num)]
  omega

theorem haszero12_iff (x : Nat) (hx : x < 2 ^ 64) :
    haszero12 x ≠ 0 ↔
      (x % 4096 = 0 ∨ x / 4096 % 4096 = 0 ∨ x / 16777216 % 4096 = 0 ∨
        x / 68719476736 % 4096 = 0) := by
  have hm : (0x800800800800 : Nat) = 2 ^ 11 ||| 2 ^ 23 ||| 2 ^ 35 ||| 2 ^ 47 := by decide
  unfold haszero12
  rw [hm, haszero_core _ x 11 23 35 47 (by norm_num) (by norm_num) (by norm_num) (by norm_num)]
  omega

theorem haszero16_iff (x : Nat) (hx : x < 2 ^ 64) :
    haszero16 x ≠ 0 ↔
      (x % 65536 = 0 ∨ x / 65536 % 65536 = 0 ∨ x / 4294967296 % 65536 = 0 ∨
        x / 281474976710656 % 65536 = 0) := by
  have hm : (0x8000800080008000 : Nat) = 2 ^ 15 ||| 2 ^ 31 ||| 2 ^ 47 ||| 2 ^ 63 := by decide
  unfold haszero16
  rw [hm, haszero_core _ x 15 31 47 63 (by norm_num) (by norm_num) (by norm_num) (by norm_num)]
  omega

theorem xor_lane (x y k l : Nat) :
    (x ^^^ y) / 2 ^ k % 2 ^ l = (x / 2 ^ k % 2 ^ l) ^^^ (y / 2 ^ k % 2 ^ l) := by
  apply Nat.eq_of_testBit_eq
  intro i
  simp only [← Nat.shiftRight_eq_div_pow, Nat.testBit_mod_two_pow, Nat.testBit_xor,
    Nat.testBit_shiftRight]
  by_cases h : i < l <;> simp [h]

theorem xor_lane_eq_zero (x y d m n k l : Nat) (hd : d = 2 ^ k) (hm : m = 2 ^ l)
    (hy : y / d % m = n) : (x ^^^ y) / d % m = 0 ↔ x / d % m = n := by
  subst hd hm
  rw [xor_lane, hy, Nat.xor_eq_zero]

theorem xor_lane0_eq_zero (x y m n l : Nat) (hm : m = 2 ^ l)
    (hy : y % m = n) : (x ^^^ y) % m = 0 ↔ x % m = n := by
  have h := xor_lane_eq_zero x y 1 m n 0 l (by norm_num) hm (by rw [Nat.div_one]; exact hy)
  rw [Nat.div_one, Nat.div_one] at h
  exact h

theorem xor_lt_64 (x y : Nat) (hx : x < 2 ^ 64) (hy : y < 2 ^ 64) : x ^^^ y < 2 ^ 64 :=
  Nat.xor_lt_two_pow hx hy

theorem hasvalue4_iff (v tag : Nat) (hv : v < 2 ^ 64) (ht : tag < 16) :
    hasvalue4 v tag ≠ 0 ↔
      (v % 16 = tag ∨ v / 16 % 16 = tag ∨
        v / 256 % 16 = tag ∨ v / 4096 % 16 = tag) := by
  have hy : (0x1111 * tag) % 2 ^ 64 = 4369 * tag := Nat.mod_eq_of_lt (by omega)
  unfold hasvalue4
  rw [hy, haszero4_iff _ (xor_lt_64 _ _ hv (by omega))]
  have e1 : 4369 * tag / 16 = 273 * tag := by omega
  have e2 : 4369 * tag / 256 = 17 * tag := by omega
  have e3 : 4369 * tag / 4096 = tag := by omega
  have l0 := xor_lane0_eq_zero v (4369 * tag) 16 tag 4 (by norm_num) (by omega)
  have l1 := xor_lane_eq_zero v (4369 * tag) 16 16 tag 4 4 (by norm_num) (by norm_num)
    (by rw [e1]; omega)
  have l2 := xor_lane_eq_zero v (4369 * tag) 256 16 tag 8 4 (by norm_num)
    (by norm_num) (by rw [e2]; omega)
  have l3 := xor_lane_eq_zero v (4369 * tag) 4096 16 tag 12 4 (by norm_num)
    (by norm_num) (by rw [e3]; omega)
  rw [l0, l1, l2, l3]

theorem hasvalue8_iff (v tag : Nat) (hv : v < 2 ^ 64) (ht : tag < 256) :
    hasvalue8 v tag ≠ 0 ↔
      (v % 256 = tag ∨ v / 256 % 256 = tag ∨
        v / 65536 % 256 = tag ∨ v / 16777216 % 256 = tag) := by
  have hy : (0x01010101 * tag) % 2 ^ 64 = 16843009 * tag := Nat.mod_eq_of_lt (by omega)
  unfold hasvalue8
  rw [hy, haszero8_iff _ (xor_lt_64 _ _ hv (by omega))]
  have e1 : 16843009 * tag / 256 = 65793 * tag := by omega
  have e2 : 16843009 * tag / 65536 = 257 * tag := by omega
  have e3 : 16843009 * tag / 16777216 = tag := by omega
  have l0 := xor_lane0_eq_zero v (16843009 * tag) 256 tag 8 (by norm_num) (by omega)
  have l1 := xor_lane_eq_zero v (16843009 * tag) 256 256 tag 8 8 (by norm_num) (by norm_num)
    (by rw [e1]; omega)
  have l2 := xor_lane_eq_zero v (16843009 * tag) 65536 256 tag 16 8 (by norm_num)
    (by norm_num) (by rw [e2]; omega)
  have l3 := xor_lane_eq_zero v (16843009 * tag) 16777216 256 tag 24 8 (by norm_num)
    (by norm_num) (by rw [e3]; omega)
  rw [l0, l1, l2, l3]

theorem hasvalue12_iff (v tag : Nat) (hv : v < 2 ^ 64) (ht : tag < 4096) :
    hasvalue12 v tag ≠ 0 ↔
      (v % 4096 = tag ∨ v / 4096 % 4096 = tag ∨
        v / 16777216 % 4096 = tag ∨ v / 68719476736 % 4096 = tag) := by
  have hy : (0x001001001001 * tag) % 2 ^ 64 = 68736258049 * tag := Nat.mod_eq_of_lt (by omega)
  unfold hasvalue12
  rw [hy, haszero12_iff _ (xor_lt_64 _ _ hv (by omega))]
  have e1 : 68736258049 * tag / 4096 = 16781313 * tag := by omega
  have e2 : 68736258049 * tag / 16777216 = 4097 * tag := by omega
  have e3 : 68736258049 * tag / 68719476736 = tag := by omega
  have l0 := xor_lane0_eq_zero v (68736258049 * tag) 4096 tag 12 (by norm_num) (by omega)
  have l1 := xor_lane_eq_zero v (68736258049 * tag) 4096 4096 tag 12 12 (by norm_num) (by norm_num)
    (by rw [e1]; omega)
  have l2 := xor_lane_eq_zero v (68736258049 * tag) 16777216 4096 tag 24 12 (by norm_num)
    (by norm_num) (by rw [e2]; omega)
  have l3 := xor_lane_eq_zero v (68736258049 * tag) 68719476736 4096 tag 36 12 (by norm_num)
    (by norm_num) (by rw [e3]; omega)
  rw [l0, l1, l2, l3]

theorem hasvalue16_iff (v tag : Nat) (hv : v < 2 ^ 64) (ht : tag < 65536) :
    hasvalue16 v tag ≠ 0 ↔
      (v % 65536 = tag ∨ v / 65536 % 65536 = tag ∨
        v / 4294967296 % 65536 = tag ∨ v / 281474976710656 % 65536 = tag) := by
  have hy : (0x0001000100010001 * tag) % 2 ^ 64 = 281479271743489 * tag := Nat.mod_eq_of_lt (by omega)
  unfold hasvalue16
  rw [hy, haszero16_iff _ (xor_lt_64 _ _ hv (by omega))]
  have e1 : 281479271743489 * tag / 65536 = 4295032833 * tag := by omega
  have e2 : 281479271743489 * tag / 4294967296 = 65537 * tag := by omega
  have e3 : 281479271743489 * tag / 281474976710656 = tag := by omega
  have l0 := xor_lane0_eq_zero v (281479271743489 * tag) 65536 tag 16 (by norm_num) (by omega)
  have l1 := xor_lane_eq_zero v (281479271743489 * tag) 65536 65536 tag 16 16 (by norm_num) (by norm_num)
    (by rw [e1]; omega)
  have l2 := xor_lane_eq_zero v (281479271743489 * tag) 4294967296 65536 tag 32 16 (by norm_num)
    (by norm_num) (by rw [e2]; omega)
  have l3 := xor_lane_eq_zero v (281479271743489 * tag) 281474976710656 65536 tag 48 16 (by norm_num)
    (by norm_num) (by rw [e3]; omega)
  rw [l0, l1, l2, l3]

/-! ## SingleTable: reading a tag after a write -/

theorem or_low_16 (a x : Nat) : a * 16 ||| x % 16 = a * 16 + x % 16 :=
  or_low a (x % 16) 4 (Nat.mod_lt _ (by norm_num))

theorem or_high_16 (b a : Nat) : b % 16 ||| a * 16 = a * 16 + b % 16 :=
  or_high a (b % 16) 4 (Nat.mod_lt _ (by norm_num))

theorem or_low_4096 (a x : Nat) : a * 4096 ||| x % 4096 = a * 4096 + x % 4096 :=
  or_low a (x % 4096) 12 (Nat.mod_lt _ (by norm_num))

theorem and_240 (b : Nat) (hb : b < 256) : b &&& 240 = b / 16 * 16 := by
  have h := and_high_mask b 8 4 (by norm_num) (by norm_num; exact hb)
  norm_num at h
  exact h

theorem and_61440 (w : Nat) (hw : w < 65536) : w &&& 61440 = w / 4096 * 4096 := by
  have h := and_high_mask w 16 12 (by norm_num) (by norm_num; exact hw)
  norm_num at h
  exact h

theorem getD_and_240 (d : List Nat) (hd : ∀ x ∈ d, x < 256) (p : Nat) :
    d.getD p 0 &&& 240 = d.getD p 0 / 16 * 16 :=
  and_240 _ (getD_lt_256 d hd p)

theorem load16_and_61440 (d : List Nat) (hd : ∀ x ∈ d, x < 256) (p q : Nat) :
    (d.getD p 0 + 256 * d.getD q 0) &&& 61440 = (d.getD p 0 + 256 * d.getD q 0) / 4096 * 4096 := by
  have hp := getD_lt_256 d hd p
  have hq := getD_lt_256 d hd q
  exact and_61440 _ (by omega)

theorem getD_store16 (d : List Nat) (p v q : Nat) (hp : p + 1 < d.length) :
    (store16 d p v).getD q 0 =
      if q = p then v % 256 else if q = p + 1 then v / 256 % 256 else d.getD q 0 := by
  unfold store16
  rw [getD_set_buf, getD_set_buf, List.length_set]
  split_ifs <;> first | rfl | omega

theorem getD_store32 (d : List Nat) (p v q : Nat) (hp : p + 3 < d.length) :
    (store32 d p v).getD q 0 =
      if q = p then v % 256 else if q = p + 1 then v / 256 % 256
      else if q = p + 2 then v / 65536 % 256
      else if q = p + 3 then v / 16777216 % 256 else d.getD q 0 := by
  unfold store32
  rw [getD_set_buf, getD_set_buf, getD_set_buf, getD_set_buf, List.length_set, List.length_set,
    List.length_set]
  split_ifs <;> first | rfl | omega

theorem load16_store16_same (d : List Nat) (p v : Nat) (hp : p + 1 < d.length) :
    load16 (store16 d p v) p = v % 65536 := by
  unfold load16
  rw [getD_store16 d p v p hp, getD_store16 d p v (p + 1) hp]
  simp only [↓reduceIte, Nat.succ_ne_self, Nat.add_eq_left, one_ne_zero]
  omega

theorem load16_store16_other (d : List Nat) (p v q : Nat) (hp : p + 1 < d.length)
    (hq : q + 2 ≤ p ∨ p + 2 ≤ q) : load16 (store16 d p v) q = load16 d q := by
  unfold load16
  rw [getD_store16 d p v q hp, getD_store16 d p v (q + 1) hp]
  split_ifs <;> first | rfl | omega

theorem load32_store32_same (d : List Nat) (p v : Nat) (hp : p + 3 < d.length) :
    load32 (store32 d p v) p = v % 4294967296 := by
  unfold load32
  rw [getD_store32 d p v p hp, getD_store32 d p v (p + 1) hp, getD_store32 d p v (p + 2) hp,
    getD_store32 d p v (p + 3) hp]
  simp only [↓reduceIte, Nat.add_eq_left, Nat.add_left_cancel_iff, OfNat.ofNat_ne_zero,
    OfNat.ofNat_ne_one, Nat.reduceEqDiff, one_ne_zero]
  omega

theorem load32_store32_other (d : List Nat) (p v q : Nat) (hp : p + 3 < d.length)
    (hq : q + 4 ≤ p ∨ p + 4 ≤ q) : load32 (store32 d p v) q = load32 d q := by
  unfold load32
  rw [getD_store32 d p v q hp, getD_store32 d p v (q + 1) hp, getD_store32 d p v (q + 2) hp,
    getD_store32 d p v (q + 3) hp]
  have h0 : ¬ (q = p) := by omega
  have h1 : ¬ (q = p + 1) := by omega
  have h2 : ¬ (q = p + 2) := by omega
  have h3 : ¬ (q = p + 3) := by omega
  have h4 : ¬ (q + 1 = p) := by omega
  have h5 : ¬ (q + 1 = p + 1) := by omega
  have h6 : ¬ (q + 1 = p + 2) := by omega
  have h7 : ¬ (q + 1 = p + 3) := by omega
  have h8 : ¬ (q + 2 = p) := by omega
  have h9 : ¬ (q + 2 = p + 1) := by omega
  have h10 : ¬ (q + 2 = p + 2) := by omega
  have h11 : ¬ (q + 2 = p + 3) := by omega
  have h12 : ¬ (q + 3 = p) := by omega
  have h13 : ¬ (q + 3 = p + 1) := by omega
  have h14 : ¬ (q + 3 = p + 2) := by omega
  have h15 : ¬ (q + 3 = p + 3) := by omega
  simp only [h0, h1, h2, h3, h4, h5, h6, h7, h8, h9, h10, h11, h12, h13, h14, h15, ↓reduceIte]

theorem load16_lt (d : List Nat) (hd : ∀ x ∈ d, x < 256) (p : Nat) : load16 d p < 65536 := by
  have h0 := getD_lt_256 d hd p
  have h1 := getD_lt_256 d hd (p + 1)
  unfold load16
  omega

theorem load32_lt (d : List Nat) (hd : ∀ x ∈ d, x < 256) (p : Nat) :
    load32 d p < 4294967296 := by
  have h0 := getD_lt_256 d hd p
  have h1 := getD_lt_256 d hd (p + 1)
  have h2 := getD_lt_256 d hd (p + 2)
  have h3 := getD_lt_256 d hd (p + 3)
  unfold load32
  omega

namespace SingleTable

set_option maxHeartbeats 4000000 in
theorem ReadTag_WriteTag_4 (t : SingleTable) (h : WF t) (hw : t.bits_per_tag_ = 4)
    (i i2 x j j2 : Nat) (hi : i < t.num_buckets_) (hi2 : i2 < t.num_buckets_) (hj : j < 4)
    (hj2 : j2 < 4) :
    ReadTag (WriteTag t i j x) i2 j2 =
      some (if i2 = i ∧ j2 = j then x % 16 else (ReadTag t i2 j2).getD 0) := by
  have hb : t.bytes_per_bucket_ = 2 := by rw [h.bucket_bytes, hw]
  have hm : t.tag_mask_ = 15 := by rw [h.mask, hw]; rfl
  have hlen := h.len
  rw [hb] at hlen
  have hB := getD_lt_256 t.data_ h.bytes
  have b0 := hB (i * 2)
  have b1 := hB (i * 2 + 1)
  by_cases hii : i2 = i
  · subst hii
    interval_cases j <;> interval_cases j2 <;>
      simp [-List.getD_eq_getElem?_getD, ReadTag, WriteTag, hw, hb, hm, load16, store16,
        load32, store32, getD_set_buf, Nat.add_assoc, Nat.shiftLeft_eq,
        Nat.shiftRight_eq_div_pow, and_15, getD_and_240 _ h.bytes, or_low_16, or_high_16] <;>
      (try split_ifs) <;> omega
  · interval_cases j <;> interval_cases j2 <;>
      simp [-List.getD_eq_getElem?_getD, ReadTag, WriteTag, hw, hb, hm, load16, store16,
        load32, store32, getD_set_buf, Nat.add_assoc, Nat.shiftLeft_eq,
        Nat.shiftRight_eq_div_pow, and_15, getD_and_240 _ h.bytes, or_low_16, or_high_16, hii] <;>
      (try split_ifs) <;> omega

set_option maxHeartbeats 4000000 in
theorem ReadTag_WriteTag_8 (t : SingleTable) (h : WF t) (hw : t.bits_per_tag_ = 8)
    (i i2 x j j2 : Nat) (hi : i < t.num_buckets_) (hi2 : i2 < t.num_buckets_) (hj : j < 4)
    (hj2 : j2 < 4) :
    ReadTag (WriteTag t i j x) i2 j2 =
      some (if i2 = i ∧ j2 = j then x % 256 else (ReadTag t i2 j2).getD 0) := by
  have hb : t.bytes_per_bucket_ = 4 := by rw [h.bucket_bytes, hw]
  have hm : t.tag_mask_ = 255 := by rw [h.mask, hw]; rfl
  have hlen := h.len
  rw [hb] at hlen
  have hB := getD_lt_256 t.data_ h.bytes
  have b0 := hB (i * 4)
  have b1 := hB (i * 4 + 1)
  have b2 := hB (i * 4 + 2)
  have b3 := hB (i * 4 + 3)
  by_cases hii : i2 = i
  · subst hii
    interval_cases j <;> interval_cases j2 <;>
      simp [-List.getD_eq_getElem?_getD, ReadTag, WriteTag, hw, hb, hm, load16, store16,
        load32, store32, getD_set_buf, Nat.add_assoc, Nat.shiftLeft_eq,
        Nat.shiftRight_eq_div_pow, and_255] <;>
      (try split_ifs) <;> omega
  · interval_cases j <;> interval_cases j2 <;>
      simp [-List.getD_eq_getElem?_getD, ReadTag, WriteTag, hw, hb, hm, load16, store16,
        load32, store32, getD_set_buf, Nat.add_assoc, Nat.shiftLeft_eq,
        Nat.shiftRight_eq_div_pow, and_255, hii] <;>
      (try split_ifs) <;> omega

set_option maxHeartbeats 4000000 in
theorem ReadTag_WriteTag_12 (t : SingleTable) (h : WF t) (hw : t.bits_per_tag_ = 12)
    (i i2 x j j2 : Nat) (hi : i < t.num_buckets_) (hi2 : i2 < t.num_buckets_) (hj : j < 4)
    (hj2 : j2 < 4) :
    ReadTag (WriteTag t i j x) i2 j2 =
      some (if i2 = i ∧ j2 = j then x % 4096 else (ReadTag t i2 j2).getD 0) := by
  have hb : t.bytes_per_bucket_ = 6 := by rw [h.bucket_bytes, hw]
  have hm : t.tag_mask_ = 4095 := by rw [h.mask, hw]; rfl
  have hlen := h.len
  rw [hb] at hlen
  have hB := getD_lt_256 t.data_ h.bytes
  have b0 := hB (i * 6)
  have b1 := hB (i * 6 + 1)
  have b2 := hB (i * 6 + 2)
  have b3 := hB (i * 6 + 3)
  have b4 := hB (i * 6 + 4)
  have b5 := hB (i * 6 + 5)
  by_cases hii : i2 = i
  · subst hii
    interval_cases j <;> interval_cases j2 <;>
      simp [-List.getD_eq_getElem?_getD, ReadTag, WriteTag, hw, hb, hm, load16, store16,
        load32, store32, getD_set_buf, Nat.add_assoc, Nat.shiftLeft_eq,
        Nat.shiftRight_eq_div_pow, and_4095, and_15, load16_and_61440 _ h.bytes, or_low_4096, or_high_16] <;>
      (try split_ifs) <;> omega
  · interval_cases j <;> interval_cases j2 <;>
      simp [-List.getD_eq_getElem?_getD, ReadTag, WriteTag, hw, hb, hm, load16, store16,
        load32, store32, getD_set_buf, Nat.add_assoc, Nat.shiftLeft_eq,
        Nat.shiftRight_eq_div_pow, and_4095, and_15, load16_and_61440 _ h.bytes, or_low_4096, or_high_16, hii] <;>
      (try split_ifs) <;> omega

theorem ReadTag_WriteTag_16 (t : SingleTable) (h : WF t) (hw : t.bits_per_tag_ = 16)
    (i i2 x j j2 : Nat) (hi : i < t.num_buckets_) (_hi2 : i2 < t.num_buckets_) (hj : j < 4)
    (hj2 : j2 < 4) :
    ReadTag (WriteTag t i j x) i2 j2 =
      some (if i2 = i ∧ j2 = j then x % 65536 else (ReadTag t i2 j2).getD 0) := by
  have hb : t.bytes_per_bucket_ = 8 := by rw [h.bucket_bytes, hw]
  have hm : t.tag_mask_ = 65535 := by rw [h.mask, hw]; rfl
  have hlen := h.len
  rw [hb] at hlen
  have hr : ∀ (u : SingleTable), u.bits_per_tag_ = 16 → u.bytes_per_bucket_ = 8 →
      u.tag_mask_ = 65535 →
      u.ReadTag i2 j2 = some (load16 u.data_ (i2 * 8 + 2 * j2) % 65536) := by
    intro u h1 h2 h3
    simp only [ReadTag, h1, h2, h3, and_65535, Nat.shiftLeft_eq]
    simp [Nat.mul_comm]
  have hwr : WriteTag t i j x =
      { t with data_ := store16 t.data_ (i * 8 + 2 * j) (x % 65536) } := by
    simp only [WriteTag, hw, hb, hm, and_65535]
    simp
  rw [hr t hw hb hm, hwr,
    hr { t with data_ := store16 t.data_ (i * 8 + 2 * j) (x % 65536) } hw hb hm]
  simp only [Option.getD_some]
  by_cases hc : i2 = i ∧ j2 = j
  · rw [if_pos hc, hc.1, hc.2, load16_store16_same _ _ _ (by omega)]
    simp
  · rw [if_neg hc, load16_store16_other _ _ _ _ (by omega) (by omega)]

theorem ReadTag_WriteTag_32 (t : SingleTable) (h : WF t) (hw : t.bits_per_tag_ = 32)
    (i i2 x j j2 : Nat) (hi : i < t.num_buckets_) (_hi2 : i2 < t.num_buckets_) (hj : j < 4)
    (hj2 : j2 < 4) :
    ReadTag (WriteTag t i j x) i2 j2 =
      some (if i2 = i ∧ j2 = j then x % 4294967296 else (ReadTag t i2 j2).getD 0) := by
  have hb : t.bytes_per_bucket_ = 16 := by rw [h.bucket_bytes, hw]
  have hm : t.tag_mask_ = 4294967295 := by rw [h.mask, hw]; rfl
  have hlen := h.len
  rw [hb] at hlen
  have hr : ∀ (u : SingleTable), u.bits_per_tag_ = 32 → u.bytes_per_bucket_ = 16 →
      u.tag_mask_ = 4294967295 →
      u.ReadTag i2 j2 = some (load32 u.data_ (i2 * 16 + 4 * j2) % 4294967296) := by
    intro u h1 h2 h3
    simp only [ReadTag, h1, h2, h3, and_4294967295, Nat.shiftLeft_eq]
    simp [Nat.mul_comm]
  have hwr : WriteTag t i j x =
      { t with data_ := store32 t.data_ (i * 16 + 4 * j) (x % 4294967296) } := by
    simp only [WriteTag, hw, hb, hm, and_4294967295]
    simp
  rw [hr t hw hb hm, hwr,
    hr { t with data_ := store32 t.data_ (i * 16 + 4 * j) (x % 4294967296) } hw hb hm]
  simp only [Option.getD_some]
  by_cases hc : i2 = i ∧ j2 = j
  · rw [if_pos hc, hc.1, hc.2, load32_store32_same _ _ _ (by omega)]
    simp
  · rw [if_neg hc, load32_store32_other _ _ _ _ (by omega) (by omega)]

theorem WF.cases {t : SingleTable} (h : WF t) :
    (t.bits_per_tag_ = 4 ∧ t.bytes_per_bucket_ = 2 ∧ t.tag_mask_ = 15) ∨
    (t.bits_per_tag_ = 8 ∧ t.bytes_per_bucket_ = 4 ∧ t.tag_mask_ = 255) ∨
    (t.bits_per_tag_ = 12 ∧ t.bytes_per_bucket_ = 6 ∧ t.tag_mask_ = 4095) ∨
    (t.bits_per_tag_ = 16 ∧ t.bytes_per_bucket_ = 8 ∧ t.tag_mask_ = 65535) ∨
    (t.bits_per_tag_ = 32 ∧ t.bytes_per_bucket_ = 16 ∧ t.tag_mask_ = 4294967295) := by
  have hb := h.bucket_bytes
  have hm := h.mask
  rcases h.width with hw | hw | hw | hw | hw <;> rw [hw] at hb hm
  · exact Or.inl ⟨hw, hb, hm⟩
  · exact Or.inr (Or.inl ⟨hw, hb, hm⟩)
  · exact Or.inr (Or.inr (Or.inl ⟨hw, hb, hm⟩))
  · exact Or.inr (Or.inr (Or.inr (Or.inl ⟨hw, hb, hm⟩)))
  · exact Or.inr (Or.inr (Or.inr (Or.inr ⟨hw, hb, hm⟩)))

theorem ReadTag_some (t : SingleTable) (h : WF t) (i j : Nat) :
    t.ReadTag i j = some (t.slot i j) := by
  unfold slot
  rcases h.width with hw | hw | hw | hw | hw <;> simp [ReadTag, hw]

theorem slot_lt (t : SingleTable) (h : WF t) (i j : Nat) :
    t.slot i j < 2 ^ t.bits_per_tag_ := by
  unfold slot
  rcases h.cases with ⟨hw, _, hm⟩ | ⟨hw, _, hm⟩ | ⟨hw, _, hm⟩ | ⟨hw, _, hm⟩ | ⟨hw, _, hm⟩ <;>
    simp only [ReadTag, hw, hm, and_15, and_255, and_4095, and_65535, and_4294967295,
      Nat.reduceEqDiff, ↓reduceIte, Option.getD_some, Nat.reducePow] <;>
    exact Nat.mod_lt _ (by norm_num)

theorem slot_WriteTag (t : SingleTable) (h : WF t) (i i2 x j j2 : Nat)
    (hi : i < t.num_buckets_) (hi2 : i2 < t.num_buckets_) (hj : j < 4) (hj2 : j2 < 4) :
    (t.WriteTag i j x).slot i2 j2 =
      if i2 = i ∧ j2 = j then x % 2 ^ t.bits_per_tag_ else t.slot i2 j2 := by
  unfold slot
  rcases h.width with hw | hw | hw | hw | hw
  · rw [ReadTag_WriteTag_4 t h hw i i2 x j j2 hi hi2 hj hj2, hw]; rfl
  · rw [ReadTag_WriteTag_8 t h hw i i2 x j j2 hi hi2 hj hj2, hw]; rfl
  · rw [ReadTag_WriteTag_12 t h hw i i2 x j j2 hi hi2 hj hj2, hw]; rfl
  · rw [ReadTag_WriteTag_16 t h hw i i2 x j j2 hi hi2 hj hj2, hw]; rfl
  · rw [ReadTag_WriteTag_32 t h hw i i2 x j j2 hi hi2 hj hj2, hw]; rfl

theorem set_bytes (d : List Nat) (hd : ∀ x ∈ d, x < 256) (p v : Nat) (hv : v < 256) :
    ∀ x ∈ d.set p v, x < 256 := by
  intro x hx
  rcases List.mem_or_eq_of_mem_set hx with h1 | h1
  · exact hd x h1
  · rw [h1]; exact hv

theorem store16_bytes (d : List Nat) (hd : ∀ x ∈ d, x < 256) (p v : Nat) :
    ∀ x ∈ store16 d p v, x < 256 :=
  set_bytes _ (set_bytes _ hd _ _ (Nat.mod_lt _ (by norm_num))) _ _ (Nat.mod_lt _ (by norm_num))

theorem store32_bytes (d : List Nat) (hd : ∀ x ∈ d, x < 256) (p v : Nat) :
    ∀ x ∈ store32 d p v, x < 256 :=
  set_bytes _ (set_bytes _ (set_bytes _ (set_bytes _ hd _ _ (Nat.mod_lt _ (by norm_num))) _ _
    (Nat.mod_lt _ (by norm_num))) _ _ (Nat.mod_lt _ (by norm_num))) _ _
    (Nat.mod_lt _ (by norm_num))

theorem store16_length (d : List Nat) (p v : Nat) : (store16 d p v).length = d.length := by
  simp [store16]

theorem store32_length (d : List Nat) (p v : Nat) : (store32 d p v).length = d.length := by
  simp [store32]

theorem WriteTag_frame (t : SingleTable) (i j x : Nat) :
    (t.WriteTag i j x).num_buckets_ = t.num_buckets_ ∧
    (t.WriteTag i j x).tags_per_bucket_ = t.tags_per_bucket_ ∧
    (t.WriteTag i j x).bytes_per_bucket_ = t.bytes_per_bucket_ ∧
    (t.WriteTag i j x).bits_per_tag_ = t.bits_per_tag_ ∧
    (t.WriteTag i j x).tag_mask_ = t.tag_mask_ ∧
    (t.WriteTag i j x).rand_gen_ = t.rand_gen_ ∧
    (t.WriteTag i j x).rand_pos_ = t.rand_pos_ := by
  unfold WriteTag
  split_ifs <;> exact ⟨rfl, rfl, rfl, rfl, rfl, rfl, rfl⟩

theorem WriteTag_length (t : SingleTable) (i j x : Nat) :
    (t.WriteTag i j x).data_.length = t.data_.length := by
  unfold WriteTag
  split_ifs <;> simp [store16_length, store32_length]

theorem WriteTag_bytes (t : SingleTable) (hd : ∀ x ∈ t.data_, x < 256) (i j x : Nat) :
    ∀ y ∈ (t.WriteTag i j x).data_, y < 256 := by
  unfold WriteTag
  split_ifs
  · exact set_bytes _ hd _ _ (Nat.mod_lt _ (by norm_num))
  · exact set_bytes _ hd _ _ (Nat.mod_lt _ (by norm_num))
  · exact set_bytes _ hd _ _ (Nat.mod_lt _ (by norm_num))
  · exact set_bytes _ hd _ _ (Nat.mod_lt _ (by norm_num))
  · exact store16_bytes _ hd _ _
  · exact store16_bytes _ hd _ _
  · exact store16_bytes _ hd _ _
  · exact store32_bytes _ hd _ _
  · exact hd

theorem WriteTag_WF (t : SingleTable) (h : WF t) (i j x : Nat) : WF (t.WriteTag i j x) := by
  obtain ⟨h1, h2, h3, h4, h5, _, _⟩ := WriteTag_frame t i j x
  exact
    { buckets_pos := by rw [h1]; exact h.buckets_pos
      tags := by rw [h2]; exact h.tags
      width := by rw [h4]; exact h.width
      bucket_bytes := by rw [h3, h4]; exact h.bucket_bytes
      mask := by rw [h5, h4]; exact h.mask
      len := by rw [WriteTag_length, h1, h3]; exact h.len
      bytes := WriteTag_bytes t h.bytes i j x }

/-! ## SingleTable: the packed-word lookup against the slots -/

theorem lanes_4 (t : SingleTable) (h : WF t) (hw : t.bits_per_tag_ = 4) (i : Nat) :
    t.slot i 0 = load64 t.data_ (i * t.bytes_per_bucket_) % 16 ∧
    t.slot i 1 = load64 t.data_ (i * t.bytes_per_bucket_) / 16 % 16 ∧
    t.slot i 2 = load64 t.data_ (i * t.bytes_per_bucket_) / 256 % 16 ∧
    t.slot i 3 = load64 t.data_ (i * t.bytes_per_bucket_) / 4096 % 16 ∧
    load64 t.data_ (i * t.bytes_per_bucket_) < 2 ^ 64 := by
  have hb : t.bytes_per_bucket_ = 2 := by rw [h.bucket_bytes, hw]
  have hm : t.tag_mask_ = 15 := by rw [h.mask, hw]; rfl
  have hB := getD_lt_256 t.data_ h.bytes
  have b0 := hB (i * 2)
  have b1 := hB (i * 2 + 1)
  have b2 := hB (i * 2 + 2)
  have b3 := hB (i * 2 + 3)
  have b4 := hB (i * 2 + 4)
  have b5 := hB (i * 2 + 5)
  have b6 := hB (i * 2 + 6)
  have b7 := hB (i * 2 + 7)
  simp [-List.getD_eq_getElem?_getD, slot, ReadTag, hw, hb, hm, load64, load32, load16, and_15,
    Nat.add_assoc, Nat.shiftLeft_eq, Nat.shiftRight_eq_div_pow]
  refine ⟨?_, ?_, ?_, ?_, ?_⟩ <;> omega

theorem hasvalue4_hasTag (t : SingleTable) (h : WF t) (hw : t.bits_per_tag_ = 4)
    (i tag : Nat) (ht : tag < 16) :
    (hasvalue4 (load64 t.data_ (i * t.bytes_per_bucket_)) tag != 0) = t.hasTag i tag := by
  obtain ⟨l0, l1, l2, l3, hv⟩ := lanes_4 t h hw i
  have key := hasvalue4_iff (load64 t.data_ (i * t.bytes_per_bucket_)) tag hv ht
  rw [← l0, ← l1, ← l2, ← l3] at key
  unfold hasTag
  by_cases hc : hasvalue4 (load64 t.data_ (i * t.bytes_per_bucket_)) tag = 0
  · have hn := (not_congr key).mp (fun hne => hne hc)
    simp [hc, hn]
  · have hp := key.mp hc
    simp [hc, hp]

theorem FindTagInBucket_4 (t : SingleTable) (h : WF t) (hw : t.bits_per_tag_ = 4)
    (i tag : Nat) (ht : tag < 16) : t.FindTagInBucket i tag = some (t.hasTag i tag) := by
  simp only [FindTagInBucket, hw, h.tags, Nat.reduceEqDiff, and_true, and_self,
    ↓reduceIte, false_and, hasvalue4_hasTag t h hw i tag ht]

theorem FindTagInBuckets_4 (t : SingleTable) (h : WF t) (hw : t.bits_per_tag_ = 4)
    (i1 i2 tag : Nat) (ht : tag < 16) :
    t.FindTagInBuckets i1 i2 tag = some (t.hasTag i1 tag || t.hasTag i2 tag) := by
  simp only [FindTagInBuckets, hw, h.tags, Nat.reduceEqDiff, and_true, and_self,
    ↓reduceIte, false_and, hasvalue4_hasTag t h hw i1 tag ht,
    hasvalue4_hasTag t h hw i2 tag ht]

theorem lanes_8 (t : SingleTable) (h : WF t) (hw : t.bits_per_tag_ = 8) (i : Nat) :
    t.slot i 0 = load64 t.data_ (i * t.bytes_per_bucket_) % 256 ∧
    t.slot i 1 = load64 t.data_ (i * t.bytes_per_bucket_) / 256 % 256 ∧
    t.slot i 2 = load64 t.data_ (i * t.bytes_per_bucket_) / 65536 % 256 ∧
    t.slot i 3 = load64 t.data_ (i * t.bytes_per_bucket_) / 16777216 % 256 ∧
    load64 t.data_ (i * t.bytes_per_bucket_) < 2 ^ 64 := by
  have hb : t.bytes_per_bucket_ = 4 := by rw [h.bucket_bytes, hw]
  have hm : t.tag_mask_ = 255 := by rw [h.mask, hw]; rfl
  have hB := getD_lt_256 t.data_ h.bytes
  have b0 := hB (i * 4)
  have b1 := hB (i * 4 + 1)
  have b2 := hB (i * 4 + 2)
  have b3 := hB (i * 4 + 3)
  have b4 := hB (i * 4 + 4)
  have b5 := hB (i * 4 + 5)
  have b6 := hB (i * 4 + 6)
  have b7 := hB (i * 4 + 7)
  simp [-List.getD_eq_getElem?_getD, slot, ReadTag, hw, hb, hm, load64, load32, load16, and_255,
    Nat.add_assoc, Nat.shiftLeft_eq, Nat.shiftRight_eq_div_pow]
  refine ⟨?_, ?_, ?_, ?_, ?_⟩ <;> omega

theorem hasvalue8_hasTag (t : SingleTable) (h : WF t) (hw : t.bits_per_tag_ = 8)
    (i tag : Nat) (ht : tag < 256) :
    (hasvalue8 (load64 t.data_ (i * t.bytes_per_bucket_)) tag != 0) = t.hasTag i tag := by
  obtain ⟨l0, l1, l2, l3, hv⟩ := lanes_8 t h hw i
  have key := hasvalue8_iff (load64 t.data_ (i * t.bytes_per_bucket_)) tag hv ht
  rw [← l0, ← l1, ← l2, ← l3] at key
  unfold hasTag
  by_cases hc : hasvalue8 (load64 t.data_ (i * t.bytes_per_bucket_)) tag = 0
  · have hn := (not_congr key).mp (fun hne => hne hc)
    simp [hc, hn]
  · have hp := key.mp hc
    simp [hc, hp]

theorem FindTagInBucket_8 (t : SingleTable) (h : WF t) (hw : t.bits_per_tag_ = 8)
    (i tag : Nat) (ht : tag < 256) : t.FindTagInBucket i tag = some (t.hasTag i tag) := by
  simp only [FindTagInBucket, hw, h.tags, Nat.reduceEqDiff, and_true, and_self,
    ↓reduceIte, false_and, hasvalue8_hasTag t h hw i tag ht]

theorem FindTagInBuckets_8 (t : SingleTable) (h : WF t) (hw : t.bits_per_tag_ = 8)
    (i1 i2 tag : Nat) (ht : tag < 256) :
    t.FindTagInBuckets i1 i2 tag = some (t.hasTag i1 tag || t.hasTag i2 tag) := by
  simp only [FindTagInBuckets, hw, h.tags, Nat.reduceEqDiff, and_true, and_self,
    ↓reduceIte, false_and, hasvalue8_hasTag t h hw i1 tag ht,
    hasvalue8_hasTag t h hw i2 tag ht]

theorem lanes_12 (t : SingleTable) (h : WF t) (hw : t.bits_per_tag_ = 12) (i : Nat) :
    t.slot i 0 = load64 t.data_ (i * t.bytes_per_bucket_) % 4096 ∧
    t.slot i 1 = load64 t.data_ (i * t.bytes_per_bucket_) / 4096 % 4096 ∧
    t.slot i 2 = load64 t.data_ (i * t.bytes_per_bucket_) / 16777216 % 4096 ∧
    t.slot i 3 = load64 t.data_ (i * t.bytes_per_bucket_) / 68719476736 % 4096 ∧
    load64 t.data_ (i * t.bytes_per_bucket_) < 2 ^ 64 := by
  have hb : t.bytes_per_bucket_ = 6 := by rw [h.bucket_bytes, hw]
  have hm : t.tag_mask_ = 4095 := by rw [h.mask, hw]; rfl
  have hB := getD_lt_256 t.data_ h.bytes
  have b0 := hB (i * 6)
  have b1 := hB (i * 6 + 1)
  have b2 := hB (i * 6 + 2)
  have b3 := hB (i * 6 + 3)
  have b4 := hB (i * 6 + 4)
  have b5 := hB (i * 6 + 5)
  have b6 := hB (i * 6 + 6)
  have b7 := hB (i * 6 + 7)
  simp [-List.getD_eq_getElem?_getD, slot, ReadTag, hw, hb, hm, load64, load32, load16, and_4095,
    Nat.add_assoc, Nat.shiftLeft_eq, Nat.shiftRight_eq_div_pow]
  refine ⟨?_, ?_, ?_, ?_, ?_⟩ <;> omega

theorem hasvalue12_hasTag (t : SingleTable) (h : WF t) (hw : t.bits_per_tag_ = 12)
    (i tag : Nat) (ht : tag < 4096) :
    (hasvalue12 (load64 t.data_ (i * t.bytes_per_bucket_)) tag != 0) = t.hasTag i tag := by
  obtain ⟨l0, l1, l2, l3, hv⟩ := lanes_12 t h hw i
  have key := hasvalue12_iff (load64 t.data_ (i * t.bytes_per_bucket_)) tag hv ht
  rw [← l0, ← l1, ← l2, ← l3] at key
  unfold hasTag
  by_cases hc : hasvalue12 (load64 t.data_ (i * t.bytes_per_bucket_)) tag = 0
  · have hn := (not_congr key).mp (fun hne => hne hc)
    simp [hc, hn]
  · have hp := key.mp hc
    simp [hc, hp]

theorem FindTagInBucket_12 (t : SingleTable) (h : WF t) (hw : t.bits_per_tag_ = 12)
    (i tag : Nat) (ht : tag < 4096) : t.FindTagInBucket i tag = some (t.hasTag i tag) := by
  simp only [FindTagInBucket, hw, h.tags, Nat.reduceEqDiff, and_true, and_self,
    ↓reduceIte, false_and, hasvalue12_hasTag t h hw i tag ht]

theorem FindTagInBuckets_12 (t : SingleTable) (h : WF t) (hw : t.bits_per_tag_ = 12)
    (i1 i2 tag : Nat) (ht : tag < 4096) :
    t.FindTagInBuckets i1 i2 tag = some (t.hasTag i1 tag || t.hasTag i2 tag) := by
  simp only [FindTagInBuckets, hw, h.tags, Nat.reduceEqDiff, and_true, and_self,
    ↓reduceIte, false_and, hasvalue12_hasTag t h hw i1 tag ht,
    hasvalue12_hasTag t h hw i2 tag ht]

theorem lanes_16 (t : SingleTable) (h : WF t) (hw : t.bits_per_tag_ = 16) (i : Nat) :
    t.slot i 0 = load64 t.data_ (i * t.bytes_per_bucket_) % 65536 ∧
    t.slot i 1 = load64 t.data_ (i * t.bytes_per_bucket_) / 65536 % 65536 ∧
    t.slot i 2 = load64 t.data_ (i * t.bytes_per_bucket_) / 4294967296 % 65536 ∧
    t.slot i 3 = load64 t.data_ (i * t.bytes_per_bucket_) / 281474976710656 % 65536 ∧
    load64 t.data_ (i * t.bytes_per_bucket_) < 2 ^ 64 := by
  have hb : t.bytes_per_bucket_ = 8 := by rw [h.bucket_bytes, hw]
  have hm : t.tag_mask_ = 65535 := by rw [h.mask, hw]; rfl
  have hB := getD_lt_256 t.data_ h.bytes
  have b0 := hB (i * 8)
  have b1 := hB (i * 8 + 1)
  have b2 := hB (i * 8 + 2)
  have b3 := hB (i * 8 + 3)
  have b4 := hB (i * 8 + 4)
  have b5 := hB (i * 8 + 5)
  have b6 := hB (i * 8 + 6)
  have b7 := hB (i * 8 + 7)
  simp [-List.getD_eq_getElem?_getD, slot, ReadTag, hw, hb, hm, load64, load32, load16, and_65535,
    Nat.add_assoc, Nat.shiftLeft_eq, Nat.shiftRight_eq_div_pow]
  refine ⟨?_, ?_, ?_, ?_, ?_⟩ <;> omega

theorem hasvalue16_hasTag (t : SingleTable) (h : WF t) (hw : t.bits_per_tag_ = 16)
    (i tag : Nat) (ht : tag < 65536) :
    (hasvalue16 (load64 t.data_ (i * t.bytes_per_bucket_)) tag != 0) = t.hasTag i tag := by
  obtain ⟨l0, l1, l2, l3, hv⟩ := lanes_16 t h hw i
  have key := hasvalue16_iff (load64 t.data_ (i * t.bytes_per_bucket_)) tag hv ht
  rw [← l0, ← l1, ← l2, ← l3] at key
  unfold hasTag
  by_cases hc : hasvalue16 (load64 t.data_ (i * t.bytes_per_bucket_)) tag = 0
  · have hn := (not_congr key).mp (fun hne => hne hc)
    simp [hc, hn]
  · have hp := key.mp hc
    simp [hc, hp]

theorem FindTagInBucket_16 (t : SingleTable) (h : WF t) (hw : t.bits_per_tag_ = 16)
    (i tag : Nat) (ht : tag < 65536) : t.FindTagInBucket i tag = some (t.hasTag i tag) := by
  simp only [FindTagInBucket, hw, h.tags, Nat.reduceEqDiff, and_true, and_self,
    ↓reduceIte, false_and, hasvalue16_hasTag t h hw i tag ht]

theorem FindTagInBuckets_16 (t : SingleTable) (h : WF t) (hw : t.bits_per_tag_ = 16)
    (i1 i2 tag : Nat) (ht : tag < 65536) :
    t.FindTagInBuckets i1 i2 tag = some (t.hasTag i1 tag || t.hasTag i2 tag) := by
  simp only [FindTagInBuckets, hw, h.tags, Nat.reduceEqDiff, and_true, and_self,
    ↓reduceIte, false_and, hasvalue16_hasTag t h hw i1 tag ht,
    hasvalue16_hasTag t h hw i2 tag ht]

theorem FindTagInBucket_32 (t : SingleTable) (h : WF t) (hw : t.bits_per_tag_ = 32)
    (i tag : Nat) : t.FindTagInBucket i tag = some (t.hasTag i tag) := by
  simp only [FindTagInBucket, hw, h.tags, Nat.reduceEqDiff, false_and, ↓reduceIte,
    FindTagInBucket.loop, ReadTag_some t h, hasTag]
  by_cases h0 : t.slot i 0 = tag <;> by_cases h1 : t.slot i (0 + 1) = tag <;>
    by_cases h2 : t.slot i (0 + 1 + 1) = tag <;> by_cases h3 : t.slot i (0 + 1 + 1 + 1) = tag <;>
    simp [h0, h1, h2, h3]

theorem FindTagInBuckets_32 (t : SingleTable) (h : WF t) (hw : t.bits_per_tag_ = 32)
    (i1 i2 tag : Nat) :
    t.FindTagInBuckets i1 i2 tag = some (t.hasTag i1 tag || t.hasTag i2 tag) := by
  simp only [FindTagInBuckets, hw, h.tags, Nat.reduceEqDiff, false_and, ↓reduceIte,
    FindTagInBuckets.loop, ReadTag_some t h, hasTag]
  by_cases h0 : t.slot i1 0 = tag <;> by_cases h1 : t.slot i1 (0 + 1) = tag <;>
    by_cases h2 : t.slot i1 (0 + 1 + 1) = tag <;>
    by_cases h3 : t.slot i1 (0 + 1 + 1 + 1) = tag <;>
    by_cases g0 : t.slot i2 0 = tag <;> by_cases g1 : t.slot i2 (0 + 1) = tag <;>
    by_cases g2 : t.slot i2 (0 + 1 + 1) = tag <;>
    by_cases g3 : t.slot i2 (0 + 1 + 1 + 1) = tag <;>
    simp [h0, h1, h2, h3, g0, g1, g2, g3]

theorem FindTagInBucket_eq (t : SingleTable) (h : WF t) (i tag : Nat)
    (ht : tag < 2 ^ t.bits_per_tag_) : t.FindTagInBucket i tag = some (t.hasTag i tag) := by
  rcases h.width with hw | hw | hw | hw | hw <;> rw [hw] at ht
  · exact FindTagInBucket_4 t h hw i tag ht
  · exact FindTagInBucket_8 t h hw i tag ht
  · exact FindTagInBucket_12 t h hw i tag ht
  · exact FindTagInBucket_16 t h hw i tag ht
  · exact FindTagInBucket_32 t h hw i tag

theorem FindTagInBuckets_eq (t : SingleTable) (h : WF t) (i1 i2 tag : Nat)
    (ht : tag < 2 ^ t.bits_per_tag_) :
    t.FindTagInBuckets i1 i2 tag = some (t.hasTag i1 tag || t.hasTag i2 tag) := by
  rcases h.width with hw | hw | hw | hw | hw <;> rw [hw] at ht
  · exact FindTagInBuckets_4 t h hw i1 i2 tag ht
  · exact FindTagInBuckets_8 t h hw i1 i2 tag ht
  · exact FindTagInBuckets_12 t h hw i1 i2 tag ht
  · exact FindTagInBuckets_16 t h hw i1 i2 tag ht
  · exact FindTagInBuckets_32 t h hw i1 i2 tag

theorem hasTag_iff (t : SingleTable) (i tag : Nat) :
    t.hasTag i tag = true ↔ ∃ j, j < 4 ∧ t.slot i j = tag := by
  unfold hasTag
  rw [decide_eq_true_iff]
  constructor
  · rintro (h | h | h | h)
    · exact ⟨0, by norm_num, h⟩
    · exact ⟨1, by norm_num, h⟩
    · exact ⟨2, by norm_num, h⟩
    · exact ⟨3, by norm_num, h⟩
  · rintro ⟨j, hj, h⟩
    interval_cases j
    · exact Or.inl h
    · exact Or.inr (Or.inl h)
    · exact Or.inr (Or.inr (Or.inl h))
    · exact Or.inr (Or.inr (Or.inr h))

/-! ## SingleTable: inserting into and deleting from a bucket -/

theorem slot_rand_pos (t : SingleTable) (n i j : Nat) :
    ({ t with rand_pos_ := n } : SingleTable).slot i j = t.slot i j := rfl

theorem WF_rand_pos (t : SingleTable) (h : WF t) (n : Nat) :
    WF ({ t with rand_pos_ := n } : SingleTable) :=
  { buckets_pos := h.buckets_pos, tags := h.tags, width := h.width,
    bucket_bytes := h.bucket_bytes, mask := h.mask, len := h.len, bytes := h.bytes }

theorem InsertTagToBucket_loop_eq (t : SingleTable) (h : WF t) (i tag : Nat) :
    InsertTagToBucket.loop t i tag t.tags_per_bucket_ 0 =
      some (if t.slot i 0 = 0 then some (t.WriteTag i 0 tag)
        else if t.slot i 1 = 0 then some (t.WriteTag i 1 tag)
        else if t.slot i 2 = 0 then some (t.WriteTag i 2 tag)
        else if t.slot i 3 = 0 then some (t.WriteTag i 3 tag) else none) := by
  rw [h.tags]
  simp only [InsertTagToBucket.loop, ReadTag_some t h]
  split_ifs <;> rfl

theorem InsertTagToBucket_cases (t : SingleTable) (h : WF t) (i tag : Nat) (kickout : Bool)
    (oldtag : Nat) :
    (∃ j, j < 4 ∧ t.slot i j = 0 ∧
      t.InsertTagToBucket i tag kickout oldtag = some (true, oldtag, t.WriteTag i j tag)) ∨
    ((∀ j, j < 4 → t.slot i j ≠ 0) ∧ kickout = false ∧
      t.InsertTagToBucket i tag kickout oldtag = some (false, oldtag, t)) ∨
    ((∀ j, j < 4 → t.slot i j ≠ 0) ∧ kickout = true ∧
      ∃ r, r < 4 ∧ t.InsertTagToBucket i tag kickout oldtag =
        some (false, t.slot i r,
          ({ t with rand_pos_ := t.rand_pos_ + 1 } : SingleTable).WriteTag i r tag)) := by
  unfold InsertTagToBucket
  rw [InsertTagToBucket_loop_eq t h]
  have hr : t.rand_gen_ t.rand_pos_ % 2 ^ 64 % t.tags_per_bucket_ < 4 := by
    rw [h.tags]
    exact Nat.mod_lt _ (by norm_num)
  generalize t.rand_gen_ t.rand_pos_ % 2 ^ 64 % t.tags_per_bucket_ = r at hr
  simp only [ReadTag_some _ (WF_rand_pos t h (t.rand_pos_ + 1)), slot_rand_pos]
  by_cases h0 : t.slot i 0 = 0
  · exact Or.inl ⟨0, by norm_num, h0, by simp [h0]⟩
  by_cases h1 : t.slot i 1 = 0
  · exact Or.inl ⟨1, by norm_num, h1, by simp [h0, h1]⟩
  by_cases h2 : t.slot i 2 = 0
  · exact Or.inl ⟨2, by norm_num, h2, by simp [h0, h1, h2]⟩
  by_cases h3 : t.slot i 3 = 0
  · exact Or.inl ⟨3, by norm_num, h3, by simp [h0, h1, h2, h3]⟩
  have hall : ∀ j, j < 4 → t.slot i j ≠ 0 := by
    intro j hj
    interval_cases j <;> assumption
  right
  cases kickout
  · exact Or.inl ⟨hall, rfl, by simp [h0, h1, h2, h3]⟩
  · exact Or.inr ⟨hall, rfl, r, hr, by simp [h0, h1, h2, h3]⟩

theorem DeleteTagFromBucket_cases (t : SingleTable) (h : WF t) (i tag : Nat)
    (ht : tag < 2 ^ t.bits_per_tag_) :
    (∃ j, j < 4 ∧ t.slot i j = tag ∧
      t.DeleteTagFromBucket i tag = some (true, t.WriteTag i j 0)) ∨
    (t.hasTag i tag = false ∧ t.DeleteTagFromBucket i tag = some (false, t)) := by
  have hfind := FindTagInBucket_eq t h i tag ht
  by_cases hc : t.hasTag i tag = true
  · left
    simp only [DeleteTagFromBucket, h.tags, DeleteTagFromBucket.loop, ReadTag_some t h, hfind,
      hc]
    unfold hasTag at hc
    rw [decide_eq_true_iff] at hc
    by_cases h0 : t.slot i 0 = tag
    · exact ⟨0, by norm_num, h0, by simp [h0]⟩
    by_cases h1 : t.slot i 1 = tag
    · exact ⟨1, by norm_num, h1, by simp [h0, h1]⟩
    by_cases h2 : t.slot i 2 = tag
    · exact ⟨2, by norm_num, h2, by simp [h0, h1, h2]⟩
    by_cases h3 : t.slot i 3 = tag
    · exact ⟨3, by norm_num, h3, by simp [h0, h1, h2, h3]⟩
    · exfalso
      rcases hc with hc | hc | hc | hc
      · exact h0 hc
      · exact h1 hc
      · exact h2 hc
      · exact h3 hc
  · right
    have hf : t.hasTag i tag = false := by simpa using hc
    refine ⟨hf, ?_⟩
    unfold hasTag at hf
    rw [decide_eq_false_iff_not] at hf
    push_neg at hf
    obtain ⟨h0, h1, h2, h3⟩ := hf
    simp [DeleteTagFromBucket, h.tags, DeleteTagFromBucket.loop, ReadTag_some t h, h0, h1, h2, h3]

end SingleTable
namespace CuckooFilter

/-! ## CuckooFilter: bucket indices and tags -/

theorem AltIndex_congr (f g : CuckooFilter)
    (h : g.table_.num_buckets_ = f.table_.num_buckets_) (i tag : Nat) :
    g.AltIndex i tag = f.AltIndex i tag := by
  simp only [AltIndex, BucketIndexHash, SingleTable.NumBuckets, h]

theorem BucketIndexHash_valid (f : CuckooFilter) (h : WF f) (val : Nat) (hv : val < 2 ^ 32) :
    f.validIndex (f.BucketIndexHash val) := by
  have hpos := h.table.buckets_pos
  unfold validIndex BucketIndexHash SingleTable.NumBuckets
  exact ⟨Nat.mod_lt _ hpos, lt_of_le_of_lt (Nat.mod_le _ _) hv⟩

theorem AltIndex_valid (f : CuckooFilter) (h : WF f) (i tag : Nat) :
    f.validIndex (f.AltIndex i tag) :=
  BucketIndexHash_valid f h _ (Nat.mod_lt _ (by norm_num))

theorem xor_mod_xor (i x k : Nat) (hi : i < 2 ^ k) : ((i ^^^ x) % 2 ^ k ^^^ x) % 2 ^ k = i := by
  apply Nat.eq_of_testBit_eq
  intro b
  rw [Nat.testBit_mod_two_pow, Nat.testBit_xor, Nat.testBit_mod_two_pow, Nat.testBit_xor]
  by_cases hb : b < k
  · simp [hb]
  · have : i.testBit b = false :=
      Nat.testBit_lt_two_pow (lt_of_lt_of_le hi (Nat.pow_le_pow_right (by norm_num) (by omega)))
    simp [hb, this]

theorem AltIndex_AltIndex (f : CuckooFilter) (h : WF f) (i tag : Nat) (hi : f.validIndex i) :
    f.AltIndex (f.AltIndex i tag) tag = i := by
  obtain ⟨k, hk⟩ := h.pow2
  obtain ⟨hi1, hi2⟩ := hi
  simp only [AltIndex, BucketIndexHash, SingleTable.NumBuckets, hk]
  rw [hk] at hi1
  generalize tag * 0x5bd1e995 % 2 ^ 32 = x
  by_cases hk32 : k ≤ 32
  · have e1 : ∀ y, y % 2 ^ 32 % 2 ^ k = y % 2 ^ k := by
      intro y
      exact Nat.mod_mod_of_dvd y (Nat.pow_dvd_pow 2 hk32)
    rw [e1, e1]
    exact xor_mod_xor i x k hi1
  · have hx : x % 2 ^ 32 = x → True := fun _ => trivial
    have hlt : (2 : Nat) ^ 32 < 2 ^ k := Nat.pow_lt_pow_right (by norm_num) (by omega)
    have e1 : ∀ y, y % 2 ^ 32 % 2 ^ k = y % 2 ^ 32 := by
      intro y
      exact Nat.mod_eq_of_lt (lt_trans (Nat.mod_lt _ (by norm_num)) hlt)
    rw [e1, e1]
    exact xor_mod_xor i x 32 hi2

theorem WF.mask_eq {f : CuckooFilter} (h : WF f) :
    ((1 <<< f.bits_per_element_) % 2 ^ 64 + 2 ^ 64 - 1) % 2 ^ 64 = 2 ^ f.bits_per_element_ - 1 := by
  have hw := h.table.width
  rw [← h.bits] at hw
  rcases hw with hw | hw | hw | hw | hw <;> rw [hw] <;> rfl

theorem TagHash_valid (f : CuckooFilter) (h : WF f) (val : Nat) :
    f.validTag (f.TagHash val) := by
  unfold validTag TagHash
  rw [h.mask_eq, Nat.and_pow_two_sub_one_eq_mod]
  have hw := h.table.width
  rw [← h.bits] at hw
  have hlt := Nat.mod_lt val (Nat.two_pow_pos f.bits_per_element_)
  have h32 : 2 ^ f.bits_per_element_ ≤ 2 ^ 32 :=
    Nat.pow_le_pow_right (by norm_num) (by rcases hw with hw | hw | hw | hw | hw <;> omega)
  have h1 : 1 < 2 ^ f.bits_per_element_ :=
    Nat.one_lt_two_pow (by rcases hw with hw | hw | hw | hw | hw <;> omega)
  generalize val % 2 ^ f.bits_per_element_ = v at hlt
  generalize 2 ^ f.bits_per_element_ = m at *
  norm_num at h32
  have e : v % 2 ^ 32 = v := Nat.mod_eq_of_lt (by norm_num; omega)
  simp only [e]
  by_cases hz : v = 0
  · subst hz
    norm_num
    exact h1
  · have e2 : (v + 0) % 2 ^ 32 = v := by rw [Nat.add_zero]; exact e
    rw [if_neg hz, e2]
    omega

theorem GetIndexAndTag_valid (hash : Nat → Nat → Nat) (f : CuckooFilter) (h : WF f)
    (key : Nat) :
    f.validIndex (GetIndexAndTag hash f key).1 ∧ f.validTag (GetIndexAndTag hash f key).2 :=
  ⟨BucketIndexHash_valid f h _ (Nat.mod_lt _ (by norm_num)), TagHash_valid f h _⟩

theorem validTag_lt (f : CuckooFilter) (h : WF f) (tag : Nat) (ht : f.validTag tag) :
    tag < 2 ^ f.table_.bits_per_tag_ := by
  rw [← h.bits]
  exact ht.2

theorem Contains_eq (hash : Nat → Nat → Nat) (f : CuckooFilter) (h : WF f) (key : Nat) :
    Contains hash f key =
      some (f.holds (GetIndexAndTag hash f key).1 (GetIndexAndTag hash f key).2) := by
  obtain ⟨hi, ht⟩ := GetIndexAndTag_valid hash f h key
  unfold Contains holds
  simp only [AltIndex_AltIndex f h _ _ hi, ne_eq, not_true_eq_false, ↓reduceIte,
    SingleTable.FindTagInBuckets_eq f.table_ h.table _ _ _ (validTag_lt f h _ ht)]
  generalize (GetIndexAndTag hash f key).1 = i
  generalize (GetIndexAndTag hash f key).2 = tag
  cases f.last_victim_.used <;> cases f.table_.hasTag i tag <;>
    cases f.table_.hasTag (f.AltIndex i tag) tag <;>
    by_cases h1 : tag = f.last_victim_.tag <;> by_cases h2 : i = f.last_victim_.index <;>
    by_cases h3 : f.AltIndex i tag = f.last_victim_.index <;> simp [h1, h2, h3] <;>
    simp [← h1, h3]

end CuckooFilter

namespace SingleTable

theorem hasTag_WriteTag_new (t : SingleTable) (h : WF t) (i j tag : Nat)
    (hi : i < t.num_buckets_) (hj : j < 4) (ht : tag < 2 ^ t.bits_per_tag_) :
    (t.WriteTag i j tag).hasTag i tag = true := by
  rw [hasTag_iff]
  refine ⟨j, hj, ?_⟩
  rw [slot_WriteTag t h i i tag j j hi hi hj hj, if_pos ⟨rfl, rfl⟩, Nat.mod_eq_of_lt ht]

theorem hasTag_WriteTag_keep (t : SingleTable) (h : WF t) (i j x i2 tag : Nat)
    (hi : i < t.num_buckets_) (hj : j < 4) (hi2 : i2 < t.num_buckets_)
    (hne : i2 = i → t.slot i j ≠ tag) (hc : t.hasTag i2 tag = true) :
    (t.WriteTag i j x).hasTag i2 tag = true := by
  rw [hasTag_iff] at hc ⊢
  obtain ⟨j2, hj2, hs⟩ := hc
  refine ⟨j2, hj2, ?_⟩
  rw [slot_WriteTag t h i i2 x j j2 hi hi2 hj hj2]
  by_cases hc : i2 = i ∧ j2 = j
  · exfalso
    obtain ⟨e1, e2⟩ := hc
    subst e1 e2
    exact hne rfl hs
  · rw [if_neg hc, hs]

end SingleTable

namespace CuckooFilter

/-! ## CuckooFilter: the kick loop of `AddInternal` -/

theorem covers_alt (f : CuckooFilter) (h : WF f) (ci ct i tag : Nat) (hi : f.validIndex i)
    (hc : f.covers ci ct i tag) : f.covers (f.AltIndex ci ct) ct i tag := by
  rcases hc with hc | hc | ⟨rfl, hc⟩
  · exact Or.inl hc
  · exact Or.inr (Or.inl hc)
  · right; right
    refine ⟨rfl, ?_⟩
    rcases hc with hc | hc
    · right; rw [hc]
    · left; rw [← hc, AltIndex_AltIndex f h i tag hi]

theorem WF_set_table (f : CuckooFilter) (h : WF f) (t : SingleTable) (ht : t.WF)
    (hb : t.bits_per_tag_ = f.table_.bits_per_tag_)
    (hn : t.num_buckets_ = f.table_.num_buckets_) (n : Int) :
    WF { f with table_ := t, num_elements_ := n } :=
  { table := ht
    bits := by rw [hb]; exact h.bits
    pow2 := by rw [hn]; exact h.pow2
    victim := by
      intro hu
      have hv := h.victim hu
      exact ⟨⟨by rw [hn]; exact hv.1.1, hv.1.2⟩, hv.2⟩ }

theorem step_free (f : CuckooFilter) (h : WF f) (hv : f.last_victim_.used = false)
    (ci ct j : Nat) (n : Int) (hci : f.validIndex ci) (hct : f.validTag ct) (hj : j < 4)
    (hz : f.table_.slot ci j = 0) (i tag : Nat) (hi : f.validIndex i) (ht : f.validTag tag)
    (hc : f.covers ci ct i tag) :
    ({ f with table_ := f.table_.WriteTag ci j ct, num_elements_ := n } : CuckooFilter).holds
      i tag = true := by
  have hnb := (SingleTable.WriteTag_frame f.table_ ci j ct).1
  have halt : ∀ a b, ({ f with table_ := f.table_.WriteTag ci j ct, num_elements_ := n } :
      CuckooFilter).AltIndex a b = f.AltIndex a b :=
    fun a b => AltIndex_congr f _ hnb a b
  have hne : ∀ i2, i2 = ci → f.table_.slot ci j ≠ tag := by
    intro i2 _
    rw [hz]
    exact fun e => absurd e.symm (Nat.pos_iff_ne_zero.mp ht.1)
  unfold holds
  simp only [halt, hv, Bool.false_and, Bool.or_false, Bool.or_eq_true]
  rcases hc with hc | hc | ⟨rfl, hc⟩
  · exact Or.inl (SingleTable.hasTag_WriteTag_keep f.table_ h.table ci j ct i tag hci.1 hj
      hi.1 (hne i) hc)
  · exact Or.inr (SingleTable.hasTag_WriteTag_keep f.table_ h.table ci j ct _ tag hci.1 hj
      (AltIndex_valid f h i tag).1 (hne _) hc)
  · have hnew := SingleTable.hasTag_WriteTag_new f.table_ h.table ci j tag hci.1 hj
      (validTag_lt f h tag hct)
    rcases hc with hc | hc
    · left; rw [hc]; exact hnew
    · right; rw [hc]; exact hnew

theorem step_kick (f : CuckooFilter) (h : WF f) (ci ct r p : Nat) (hci : f.validIndex ci)
    (hct : f.validTag ct) (hr : r < 4) (i tag : Nat) (hi : f.validIndex i)
    (hc : f.covers ci ct i tag) :
    ({ f with table_ :=
        ({ f.table_ with rand_pos_ := p } : SingleTable).WriteTag ci r ct } : CuckooFilter).covers
      (f.AltIndex ci (f.table_.slot ci r)) (f.table_.slot ci r) i tag := by
  have hwf := SingleTable.WF_rand_pos f.table_ h.table p
  have hnb := (SingleTable.WriteTag_frame ({ f.table_ with rand_pos_ := p } : SingleTable)
    ci r ct).1
  have halt : ∀ a b, ({ f with table_ :=
      ({ f.table_ with rand_pos_ := p } : SingleTable).WriteTag ci r ct } :
      CuckooFilter).AltIndex a b = f.AltIndex a b :=
    fun a b => AltIndex_congr f _ hnb a b
  unfold covers
  simp only [halt]
  by_cases hold : tag = f.table_.slot ci r
  · -- the tag may be the one kicked out
    rcases hc with hc | hc | ⟨e, hc⟩
    · by_cases hic : i = ci
      · right; right
        exact ⟨hold, Or.inr (by rw [hic, hold])⟩
      · left
        exact SingleTable.hasTag_WriteTag_keep _ hwf ci r ct i tag hci.1 hr hi.1
          (fun e => absurd e hic) hc
    · by_cases hic : f.AltIndex i tag = ci
      · right; right
        refine ⟨hold, Or.inl ?_⟩
        rw [← hold, ← hic, AltIndex_AltIndex f h i tag hi]
      · right; left
        exact SingleTable.hasTag_WriteTag_keep _ hwf ci r ct _ tag hci.1 hr
          (AltIndex_valid f h i tag).1 (fun e => absurd e hic) hc
    · have hnew := SingleTable.hasTag_WriteTag_new _ hwf ci r tag hci.1 hr
        (validTag_lt f h tag (e ▸ hct))
      subst e
      rcases hc with hc | hc
      · left; rw [hc]; exact hnew
      · right; left; rw [hc]; exact hnew
  · have hne : ∀ i2, i2 = ci →
        ({ f.table_ with rand_pos_ := p } : SingleTable).slot ci r ≠ tag :=
      fun _ _ e => hold e.symm
    rcases hc with hc | hc | ⟨e, hc⟩
    · left
      exact SingleTable.hasTag_WriteTag_keep _ hwf ci r ct i tag hci.1 hr hi.1 (hne i) hc
    · right; left
      exact SingleTable.hasTag_WriteTag_keep _ hwf ci r ct _ tag hci.1 hr
        (AltIndex_valid f h i tag).1 (hne _) hc
    · have hnew := SingleTable.hasTag_WriteTag_new _ hwf ci r tag hci.1 hr
        (validTag_lt f h tag (e ▸ hct))
      subst e
      rcases hc with hc | hc
      · left; rw [hc]; exact hnew
      · right; left; rw [hc]; exact hnew

theorem AddInternal_loop_spec (n : Nat) :
    ∀ (f : CuckooFilter) (count ci ct : Nat), WF f → f.last_victim_.used = false →
      f.validIndex ci → f.validTag ct →
      ∃ f2, AddInternal.loop n f count ci ct = some (true, f2) ∧ WF f2 ∧
        f2.bits_per_element_ = f.bits_per_element_ ∧
        f2.table_.num_buckets_ = f.table_.num_buckets_ ∧
        f2.expected_num_elements_ = f.expected_num_elements_ ∧
        f2.log_regulator_ = f.log_regulator_ ∧
        (∀ i tag, f.validIndex i → f.validTag tag → f.covers ci ct i tag →
          f2.holds i tag = true) ∧
        ((f2.num_elements_ = wrap_int64 (f.num_elements_ + 1) ∧ f2.last_victim_.used = false) ∨
          (f2.num_elements_ = f.num_elements_ ∧ f2.last_victim_.used = true)) := by
  induction n with
  | zero =>
    intro f count ci ct h hv hci hct
    refine ⟨_, rfl, ?_, rfl, rfl, rfl, rfl, ?_, Or.inr ⟨rfl, rfl⟩⟩
    · exact { table := h.table, bits := h.bits, pow2 := h.pow2, victim := fun _ => ⟨hci, hct⟩ }
    · intro i tag _ _ hc
      have halt : ∀ a b, ({ f with last_victim_ := { index := ci, tag := ct, used := true } } :
          CuckooFilter).AltIndex a b = f.AltIndex a b := fun a b => rfl
      unfold holds
      simp only [halt, Bool.true_and, Bool.or_eq_true, Bool.and_eq_true, decide_eq_true_eq]
      rcases hc with hc | hc | hc
      · exact Or.inl (Or.inl hc)
      · exact Or.inl (Or.inr hc)
      · exact Or.inr hc
  | succ n ih =>
    intro f count ci ct h hv hci hct
    rcases SingleTable.InsertTagToBucket_cases f.table_ h.table ci ct (decide (count > 0)) 0 with
      ⟨j, hj, hz, hres⟩ | ⟨hfull, hk, hres⟩ | ⟨hfull, hk, r, hr, hres⟩
    · -- a free slot
      have hfr := SingleTable.WriteTag_frame f.table_ ci j ct
      refine ⟨{ f with table_ := f.table_.WriteTag ci j ct,
                       num_elements_ := wrap_int64 (f.num_elements_ + 1) }, ?_, ?_, rfl, hfr.1,
        rfl, rfl, ?_, Or.inl ⟨rfl, hv⟩⟩
      · simp only [AddInternal.loop, hres]
      · exact WF_set_table f h _ (SingleTable.WriteTag_WF _ h.table _ _ _) hfr.2.2.2.1 hfr.1 _
      · intro i tag hi ht hc
        exact step_free f h hv ci ct j _ hci hct hj hz i tag hi ht hc
    · -- bucket full, first iteration: no kick
      obtain ⟨f2, h1, h2, h3, h4, h5, h6, h7, h8⟩ :=
        ih f (count + 1) (f.AltIndex ci ct) ct h hv (AltIndex_valid f h ci ct) hct
      refine ⟨f2, ?_, h2, h3, h4, h5, h6, ?_, h8⟩
      · rw [hk] at hres
        simp only [AddInternal.loop, hk, hres, Bool.false_eq_true, ↓reduceIte]
        exact h1
      · intro i tag hi ht hc
        exact h7 i tag hi ht (covers_alt f h ci ct i tag hi hc)
    · -- bucket full: kick out the tag of slot r
      obtain ⟨t1, ht1⟩ : ∃ t1, t1 =
          ({ f.table_ with rand_pos_ := f.table_.rand_pos_ + 1 } : SingleTable).WriteTag ci r ct :=
        ⟨_, rfl⟩
      rw [← ht1, hk] at hres
      have hwf := SingleTable.WF_rand_pos f.table_ h.table (f.table_.rand_pos_ + 1)
      have hfr := SingleTable.WriteTag_frame
        ({ f.table_ with rand_pos_ := f.table_.rand_pos_ + 1 } : SingleTable) ci r ct
      rw [← ht1] at hfr
      have hwf1 : t1.WF := by rw [ht1]; exact SingleTable.WriteTag_WF _ hwf _ _ _
      have hf1 : WF ({ f with table_ := t1 } : CuckooFilter) :=
        WF_set_table f h _ hwf1 hfr.2.2.2.1 hfr.1 f.num_elements_
      have hold : f.validTag (f.table_.slot ci r) :=
        ⟨Nat.pos_of_ne_zero (hfull r hr), by
          rw [h.bits]; exact SingleTable.slot_lt f.table_ h.table ci r⟩
      have halt : ∀ a b, ({ f with table_ := t1 } : CuckooFilter).AltIndex a b = f.AltIndex a b :=
        fun a b => AltIndex_congr f _ hfr.1 a b
      obtain ⟨f2, h1, h2, h3, h4, h5, h6, h7, h8⟩ :=
        ih _ (count + 1) (f.AltIndex ci (f.table_.slot ci r)) (f.table_.slot ci r) hf1 hv
          ⟨by rw [hfr.1]; exact (AltIndex_valid f h ci _).1, (AltIndex_valid f h ci _).2⟩ hold
      refine ⟨f2, ?_, h2, h3, by rw [h4, hfr.1], h5, h6, ?_, h8⟩
      · simp only [AddInternal.loop, hk, hres, ↓reduceIte, halt]
        exact h1
      · intro i tag hi ht hc
        have hstep := step_kick f h ci ct r (f.table_.rand_pos_ + 1) hci hct hr i tag hi hc
        rw [← ht1] at hstep
        exact h7 i tag ⟨by rw [hfr.1]; exact hi.1, hi.2⟩ ht hstep

end CuckooFilter

/-! ## `upperpower2` -/

theorem smear_step (y0 y m s : Nat) (hs : s ≤ m)
    (H : ∀ i, y.testBit i = true ↔ ∃ d, d < m ∧ y0.testBit (i + d) = true) :
    ∀ i, (y ||| y >>> s).testBit i = true ↔ ∃ d, d < m + s ∧ y0.testBit (i + d) = true := by
  intro i
  rw [Nat.testBit_or, Nat.testBit_shiftRight, Bool.or_eq_true, H, H]
  constructor
  · rintro (⟨d, hd, hb⟩ | ⟨d, hd, hb⟩)
    · exact ⟨d, by omega, hb⟩
    · exact ⟨s + d, by omega, by rw [← Nat.add_assoc, Nat.add_comm i s]; exact hb⟩
  · rintro ⟨d, hd, hb⟩
    by_cases hdm : d < m
    · exact Or.inl ⟨d, hdm, hb⟩
    · refine Or.inr ⟨d - s, by omega, ?_⟩
      have e : s + i + (d - s) = i + d := by omega
      rw [e]
      exact hb

theorem testBit_top (y : Nat) (hy : y ≠ 0) : y.testBit (y.size - 1) = true := by
  have h1 : 0 < y.size := Nat.size_pos.mpr (Nat.pos_of_ne_zero hy)
  have h2 : 2 ^ (y.size - 1) ≤ y := Nat.lt_size.mp (by omega)
  have h3 : y < 2 ^ y.size := Nat.lt_size_self y
  have h4 : 2 ^ y.size = 2 * 2 ^ (y.size - 1) := by
    obtain ⟨k, hk⟩ : ∃ k, y.size = k + 1 := ⟨y.size - 1, by omega⟩
    rw [hk, Nat.pow_succ, Nat.add_sub_cancel, Nat.mul_comm]
  rw [Nat.testBit_to_div_mod, decide_eq_true_iff]
  have hpos : 0 < 2 ^ (y.size - 1) := Nat.two_pow_pos _
  have h5 : y / 2 ^ (y.size - 1) = 1 := by
    apply Nat.div_eq_of_lt_le
    · rw [Nat.one_mul]; exact h2
    · rw [h4] at h3; omega
  rw [h5]

theorem smear_eq (y0 y : Nat) (hy0 : y0 < 2 ^ 64)
    (H : ∀ i, y.testBit i = true ↔ ∃ d, d < 64 ∧ y0.testBit (i + d) = true) :
    y = 2 ^ y0.size - 1 := by
  apply Nat.eq_of_testBit_eq
  intro i
  rw [Nat.testBit_two_pow_sub_one]
  have hsz : y0.size ≤ 64 := Nat.size_le.mpr hy0
  by_cases hi : i < y0.size
  · have hne : y0 ≠ 0 := by
      intro h0
      rw [h0, Nat.size_zero] at hi
      omega
    have : y.testBit i = true := by
      rw [H]
      refine ⟨y0.size - 1 - i, by omega, ?_⟩
      have e : i + (y0.size - 1 - i) = y0.size - 1 := by omega
      rw [e]
      exact testBit_top y0 hne
    simp [this, hi]
  · have : y.testBit i = false := by
      rw [← Bool.not_eq_true, H]
      rintro ⟨d, _, hb⟩
      have hlt : y0 < 2 ^ (i + d) :=
        lt_of_lt_of_le (Nat.lt_size_self y0) (Nat.pow_le_pow_right (by norm_num) (by omega))
      rw [Nat.testBit_lt_two_pow hlt] at hb
      cases hb
    simp [this, hi]

theorem upperpower2_eq (x : Nat) (h1 : 1 ≤ x) (h2 : x ≤ 2 ^ 63) :
    upperpower2 x = 2 ^ (x - 1).size := by
  have e0 : (if x = 0 then 2 ^ 64 - 1 else x - 1) = x - 1 := by
    rw [if_neg (by omega)]
  have hy0 : x - 1 < 2 ^ 63 := by omega
  unfold upperpower2
  simp only [e0]
  have H0 : ∀ i, (x - 1).testBit i = true ↔ ∃ d, d < 1 ∧ (x - 1).testBit (i + d) = true := by
    intro i
    constructor
    · intro h; exact ⟨0, by norm_num, h⟩
    · rintro ⟨d, hd, h⟩
      have : d = 0 := by omega
      subst this
      exact h
  have H1 := smear_step (x - 1) _ 1 1 (by norm_num) H0
  have H2 := smear_step (x - 1) _ 2 2 (by norm_num) H1
  have H3 := smear_step (x - 1) _ 4 4 (by norm_num) H2
  have H4 := smear_step (x - 1) _ 8 8 (by norm_num) H3
  have H5 := smear_step (x - 1) _ 16 16 (by norm_num) H4
  have H6 := smear_step (x - 1) _ 32 32 (by norm_num) H5
  rw [smear_eq (x - 1) _ (by omega) H6]
  have hsz : (x - 1).size ≤ 63 := Nat.size_le.mpr hy0
  have hpos : 0 < 2 ^ (x - 1).size := Nat.two_pow_pos _
  have hle : 2 ^ (x - 1).size ≤ 2 ^ 63 := Nat.pow_le_pow_right (by norm_num) hsz
  have e1 : 2 ^ (x - 1).size - 1 + 1 = 2 ^ (x - 1).size := by omega
  rw [e1]
  exact Nat.mod_eq_of_lt (by omega)

theorem getD_replicate_append (n p : Nat) (l : List Nat) (hp : p < n) :
    (List.replicate n 0 ++ l).getD p 0 = 0 := by
  rw [List.getD_eq_getElem?_getD, List.getElem?_append_left (by simpa using hp),
    List.getElem?_replicate]
  simp [hp]

namespace SingleTable

/-! ## SingleTable: a zeroed table -/

theorem slot_zero_of_bytes (t : SingleTable) (h : WF t) (i j : Nat) (hj : j < 4)
    (hz : ∀ k, k < t.bytes_per_bucket_ → t.data_.getD (i * t.bytes_per_bucket_ + k) 0 = 0) :
    t.slot i j = 0 := by
  rcases h.cases with ⟨hw, hb, hm⟩ | ⟨hw, hb, hm⟩ | ⟨hw, hb, hm⟩ | ⟨hw, hb, hm⟩ | ⟨hw, hb, hm⟩ <;>
    rw [hb] at hz
  · have z0 := hz 0 (by norm_num)
    have z1 := hz 1 (by norm_num)
    interval_cases j <;>
      simp [-List.getD_eq_getElem?_getD, slot, ReadTag, hw, hb, hm, Nat.add_zero] at z0 ⊢ <;>
      simp [-List.getD_eq_getElem?_getD, z0, z1]
  · have z0 := hz 0 (by norm_num)
    have z1 := hz 1 (by norm_num)
    have z2 := hz 2 (by norm_num)
    have z3 := hz 3 (by norm_num)
    interval_cases j <;>
      simp [-List.getD_eq_getElem?_getD, slot, ReadTag, hw, hb, hm, Nat.add_zero] at z0 ⊢ <;>
      simp [-List.getD_eq_getElem?_getD, z0, z1, z2, z3]
  · have z0 := hz 0 (by norm_num)
    have z1 := hz 1 (by norm_num)
    have z2 := hz 2 (by norm_num)
    have z3 := hz 3 (by norm_num)
    have z4 := hz 4 (by norm_num)
    have z5 := hz 5 (by norm_num)
    interval_cases j <;>
      simp [-List.getD_eq_getElem?_getD, slot, ReadTag, hw, hb, hm, load16, Nat.add_zero,
        Nat.add_assoc] at z0 ⊢ <;>
      simp [-List.getD_eq_getElem?_getD, z0, z1, z2, z3, z4, z5]
  · have z0 := hz 0 (by norm_num)
    have z1 := hz 1 (by norm_num)
    have z2 := hz 2 (by norm_num)
    have z3 := hz 3 (by norm_num)
    have z4 := hz 4 (by norm_num)
    have z5 := hz 5 (by norm_num)
    have z6 := hz 6 (by norm_num)
    have z7 := hz 7 (by norm_num)
    interval_cases j <;>
      simp [-List.getD_eq_getElem?_getD, slot, ReadTag, hw, hb, hm, load16, Nat.add_zero,
        Nat.add_assoc] at z0 ⊢ <;>
      simp [-List.getD_eq_getElem?_getD, z0, z1, z2, z3, z4, z5, z6, z7]
  · have z0 := hz 0 (by norm_num)
    have z1 := hz 1 (by norm_num)
    have z2 := hz 2 (by norm_num)
    have z3 := hz 3 (by norm_num)
    have z4 := hz 4 (by norm_num)
    have z5 := hz 5 (by norm_num)
    have z6 := hz 6 (by norm_num)
    have z7 := hz 7 (by norm_num)
    have z8 := hz 8 (by norm_num)
    have z9 := hz 9 (by norm_num)
    have z10 := hz 10 (by norm_num)
    have z11 := hz 11 (by norm_num)
    have z12 := hz 12 (by norm_num)
    have z13 := hz 13 (by norm_num)
    have z14 := hz 14 (by norm_num)
    have z15 := hz 15 (by norm_num)
    interval_cases j <;>
      simp [-List.getD_eq_getElem?_getD, slot, ReadTag, hw, hb, hm, load32, Nat.add_zero,
        Nat.add_assoc] at z0 ⊢ <;>
      simp [-List.getD_eq_getElem?_getD, z0, z1, z2, z3, z4, z5, z6, z7, z8, z9, z10, z11, z12,
        z13, z14, z15]

theorem slot_zero_of_zeroed (t : SingleTable) (h : WF t) (l : List Nat)
    (hd : t.data_ = List.replicate (t.num_buckets_ * t.bytes_per_bucket_) 0 ++ l)
    (i j : Nat) (hi : i < t.num_buckets_) (hj : j < 4) : t.slot i j = 0 := by
  apply slot_zero_of_bytes t h i j hj
  intro k hk
  rw [hd]
  apply getD_replicate_append
  calc i * t.bytes_per_bucket_ + k < i * t.bytes_per_bucket_ + t.bytes_per_bucket_ := by omega
    _ = (i + 1) * t.bytes_per_bucket_ := by ring
    _ ≤ t.num_buckets_ * t.bytes_per_bucket_ := Nat.mul_le_mul_right _ hi

theorem table_Clear_WF (t : SingleTable) (h : WF t) : WF t.Clear :=
  { buckets_pos := h.buckets_pos, tags := h.tags, width := h.width,
    bucket_bytes := h.bucket_bytes, mask := h.mask
    len := by
      have hl := h.len
      simp only [Clear, List.length_append, List.length_replicate, List.length_drop]
      omega
    bytes := by
      intro x hx
      simp only [Clear, List.mem_append] at hx
      rcases hx with hx | hx
      · rw [List.eq_of_mem_replicate hx]; norm_num
      · exact h.bytes x (List.mem_of_mem_drop hx) }

theorem Clear_slot (t : SingleTable) (h : WF t) (i j : Nat) (hi : i < t.num_buckets_)
    (hj : j < 4) : t.Clear.slot i j = 0 :=
  slot_zero_of_zeroed t.Clear (table_Clear_WF t h) _ rfl i j hi hj

theorem table_new_spec (num_buckets bits_per_tag : Nat) (uninit rand_gen : Nat → Nat)
    (hn : 0 < num_buckets)
    (hw : bits_per_tag = 4 ∨ bits_per_tag = 8 ∨ bits_per_tag = 12 ∨ bits_per_tag = 16 ∨
      bits_per_tag = 32) :
    ∃ t, new num_buckets 4 bits_per_tag uninit rand_gen = some t ∧ WF t ∧
      t.num_buckets_ = num_buckets ∧ t.bits_per_tag_ = bits_per_tag ∧
      ∀ i j, i < num_buckets → j < 4 → t.slot i j = 0 := by
  have hbp : 0 < (bits_per_tag * 4 + 7) >>> 3 := by
    rw [Nat.shiftRight_eq_div_pow]
    rcases hw with hw | hw | hw | hw | hw <;> rw [hw] <;> norm_num
  have hbits : 0 < bits_per_tag := by rcases hw with hw | hw | hw | hw | hw <;> omega
  have hwf : WF
      { num_buckets_ := num_buckets, tags_per_bucket_ := 4,
        bytes_per_bucket_ := (bits_per_tag * 4 + 7) >>> 3, bits_per_tag_ := bits_per_tag,
        tag_mask_ := ((1 <<< bits_per_tag) % 2 ^ 64 + 2 ^ 64 - 1) % 2 ^ 64 % 2 ^ 32,
        data_ := List.replicate (num_buckets * ((bits_per_tag * 4 + 7) >>> 3)) 0 ++
          (List.range 8).map (fun k => uninit k % 256),
        rand_gen_ := rand_gen, rand_pos_ := 0 } :=
    { buckets_pos := hn, tags := rfl, width := hw
      bucket_bytes := by simp only [Nat.shiftRight_eq_div_pow]
      mask := by rcases hw with hw | hw | hw | hw | hw <;> simp only [hw] <;> rfl
      len := by simp
      bytes := by
        intro x hx
        simp only [List.mem_append, List.mem_map, List.mem_range] at hx
        rcases hx with hx | ⟨k, _, hk⟩
        · rw [List.eq_of_mem_replicate hx]; norm_num
        · rw [← hk]; exact Nat.mod_lt _ (by norm_num) }
  refine ⟨_, ?_, hwf, rfl, rfl, ?_⟩
  · unfold new
    simp only [hn, hbp, hbits, Nat.lt_add_one, Nat.ofNat_pos, and_self, ↓reduceIte]
  · intro i j hi hj
    exact slot_zero_of_zeroed _ hwf _ rfl i j hi hj

end SingleTable
namespace CuckooFilter

/-! ## CuckooFilter: construction, `Clear`, `Insert` and `Delete` -/

theorem new_spec (expected_num_elements bits_per_element : Nat) (uninit rand_gen : Nat → Nat)
    (he : 1 ≤ expected_num_elements) (he63 : expected_num_elements < 2 ^ 63)
    (hw : bits_per_element = 4 ∨ bits_per_element = 8 ∨ bits_per_element = 12 ∨
      bits_per_element = 16 ∨ bits_per_element = 32) :
    ∃ f, new expected_num_elements bits_per_element uninit rand_gen = some f ∧ WF f ∧
      IsEmpty f := by
  have hx1 : 1 ≤ (expected_num_elements + 3) / 4 := by omega
  have hx2 : (expected_num_elements + 3) / 4 ≤ 2 ^ 63 := by omega
  have hup := upperpower2_eq _ hx1 hx2
  obtain ⟨nb, hnb⟩ : ∃ nb, nb =
      (if expected_num_elements * 2 ^ 50 ≥
          1080863910568919 * (4 * upperpower2 ((expected_num_elements + 3) / 4)) then
        upperpower2 ((expected_num_elements + 3) / 4) * 2
      else upperpower2 ((expected_num_elements + 3) / 4)) := ⟨_, rfl⟩
  have hpow : ∃ k, nb = 2 ^ k := by
    rw [hnb, hup]
    split_ifs
    · exact ⟨((expected_num_elements + 3) / 4 - 1).size + 1, by rw [Nat.pow_succ]⟩
    · exact ⟨_, rfl⟩
  have hpos : 0 < nb := by
    obtain ⟨k, hk⟩ := hpow
    rw [hk]
    exact Nat.two_pow_pos k
  obtain ⟨t, ht, htwf, htn, htb, hts⟩ :=
    SingleTable.table_new_spec nb bits_per_element uninit rand_gen hpos hw
  refine ⟨{ bits_per_element_ := bits_per_element, table_ := t, num_elements_ := 0,
            last_victim_ := { index := 0, tag := 0, used := false },
            expected_num_elements_ := expected_num_elements, log_regulator_ := 0 }, ?_, ?_, ?_⟩
  · unfold new
    dsimp only
    rw [← hnb, ht]
  · exact { table := htwf, bits := htb.symm, pow2 := by rw [htn]; exact hpow,
            victim := fun h => by cases h }
  · exact { slots := fun i j hi hj => hts i j (by rw [← htn]; exact hi) hj, victim := rfl,
            num := rfl }

theorem Clear_WF (f : CuckooFilter) (h : WF f) : WF f.Clear :=
  { table := SingleTable.table_Clear_WF _ h.table, bits := h.bits, pow2 := h.pow2,
    victim := fun hu => by cases hu }

theorem Clear_IsEmpty (f : CuckooFilter) (h : WF f) : IsEmpty f.Clear :=
  { slots := fun i j hi hj => SingleTable.Clear_slot _ h.table i j hi hj, victim := rfl,
    num := rfl }

theorem GetIndexAndTag_congr (hash : Nat → Nat → Nat) (f g : CuckooFilter)
    (hn : g.table_.num_buckets_ = f.table_.num_buckets_)
    (hb : g.bits_per_element_ = f.bits_per_element_) (key : Nat) :
    GetIndexAndTag hash g key = GetIndexAndTag hash f key := by
  simp only [GetIndexAndTag, BucketIndexHash, TagHash, SingleTable.NumBuckets, hn, hb]

theorem covers_of_holds (f : CuckooFilter) (hv : f.last_victim_.used = false)
    (i tag ci ct : Nat) (hc : f.holds i tag = true) : f.covers ci ct i tag := by
  unfold holds at hc
  simp only [hv, Bool.false_and, Bool.or_false, Bool.or_eq_true] at hc
  rcases hc with hc | hc
  · exact Or.inl hc
  · exact Or.inr (Or.inl hc)

theorem AddInternal_spec (f : CuckooFilter) (h : WF f) (hv : f.last_victim_.used = false)
    (ci ct : Nat) (hci : f.validIndex ci) (hct : f.validTag ct) :
    ∃ f2, f.AddInternal ci ct = some (true, f2) ∧ WF f2 ∧
      f2.bits_per_element_ = f.bits_per_element_ ∧
      f2.table_.num_buckets_ = f.table_.num_buckets_ ∧
      f2.expected_num_elements_ = f.expected_num_elements_ ∧
      f2.log_regulator_ = f.log_regulator_ ∧
      (∀ i tag, f.validIndex i → f.validTag tag → f.covers ci ct i tag →
        f2.holds i tag = true) ∧
      ((f2.num_elements_ = wrap_int64 (f.num_elements_ + 1) ∧ f2.last_victim_.used = false) ∨
        (f2.num_elements_ = f.num_elements_ ∧ f2.last_victim_.used = true)) :=
  AddInternal_loop_spec kMaxCuckooCount f 0 ci ct h hv hci hct

theorem WF_set_log (f : CuckooFilter) (h : WF f) (n : Int) :
    WF { f with log_regulator_ := n } :=
  { table := h.table, bits := h.bits, pow2 := h.pow2, victim := h.victim }

theorem Insert_pending (hash : Nat → Nat → Nat) (f : CuckooFilter) (key : Nat)
    (hv : f.last_victim_.used = true) : Insert hash f key = some (false, f) := by
  unfold Insert
  rw [if_pos hv]

theorem Insert_spec (hash : Nat → Nat → Nat) (f : CuckooFilter) (h : WF f) (key : Nat)
    (hv : f.last_victim_.used = false) :
    ∃ f2, Insert hash f key = some (true, f2) ∧ WF f2 ∧
      f2.bits_per_element_ = f.bits_per_element_ ∧
      f2.table_.num_buckets_ = f.table_.num_buckets_ ∧
      (∀ i tag, f.validIndex i → f.validTag tag → f.holds i tag = true →
        f2.holds i tag = true) ∧
      f2.holds (GetIndexAndTag hash f key).1 (GetIndexAndTag hash f key).2 = true ∧
      ((f2.num_elements_ = wrap_int64 (f.num_elements_ + 1) ∧ f2.last_victim_.used = false) ∨
        (f2.num_elements_ = f.num_elements_ ∧ f2.last_victim_.used = true)) := by
  obtain ⟨hi, ht⟩ := GetIndexAndTag_valid hash f h key
  obtain ⟨f1, h1, h2, h3, h4, _, _, h7, h8⟩ :=
    AddInternal_spec f h hv _ _ hi ht
  refine ⟨{ f1 with log_regulator_ :=
      if f1.num_elements_ > f1.expected_num_elements_ then wrap_int64 (f1.log_regulator_ + 1)
      else f1.log_regulator_ }, ?_, WF_set_log f1 h2 _, h3, h4, ?_, ?_, h8⟩
  · unfold Insert
    simp only [hv, Bool.false_eq_true, ↓reduceIte, h1]
  · intro i tag hi2 ht2 hc
    exact h7 i tag hi2 ht2 (covers_of_holds f hv i tag _ _ hc)
  · exact h7 _ _ hi ht (Or.inr (Or.inr ⟨rfl, Or.inl rfl⟩))

theorem Insert_total (hash : Nat → Nat → Nat) (f : CuckooFilter) (h : WF f) (key : Nat) :
    ∃ ret f2, Insert hash f key = some (ret, f2) ∧ WF f2 ∧
      f2.bits_per_element_ = f.bits_per_element_ ∧
      f2.table_.num_buckets_ = f.table_.num_buckets_ ∧
      (ret = true → f.last_victim_.used = false) ∧
      (∀ i tag, f.validIndex i → f.validTag tag → f.holds i tag = true →
        f2.holds i tag = true) ∧
      (ret = true →
        f2.holds (GetIndexAndTag hash f key).1 (GetIndexAndTag hash f key).2 = true) := by
  cases hv : f.last_victim_.used
  · obtain ⟨f2, h1, h2, h3, h4, h5, h6, _⟩ := Insert_spec hash f h key hv
    exact ⟨true, f2, h1, h2, h3, h4, fun _ => rfl, h5, fun _ => h6⟩
  · exact ⟨false, f, Insert_pending hash f key hv, h, rfl, rfl, (fun e => by cases e),
      (fun _ _ _ _ hc => hc), (fun e => by cases e)⟩

theorem TryEliminateVictim_spec (f : CuckooFilter) (h : WF f) :
    ∃ f2, TryEliminateVictim f = some (true, f2) ∧ WF f2 ∧
      f2.bits_per_element_ = f.bits_per_element_ ∧
      f2.table_.num_buckets_ = f.table_.num_buckets_ ∧
      (f.last_victim_.used = false → f2 = f) := by
  unfold TryEliminateVictim
  cases hv : f.last_victim_.used
  · exact ⟨f, by simp, h, rfl, rfl, fun _ => rfl⟩
  · obtain ⟨hvi, hvt⟩ := h.victim hv
    have hf1 : WF ({ f with last_victim_ := { f.last_victim_ with used := false } } :
        CuckooFilter) :=
      { table := h.table, bits := h.bits, pow2 := h.pow2, victim := fun hu => by cases hu }
    obtain ⟨f2, h1, h2, h3, h4, _⟩ := AddInternal_spec _ hf1 rfl _ _ hvi hvt
    refine ⟨f2, ?_, h2, h3, h4, fun e => by cases e⟩
    simp only [↓reduceIte, h1]

theorem Delete_spec (hash : Nat → Nat → Nat) (f : CuckooFilter) (h : WF f) (key : Nat) :
    ∃ f2, Delete hash f key =
        some (f.holds (GetIndexAndTag hash f key).1 (GetIndexAndTag hash f key).2, f2) ∧
      WF f2 ∧ f2.bits_per_element_ = f.bits_per_element_ ∧
      f2.table_.num_buckets_ = f.table_.num_buckets_ ∧
      (f.holds (GetIndexAndTag hash f key).1 (GetIndexAndTag hash f key).2 = false →
        f2 = f) := by
  obtain ⟨hi, ht⟩ := GetIndexAndTag_valid hash f h key
  have htl := validTag_lt f h _ ht
  unfold Delete holds
  simp only [AltIndex_AltIndex f h _ _ hi, ne_eq, not_true_eq_false, ↓reduceIte]
  generalize (GetIndexAndTag hash f key).1 = i at *
  generalize (GetIndexAndTag hash f key).2 = tag at *
  rcases SingleTable.DeleteTagFromBucket_cases f.table_ h.table i tag htl with
    ⟨j, hj, hs, hres⟩ | ⟨hno, hres⟩
  · have hhas : f.table_.hasTag i tag = true := (SingleTable.hasTag_iff _ _ _).mpr ⟨j, hj, hs⟩
    have hfr := SingleTable.WriteTag_frame f.table_ i j 0
    obtain ⟨f2, h1, h2, h3, h4, _⟩ := TryEliminateVictim_spec
      { f with table_ := f.table_.WriteTag i j 0,
               num_elements_ := wrap_int64 (f.num_elements_ - 1) }
      (WF_set_table f h _ (SingleTable.WriteTag_WF _ h.table _ _ _) hfr.2.2.2.1 hfr.1 _)
    refine ⟨f2, ?_, h2, h3, by rw [h4]; exact hfr.1, ?_⟩
    · simp only [hres, hhas, Bool.true_or, h1]
    · intro hc
      simp [hhas] at hc
  · rcases SingleTable.DeleteTagFromBucket_cases f.table_ h.table (f.AltIndex i tag) tag htl with
      ⟨j, hj, hs, hres2⟩ | ⟨hno2, hres2⟩
    · have hhas : f.table_.hasTag (f.AltIndex i tag) tag = true :=
        (SingleTable.hasTag_iff _ _ _).mpr ⟨j, hj, hs⟩
      have hfr := SingleTable.WriteTag_frame f.table_ (f.AltIndex i tag) j 0
      obtain ⟨f2, h1, h2, h3, h4, _⟩ := TryEliminateVictim_spec
        { f with table_ := f.table_.WriteTag (f.AltIndex i tag) j 0,
                 num_elements_ := wrap_int64 (f.num_elements_ - 1) }
        (WF_set_table f h _ (SingleTable.WriteTag_WF _ h.table _ _ _) hfr.2.2.2.1 hfr.1 _)
      refine ⟨f2, ?_, h2, h3, by rw [h4]; exact hfr.1, ?_⟩
      · simp only [hres, hres2, hhas, Bool.or_true, Bool.true_or, h1]
      · intro hc
        simp [hhas] at hc
    · simp only [hres, hres2, hno, hno2, Bool.or_self, Bool.false_or]
      by_cases hc : f.last_victim_.used = true ∧ tag = f.last_victim_.tag ∧
          (i = f.last_victim_.index ∨ f.AltIndex i tag = f.last_victim_.index)
      · have hb : (f.last_victim_.used && decide (tag = f.last_victim_.tag) &&
            (decide (i = f.last_victim_.index) ||
              decide (f.AltIndex i tag = f.last_victim_.index))) = true := by
          simp only [Bool.and_eq_true, Bool.or_eq_true, decide_eq_true_eq]
          exact ⟨⟨hc.1, hc.2.1⟩, hc.2.2⟩
        refine ⟨{ f with last_victim_ := { f.last_victim_ with used := false } }, ?_,
          { table := h.table, bits := h.bits, pow2 := h.pow2, victim := fun hu => by cases hu },
          rfl, rfl, ?_⟩
        · rw [if_pos hc, hb]
        · intro hf
          rw [hb] at hf
          cases hf
      · refine ⟨f, ?_, h, rfl, rfl, fun _ => rfl⟩
        rw [if_neg hc]
        have : (f.last_victim_.used && decide (tag = f.last_victim_.tag) &&
            (decide (i = f.last_victim_.index) ||
              decide (f.AltIndex i tag = f.last_victim_.index))) = false := by
          rw [← Bool.not_eq_true]
          intro hb
          simp only [Bool.and_eq_true, Bool.or_eq_true, decide_eq_true_eq] at hb
          exact hc ⟨hb.1.1, hb.1.2, hb.2⟩
        rw [this]

theorem Reachable.wf {hash : Nat → Nat → Nat} {e b : Nat} {u r : Nat → Nat}
    (he : 1 ≤ e) (he63 : e < 2 ^ 63)
    (hw : b = 4 ∨ b = 8 ∨ b = 12 ∨ b = 16 ∨ b = 32) {f : CuckooFilter}
    (h : Reachable hash e b u r f) : WF f := by
  induction h with
  | constructed f hf =>
    obtain ⟨f0, h0, hwf, _⟩ := new_spec e b u r he he63 hw
    rw [h0] at hf
    cases hf
    exact hwf
  | insert f key ret f1 _ hins ih =>
    obtain ⟨ret2, f2, h1, h2, _⟩ := Insert_total hash f ih key
    rw [h1] at hins
    cases hins
    exact h2
  | delete f key ret f1 _ hdel ih =>
    obtain ⟨f2, h1, h2, _⟩ := Delete_spec hash f ih key
    rw [h1] at hdel
    cases hdel
    exact h2
  | clear f _ ih => exact Clear_WF f ih

/-! ## CuckooFilter: sequences of inserts, empty filters -/

theorem validIndex_congr (f g : CuckooFilter)
    (hn : g.table_.num_buckets_ = f.table_.num_buckets_) (i : Nat) :
    g.validIndex i ↔ f.validIndex i := by
  unfold validIndex
  rw [hn]

theorem validTag_congr (f g : CuckooFilter)
    (hb : g.bits_per_element_ = f.bits_per_element_) (tag : Nat) :
    g.validTag tag ↔ f.validTag tag := by
  unfold validTag
  rw [hb]

theorem InsertAll_spec (hash : Nat → Nat → Nat) (keys : List Nat) :
    ∀ (f : CuckooFilter), WF f →
      ∃ rets f2, InsertAll hash f keys = some (rets, f2) ∧ WF f2 ∧
        f2.bits_per_element_ = f.bits_per_element_ ∧
        f2.table_.num_buckets_ = f.table_.num_buckets_ ∧
        (∀ i tag, f.validIndex i → f.validTag tag → f.holds i tag = true →
          f2.holds i tag = true) := by
  induction keys with
  | nil =>
    intro f h
    exact ⟨[], f, rfl, h, rfl, rfl, fun _ _ _ _ hc => hc⟩
  | cons key rest ih =>
    intro f h
    obtain ⟨ret, f1, h1, h2, h3, h4, _, h6, _⟩ := Insert_total hash f h key
    obtain ⟨rets, f2, g1, g2, g3, g4, g5⟩ := ih f1 h2
    refine ⟨ret :: rets, f2, ?_, g2, by rw [g3, h3], by rw [g4, h4], ?_⟩
    · simp only [InsertAll, h1, g1]
    · intro i tag hi ht hc
      exact g5 i tag ((validIndex_congr f f1 h4 i).mpr hi) ((validTag_congr f f1 h3 tag).mpr ht)
        (h6 i tag hi ht hc)

theorem hasTag_empty (t : SingleTable) (i tag : Nat) (hi : i < t.num_buckets_)
    (hz : ∀ i j, i < t.num_buckets_ → j < 4 → t.slot i j = 0) (ht : 0 < tag) :
    t.hasTag i tag = false := by
  rw [← Bool.not_eq_true, SingleTable.hasTag_iff]
  rintro ⟨j, hj, hs⟩
  rw [hz i j hi hj] at hs
  omega

theorem holds_empty (f : CuckooFilter) (h : WF f) (he : IsEmpty f) (i tag : Nat)
    (hi : f.validIndex i) (ht : f.validTag tag) : f.holds i tag = false := by
  unfold holds
  rw [hasTag_empty f.table_ i tag hi.1 he.slots ht.1,
    hasTag_empty f.table_ _ tag (AltIndex_valid f h i tag).1 he.slots ht.1, he.victim]
  rfl

theorem Contains_empty (hash : Nat → Nat → Nat) (f : CuckooFilter) (h : WF f)
    (he : IsEmpty f) (key : Nat) : Contains hash f key = some false := by
  obtain ⟨hi, ht⟩ := GetIndexAndTag_valid hash f h key
  rw [Contains_eq hash f h key, holds_empty f h he _ _ hi ht]

theorem ReadTag_empty (f : CuckooFilter) (h : WF f) (he : IsEmpty f) (i j : Nat)
    (hi : i < f.table_.num_buckets_) (hj : j < 4) : f.table_.ReadTag i j = some 0 := by
  rw [SingleTable.ReadTag_some _ h.table, he.slots i j hi hj]

theorem wrap_int64_small (n : Int) (h0 : -2 ^ 63 ≤ n) (h1 : n < 2 ^ 63) : wrap_int64 n = n := by
  unfold wrap_int64
  omega

/-- `Insert` on an empty filter puts the tag in a slot of the primary bucket. -/
theorem Insert_empty (hash : Nat → Nat → Nat) (f : CuckooFilter) (h : WF f) (he : IsEmpty f)
    (key : Nat) :
    ∃ j reg, j < 4 ∧ Insert hash f key = some (true,
      { f with table_ := f.table_.WriteTag (GetIndexAndTag hash f key).1 j
                 (GetIndexAndTag hash f key).2,
               num_elements_ := 1, log_regulator_ := reg }) := by
  obtain ⟨hi, ht⟩ := GetIndexAndTag_valid hash f h key
  rcases SingleTable.InsertTagToBucket_cases f.table_ h.table (GetIndexAndTag hash f key).1
      (GetIndexAndTag hash f key).2 (decide (0 > 0)) 0 with
    ⟨j, hj, _, hres⟩ | ⟨hfull, _, _⟩ | ⟨hfull, _, _⟩
  · have hnum : wrap_int64 (f.num_elements_ + 1) = 1 := by
      rw [he.num]
      exact wrap_int64_small _ (by norm_num) (by norm_num)
    refine ⟨j, if (1 : Int) > f.expected_num_elements_ then wrap_int64 (f.log_regulator_ + 1)
      else f.log_regulator_, hj, ?_⟩
    unfold Insert AddInternal
    simp only [he.victim, Bool.false_eq_true, ↓reduceIte, kMaxCuckooCount, AddInternal.loop,
      hres, hnum]
  · exact absurd (he.slots _ 0 hi.1 (by norm_num)) (hfull 0 (by norm_num))
  · exact absurd (he.slots _ 0 hi.1 (by norm_num)) (hfull 0 (by norm_num))

theorem Delete_single (hash : Nat → Nat → Nat) (f : CuckooFilter) (h : WF f) (he : IsEmpty f)
    (key j : Nat) (reg : Int) (hj : j < 4) (f1 : CuckooFilter)
    (hf1 : f1 = { f with table_ := f.table_.WriteTag (GetIndexAndTag hash f key).1 j
                           (GetIndexAndTag hash f key).2,
                         num_elements_ := 1, log_regulator_ := reg }) :
    WF f1 ∧ Contains hash f1 key = some true ∧
      ∃ f2, Delete hash f1 key = some (true, f2) ∧ WF f2 ∧ IsEmpty f2 := by
  obtain ⟨hi, ht⟩ := GetIndexAndTag_valid hash f h key
  have hfr := SingleTable.WriteTag_frame f.table_ (GetIndexAndTag hash f key).1 j
    (GetIndexAndTag hash f key).2
  have hwf1 : WF f1 := by
    rw [hf1]
    exact WF_set_log _ (WF_set_table f h _ (SingleTable.WriteTag_WF _ h.table _ _ _)
      hfr.2.2.2.1 hfr.1 1) reg
  have hnb : f1.table_.num_buckets_ = f.table_.num_buckets_ := by rw [hf1]; exact hfr.1
  have hbits : f1.bits_per_element_ = f.bits_per_element_ := by rw [hf1]
  have hgit := GetIndexAndTag_congr hash f f1 hnb hbits key
  have hv1 : f1.last_victim_.used = false := by rw [hf1]; exact he.victim
  have htab : f1.table_ = f.table_.WriteTag (GetIndexAndTag hash f key).1 j
      (GetIndexAndTag hash f key).2 := by rw [hf1]
  have hnum1 : f1.num_elements_ = 1 := by rw [hf1]
  obtain ⟨hi1, ht1⟩ := GetIndexAndTag_valid hash f1 hwf1 key
  rw [hgit] at hi1 ht1
  have htl := validTag_lt f h _ ht
  have hslot : ∀ a b, a < f.table_.num_buckets_ → b < 4 →
      f1.table_.slot a b = if a = (GetIndexAndTag hash f key).1 ∧ b = j then
        (GetIndexAndTag hash f key).2 else 0 := by
    intro a b ha hb
    rw [htab, SingleTable.slot_WriteTag f.table_ h.table _ a _ j b hi.1 ha hj hb,
      he.slots a b ha hb, Nat.mod_eq_of_lt htl]
  have hhas : f1.table_.hasTag (GetIndexAndTag hash f key).1 (GetIndexAndTag hash f key).2
      = true := by
    rw [htab]
    exact SingleTable.hasTag_WriteTag_new f.table_ h.table _ j _ hi.1 hj htl
  have hcont : Contains hash f1 key = some true := by
    rw [Contains_eq hash f1 hwf1 key, hgit]
    unfold holds
    rw [hhas]
    rfl
  refine ⟨hwf1, hcont, ?_⟩
  have htl1 : (GetIndexAndTag hash f key).2 < 2 ^ f1.table_.bits_per_tag_ := by
    rw [htab, hfr.2.2.2.1]; exact htl
  rcases SingleTable.DeleteTagFromBucket_cases f1.table_ hwf1.table
      (GetIndexAndTag hash f key).1 (GetIndexAndTag hash f key).2 htl1 with
    ⟨j2, hj2, hs, hres⟩ | ⟨hno, _⟩
  · have hjj : j2 = j := by
      rw [hslot _ j2 hi.1 hj2] at hs
      by_contra hne
      rw [if_neg (fun hc => hne hc.2)] at hs
      exact absurd hs.symm (Nat.pos_iff_ne_zero.mp ht.1)
    subst hjj
    have hfr2 := SingleTable.WriteTag_frame f1.table_ (GetIndexAndTag hash f key).1 j2 0
    have hnum : wrap_int64 (f1.num_elements_ - 1) = 0 := by
      rw [hnum1]
      exact wrap_int64_small _ (by norm_num) (by norm_num)
    refine ⟨{ f1 with table_ := f1.table_.WriteTag (GetIndexAndTag hash f key).1 j2 0,
                      num_elements_ := 0 }, ?_, ?_, ?_⟩
    · unfold Delete
      simp only [hgit, AltIndex_AltIndex f1 hwf1 _ _ hi1, ne_eq, not_true_eq_false, ↓reduceIte,
        hres, TryEliminateVictim, hv1, Bool.false_eq_true, hnum]
    · exact WF_set_table f1 hwf1 _ (SingleTable.WriteTag_WF _ hwf1.table _ _ _) hfr2.2.2.2.1
        hfr2.1 0
    · refine { slots := ?_, victim := hv1, num := rfl }
      intro a b ha hb
      have ha1 : a < f1.table_.num_buckets_ := by
        have := hfr2.1
        simp only at ha
        omega
      have ha0 : a < f.table_.num_buckets_ := by rw [← hnb]; exact ha1
      show (f1.table_.WriteTag (GetIndexAndTag hash f key).1 j2 0).slot a b = 0
      rw [SingleTable.slot_WriteTag f1.table_ hwf1.table _ a 0 j2 b (by rw [hnb]; exact hi.1)
        ha1 hj2 hb]
      by_cases hc : a = (GetIndexAndTag hash f key).1 ∧ b = j2
      · rw [if_pos hc]
        exact Nat.zero_mod _
      · rw [if_neg hc, hslot a b ha0 hb, if_neg hc]
  · rw [hhas] at hno
    cases hno

end CuckooFilter

namespace SingleTable

theorem occupied_WriteTag_free (t : SingleTable) (h : WF t) (i j x : Nat)
    (hi : i < t.num_buckets_) (hj : j < 4) (hz : t.slot i j = 0) (hx : 0 < x)
    (hxl : x < 2 ^ t.bits_per_tag_) : (t.WriteTag i j x).occupied i = t.occupied i + 1 := by
  unfold occupied
  rw [slot_WriteTag t h i i x j 0 hi hi hj (by norm_num),
    slot_WriteTag t h i i x j 1 hi hi hj (by norm_num),
    slot_WriteTag t h i i x j 2 hi hi hj (by norm_num),
    slot_WriteTag t h i i x j 3 hi hi hj (by norm_num), Nat.mod_eq_of_lt hxl]
  have hx0 : x ≠ 0 := Nat.pos_iff_ne_zero.mp hx
  interval_cases j <;> simp [hz, hx0] <;> omega

theorem occupied_full_iff (t : SingleTable) (i : Nat) :
    t.occupied i = 4 ↔ ∀ j, j < 4 → t.slot i j ≠ 0 := by
  unfold occupied
  constructor
  · intro h j hj
    interval_cases j <;> intro hz <;> rw [hz] at h <;> simp at h <;> split_ifs at h <;> omega
  · intro h
    rw [if_neg (h 0 (by norm_num)), if_neg (h 1 (by norm_num)), if_neg (h 2 (by norm_num)),
      if_neg (h 3 (by norm_num))]

theorem occupied_le (t : SingleTable) (i : Nat) : t.occupied i ≤ 4 := by
  unfold occupied
  split_ifs <;> omega

end SingleTable

namespace CuckooFilter

/-! ## CuckooFilter: a filter of one bucket -/

theorem AltIndex_one (f : CuckooFilter) (h1 : f.table_.num_buckets_ = 1) (i tag : Nat) :
    f.AltIndex i tag = 0 := by
  simp only [AltIndex, BucketIndexHash, SingleTable.NumBuckets, h1, Nat.mod_one]

theorem loop_full (n : Nat) :
    ∀ (f : CuckooFilter) (count ct : Nat), WF f → f.table_.num_buckets_ = 1 →
      (∀ j, j < 4 → f.table_.slot 0 j ≠ 0) → f.validTag ct →
      ∃ f2, AddInternal.loop n f count 0 ct = some (true, f2) ∧
        f2.num_elements_ = f.num_elements_ ∧ f2.last_victim_.used = true := by
  induction n with
  | zero =>
    intro f count ct _ _ _ _
    exact ⟨_, rfl, rfl, rfl⟩
  | succ n ih =>
    intro f count ct h h1 hfull hct
    rcases SingleTable.InsertTagToBucket_cases f.table_ h.table 0 ct (decide (count > 0)) 0 with
      ⟨j, hj, hz, _⟩ | ⟨_, hk, hres⟩ | ⟨_, hk, r, hr, hres⟩
    · exact absurd hz (hfull j hj)
    · obtain ⟨f2, g1, g2, g3⟩ := ih f (count + 1) ct h h1 hfull hct
      refine ⟨f2, ?_, g2, g3⟩
      rw [hk] at hres
      simp only [AddInternal.loop, hk, hres, Bool.false_eq_true, ↓reduceIte,
        AltIndex_one _ h1]
      exact g1
    · obtain ⟨t1, ht1⟩ : ∃ t1, t1 =
          ({ f.table_ with rand_pos_ := f.table_.rand_pos_ + 1 } : SingleTable).WriteTag 0 r ct :=
        ⟨_, rfl⟩
      rw [← ht1, hk] at hres
      have hwf := SingleTable.WF_rand_pos f.table_ h.table (f.table_.rand_pos_ + 1)
      have hfr := SingleTable.WriteTag_frame
        ({ f.table_ with rand_pos_ := f.table_.rand_pos_ + 1 } : SingleTable) 0 r ct
      rw [← ht1] at hfr
      have hwf1 : t1.WF := by rw [ht1]; exact SingleTable.WriteTag_WF _ hwf _ _ _
      have hf1 : WF ({ f with table_ := t1 } : CuckooFilter) :=
        WF_set_table f h _ hwf1 hfr.2.2.2.1 hfr.1 f.num_elements_
      have hnb1 : t1.num_buckets_ = 1 := by rw [hfr.1]; exact h1
      have hold : f.validTag (f.table_.slot 0 r) :=
        ⟨Nat.pos_of_ne_zero (hfull r hr), by
          rw [h.bits]; exact SingleTable.slot_lt f.table_ h.table 0 r⟩
      have hfull1 : ∀ j, j < 4 → t1.slot 0 j ≠ 0 := by
        intro j hj
        rw [ht1, SingleTable.slot_WriteTag _ hwf 0 0 ct r j (by rw [h1]; norm_num)
          (by rw [h1]; norm_num) hr hj]
        by_cases hc : 0 = 0 ∧ j = r
        · rw [if_pos hc, Nat.mod_eq_of_lt (validTag_lt f h ct hct)]
          exact Nat.pos_iff_ne_zero.mp hct.1
        · rw [if_neg hc]
          exact hfull j hj
      obtain ⟨f2, g1, g2, g3⟩ := ih _ (count + 1) (f.table_.slot 0 r) hf1 hnb1 hfull1 hold
      refine ⟨f2, ?_, g2, g3⟩
      have halt := AltIndex_one ({ f with table_ := t1 } : CuckooFilter) hnb1 0
        (f.table_.slot 0 r)
      simp only [AddInternal.loop, hk, hres, ↓reduceIte, halt]
      exact g1

theorem GetIndexAndTag_one (hash : Nat → Nat → Nat) (f : CuckooFilter)
    (h1 : f.table_.num_buckets_ = 1) (key : Nat) : (GetIndexAndTag hash f key).1 = 0 := by
  simp only [GetIndexAndTag, BucketIndexHash, SingleTable.NumBuckets, h1, Nat.mod_one]

theorem Insert_one_free (hash : Nat → Nat → Nat) (f : CuckooFilter) (h : WF f)
    (h1 : f.table_.num_buckets_ = 1) (hv : f.last_victim_.used = false) (m : Nat)
    (hnum : f.num_elements_ = m) (hocc : f.table_.occupied 0 = m) (hm : m < 4) (key : Nat) :
    ∃ f2, Insert hash f key = some (true, f2) ∧ WF f2 ∧ f2.table_.num_buckets_ = 1 ∧
      f2.last_victim_.used = false ∧ f2.num_elements_ = (m + 1 : Nat) ∧
      f2.table_.occupied 0 = m + 1 := by
  obtain ⟨hi, ht⟩ := GetIndexAndTag_valid hash f h key
  have hidx := GetIndexAndTag_one hash f h1 key
  rw [hidx] at hi
  have htl := validTag_lt f h _ ht
  rcases SingleTable.InsertTagToBucket_cases f.table_ h.table 0 (GetIndexAndTag hash f key).2
      (decide (0 > 0)) 0 with ⟨j, hj, hz, hres⟩ | ⟨hfull, _, _⟩ | ⟨hfull, _, _⟩
  · have hfr := SingleTable.WriteTag_frame f.table_ 0 j (GetIndexAndTag hash f key).2
    have hn : wrap_int64 (f.num_elements_ + 1) = (m + 1 : Nat) := by
      rw [hnum]
      push_cast
      exact wrap_int64_small _ (by omega) (by omega)
    refine ⟨{ f with table_ := f.table_.WriteTag 0 j (GetIndexAndTag hash f key).2,
                     num_elements_ := wrap_int64 (f.num_elements_ + 1),
                     log_regulator_ :=
                       if wrap_int64 (f.num_elements_ + 1) > f.expected_num_elements_ then
                         wrap_int64 (f.log_regulator_ + 1)
                       else f.log_regulator_ }, ?_, ?_, ?_, hv, hn, ?_⟩
    · unfold Insert AddInternal
      simp only [hv, Bool.false_eq_true, ↓reduceIte, kMaxCuckooCount, AddInternal.loop, hidx,
        hres]
    · exact WF_set_log _ (WF_set_table f h _ (SingleTable.WriteTag_WF _ h.table _ _ _)
        hfr.2.2.2.1 hfr.1 _) _
    · show (f.table_.WriteTag 0 j (GetIndexAndTag hash f key).2).num_buckets_ = 1
      rw [hfr.1]; exact h1
    · show (f.table_.WriteTag 0 j (GetIndexAndTag hash f key).2).occupied 0 = m + 1
      rw [SingleTable.occupied_WriteTag_free f.table_ h.table 0 j _ hi.1 hj hz ht.1 htl, hocc]
  · have := (SingleTable.occupied_full_iff f.table_ 0).mpr hfull
    omega
  · have := (SingleTable.occupied_full_iff f.table_ 0).mpr hfull
    omega

theorem Insert_one_full (hash : Nat → Nat → Nat) (f : CuckooFilter) (h : WF f)
    (h1 : f.table_.num_buckets_ = 1) (hv : f.last_victim_.used = false)
    (hocc : f.table_.occupied 0 = 4) (key : Nat) :
    ∃ f2, Insert hash f key = some (true, f2) ∧ WF f2 ∧
      f2.num_elements_ = f.num_elements_ ∧ f2.last_victim_.used = true := by
  obtain ⟨_, ht⟩ := GetIndexAndTag_valid hash f h key
  have hidx := GetIndexAndTag_one hash f h1 key
  have hfull := (SingleTable.occupied_full_iff f.table_ 0).mp hocc
  obtain ⟨f2, g1, g2, g3⟩ := loop_full kMaxCuckooCount f 0 _ h h1 hfull ht
  obtain ⟨f3, k1, k2, _, _, _, k6⟩ := Insert_spec hash f h key hv
  have hins : Insert hash f key = some (true,
      { f2 with log_regulator_ :=
          if f2.num_elements_ > f2.expected_num_elements_ then wrap_int64 (f2.log_regulator_ + 1)
          else f2.log_regulator_ }) := by
    unfold Insert AddInternal
    simp only [hv, Bool.false_eq_true, ↓reduceIte, hidx, g1]
  rw [hins] at k1
  cases k1
  exact ⟨_, hins, k2, g2, g3⟩

theorem InsertAll_contains (hash : Nat → Nat → Nat) (keys : List Nat) :
    ∀ (f : CuckooFilter) (rets : List Bool) (f2 : CuckooFilter), WF f →
      InsertAll hash f keys = some (rets, f2) → (∀ r ∈ rets, r = true) →
      ∀ k ∈ keys, Contains hash f2 k = some true := by
  induction keys with
  | nil => intro f rets f2 _ _ _ k hk; cases hk
  | cons key rest ih =>
    intro f rets f2 h hall hrets k hk
    obtain ⟨ret, f1, h1, h2, h3, h4, _, _, h7⟩ := Insert_total hash f h key
    obtain ⟨rets1, f3, g1, g2, g3, g4, g5⟩ := InsertAll_spec hash rest f1 h2
    simp only [InsertAll, h1, g1, Option.some.injEq, Prod.mk.injEq] at hall
    obtain ⟨e1, e2⟩ := hall
    subst e1 e2
    rcases List.mem_cons.mp hk with rfl | hk
    · obtain ⟨hi, ht⟩ := GetIndexAndTag_valid hash f h k
      have hret : ret = true := hrets ret (List.mem_cons_self _ _)
      rw [Contains_eq hash f3 g2 k,
        GetIndexAndTag_congr hash f f3 (by rw [g4, h4]) (by rw [g3, h3]) k,
        g5 _ _ ((validIndex_congr f f1 h4 _).mpr hi) ((validTag_congr f f1 h3 _).mpr ht)
          (h7 hret)]
    · exact ih f1 rets1 f3 h2 g1 (fun r hr => hrets r (List.mem_cons_of_mem _ hr)) k hk

theorem new_one (uninit rand_gen : Nat → Nat) :
    ∃ f, new 1 8 uninit rand_gen = some f ∧ WF f ∧ IsEmpty f ∧ f.table_.num_buckets_ = 1 := by
  obtain ⟨t, ht, htwf, htn, htb, hts⟩ :=
    SingleTable.table_new_spec 1 8 uninit rand_gen (by norm_num) (Or.inr (Or.inl rfl))
  refine ⟨{ bits_per_element_ := 8, table_ := t, num_elements_ := 0,
            last_victim_ := { index := 0, tag := 0, used := false },
            expected_num_elements_ := 1, log_regulator_ := 0 }, ?_, ?_, ?_, htn⟩
  · have hnew : new 1 8 uninit rand_gen =
        (SingleTable.new 1 4 8 uninit rand_gen).bind (fun table => some
          ({ bits_per_element_ := 8, table_ := table, num_elements_ := 0,
             last_victim_ := { index := 0, tag := 0, used := false },
             expected_num_elements_ := ((1 : Nat) : Int), log_regulator_ := 0 } :
            CuckooFilter)) := by
      cases hs : SingleTable.new 1 4 8 uninit rand_gen with
      | none =>
        rw [ht] at hs
        cases hs
      | some t2 =>
        show (match SingleTable.new 1 4 8 uninit rand_gen with
          | none => none
          | some table => some
              ({ bits_per_element_ := 8, table_ := table, num_elements_ := 0,
                 last_victim_ := { index := 0, tag := 0, used := false },
                 expected_num_elements_ := ((1 : Nat) : Int), log_regulator_ := 0 } :
                CuckooFilter)) = _
        rw [hs]
        rfl
    rw [hnew, ht]
    rfl
  · exact { table := htwf, bits := htb.symm, pow2 := ⟨0, htn⟩, victim := fun h => by cases h }
  · exact { slots := fun i j hi hj => hts i j (by rw [← htn]; exact hi) hj, victim := rfl,
            num := rfl }

theorem occupied_empty (f : CuckooFilter) (h : WF f) (he : IsEmpty f) :
    f.table_.occupied 0 = 0 := by
  have hp := h.table.buckets_pos
  unfold SingleTable.occupied
  rw [he.slots 0 0 hp (by norm_num), he.slots 0 1 hp (by norm_num),
    he.slots 0 2 hp (by norm_num), he.slots 0 3 hp (by norm_num)]
  rfl

/-- C9, at the failing input. The victim path of `AddInternal` returns true
without `++num_elements_`:
on `CuckooFilter(1, 8)` (one bucket of four slots), whatever the hash, the
uninitialised bytes and the eviction draws, the five calls `Insert(1)`, ...,
`Insert(5)` all return true and all five keys are reported by `Contains`,
but `NumElements()` is 4, the fifth tag being the pending victim. -/
theorem NumElements_misses_victim (hash : Nat → Nat → Nat) (uninit rand_gen : Nat → Nat) :
    ∃ f0 f5, new 1 8 uninit rand_gen = some f0 ∧
      InsertAll hash f0 [1, 2, 3, 4, 5] = some ([true, true, true, true, true], f5) ∧
      NumElements f5 = 4 ∧ f5.last_victim_.used = true ∧
      ∀ k ∈ [1, 2, 3, 4, 5], Contains hash f5 k = some true := by
  obtain ⟨f0, h0, hwf0, hemp, hnb0⟩ := new_one uninit rand_gen
  obtain ⟨f1, i1, w1, n1, v1, c1, o1⟩ := Insert_one_free hash f0 hwf0 hnb0 hemp.victim 0
    (by rw [hemp.num]; rfl) (occupied_empty f0 hwf0 hemp) (by norm_num) 1
  obtain ⟨f2, i2, w2, n2, v2, c2, o2⟩ := Insert_one_free hash f1 w1 n1 v1 1 c1 o1 (by norm_num) 2
  obtain ⟨f3, i3, w3, n3, v3, c3, o3⟩ := Insert_one_free hash f2 w2 n2 v2 2 c2 o2 (by norm_num) 3
  obtain ⟨f4, i4, w4, n4, v4, c4, o4⟩ := Insert_one_free hash f3 w3 n3 v3 3 c3 o3 (by norm_num) 4
  obtain ⟨f5, i5, w5, c5, v5⟩ := Insert_one_full hash f4 w4 n4 v4 o4 5
  have hall : InsertAll hash f0 [1, 2, 3, 4, 5] = some ([true, true, true, true, true], f5) := by
    simp only [InsertAll, i1, i2, i3, i4, i5]
  refine ⟨f0, f5, h0, hall, ?_, v5, ?_⟩
  · unfold NumElements
    rw [c5, c4]
    rfl
  · exact InsertAll_contains hash _ f0 _ f5 hwf0 hall (by simp)

theorem sample_new : new 10 8 (fun _ => 0) (fun _ => 0) = some sampleFilter := rfl

set_option maxRecDepth 100000 in
/-- The call `Insert(25)` on `sampleFilter` puts the tag 25 into bucket 1. -/
theorem sample_Insert_25 : Insert sampleHash sampleFilter 25 = some (true, sampleInserted) := by
  rfl

set_option maxRecDepth 100000 in
/-- The call `Insert(35)` after it puts the tag 35 into bucket 3. -/
theorem sample_Insert_35 :
    Insert sampleHash sampleInserted 35 = some (true, sampleInsertedTwice) := by
  rfl

theorem sampleInsertedTwice_reachable :
    Reachable sampleHash 10 8 (fun _ => 0) (fun _ => 0) sampleInsertedTwice :=
  Reachable.insert sampleInserted 35 true sampleInsertedTwice
    (Reachable.insert sampleFilter 25 true sampleInserted
      (Reachable.constructed _ sample_new) sample_Insert_25) sample_Insert_35

set_option maxRecDepth 100000 in
/-- The filter `sampleInsertedTwice` holds the keys 25 and 35 in two slots. -/
theorem sampleInsertedTwice_holds :
    Contains sampleHash sampleInsertedTwice 25 = some true ∧
    Contains sampleHash sampleInsertedTwice 35 = some true ∧
    sampleInsertedTwice.table_.ReadTag 1 0 = some 25 ∧
    sampleInsertedTwice.table_.ReadTag 3 0 = some 35 ∧
    sampleInsertedTwice.table_.numOccupied = 2 ∧
    sampleInsertedTwice.NumElements = 2 :=
  ⟨rfl, rfl, rfl, rfl, rfl, rfl⟩

/-- C5. No false negatives under inserts: in every state `f` of a filter
constructed with `expected_num_elements >= 1` and `bits_per_element` in
{4, 8, 12, 16, 32}, for every stream `rand_gen` of eviction draws, `Insert(key)`
and the later `Insert` calls all return, and if `Insert(key)` returned true
then `Contains(key)` is true right after it and after the later inserts. -/
theorem no_false_negatives_under_inserts (hash : Nat → Nat → Nat)
    (expected_num_elements bits_per_element : Nat) (uninit rand_gen : Nat → Nat)
    (he : 1 ≤ expected_num_elements) (he63 : expected_num_elements < 2 ^ 63)
    (hw : bits_per_element = 4 ∨ bits_per_element = 8 ∨ bits_per_element = 12 ∨
      bits_per_element = 16 ∨ bits_per_element = 32)
    (f : CuckooFilter)
    (hf : Reachable hash expected_num_elements bits_per_element uninit rand_gen f)
    (key : Nat) (later : List Nat) :
    ∃ ret f1 rets f2, Insert hash f key = some (ret, f1) ∧
      InsertAll hash f1 later = some (rets, f2) ∧
      (ret = true → Contains hash f1 key = some true ∧ Contains hash f2 key = some true) := by
  have h := hf.wf he he63 hw
  obtain ⟨ret, f1, h1, h2, h3, h4, _, _, h7⟩ := Insert_total hash f h key
  obtain ⟨rets, f2, g1, g2, g3, g4, g5⟩ := InsertAll_spec hash later f1 h2
  obtain ⟨hi, ht⟩ := GetIndexAndTag_valid hash f h key
  refine ⟨ret, f1, rets, f2, h1, g1, ?_⟩
  intro hret
  have e1 := GetIndexAndTag_congr hash f f1 h4 h3 key
  have e2 := GetIndexAndTag_congr hash f f2 (by rw [g4, h4]) (by rw [g3, h3]) key
  constructor
  · rw [Contains_eq hash f1 h2 key, e1, h7 hret]
  · rw [Contains_eq hash f2 g2 key, e2,
      g5 _ _ ((validIndex_congr f f1 h4 _).mpr hi) ((validTag_congr f f1 h3 _).mpr ht) (h7 hret)]

/-- Witness of C5: `CuckooFilter(10, 8)`, `Insert(25)` followed by `Insert(35)`
and `Insert(45)`. -/
theorem no_false_negatives_under_inserts_witness :
    (1 ≤ 10 ∧ 10 < 2 ^ 63 ∧ ((8 : Nat) = 4 ∨ (8 : Nat) = 8 ∨ (8 : Nat) = 12 ∨ (8 : Nat) = 16 ∨ (8 : Nat) = 32) ∧
      Reachable sampleHash 10 8 (fun _ => 0) (fun _ => 0) sampleFilter) ∧
    ∃ ret f1 rets f2, Insert sampleHash sampleFilter 25 = some (ret, f1) ∧
      InsertAll sampleHash f1 [35, 45] = some (rets, f2) ∧
      (ret = true →
        Contains sampleHash f1 25 = some true ∧ Contains sampleHash f2 25 = some true) :=
  ⟨⟨by decide, by decide, Or.inr (Or.inl rfl), Reachable.constructed _ sample_new⟩,
    no_false_negatives_under_inserts sampleHash 10 8 (fun _ => 0) (fun _ => 0) (by decide) (by decide)
      (Or.inr (Or.inl rfl)) sampleFilter
      (Reachable.constructed _ sample_new) 25 [35, 45]⟩

/-- C6. In every state of a filter constructed with `expected_num_elements >= 1`
and `bits_per_element` in {4, 8, 12, 16, 32}, `Insert(key)` returns false
exactly when a victim was pending at the call, and then the filter (table,
victim slot, `NumElements()`) is unchanged; otherwise it returns true. -/
theorem Insert_false_iff_victim_pending (hash : Nat → Nat → Nat)
    (expected_num_elements bits_per_element : Nat) (uninit rand_gen : Nat → Nat)
    (he : 1 ≤ expected_num_elements) (he63 : expected_num_elements < 2 ^ 63)
    (hw : bits_per_element = 4 ∨ bits_per_element = 8 ∨ bits_per_element = 12 ∨
      bits_per_element = 16 ∨ bits_per_element = 32)
    (f : CuckooFilter)
    (hf : Reachable hash expected_num_elements bits_per_element uninit rand_gen f)
    (key : Nat) :
    ∃ ret f1, Insert hash f key = some (ret, f1) ∧
      (ret = false ↔ f.last_victim_.used = true) ∧
      (f.last_victim_.used = true →
        f1 = f ∧ f1.table_ = f.table_ ∧ f1.last_victim_ = f.last_victim_ ∧
          NumElements f1 = NumElements f) ∧
      (f.last_victim_.used = false → ret = true) := by
  have h := hf.wf he he63 hw
  cases hv : f.last_victim_.used
  · obtain ⟨f1, h1, _⟩ := Insert_spec hash f h key hv
    exact ⟨true, f1, h1, by simp, (fun e => by cases e), (fun _ => rfl)⟩
  · exact ⟨false, f, Insert_pending hash f key hv, by simp, (fun _ => ⟨rfl, rfl, rfl, rfl⟩),
      (fun e => by cases e)⟩

/-- Witness of C6: `Insert(25)` on `CuckooFilter(10, 8)`. -/
theorem Insert_false_iff_victim_pending_witness :
    (1 ≤ 10 ∧ 10 < 2 ^ 63 ∧ ((8 : Nat) = 4 ∨ (8 : Nat) = 8 ∨ (8 : Nat) = 12 ∨ (8 : Nat) = 16 ∨ (8 : Nat) = 32) ∧
      Reachable sampleHash 10 8 (fun _ => 0) (fun _ => 0) sampleFilter) ∧
    ∃ ret f1, Insert sampleHash sampleFilter 25 = some (ret, f1) ∧
      (ret = false ↔ sampleFilter.last_victim_.used = true) ∧
      (sampleFilter.last_victim_.used = true →
        f1 = sampleFilter ∧ f1.table_ = sampleFilter.table_ ∧
          f1.last_victim_ = sampleFilter.last_victim_ ∧
          NumElements f1 = NumElements sampleFilter) ∧
      (sampleFilter.last_victim_.used = false → ret = true) :=
  ⟨⟨by decide, by decide, Or.inr (Or.inl rfl), Reachable.constructed _ sample_new⟩,
    Insert_false_iff_victim_pending sampleHash 10 8 (fun _ => 0) (fun _ => 0) (by decide) (by decide)
      (Or.inr (Or.inl rfl)) sampleFilter
      (Reachable.constructed _ sample_new) 25⟩

/-- C7. Round trip on a filter holding nothing else: for a filter `f` just
constructed (`expected_num_elements >= 1`, `bits_per_element` in
{4, 8, 12, 16, 32}) or just cleared from a state `g`, and every key `k`:
`Insert(k)` returns true, then `Contains(k)` is true and `NumElements()` is 1;
`Delete(k)` returns true, then `Contains(k)` is false, `NumElements()` is 0 and
every slot of the table reads 0; and `Insert(k)` returns true again. -/
theorem Insert_Contains_Delete_round_trip (hash : Nat → Nat → Nat)
    (expected_num_elements bits_per_element : Nat) (uninit rand_gen : Nat → Nat)
    (he : 1 ≤ expected_num_elements) (he63 : expected_num_elements < 2 ^ 63)
    (hw : bits_per_element = 4 ∨ bits_per_element = 8 ∨ bits_per_element = 12 ∨
      bits_per_element = 16 ∨ bits_per_element = 32)
    (f : CuckooFilter)
    (hf : new expected_num_elements bits_per_element uninit rand_gen = some f ∨
      ∃ g, Reachable hash expected_num_elements bits_per_element uninit rand_gen g ∧
        f = Clear g)
    (k : Nat) :
    ∃ f1 f2 f3, Insert hash f k = some (true, f1) ∧ Contains hash f1 k = some true ∧
      NumElements f1 = 1 ∧ Delete hash f1 k = some (true, f2) ∧
      Contains hash f2 k = some false ∧ NumElements f2 = 0 ∧
      (∀ i j, i < f2.table_.NumBuckets → j < 4 → f2.table_.ReadTag i j = some 0) ∧
      Insert hash f2 k = some (true, f3) := by
  have hfe : WF f ∧ IsEmpty f := by
    rcases hf with hf | ⟨g, hg, rfl⟩
    · obtain ⟨f0, h0, hwf, hemp⟩ := new_spec expected_num_elements bits_per_element uninit
        rand_gen he he63 hw
      rw [h0] at hf
      cases hf
      exact ⟨hwf, hemp⟩
    · have hgw := hg.wf he he63 hw
      exact ⟨Clear_WF g hgw, Clear_IsEmpty g hgw⟩
  obtain ⟨h, hemp⟩ := hfe
  obtain ⟨j, reg, hj, hins⟩ := Insert_empty hash f h hemp k
  obtain ⟨hwf1, hcont, f2, hdel, hwf2, hemp2⟩ :=
    Delete_single hash f h hemp k j reg hj _ rfl
  obtain ⟨j3, reg3, _, hins3⟩ := Insert_empty hash f2 hwf2 hemp2 k
  exact ⟨_, f2, _, hins, hcont, rfl, hdel, Contains_empty hash f2 hwf2 hemp2 k, hemp2.num,
    (fun i j hi hj => ReadTag_empty f2 hwf2 hemp2 i j hi hj), hins3⟩

/-- Witness of C7: key 25 on the fresh `CuckooFilter(10, 8)`. -/
theorem Insert_Contains_Delete_round_trip_witness :
    (1 ≤ 10 ∧ 10 < 2 ^ 63 ∧
      new 10 8 (fun _ => 0) (fun _ => 0) = some sampleFilter) ∧
    ∃ f1 f2 f3, Insert sampleHash sampleFilter 25 = some (true, f1) ∧
      Contains sampleHash f1 25 = some true ∧
      NumElements f1 = 1 ∧ Delete sampleHash f1 25 = some (true, f2) ∧
      Contains sampleHash f2 25 = some false ∧ NumElements f2 = 0 ∧
      (∀ i j, i < f2.table_.NumBuckets → j < 4 → f2.table_.ReadTag i j = some 0) ∧
      Insert sampleHash f2 25 = some (true, f3) :=
  ⟨⟨by decide, by decide, sample_new⟩,
    Insert_Contains_Delete_round_trip sampleHash 10 8 (fun _ => 0) (fun _ => 0) (by decide) (by decide)
      (Or.inr (Or.inl rfl)) sampleFilter
      (Or.inl sample_new) 25⟩

/-- C8. In every state of a filter constructed with `expected_num_elements >= 1`
and `bits_per_element` in {4, 8, 12, 16, 32}, `Delete(k)` returns what
`Contains(k)` returned just before (the tag is in the primary bucket, in the
alternate bucket, or is the pending victim for one of the two), and when it
returns false the filter is unchanged. -/
theorem Delete_true_iff_Contains (hash : Nat → Nat → Nat)
    (expected_num_elements bits_per_element : Nat) (uninit rand_gen : Nat → Nat)
    (he : 1 ≤ expected_num_elements) (he63 : expected_num_elements < 2 ^ 63)
    (hw : bits_per_element = 4 ∨ bits_per_element = 8 ∨ bits_per_element = 12 ∨
      bits_per_element = 16 ∨ bits_per_element = 32)
    (f : CuckooFilter)
    (hf : Reachable hash expected_num_elements bits_per_element uninit rand_gen f)
    (k : Nat) :
    ∃ ret f1, Delete hash f k = some (ret, f1) ∧ Contains hash f k = some ret ∧
      ret = f.holds (GetIndexAndTag hash f k).1 (GetIndexAndTag hash f k).2 ∧
      (ret = false →
        f1 = f ∧ f1.table_ = f.table_ ∧ f1.last_victim_ = f.last_victim_ ∧
          NumElements f1 = NumElements f) := by
  have h := hf.wf he he63 hw
  obtain ⟨f1, h1, _, _, _, h5⟩ := Delete_spec hash f h k
  refine ⟨_, f1, h1, Contains_eq hash f h k, rfl, ?_⟩
  intro hret
  have e := h5 hret
  subst e
  exact ⟨rfl, rfl, rfl, rfl⟩

/-- Witness of C8: `Delete(25)` on the fresh `CuckooFilter(10, 8)`. -/
theorem Delete_true_iff_Contains_witness :
    (1 ≤ 10 ∧ 10 < 2 ^ 63 ∧ ((8 : Nat) = 4 ∨ (8 : Nat) = 8 ∨ (8 : Nat) = 12 ∨ (8 : Nat) = 16 ∨ (8 : Nat) = 32) ∧
      Reachable sampleHash 10 8 (fun _ => 0) (fun _ => 0) sampleFilter) ∧
    ∃ ret f1, Delete sampleHash sampleFilter 25 = some (ret, f1) ∧
      Contains sampleHash sampleFilter 25 = some ret ∧
      ret = sampleFilter.holds (GetIndexAndTag sampleHash sampleFilter 25).1
        (GetIndexAndTag sampleHash sampleFilter 25).2 ∧
      (ret = false →
        f1 = sampleFilter ∧ f1.table_ = sampleFilter.table_ ∧
          f1.last_victim_ = sampleFilter.last_victim_ ∧
          NumElements f1 = NumElements sampleFilter) :=
  ⟨⟨by decide, by decide, Or.inr (Or.inl rfl), Reachable.constructed _ sample_new⟩,
    Delete_true_iff_Contains sampleHash 10 8 (fun _ => 0) (fun _ => 0) (by decide) (by decide)
      (Or.inr (Or.inl rfl)) sampleFilter
      (Reachable.constructed _ sample_new) 25⟩

end CuckooFilter

namespace SingleTable

/-! ## The number of buckets never changes -/

theorem new_num_buckets (num_buckets tags_per_bucket bits_per_tag : Nat)
    (uninit rand_gen : Nat → Nat) (t : SingleTable)
    (h : new num_buckets tags_per_bucket bits_per_tag uninit rand_gen = some t) :
    t.num_buckets_ = num_buckets ∧ 0 < num_buckets := by
  unfold new at h
  dsimp only at h
  split_ifs at h with hc
  simp only [Option.some.injEq] at h
  subst h
  exact ⟨rfl, hc.1⟩

theorem InsertTagToBucket_loop_num_buckets (t : SingleTable) (i tag : Nat) :
    ∀ (n j : Nat) (t1 : SingleTable), InsertTagToBucket.loop t i tag n j = some (some t1) →
      t1.num_buckets_ = t.num_buckets_ := by
  intro n
  induction n with
  | zero => intro j t1 h; simp [InsertTagToBucket.loop] at h
  | succ n ih =>
    intro j t1 h
    unfold InsertTagToBucket.loop at h
    cases hr : t.ReadTag i j with
    | none => rw [hr] at h; simp at h
    | some a =>
      rw [hr] at h
      dsimp only at h
      split_ifs at h
      · simp only [Option.some.injEq] at h
        rw [← h]
        exact (WriteTag_frame t i j tag).1
      · exact ih _ _ h

theorem InsertTagToBucket_num_buckets (t : SingleTable) (i tag : Nat) (kickout : Bool)
    (oldtag : Nat) (r : Bool) (old : Nat) (t1 : SingleTable)
    (h : t.InsertTagToBucket i tag kickout oldtag = some (r, old, t1)) :
    t1.num_buckets_ = t.num_buckets_ := by
  unfold InsertTagToBucket at h
  cases hl : InsertTagToBucket.loop t i tag t.tags_per_bucket_ 0 with
  | none => rw [hl] at h; simp at h
  | some o =>
    rw [hl] at h
    cases o with
    | some t2 =>
      simp only [Option.some.injEq, Prod.mk.injEq] at h
      rw [← h.2.2]
      exact InsertTagToBucket_loop_num_buckets t i tag _ _ _ hl
    | none =>
      dsimp only at h
      split_ifs at h
      · cases hr : ReadTag { t with rand_pos_ := t.rand_pos_ + 1 } i
            (t.rand_gen_ t.rand_pos_ % 2 ^ 64 % t.tags_per_bucket_) with
        | none => rw [hr] at h; simp at h
        | some a =>
          rw [hr] at h
          simp only [Option.some.injEq, Prod.mk.injEq] at h
          rw [← h.2.2]
          exact (WriteTag_frame _ i _ tag).1
      · simp only [Option.some.injEq, Prod.mk.injEq] at h
        rw [← h.2.2]

theorem DeleteTagFromBucket_loop_num_buckets (t : SingleTable) (i tag : Nat) :
    ∀ (n j : Nat) (r : Bool) (t1 : SingleTable),
      DeleteTagFromBucket.loop t i tag n j = some (r, t1) →
      t1.num_buckets_ = t.num_buckets_ := by
  intro n
  induction n with
  | zero =>
    intro j r t1 h
    simp only [DeleteTagFromBucket.loop, Option.some.injEq, Prod.mk.injEq] at h
    rw [← h.2]
  | succ n ih =>
    intro j r t1 h
    unfold DeleteTagFromBucket.loop at h
    cases hr : t.ReadTag i j with
    | none => rw [hr] at h; simp at h
    | some a =>
      rw [hr] at h
      dsimp only at h
      split_ifs at h
      · cases hf : t.FindTagInBucket i tag with
        | none => rw [hf] at h; simp at h
        | some b =>
          rw [hf] at h
          cases b with
          | false => simp at h
          | true =>
            simp only [Option.some.injEq, Prod.mk.injEq] at h
            rw [← h.2]
            exact (WriteTag_frame t i j 0).1
      · exact ih _ _ _ h

end SingleTable

namespace CuckooFilter

theorem AddInternal_loop_num_buckets :
    ∀ (n : Nat) (f : CuckooFilter) (count curindex curtag : Nat) (r : Bool) (f1 : CuckooFilter),
      AddInternal.loop n f count curindex curtag = some (r, f1) →
      f1.table_.num_buckets_ = f.table_.num_buckets_ := by
  intro n
  induction n with
  | zero =>
    intro f count curindex curtag r f1 h
    simp only [AddInternal.loop, Option.some.injEq, Prod.mk.injEq] at h
    rw [← h.2]
  | succ n ih =>
    intro f count curindex curtag r f1 h
    unfold AddInternal.loop at h
    dsimp only at h
    cases hi : f.table_.InsertTagToBucket curindex curtag (decide (count > 0)) 0 with
    | none => rw [hi] at h; simp at h
    | some res =>
      obtain ⟨b, old, table⟩ := res
      have hnb := SingleTable.InsertTagToBucket_num_buckets _ _ _ _ _ _ _ _ hi
      rw [hi] at h
      cases b with
      | true =>
        simp only [Option.some.injEq, Prod.mk.injEq] at h
        rw [← h.2]
        exact hnb
      | false =>
        dsimp only at h
        rw [ih _ _ _ _ _ _ h]
        exact hnb

theorem Insert_num_buckets (hash : Nat → Nat → Nat) (f : CuckooFilter) (key : Nat) (r : Bool)
    (f1 : CuckooFilter) (h : Insert hash f key = some (r, f1)) :
    f1.table_.num_buckets_ = f.table_.num_buckets_ := by
  unfold Insert at h
  split_ifs at h
  · simp only [Option.some.injEq, Prod.mk.injEq] at h
    rw [← h.2]
  · dsimp only at h
    cases ha : f.AddInternal (GetIndexAndTag hash f key).1 (GetIndexAndTag hash f key).2 with
    | none => rw [ha] at h; simp at h
    | some res =>
      obtain ⟨b, f2⟩ := res
      rw [ha] at h
      simp only [Option.some.injEq, Prod.mk.injEq] at h
      rw [← h.2]
      exact AddInternal_loop_num_buckets _ _ _ _ _ b f2 ha

theorem TryEliminateVictim_num_buckets (f : CuckooFilter) (r : Bool) (f1 : CuckooFilter)
    (h : TryEliminateVictim f = some (r, f1)) :
    f1.table_.num_buckets_ = f.table_.num_buckets_ := by
  unfold TryEliminateVictim at h
  split_ifs at h
  · dsimp only at h
    cases ha : AddInternal { f with last_victim_ := { f.last_victim_ with used := false } }
        f.last_victim_.index f.last_victim_.tag with
    | none => rw [ha] at h; simp at h
    | some res =>
      obtain ⟨b, f2⟩ := res
      rw [ha] at h
      simp only [Option.some.injEq, Prod.mk.injEq] at h
      rw [← h.2]
      have h3 := AddInternal_loop_num_buckets _ _ _ _ _ b f2 ha
      exact h3
  · simp only [Option.some.injEq, Prod.mk.injEq] at h
    rw [← h.2]

theorem Delete_num_buckets (hash : Nat → Nat → Nat) (f : CuckooFilter) (key : Nat) (r : Bool)
    (f1 : CuckooFilter) (h : Delete hash f key = some (r, f1)) :
    f1.table_.num_buckets_ = f.table_.num_buckets_ := by
  unfold Delete at h
  dsimp only at h
  split_ifs at h <;>
  cases h1 : f.table_.DeleteTagFromBucket (GetIndexAndTag hash f key).1
      (GetIndexAndTag hash f key).2 with
  | none => rw [h1] at h; simp at h
  | some res =>
    obtain ⟨b, table⟩ := res
    have hn1 := SingleTable.DeleteTagFromBucket_loop_num_buckets _ _ _ _ _ _ _ h1
    rw [h1] at h
    cases b with
    | true =>
      dsimp only at h
      rw [TryEliminateVictim_num_buckets _ _ _ h]
      exact hn1
    | false =>
      dsimp only at h
      cases h2 : table.DeleteTagFromBucket
          (f.AltIndex (GetIndexAndTag hash f key).1 (GetIndexAndTag hash f key).2)
          (GetIndexAndTag hash f key).2 with
      | none => rw [h2] at h; simp at h
      | some res2 =>
        obtain ⟨b2, table2⟩ := res2
        have hn2 := SingleTable.DeleteTagFromBucket_loop_num_buckets _ _ _ _ _ _ _ h2
        rw [h2] at h
        cases b2 with
        | true =>
          dsimp only at h
          rw [TryEliminateVictim_num_buckets _ _ _ h]
          exact hn2.trans hn1
        | false =>
          simp only [Option.some.injEq, Prod.mk.injEq] at h
          rw [← h.2]
          exact hn2.trans hn1

theorem new_num_buckets_pow2 (e bits : Nat) (uninit rand_gen : Nat → Nat) (f : CuckooFilter)
    (he : 1 ≤ e) (he63 : e < 2 ^ 63) (h : new e bits uninit rand_gen = some f) :
    ∃ k, f.table_.num_buckets_ = 2 ^ k := by
  have hx1 : 1 ≤ (e + 3) / 4 := by omega
  have hx2 : (e + 3) / 4 ≤ 2 ^ 63 := by omega
  have hup := upperpower2_eq _ hx1 hx2
  unfold new at h
  dsimp only at h
  rw [hup] at h
  split at h
  · simp at h
  · rename_i table ht
    simp only [Option.some.injEq] at h
    rw [← h]
    dsimp only
    rw [(SingleTable.new_num_buckets _ _ _ _ _ _ ht).1]
    split_ifs
    · exact ⟨((e + 3) / 4 - 1).size + 1, by rw [Nat.pow_succ]⟩
    · exact ⟨_, rfl⟩

theorem Reachable.num_buckets_pow2 {hash : Nat → Nat → Nat} {e bits : Nat}
    {uninit rand_gen : Nat → Nat} {f : CuckooFilter} (he : 1 ≤ e) (he63 : e < 2 ^ 63)
    (h : Reachable hash e bits uninit rand_gen f) : ∃ k, f.table_.num_buckets_ = 2 ^ k := by
  induction h with
  | constructed f h => exact new_num_buckets_pow2 e bits uninit rand_gen f he he63 h
  | insert f key ret f1 _ h ih => rw [Insert_num_buckets hash f key ret f1 h]; exact ih
  | delete f key ret f1 _ h ih => rw [Delete_num_buckets hash f key ret f1 h]; exact ih
  | clear f _ ih => exact ih

theorem AltIndex_lt (f : CuckooFilter) (hp : ∃ k, f.table_.num_buckets_ = 2 ^ k)
    (i tag : Nat) : f.AltIndex i tag < f.table_.num_buckets_ := by
  obtain ⟨k, hk⟩ := hp
  unfold AltIndex BucketIndexHash SingleTable.NumBuckets
  exact Nat.mod_lt _ (by rw [hk]; exact Nat.two_pow_pos k)

theorem AltIndex_twice (f : CuckooFilter) (hp : ∃ k, f.table_.num_buckets_ = 2 ^ k)
    (i tag : Nat) (hi1 : i < f.table_.num_buckets_) (hi2 : i < 2 ^ 32) :
    f.AltIndex (f.AltIndex i tag) tag = i := by
  obtain ⟨k, hk⟩ := hp
  simp only [AltIndex, BucketIndexHash, SingleTable.NumBuckets, hk]
  rw [hk] at hi1
  generalize tag * 0x5bd1e995 % 2 ^ 32 = x
  by_cases hk32 : k ≤ 32
  · have e1 : ∀ y, y % 2 ^ 32 % 2 ^ k = y % 2 ^ k := by
      intro y
      exact Nat.mod_mod_of_dvd y (Nat.pow_dvd_pow 2 hk32)
    rw [e1, e1]
    exact xor_mod_xor i x k hi1
  · have hlt : (2 : Nat) ^ 32 < 2 ^ k := Nat.pow_lt_pow_right (by norm_num) (by omega)
    have e1 : ∀ y, y % 2 ^ 32 % 2 ^ k = y % 2 ^ 32 := by
      intro y
      exact Nat.mod_eq_of_lt (lt_trans (Nat.mod_lt _ (by norm_num)) hlt)
    rw [e1, e1]
    exact xor_mod_xor i x 32 hi2

theorem GetIndexAndTag_index_lt (hash : Nat → Nat → Nat) (f : CuckooFilter)
    (hp : ∃ k, f.table_.num_buckets_ = 2 ^ k) (key : Nat) :
    (GetIndexAndTag hash f key).1 < f.table_.num_buckets_ ∧
      (GetIndexAndTag hash f key).1 < 2 ^ 32 := by
  obtain ⟨k, hk⟩ := hp
  unfold GetIndexAndTag BucketIndexHash SingleTable.NumBuckets
  dsimp only
  exact ⟨Nat.mod_lt _ (by rw [hk]; exact Nat.two_pow_pos k),
    lt_of_le_of_lt (Nat.mod_le _ _) (Nat.mod_lt _ (by norm_num))⟩

/-- C11. `AltIndex` is an involution on the bucket of every key: in every state of
a filter built by `CuckooFilter(expected_num_elements, bits_per_element)` with
`expected_num_elements >= 1`, for `(i, tag) = GetIndexAndTag(key)` the index
`AltIndex(i, tag)` lies in `[0, num_buckets)` and
`AltIndex(AltIndex(i, tag), tag) = i`, which is the `CHECK_EQ` of `Contains` and of
`Delete`. -/
theorem AltIndex_involution (hash : Nat → Nat → Nat) (expected_num_elements bits_per_element : Nat)
    (uninit rand_gen : Nat → Nat) (f : CuckooFilter) (key : Nat)
    (he : 1 ≤ expected_num_elements) (he63 : expected_num_elements < 2 ^ 63)
    (hf : Reachable hash expected_num_elements bits_per_element uninit rand_gen f) :
    f.AltIndex (GetIndexAndTag hash f key).1 (GetIndexAndTag hash f key).2
        < f.table_.NumBuckets ∧
      f.AltIndex (f.AltIndex (GetIndexAndTag hash f key).1 (GetIndexAndTag hash f key).2)
        (GetIndexAndTag hash f key).2 = (GetIndexAndTag hash f key).1 := by
  have hp := Reachable.num_buckets_pow2 he he63 hf
  obtain ⟨h1, h2⟩ := GetIndexAndTag_index_lt hash f hp key
  exact ⟨AltIndex_lt f hp _ _, AltIndex_twice f hp _ _ h1 h2⟩

theorem AltIndex_involution_witness :
    1 ≤ 10 ∧ 10 < 2 ^ 63 ∧
      sampleFilter.AltIndex (GetIndexAndTag sampleHash sampleFilter 7).1
          (GetIndexAndTag sampleHash sampleFilter 7).2 < sampleFilter.table_.NumBuckets ∧
      sampleFilter.AltIndex
          (sampleFilter.AltIndex (GetIndexAndTag sampleHash sampleFilter 7).1
            (GetIndexAndTag sampleHash sampleFilter 7).2)
          (GetIndexAndTag sampleHash sampleFilter 7).2 =
        (GetIndexAndTag sampleHash sampleFilter 7).1 :=
  ⟨by decide, by norm_num,
    AltIndex_involution sampleHash 10 8 (fun _ => 0) (fun _ => 0) sampleFilter 7 (by decide)
      (by norm_num) (Reachable.constructed _ sample_new)⟩

end CuckooFilter

/-! ## SingleTable: tags of 2 bits -/

theorem testBit_three (k : Nat) : Nat.testBit 3 k = decide (k < 2) := by
  have h := Nat.testBit_two_pow_sub_one 2 k
  norm_num at h
  simpa using h

theorem and_3 (x : Nat) : x &&& 3 = x % 4 := Nat.and_pow_two_sub_one_eq_mod x 2

theorem write2_same (b x j : Nat) (hj : j < 4) :
    (((b ||| ((x &&& 3) <<< (2 * j))) % 256) >>> (j * 2)) % 2 ^ 32 &&& 3 =
      ((b >>> (j * 2)) % 2 ^ 32 &&& 3) ||| (x % 4) := by
  apply Nat.eq_of_testBit_eq
  intro k
  have e8 : (256 : Nat) = 2 ^ 8 := by norm_num
  have e4 : (4 : Nat) = 2 ^ 2 := by norm_num
  rw [e8, e4]
  simp only [Nat.testBit_and, Nat.testBit_or, Nat.testBit_mod_two_pow, Nat.testBit_shiftRight,
    Nat.testBit_shiftLeft, testBit_three]
  by_cases hk : k < 2
  · have h1 : j * 2 + k < 8 := by omega
    have h2 : k < 32 := by omega
    have h3 : j * 2 + k ≥ 2 * j := by omega
    have h4 : j * 2 + k - 2 * j = k := by omega
    simp [hk, h1, h2, h3, h4]
  · simp [hk]

theorem write2_other (b x j j2 : Nat) (hj2 : j2 < 4) (hne : j2 ≠ j) :
    (((b ||| ((x &&& 3) <<< (2 * j))) % 256) >>> (j2 * 2)) % 2 ^ 32 &&& 3 =
      (b >>> (j2 * 2)) % 2 ^ 32 &&& 3 := by
  apply Nat.eq_of_testBit_eq
  intro k
  have e8 : (256 : Nat) = 2 ^ 8 := by norm_num
  rw [e8]
  simp only [Nat.testBit_and, Nat.testBit_or, Nat.testBit_mod_two_pow, Nat.testBit_shiftRight,
    Nat.testBit_shiftLeft, testBit_three]
  by_cases hk : k < 2
  · have h1 : j2 * 2 + k < 8 := by omega
    have h2 : k < 32 := by omega
    by_cases h3 : j2 * 2 + k ≥ 2 * j
    · have h4 : ¬ (j2 * 2 + k - 2 * j < 2) := by omega
      simp [hk, h1, h2, h3, h4]
    · simp [hk, h1, h2, h3]
  · simp [hk]

namespace SingleTable

theorem Packed.cases2 {t : SingleTable} (h : Packed t) (hw : t.bits_per_tag_ = 2) :
    t.bytes_per_bucket_ = 1 ∧ t.tag_mask_ = 3 := by
  have hb := h.bucket_bytes
  have hm := h.mask
  rw [hw] at hb hm
  exact ⟨hb, hm⟩

theorem Packed.to_WF {t : SingleTable} (h : Packed t) (hw : t.bits_per_tag_ ≠ 2) : WF t :=
  { buckets_pos := h.buckets_pos, tags := h.tags
    width := by
      rcases h.width with h2 | h2
      · exact absurd h2 hw
      · exact h2
    bucket_bytes := h.bucket_bytes, mask := h.mask, len := h.len, bytes := h.bytes }

theorem WF.packed {t : SingleTable} (h : WF t) : Packed t :=
  { buckets_pos := h.buckets_pos, tags := h.tags, width := Or.inr h.width
    bucket_bytes := h.bucket_bytes, mask := h.mask, len := h.len, bytes := h.bytes }

theorem ReadTag_2 (t : SingleTable) (h : Packed t) (hw : t.bits_per_tag_ = 2) (i j : Nat) :
    t.ReadTag i j = some ((t.data_.getD i 0 >>> (j * 2)) % 2 ^ 32 &&& 3) := by
  obtain ⟨hb, hm⟩ := h.cases2 hw
  simp only [ReadTag, hw, hb, hm, ↓reduceIte, Nat.mul_one]

theorem WriteTag_2 (t : SingleTable) (h : Packed t) (hw : t.bits_per_tag_ = 2) (i j x : Nat) :
    (t.WriteTag i j x).data_ =
      t.data_.set i ((t.data_.getD i 0 ||| ((x &&& 3) <<< (2 * j))) % 256) := by
  obtain ⟨hb, hm⟩ := h.cases2 hw
  simp only [WriteTag, hw, hb, hm, ↓reduceIte, Nat.mul_one]

theorem WriteTag_packed (t : SingleTable) (h : Packed t) (i j x : Nat) :
    Packed (t.WriteTag i j x) := by
  obtain ⟨h1, h2, h3, h4, h5, _, _⟩ := WriteTag_frame t i j x
  exact
    { buckets_pos := by rw [h1]; exact h.buckets_pos
      tags := by rw [h2]; exact h.tags
      width := by rw [h4]; exact h.width
      bucket_bytes := by rw [h3, h4]; exact h.bucket_bytes
      mask := by rw [h5, h4]; exact h.mask
      len := by rw [WriteTag_length, h1, h3]; exact h.len
      bytes := WriteTag_bytes t h.bytes i j x }

theorem ReadTag_WriteTag_2 (t : SingleTable) (h : Packed t) (hw : t.bits_per_tag_ = 2)
    (i i2 x j j2 : Nat) (hi : i < t.num_buckets_) (hj : j < 4) (hj2 : j2 < 4) :
    ReadTag (WriteTag t i j x) i2 j2 =
      some (if i2 = i ∧ j2 = j then (ReadTag t i j).getD 0 ||| x % 4
        else (ReadTag t i2 j2).getD 0) := by
  have hw2 : (t.WriteTag i j x).bits_per_tag_ = 2 := by
    rw [(WriteTag_frame t i j x).2.2.2.1]; exact hw
  obtain ⟨hb, _⟩ := h.cases2 hw
  have hlen : i < t.data_.length := by
    rw [h.len, hb]; omega
  rw [ReadTag_2 _ (WriteTag_packed t h i j x) hw2, WriteTag_2 t h hw, ReadTag_2 t h hw,
    ReadTag_2 t h hw, getD_set_buf]
  simp only [Option.getD_some]
  by_cases hii : i2 = i
  · subst hii
    simp only [hlen, and_self, ↓reduceIte, true_and]
    by_cases hjj : j2 = j
    · subst hjj
      rw [if_pos rfl, write2_same _ _ _ hj]
    · rw [if_neg hjj, write2_other _ _ _ _ hj2 hjj]
  · have hne : ¬ (i = i2 ∧ i < t.data_.length) := fun hc => hii hc.1.symm
    have hne2 : ¬ (i2 = i ∧ j2 = j) := fun hc => hii hc.1
    rw [if_neg hne2, if_neg hne]

theorem Packed.ReadTag_slot {t : SingleTable} (h : Packed t) (i j : Nat) :
    t.ReadTag i j = some (t.slot i j) := by
  unfold slot
  rcases h.width with hw | hw | hw | hw | hw | hw <;> simp [ReadTag, hw]

theorem Packed.slot_bound {t : SingleTable} (h : Packed t) (i j : Nat) :
    t.slot i j < 2 ^ t.bits_per_tag_ := by
  by_cases hw : t.bits_per_tag_ = 2
  · unfold slot
    rw [ReadTag_2 t h hw, hw, Option.getD_some, and_3]
    exact Nat.mod_lt _ (by norm_num)
  · exact SingleTable.slot_lt t (h.to_WF hw) i j

theorem FindTagInBucket_2 (t : SingleTable) (h : Packed t) (hw : t.bits_per_tag_ = 2)
    (i tag : Nat) : t.FindTagInBucket i tag = some (t.hasTag i tag) := by
  simp only [FindTagInBucket, hw, h.tags, Nat.reduceEqDiff, false_and, ↓reduceIte,
    FindTagInBucket.loop, h.ReadTag_slot, hasTag]
  by_cases h0 : t.slot i 0 = tag <;> by_cases h1 : t.slot i (0 + 1) = tag <;>
    by_cases h2 : t.slot i (0 + 1 + 1) = tag <;> by_cases h3 : t.slot i (0 + 1 + 1 + 1) = tag <;>
    simp [h0, h1, h2, h3]

theorem FindTagInBuckets_2 (t : SingleTable) (h : Packed t) (hw : t.bits_per_tag_ = 2)
    (i1 i2 tag : Nat) :
    t.FindTagInBuckets i1 i2 tag = some (t.hasTag i1 tag || t.hasTag i2 tag) := by
  simp only [FindTagInBuckets, hw, h.tags, Nat.reduceEqDiff, false_and, ↓reduceIte,
    FindTagInBuckets.loop, h.ReadTag_slot, hasTag]
  by_cases h0 : t.slot i1 0 = tag <;> by_cases h1 : t.slot i1 (0 + 1) = tag <;>
    by_cases h2 : t.slot i1 (0 + 1 + 1) = tag <;>
    by_cases h3 : t.slot i1 (0 + 1 + 1 + 1) = tag <;>
    by_cases g0 : t.slot i2 0 = tag <;> by_cases g1 : t.slot i2 (0 + 1) = tag <;>
    by_cases g2 : t.slot i2 (0 + 1 + 1) = tag <;>
    by_cases g3 : t.slot i2 (0 + 1 + 1 + 1) = tag <;>
    simp [h0, h1, h2, h3, g0, g1, g2, g3]

theorem Packed.FindTagInBucket_hasTag {t : SingleTable} (h : Packed t) (i tag : Nat)
    (ht : tag < 2 ^ t.bits_per_tag_) : t.FindTagInBucket i tag = some (t.hasTag i tag) := by
  by_cases hw : t.bits_per_tag_ = 2
  · exact FindTagInBucket_2 t h hw i tag
  · exact SingleTable.FindTagInBucket_eq t (h.to_WF hw) i tag ht

theorem Packed.FindTagInBuckets_hasTag {t : SingleTable} (h : Packed t) (i1 i2 tag : Nat)
    (ht : tag < 2 ^ t.bits_per_tag_) :
    t.FindTagInBuckets i1 i2 tag = some (t.hasTag i1 tag || t.hasTag i2 tag) := by
  by_cases hw : t.bits_per_tag_ = 2
  · exact FindTagInBuckets_2 t h hw i1 i2 tag
  · exact SingleTable.FindTagInBuckets_eq t (h.to_WF hw) i1 i2 tag ht

theorem Packed.hasTag_iff_ReadTag {t : SingleTable} (h : Packed t) (i tag : Nat) :
    t.hasTag i tag = true ↔ ∃ j, j < 4 ∧ t.ReadTag i j = some tag := by
  rw [hasTag_iff]
  constructor
  · rintro ⟨j, hj, hs⟩
    exact ⟨j, hj, by rw [h.ReadTag_slot, hs]⟩
  · rintro ⟨j, hj, hs⟩
    rw [h.ReadTag_slot] at hs
    exact ⟨j, hj, Option.some.inj hs⟩

theorem Packed.DeleteTagFromBucket_total {t : SingleTable} (h : Packed t) (i tag : Nat) :
    ∃ r t1, t.DeleteTagFromBucket i tag = some (r, t1) := by
  have key : ∀ j, j < 4 → t.slot i j = tag → t.FindTagInBucket i tag = some true := by
    intro j hj hs
    have ht : tag < 2 ^ t.bits_per_tag_ := by rw [← hs]; exact h.slot_bound i j
    rw [h.FindTagInBucket_hasTag i tag ht, (hasTag_iff t i tag).mpr ⟨j, hj, hs⟩]
  simp only [DeleteTagFromBucket, h.tags, DeleteTagFromBucket.loop, h.ReadTag_slot]
  by_cases h0 : t.slot i 0 = tag
  · rw [if_pos h0, key 0 (by norm_num) h0]; exact ⟨_, _, rfl⟩
  rw [if_neg h0]
  by_cases h1 : t.slot i (0 + 1) = tag
  · rw [if_pos h1, key 1 (by norm_num) h1]; exact ⟨_, _, rfl⟩
  rw [if_neg h1]
  by_cases h2 : t.slot i (0 + 1 + 1) = tag
  · rw [if_pos h2, key 2 (by norm_num) h2]; exact ⟨_, _, rfl⟩
  rw [if_neg h2]
  by_cases h3 : t.slot i (0 + 1 + 1 + 1) = tag
  · rw [if_pos h3, key 3 (by norm_num) h3]; exact ⟨_, _, rfl⟩
  rw [if_neg h3]
  exact ⟨_, _, rfl⟩

theorem new_packed (num_buckets bits_per_tag : Nat) (uninit rand_gen : Nat → Nat)
    (hn : 0 < num_buckets)
    (hw : bits_per_tag = 2 ∨ bits_per_tag = 4 ∨ bits_per_tag = 8 ∨ bits_per_tag = 12 ∨
      bits_per_tag = 16 ∨ bits_per_tag = 32) :
    ∃ t, new num_buckets 4 bits_per_tag uninit rand_gen = some t ∧ Packed t ∧
      t.num_buckets_ = num_buckets ∧ t.bits_per_tag_ = bits_per_tag ∧
      t.data_ = List.replicate (num_buckets * ((bits_per_tag * 4 + 7) / 8)) 0 ++
          (List.range 8).map (fun k => uninit k % 256) := by
  have hbp : 0 < (bits_per_tag * 4 + 7) >>> 3 := by
    rw [Nat.shiftRight_eq_div_pow]
    rcases hw with hw | hw | hw | hw | hw | hw <;> rw [hw] <;> norm_num
  have hbits : 0 < bits_per_tag := by rcases hw with hw | hw | hw | hw | hw | hw <;> omega
  unfold new
  simp only [hn, hbp, hbits, Nat.lt_add_one, Nat.ofNat_pos, and_self, ↓reduceIte]
  refine ⟨_, rfl, ?_, rfl, rfl, ?_⟩
  · exact
      { buckets_pos := hn, tags := rfl, width := hw
        bucket_bytes := by simp only [Nat.shiftRight_eq_div_pow]
        mask := by rcases hw with hw | hw | hw | hw | hw | hw <;> simp only [hw] <;> rfl
        len := by simp
        bytes := by
          intro x hx
          simp only [List.mem_append, List.mem_map, List.mem_range] at hx
          rcases hx with hx | ⟨k, _, hk⟩
          · rw [List.eq_of_mem_replicate hx]; norm_num
          · rw [← hk]; exact Nat.mod_lt _ (by norm_num) }
  · simp only [Nat.shiftRight_eq_div_pow]

theorem sampleTable_packed : Packed sampleTable :=
  { buckets_pos := by decide, tags := rfl, width := Or.inr (Or.inl rfl), bucket_bytes := rfl,
    mask := rfl, len := rfl, bytes := by decide }

theorem ReadTag_new_2 (uninit rand_gen : Nat → Nat) (t : SingleTable)
    (h : new 1 4 2 uninit rand_gen = some t) : Packed t ∧ t.ReadTag 0 0 = some 0 := by
  obtain ⟨t1, h1, hp, _, hw, hd⟩ :=
    new_packed 1 2 uninit rand_gen (by norm_num) (Or.inl rfl)
  rw [h] at h1
  cases h1
  refine ⟨hp, ?_⟩
  rw [ReadTag_2 t hp hw, hd]
  simp

/-- C12. The round trip of `WriteTag` and `ReadTag` fails for tags of 2 bits: in the
table `SingleTable(1, 4, 2)`, after `WriteTag(0, 0, 3)` the call `WriteTag(0, 0, 0)`
does not empty the slot, `ReadTag(0, 0)` still returns 3 and not 0, because the
branch for 2 bits only ORs the tag into the byte. -/
theorem WriteTag_width2_keeps_old_bits (uninit rand_gen : Nat → Nat) :
    ∃ t, new 1 4 2 uninit rand_gen = some t ∧
      (t.WriteTag 0 0 3).ReadTag 0 0 = some 3 ∧
      ((t.WriteTag 0 0 3).WriteTag 0 0 0).ReadTag 0 0 = some 3 := by
  obtain ⟨t, h1, hp, hn, hw, _⟩ :=
    new_packed 1 2 uninit rand_gen (by norm_num) (Or.inl rfl)
  have h0 := (ReadTag_new_2 uninit rand_gen t h1).2
  have hi : 0 < t.num_buckets_ := by rw [hn]; norm_num
  have e1 : (t.WriteTag 0 0 3).ReadTag 0 0 = some 3 := by
    rw [ReadTag_WriteTag_2 t hp hw 0 0 3 0 0 hi (by norm_num) (by norm_num), h0]
    rfl
  have hp1 := WriteTag_packed t hp 0 0 3
  have hw1 : (t.WriteTag 0 0 3).bits_per_tag_ = 2 := by
    rw [(WriteTag_frame t 0 0 3).2.2.2.1]; exact hw
  have hi1 : 0 < (t.WriteTag 0 0 3).num_buckets_ := by
    rw [(WriteTag_frame t 0 0 3).1]; exact hi
  refine ⟨t, h1, e1, ?_⟩
  rw [ReadTag_WriteTag_2 _ hp1 hw1 0 0 0 0 0 hi1 (by norm_num) (by norm_num), e1]
  rfl

/-- C13. `WriteTag` does not disturb other tags: in a table of four tags per
bucket with a tag width of 2, 4, 8, 12, 16 or 32 bits and any content,
`WriteTag(i, j, t)` leaves `ReadTag(i2, j2)` unchanged at every other position
`(i2, j2)`, siblings in a shared byte and neighbouring buckets included. -/
theorem WriteTag_preserves_other_tags (t : SingleTable) (h : Packed t) (i j x i2 j2 : Nat)
    (hi : i < t.num_buckets_) (hj : j < 4) (hi2 : i2 < t.num_buckets_) (hj2 : j2 < 4)
    (hne : ¬ (i2 = i ∧ j2 = j)) :
    (t.WriteTag i j x).ReadTag i2 j2 = t.ReadTag i2 j2 := by
  by_cases hw : t.bits_per_tag_ = 2
  · rw [ReadTag_WriteTag_2 t h hw i i2 x j j2 hi hj hj2, if_neg hne, h.ReadTag_slot]
    rfl
  · have hwf := h.to_WF hw
    rw [ReadTag_some _ (WriteTag_WF t hwf i j x), slot_WriteTag t hwf i i2 x j j2 hi hi2 hj hj2,
      if_neg hne, ReadTag_some t hwf]

theorem WriteTag_preserves_other_tags_witness :
    Packed sampleTable ∧ (0 < sampleTable.num_buckets_ ∧ 1 < 4) ∧
      (0 < sampleTable.num_buckets_ ∧ 0 < 4) ∧ ¬ (0 = 0 ∧ 0 = 1) ∧
      (sampleTable.WriteTag 0 1 9).ReadTag 0 0 = sampleTable.ReadTag 0 0 :=
  ⟨sampleTable_packed, ⟨by decide, by decide⟩, ⟨by decide, by decide⟩, by decide,
    WriteTag_preserves_other_tags sampleTable sampleTable_packed 0 1 9 0 0 (by decide)
      (by decide) (by decide) (by decide) (by decide)⟩

/-- C14. The packed-word lookup equals the scan of the slots: in a table of four
tags per bucket with a tag width of 2, 4, 8, 12, 16 or 32 bits and any content,
the bytes after the bucket included, for buckets `i1`, `i2` and a tag
`t <= 2^bits_per_tag - 1`, `FindTagInBucket(i1, t)` returns true iff
`ReadTag(i1, j) == t` for some `j < 4`, `FindTagInBuckets(i1, i2, t)` returns
`FindTagInBucket(i1, t) || FindTagInBucket(i2, t)`, and `DeleteTagFromBucket`
returns: its `CHECK(FindTagInBucket(i, tag))` does not fail. -/
theorem FindTagInBucket_iff_slot_scan (t : SingleTable) (h : Packed t) (i1 i2 tag : Nat)
    (_hi1 : i1 < t.num_buckets_) (_hi2 : i2 < t.num_buckets_)
    (ht : tag ≤ 2 ^ t.bits_per_tag_ - 1) :
    ∃ b1 b2, t.FindTagInBucket i1 tag = some b1 ∧ t.FindTagInBucket i2 tag = some b2 ∧
      (b1 = true ↔ ∃ j, j < 4 ∧ t.ReadTag i1 j = some tag) ∧
      t.FindTagInBuckets i1 i2 tag = some (b1 || b2) ∧
      ∃ r t1, t.DeleteTagFromBucket i1 tag = some (r, t1) := by
  have hpos : 0 < 2 ^ t.bits_per_tag_ := Nat.two_pow_pos _
  have ht2 : tag < 2 ^ t.bits_per_tag_ := by omega
  exact ⟨t.hasTag i1 tag, t.hasTag i2 tag, h.FindTagInBucket_hasTag i1 tag ht2,
    h.FindTagInBucket_hasTag i2 tag ht2, h.hasTag_iff_ReadTag i1 tag,
    h.FindTagInBuckets_hasTag i1 i2 tag ht2, h.DeleteTagFromBucket_total i1 tag⟩

theorem FindTagInBucket_iff_slot_scan_witness :
    Packed sampleTable ∧ (0 < sampleTable.num_buckets_ ∧ 1 < sampleTable.num_buckets_) ∧
      3 ≤ 2 ^ sampleTable.bits_per_tag_ - 1 ∧
      ∃ b1 b2, sampleTable.FindTagInBucket 0 3 = some b1 ∧
        sampleTable.FindTagInBucket 1 3 = some b2 ∧
        (b1 = true ↔ ∃ j, j < 4 ∧ sampleTable.ReadTag 0 j = some 3) ∧
        sampleTable.FindTagInBuckets 0 1 3 = some (b1 || b2) ∧
        ∃ r t1, sampleTable.DeleteTagFromBucket 0 3 = some (r, t1) :=
  ⟨sampleTable_packed, ⟨by decide, by decide⟩, by decide,
    FindTagInBucket_iff_slot_scan sampleTable sampleTable_packed 0 1 3 (by decide) (by decide)
      (by decide)⟩

end SingleTable

namespace CountMinSketch

/-! ## CountMinSketch -/

theorem stored_lt (T old : Nat) (inc : Int) : stored T old inc < 2 ^ T := by
  unfold stored
  dsimp only
  have hp : (0 : Int) < 2 ^ T := by positivity
  have h1 := Int.emod_lt_of_pos
    (if (if wrap_int64 (↑old + inc) < 0 then 0 else wrap_int64 (↑old + inc)) > 2 ^ T - 1
      then 2 ^ T - 1 else if wrap_int64 (↑old + inc) < 0 then 0 else wrap_int64 (↑old + inc)) hp
  have h0 := Int.emod_nonneg
    (if (if wrap_int64 (↑old + inc) < 0 then 0 else wrap_int64 (↑old + inc)) > 2 ^ T - 1
      then 2 ^ T - 1 else if wrap_int64 (↑old + inc) < 0 then 0 else wrap_int64 (↑old + inc))
    (ne_of_gt hp)
  zify
  rw [Int.toNat_of_nonneg h0]
  exact h1

/-- The value before the store is already in the range of `T`, so the store
truncates nothing. -/
theorem stored_cast (T old : Nat) (inc : Int) :
    ((stored T old inc : Nat) : Int) =
      (if (if wrap_int64 (↑old + inc) < 0 then 0 else wrap_int64 (↑old + inc)) > 2 ^ T - 1
      then 2 ^ T - 1 else if wrap_int64 (↑old + inc) < 0 then 0 else wrap_int64 (↑old + inc)) := by
  unfold stored
  dsimp only
  have hp : (0 : Int) < 2 ^ T := by positivity
  generalize wrap_int64 (↑old + inc) = w
  have hv : (0 : Int) ≤ (if (if w < 0 then 0 else w) > 2 ^ T - 1 then 2 ^ T - 1
      else if w < 0 then 0 else w) ∧
      (if (if w < 0 then 0 else w) > 2 ^ T - 1 then 2 ^ T - 1
      else if w < 0 then 0 else w) < 2 ^ T := by
    split_ifs <;> constructor <;> omega
  rw [Int.emod_eq_of_lt hv.1 hv.2, Int.toNat_of_nonneg hv.1]

theorem stored_in_range (T old : Nat) (inc : Int) (h0 : -2 ^ 63 ≤ (old : Int) + inc)
    (h1 : (old : Int) + inc < 2 ^ 63) :
    ((stored T old inc : Nat) : Int) = max 0 (min ((old : Int) + inc) (2 ^ T - 1)) := by
  rw [stored_cast, CuckooFilter.wrap_int64_small _ h0 h1]
  have hp : (0 : Int) < 2 ^ T := by positivity
  generalize (old : Int) + inc = w
  split_ifs <;> omega

end CountMinSketch

theorem getD_set_any {α : Type} (l : List α) (i j : Nat) (a d : α) :
    (l.set i a).getD j d = if i = j ∧ i < l.length then a else l.getD j d := by
  simp only [List.getD_eq_getElem?_getD, List.getElem?_set]
  by_cases h : i = j
  · subst h
    by_cases h2 : i < l.length
    · simp [h2]
    · simp [h2, List.getElem?_eq_none (Nat.le_of_not_lt h2)]
  · simp [h]

theorem getD_mem_length (M : List (List Nat)) (nc r : Nat) (h : ∀ x ∈ M, x.length = nc)
    (hr : r < M.length) : (M.getD r []).length = nc := by
  apply h
  rw [List.getD_eq_getElem?_getD, List.getElem?_eq_getElem hr, Option.getD_some]
  exact List.getElem_mem hr

namespace CountMinSketch

theorem AddCount.loop_succ (T : Nat) (hash : Nat → Nat → Nat) (nc key : Nat) (inc : Int)
    (n row : Nat) (M : List (List Nat)) (mn : Nat) :
    AddCount.loop T hash nc key inc (n + 1) row M mn =
      AddCount.loop T hash nc key inc n (row + 1)
        (M.set row ((M.getD row []).set (hash key (row + 1) % 2 ^ 64 % nc)
          (stored T ((M.getD row []).getD (hash key (row + 1) % 2 ^ 64 % nc) 0) inc)))
        (if stored T ((M.getD row []).getD (hash key (row + 1) % 2 ^ 64 % nc) 0) inc < mn
          then stored T ((M.getD row []).getD (hash key (row + 1) % 2 ^ 64 % nc) 0) inc
          else mn) := by
  have hc := stored_cast T ((M.getD row []).getD (hash key (row + 1) % 2 ^ 64 % nc) 0) inc
  have hl := stored_lt T ((M.getD row []).getD (hash key (row + 1) % 2 ^ 64 % nc) 0) inc
  have e : (((stored T ((M.getD row []).getD (hash key (row + 1) % 2 ^ 64 % nc) 0) inc : Nat)
      : Int) % 2 ^ T).toNat =
      stored T ((M.getD row []).getD (hash key (row + 1) % 2 ^ 64 % nc) 0) inc := by
    rw [Int.emod_eq_of_lt (Int.ofNat_nonneg _) (by exact_mod_cast hl), Int.toNat_ofNat]
  rw [AddCount.loop]
  rw [← hc]
  simp only [Int.ofNat_lt]
  rw [e]

theorem AddCount.loop_cells (T : Nat) (hash : Nat → Nat → Nat) (nc key : Nat) (inc : Int)
    (hnc : 0 < nc) :
    ∀ (n row : Nat) (M : List (List Nat)) (mn : Nat), row + n ≤ M.length →
      (∀ x ∈ M, x.length = nc) →
      (AddCount.loop T hash nc key inc n row M mn).1.length = M.length ∧
      (∀ x ∈ (AddCount.loop T hash nc key inc n row M mn).1, x.length = nc) ∧
      ∀ r c, ((AddCount.loop T hash nc key inc n row M mn).1.getD r []).getD c 0 =
        if row ≤ r ∧ r < row + n ∧ c = hash key (r + 1) % 2 ^ 64 % nc then
          stored T ((M.getD r []).getD c 0) inc
        else (M.getD r []).getD c 0 := by
  intro n
  induction n with
  | zero =>
    intro row M mn _ hM
    refine ⟨rfl, hM, ?_⟩
    intro r c
    have : ¬ (row ≤ r ∧ r < row + 0 ∧ c = hash key (r + 1) % 2 ^ 64 % nc) := by omega
    rw [if_neg this]
    rfl
  | succ n ih =>
    intro row M mn hlen hM
    rw [AddCount.loop_succ]
    have hrow : row < M.length := by omega
    have hrl := getD_mem_length M nc row hM hrow
    have hcol : hash key (row + 1) % 2 ^ 64 % nc < (M.getD row []).length := by
      rw [hrl]; exact Nat.mod_lt _ hnc
    generalize hv : stored T ((M.getD row []).getD (hash key (row + 1) % 2 ^ 64 % nc) 0) inc = v
    generalize (if v < mn then v else mn) = mn1
    have hM1 : ∀ x ∈ M.set row ((M.getD row []).set (hash key (row + 1) % 2 ^ 64 % nc) v),
        x.length = nc := by
      intro x hx
      rcases List.mem_or_eq_of_mem_set hx with h1 | h1
      · exact hM x h1
      · rw [h1, List.length_set]; exact hrl
    obtain ⟨i1, i2, i3⟩ := ih (row + 1)
      (M.set row ((M.getD row []).set (hash key (row + 1) % 2 ^ 64 % nc) v)) mn1
      (by rw [List.length_set]; omega) hM1
    refine ⟨by rw [i1, List.length_set], i2, ?_⟩
    intro r c
    rw [i3 r c, getD_set_any]
    by_cases hr : row = r
    · subst hr
      have h1 : ¬ (row + 1 ≤ row ∧ row < row + 1 + n ∧ c = hash key (row + 1) % 2 ^ 64 % nc) := by
        omega
      rw [if_neg h1, if_pos ⟨rfl, hrow⟩, getD_set_buf]
      by_cases hc : hash key (row + 1) % 2 ^ 64 % nc = c
      · subst hc
        rw [if_pos ⟨rfl, hcol⟩, if_pos ⟨le_refl _, by omega, rfl⟩, hv]
      · have h2 : ¬ (hash key (row + 1) % 2 ^ 64 % nc = c ∧
            hash key (row + 1) % 2 ^ 64 % nc < (M.getD row []).length) := fun h => hc h.1
        have h3 : ¬ (row ≤ row ∧ row < row + (n + 1) ∧ c = hash key (row + 1) % 2 ^ 64 % nc) :=
          fun h => hc h.2.2.symm
        rw [if_neg h2, if_neg h3]
    · have h1 : ¬ (row = r ∧ row < M.length) := fun h => hr h.1
      rw [if_neg h1]
      by_cases hc : row + 1 ≤ r ∧ r < row + 1 + n ∧ c = hash key (r + 1) % 2 ^ 64 % nc
      · rw [if_pos hc, if_pos ⟨by omega, by omega, hc.2.2⟩]
      · have h2 : ¬ (row ≤ r ∧ r < row + (n + 1) ∧ c = hash key (r + 1) % 2 ^ 64 % nc) := by
          intro h
          exact hc ⟨by omega, by omega, h.2.2⟩
        rw [if_neg hc, if_neg h2]

theorem AddCount.loop_min (T : Nat) (hash : Nat → Nat → Nat) (nc key : Nat) (inc : Int)
    (s1 : CountMinSketch T) (hs : s1.num_cols_.toNat = nc) :
    ∀ (n row : Nat) (M : List (List Nat)) (mn : Nat),
      (∀ r, row ≤ r → r < row + n →
        (s1.matrix_.getD r []).getD (hash key (r + 1) % 2 ^ 64 % nc) 0 =
          stored T ((M.getD r []).getD (hash key (r + 1) % 2 ^ 64 % nc) 0) inc) →
      GetCount.loop hash s1 key n row mn = (AddCount.loop T hash nc key inc n row M mn).2 := by
  intro n
  induction n with
  | zero => intro row M mn _; rfl
  | succ n ih =>
    intro row M mn h
    rw [AddCount.loop_succ, GetCount.loop]
    rw [hs, h row (le_refl _) (by omega)]
    generalize hv : stored T ((M.getD row []).getD (hash key (row + 1) % 2 ^ 64 % nc) 0) inc = v
    have hmin : Nat.min mn v = if v < mn then v else mn := by
      show min mn v = _
      split_ifs with hc
      · exact min_eq_right (le_of_lt hc)
      · exact min_eq_left (not_lt.mp hc)
    rw [hmin]
    apply ih
    intro r hr1 hr2
    rw [h r (by omega) (by omega), getD_set_any]
    have h1 : ¬ (row = r ∧ row < M.length) := by omega
    rw [if_neg h1]

theorem cell_lt {T : Nat} (s : CountMinSketch T) (h : WF s) (r c : Nat) :
    s.cell r c < 2 ^ T := by
  unfold cell
  by_cases hr : r < s.matrix_.length
  · have hm : s.matrix_.getD r [] ∈ s.matrix_ := by
      rw [List.getD_eq_getElem _ _ hr]
      exact List.getElem_mem hr
    by_cases hc : c < (s.matrix_.getD r []).length
    · apply h.cells _ hm
      rw [List.getD_eq_getElem _ _ hc]
      exact List.getElem_mem hc
    · rw [List.getD_eq_default _ _ (not_lt.mp hc)]
      exact Nat.two_pow_pos T
  · rw [List.getD_eq_default _ _ (not_lt.mp hr)]
    exact Nat.two_pow_pos T

theorem column_lt {T : Nat} (hash : Nat → Nat → Nat) (s : CountMinSketch T) (h : WF s)
    (key row : Nat) : s.column hash key row < s.num_cols_.toNat := by
  unfold column
  apply Nat.mod_lt
  have := h.cols_pos
  omega

/-- The cells after `AddCount`: the cell of `key` in each row holds the stored
value, every other cell is unchanged. -/
theorem AddCount_cell {T : Nat} (hash : Nat → Nat → Nat) (s : CountMinSketch T) (h : WF s)
    (key : Nat) (inc : Int) (r c : Nat) :
    (AddCount hash s key inc).2.cell r c =
      if r < s.num_rows_.toNat ∧ c = s.column hash key r then stored T (s.cell r c) inc
      else s.cell r c := by
  have hnc : 0 < s.num_cols_.toNat := by have := h.cols_pos; omega
  obtain ⟨_, _, h3⟩ := AddCount.loop_cells T hash s.num_cols_.toNat key inc hnc
    s.num_rows_.toNat 0 s.matrix_ (2 ^ T - 1) (by rw [h.rows]; omega) h.cols
  unfold cell column AddCount
  dsimp only
  rw [h3 r c]
  simp only [Nat.zero_le, true_and, Nat.zero_add]

theorem AddCount_WF {T : Nat} (hash : Nat → Nat → Nat) (s : CountMinSketch T) (h : WF s)
    (key : Nat) (inc : Int) : WF (AddCount hash s key inc).2 := by
  have hnc : 0 < s.num_cols_.toNat := by have := h.cols_pos; omega
  obtain ⟨h1, h2, h3⟩ := AddCount.loop_cells T hash s.num_cols_.toNat key inc hnc
    s.num_rows_.toNat 0 s.matrix_ (2 ^ T - 1) (by rw [h.rows]; omega) h.cols
  refine
    { width := h.width, rows_pos := h.rows_pos, cols_pos := h.cols_pos
      rows := by unfold AddCount; dsimp only; rw [h1]; exact h.rows
      cols := by unfold AddCount; dsimp only; exact h2
      cells := ?_ }
  intro row hrow x hx
  obtain ⟨r, hr, hre⟩ := List.getElem_of_mem hrow
  obtain ⟨c, hc, hce⟩ := List.getElem_of_mem hx
  have e : x = (AddCount hash s key inc).2.cell r c := by
    unfold cell
    rw [List.getD_eq_getElem _ _ hr]
    simp only [hre]
    rw [List.getD_eq_getElem _ _ hc, hce]
  rw [e, AddCount_cell hash s h]
  split_ifs
  · exact stored_lt _ _ _
  · exact cell_lt s h r c

theorem GetCount.loop_spec {T : Nat} (hash : Nat → Nat → Nat) (s : CountMinSketch T)
    (key : Nat) :
    ∀ (n row mn : Nat),
      GetCount.loop hash s key n row mn ≤ mn ∧
      (∀ r, row ≤ r → r < row + n →
        GetCount.loop hash s key n row mn ≤ s.cell r (s.column hash key r)) ∧
      (GetCount.loop hash s key n row mn = mn ∨
        ∃ r, row ≤ r ∧ r < row + n ∧
          GetCount.loop hash s key n row mn = s.cell r (s.column hash key r)) := by
  intro n
  induction n with
  | zero =>
    intro row mn
    exact ⟨le_refl _, fun r h1 h2 => by omega, Or.inl rfl⟩
  | succ n ih =>
    intro row mn
    rw [GetCount.loop]
    obtain ⟨i1, i2, i3⟩ := ih (row + 1)
      (Nat.min mn ((s.matrix_.getD row []).getD (hash key (row + 1) % 2 ^ 64 % s.num_cols_.toNat) 0))
    have hc : (s.matrix_.getD row []).getD (hash key (row + 1) % 2 ^ 64 % s.num_cols_.toNat) 0 =
        s.cell row (s.column hash key row) := rfl
    rw [hc] at i1 i2 i3 ⊢
    have m1 : Nat.min mn (s.cell row (s.column hash key row)) ≤ mn := Nat.min_le_left _ _
    have m2 : Nat.min mn (s.cell row (s.column hash key row)) ≤
        s.cell row (s.column hash key row) := Nat.min_le_right _ _
    refine ⟨le_trans i1 m1, ?_, ?_⟩
    · intro r hr1 hr2
      by_cases hr : r = row
      · subst hr
        exact le_trans i1 m2
      · exact i2 r (by omega) (by omega)
    · rcases i3 with i3 | ⟨r, hr1, hr2, hr3⟩
      · rw [i3]
        rcases Nat.le_total mn (s.cell row (s.column hash key row)) with hle | hle
        · left; exact Nat.min_eq_left hle
        · right; exact ⟨row, le_refl _, by omega, Nat.min_eq_right hle⟩
      · right; exact ⟨r, by omega, by omega, hr3⟩

/-- The count `GetCount` returns is the minimum of the cells of the key. -/
theorem GetCount_is_min {T : Nat} (hash : Nat → Nat → Nat) (s : CountMinSketch T) (h : WF s)
    (key : Nat) :
    (∀ r, r < s.num_rows_.toNat → GetCount hash s key ≤ s.cell r (s.column hash key r)) ∧
    ∃ r, r < s.num_rows_.toNat ∧ GetCount hash s key = s.cell r (s.column hash key r) := by
  obtain ⟨_, h2, h3⟩ := GetCount.loop_spec hash s key s.num_rows_.toNat 0 (2 ^ T - 1)
  have hrows : 0 < s.num_rows_.toNat := by have := h.rows_pos; omega
  refine ⟨fun r hr => h2 r (Nat.zero_le _) (by omega), ?_⟩
  rcases h3 with h3 | ⟨r, _, hr2, hr3⟩
  · refine ⟨0, hrows, ?_⟩
    have hle := h2 0 (le_refl _) (by omega)
    have hlt := cell_lt s h 0 (s.column hash key 0)
    unfold GetCount
    rw [h3] at hle ⊢
    omega
  · exact ⟨r, by omega, hr3⟩

theorem AddCount_fst {T : Nat} (hash : Nat → Nat → Nat) (s : CountMinSketch T) (h : WF s)
    (key : Nat) (inc : Int) :
    (AddCount hash s key inc).1 = GetCount hash (AddCount hash s key inc).2 key := by
  have hc := AddCount_cell hash s h key inc
  unfold GetCount
  symm
  have hrows : (AddCount hash s key inc).2.num_rows_ = s.num_rows_ := rfl
  rw [hrows]
  refine AddCount.loop_min T hash s.num_cols_.toNat key inc (AddCount hash s key inc).2 rfl
    s.num_rows_.toNat 0 s.matrix_ (2 ^ T - 1) ?_
  intro r _ hr
  have h1 := hc r (s.column hash key r)
  rw [if_pos ⟨by omega, rfl⟩] at h1
  exact h1

theorem cms_new_WF (T : Nat) (hT : T = 8 ∨ T = 16 ∨ T = 32) (mem_budget_bytes rows : Int)
    (s : CountMinSketch T) (h : new T mem_budget_bytes rows = some s) : WF s := by
  unfold new at h
  dsimp only at h
  split_ifs at h with h1 h2
  simp only [Option.some.injEq] at h
  subst h
  push_neg at h1
  exact
    { width := hT, rows_pos := h1.2
      cols_pos := by
        show (0 : Int) < ((mem_budget_bytes.toNat / (T / 8) / rows.toNat : Nat) : Int)
        exact_mod_cast Nat.pos_of_ne_zero h2
      rows := by simp
      cols := by
        intro r hr
        rw [List.eq_of_mem_replicate hr, List.length_replicate]
        exact (Int.toNat_ofNat _).symm
      cells := by
        intro r hr x hx
        rw [List.eq_of_mem_replicate hr] at hx
        rw [List.eq_of_mem_replicate hx]
        exact Nat.two_pow_pos T }

theorem sampleSketch_WF : WF sampleSketch :=
  { width := Or.inl rfl, rows_pos := by decide, cols_pos := by decide, rows := rfl
    cols := by decide, cells := by decide }

theorem stored_8_0_1 : stored 8 0 1 = 1 := by
  unfold stored wrap_int64
  norm_num

theorem stored_8_1_max : stored 8 1 (2 ^ 63 - 1) = 0 := by
  unfold stored wrap_int64
  norm_num

/-- C19. `AddCount` does not saturate when the `int64` sum `matrix_[row][col] + inc`
overflows: in the sketch `CountMinSketch<uint8>(2, delta)` of one row, after
`AddCount(key, 1)` the call `AddCount(key, 2^63 - 1)` leaves 0 in the cell of
the key and returns 0, where the sum over the integers, `2^63`, cut to the
range of `uint8` is 255. -/
theorem AddCount_wraps_at_int64_max (hash : Nat → Nat → Nat) (key : Nat) :
    ∃ s : CountMinSketch 8, new 8 2 1 = some s ∧
      (AddCount hash s key 1).1 = 1 ∧
      (AddCount hash (AddCount hash s key 1).2 key (2 ^ 63 - 1)).2.cell 0
        (s.column hash key 0) = 0 ∧
      (AddCount hash (AddCount hash s key 1).2 key (2 ^ 63 - 1)).1 = 0 ∧
      max (0 : Int) (min (1 + (2 ^ 63 - 1)) (2 ^ 8 - 1)) = 255 := by
  have hnew : new 8 2 1 = some
      ({ num_rows_ := 1, num_cols_ := 2, matrix_ := [[0, 0]], sum_counts_ := 0 } :
        CountMinSketch 8) := rfl
  obtain ⟨s, hs⟩ : ∃ s : CountMinSketch 8, s =
      { num_rows_ := 1, num_cols_ := 2, matrix_ := [[0, 0]], sum_counts_ := 0 } := ⟨_, rfl⟩
  rw [← hs] at hnew
  have hwf : WF s := cms_new_WF 8 (Or.inl rfl) 2 1 s hnew
  have hwf1 := AddCount_WF hash s hwf key 1
  have hrows : s.num_rows_.toNat = 1 := by rw [hs]; rfl
  have hcol : (AddCount hash s key 1).2.column hash key 0 = s.column hash key 0 := rfl
  have hzero : s.cell 0 (s.column hash key 0) = 0 := by
    have hlt := column_lt hash s hwf key 0
    have h2 : s.num_cols_.toNat = 2 := by rw [hs]; rfl
    rw [h2] at hlt
    generalize s.column hash key 0 = c at hlt
    rw [hs]
    interval_cases c <;> rfl
  have c1 : (AddCount hash s key 1).2.cell 0 (s.column hash key 0) = 1 := by
    rw [AddCount_cell hash s hwf, if_pos ⟨by omega, rfl⟩, hzero, stored_8_0_1]
  have c2 : (AddCount hash (AddCount hash s key 1).2 key (2 ^ 63 - 1)).2.cell 0
      (s.column hash key 0) = 0 := by
    rw [AddCount_cell hash _ hwf1, if_pos ⟨by show 0 < s.num_rows_.toNat; omega, hcol.symm⟩, c1,
      stored_8_1_max]
  refine ⟨s, hnew, ?_, c2, ?_, by norm_num⟩
  · obtain ⟨hle, r, hr, he⟩ := GetCount_is_min hash _ hwf1 key
    have hr0 : r = 0 := by
      have : (AddCount hash s key 1).2.num_rows_.toNat = 1 := hrows
      omega
    subst hr0
    rw [AddCount_fst hash s hwf, he, hcol, c1]
  · have hwf2 := AddCount_WF hash _ hwf1 key (2 ^ 63 - 1)
    obtain ⟨hle, r, hr, he⟩ := GetCount_is_min hash _ hwf2 key
    have hr0 : r = 0 := by
      have : (AddCount hash (AddCount hash s key 1).2 key (2 ^ 63 - 1)).2.num_rows_.toNat = 1 :=
        hrows
      omega
    subst hr0
    rw [AddCount_fst hash _ hwf1, he]
    exact c2

/-- C20. `AddCount` returns the estimate after the update: for every sketch, key
and `inc`, the value `AddCount(key, inc)` returns is the value `GetCount(key)`
returns right afterwards, which is the minimum over the rows `r` of the cell
at column `Hash64NumWithSeed(key, r + 1) % num_cols_`. -/
theorem AddCount_returns_GetCount {T : Nat} (hash : Nat → Nat → Nat) (s : CountMinSketch T)
    (h : WF s) (key : Nat) (inc : Int) :
    (AddCount hash s key inc).1 = GetCount hash (AddCount hash s key inc).2 key ∧
    (∀ r, r < s.num_rows_.toNat →
      (AddCount hash s key inc).1 ≤
        (AddCount hash s key inc).2.cell r ((AddCount hash s key inc).2.column hash key r)) ∧
    ∃ r, r < s.num_rows_.toNat ∧
      (AddCount hash s key inc).1 =
        (AddCount hash s key inc).2.cell r ((AddCount hash s key inc).2.column hash key r) := by
  have h1 := AddCount_fst hash s h key inc
  have h2 := GetCount_is_min hash _ (AddCount_WF hash s h key inc) key
  rw [← h1] at h2
  exact ⟨h1, h2⟩

theorem AddCount_returns_GetCount_witness :
    WF sampleSketch ∧
    (AddCount CuckooFilter.sampleHash sampleSketch 5 10).1 =
      GetCount CuckooFilter.sampleHash (AddCount CuckooFilter.sampleHash sampleSketch 5 10).2 5 ∧
    (∀ r, r < sampleSketch.num_rows_.toNat →
      (AddCount CuckooFilter.sampleHash sampleSketch 5 10).1 ≤
        (AddCount CuckooFilter.sampleHash sampleSketch 5 10).2.cell r
          ((AddCount CuckooFilter.sampleHash sampleSketch 5 10).2.column CuckooFilter.sampleHash 5 r)) ∧
    ∃ r, r < sampleSketch.num_rows_.toNat ∧
      (AddCount CuckooFilter.sampleHash sampleSketch 5 10).1 =
        (AddCount CuckooFilter.sampleHash sampleSketch 5 10).2.cell r
          ((AddCount CuckooFilter.sampleHash sampleSketch 5 10).2.column CuckooFilter.sampleHash 5 r) :=
  ⟨sampleSketch_WF, AddCount_returns_GetCount CuckooFilter.sampleHash sampleSketch sampleSketch_WF 5 10⟩

end CountMinSketch

/-! ## ExpandableBloomFilter -/

namespace BloomFilter

theorem Insert_fst_eq_not_Contains (hash : Nat → Nat → Nat) (s : BloomFilter) (key : Nat)
    (h : WF s) : (Insert hash s key).1 = !Contains hash s key := by
  rw [Insert_fst hash s key h, Contains_eq_all]
  induction s.hash_keys_ with
  | nil => rfl
  | cons a l ih =>
    simp only [List.any_cons, List.all_cons, ih]
    cases bitAt s.data_ (probe hash s.bit_size_ key a) <;> simp

theorem Contains_new (hash : Nat → Nat → Nat) (bit_size : Nat) (expected_num_elements : Int)
    (rounded : Nat) (rand_gen : Nat → Nat) (k : Nat) :
    Contains hash (new bit_size expected_num_elements rounded rand_gen) k = false :=
  bloom_Contains_empty hash _ k (new_WF _ _ _ _) (fun i => bitAt_replicate_zero _ i)

theorem Contains_Clear (hash : Nat → Nat → Nat) (s : BloomFilter) (h : WF s) (k : Nat) :
    Contains hash (Clear s) k = false :=
  bloom_Contains_empty hash _ k (bloom_Clear_WF s h) (fun i => bitAt_replicate_zero _ i)

end BloomFilter

namespace ExpandableBloomFilter

theorem Contains.loop_eq_any (hash : Nat → Nat → Nat) (key : Nat) (l : List BfInstance) :
    Contains.loop hash key l = l.any (fun b => BloomFilter.Contains hash b.bf_ key) := by
  induction l with
  | nil => rfl
  | cons b rest ih =>
    rw [Contains.loop, ih, List.any_cons]
    cases BloomFilter.Contains hash b.bf_ key <;> simp

theorem Contains_eq_any (hash : Nat → Nat → Nat) (s : ExpandableBloomFilter) (key : Nat) :
    s.Contains hash key = s.instances_.any (fun b => BloomFilter.Contains hash b.bf_ key) := by
  unfold Contains
  rw [Contains.loop_eq_any, List.any_reverse]

theorem wrap_int64_lt (x : Int) : wrap_int64 x < 2 ^ 63 := by
  unfold wrap_int64
  omega

theorem Insert.sums_eq (l : List BfInstance) :
    ∀ (cap bits : Int), 0 ≤ cap → 0 ≤ bits → (∀ b ∈ l, 0 ≤ b.cutoff_size_) →
      cap + (l.map (fun b => b.cutoff_size_)).sum < 2 ^ 63 →
      bits + (l.map (fun b => BloomFilter.BitSize b.bf_)).sum < 2 ^ 63 →
      Insert.sums l cap bits =
        (cap + (l.map (fun b => b.cutoff_size_)).sum,
          bits + (l.map (fun b => BloomFilter.BitSize b.bf_)).sum) := by
  induction l with
  | nil => intro cap bits _ _ _ _ _; simp [Insert.sums]
  | cons b rest ih =>
    intro cap bits h0 h1 hpos hc hb
    simp only [List.map_cons, List.sum_cons] at hc hb ⊢
    have hb0 : (0 : Int) ≤ BloomFilter.BitSize b.bf_ := by
      unfold BloomFilter.BitSize
      exact Int.ofNat_nonneg _
    have hc0 := hpos b (List.mem_cons_self _ _)
    have hrest : ∀ x ∈ rest, 0 ≤ x.cutoff_size_ := fun x hx => hpos x (List.mem_cons_of_mem _ hx)
    have hs1 : (0 : Int) ≤ (rest.map (fun b => b.cutoff_size_)).sum := by
      apply List.sum_nonneg
      intro x hx
      obtain ⟨y, hy, rfl⟩ := List.mem_map.mp hx
      exact hrest y hy
    have hs2 : (0 : Int) ≤ (rest.map (fun b => BloomFilter.BitSize b.bf_)).sum := by
      apply List.sum_nonneg
      intro x hx
      obtain ⟨y, _, rfl⟩ := List.mem_map.mp hx
      unfold BloomFilter.BitSize
      exact Int.ofNat_nonneg _
    rw [Insert.sums, CuckooFilter.wrap_int64_small _ (by omega) (by omega),
      CuckooFilter.wrap_int64_small _ (by omega) (by omega),
      ih _ _ (by omega) (by omega) hrest (by omega) (by omega)]
    simp only [Prod.mk.injEq]
    constructor <;> omega

theorem BitSize.loop_eq (l : List BfInstance) :
    ∀ (sum : Int), 0 ≤ sum →
      sum + (l.map (fun b => BloomFilter.BitSize b.bf_)).sum < 2 ^ 63 →
      BitSize.loop l sum = sum + (l.map (fun b => BloomFilter.BitSize b.bf_)).sum := by
  induction l with
  | nil => intro sum _ _; simp [BitSize.loop]
  | cons b rest ih =>
    intro sum h0 hb
    simp only [List.map_cons, List.sum_cons] at hb ⊢
    have hb0 : (0 : Int) ≤ BloomFilter.BitSize b.bf_ := by
      unfold BloomFilter.BitSize
      exact Int.ofNat_nonneg _
    have hs2 : (0 : Int) ≤ (rest.map (fun b => BloomFilter.BitSize b.bf_)).sum := by
      apply List.sum_nonneg
      intro x hx
      obtain ⟨y, _, rfl⟩ := List.mem_map.mp hx
      unfold BloomFilter.BitSize
      exact Int.ofNat_nonneg _
    rw [BitSize.loop, CuckooFilter.wrap_int64_small _ (by omega) (by omega),
      ih _ (by omega) (by omega)]
    omega

theorem Insert.sums_fst_lt (l : List BfInstance) :
    ∀ (cap bits : Int), cap < 2 ^ 63 → (Insert.sums l cap bits).1 < 2 ^ 63 := by
  induction l with
  | nil => intro cap bits h; exact h
  | cons b rest ih =>
    intro cap bits _
    rw [Insert.sums]
    exact ih _ _ (wrap_int64_lt _)

/-- What a call of `Insert` that returns has done: nothing when the key was
found; otherwise it has inserted the key into the last instance, or, when that
one was full, into a new instance appended to the list. -/
theorem Insert_inv (hash : Nat → Nat → Nat) (rounded : Nat → Int → Nat) (rand_gen : Nat → Nat)
    (s : ExpandableBloomFilter) (key : Nat) (ret : Bool) (s1 : ExpandableBloomFilter)
    (h : Insert hash rounded rand_gen s key = some (ret, s1)) :
    (ret = false ∧ s1 = s ∧ s.Contains hash key = true) ∨
    (ret = true ∧ s.Contains hash key = false ∧
      s1.num_inserts_ = wrap_int64 (s.num_inserts_ + 1) ∧
      ∃ pre last, s.instances_ = pre ++ [last] ∧
        last.bf_.num_inserts_ ≤ last.cutoff_size_ ∧
        ((last.bf_.num_inserts_ ≠ last.cutoff_size_ ∧
            (BloomFilter.Insert hash last.bf_ key).1 = true ∧
            s1.instances_ =
              pre ++ [{ last with bf_ := (BloomFilter.Insert hash last.bf_ key).2 }]) ∨
          (last.bf_.num_inserts_ = last.cutoff_size_ ∧
            0 ≤ (Insert.sums s.instances_ 0 0).2 ∧ 1 ≤ (Insert.sums s.instances_ 0 0).1 ∧
            s1.instances_ = s.instances_ ++
              [{ bf_ := (BloomFilter.Insert hash
                    (BloomFilter.new (Insert.sums s.instances_ 0 0).2.toNat
                      (Insert.sums s.instances_ 0 0).1
                      (rounded (Insert.sums s.instances_ 0 0).2.toNat
                        (Insert.sums s.instances_ 0 0).1) rand_gen) key).2
                 cutoff_size_ := (Insert.sums s.instances_ 0 0).1 }]))) := by
  unfold Insert at h
  by_cases hc : s.Contains hash key = true
  · rw [if_pos hc] at h
    simp only [Option.some.injEq, Prod.mk.injEq] at h
    exact Or.inl ⟨h.1.symm, h.2.symm, hc⟩
  · rw [if_neg hc] at h
    right
    cases hl : s.instances_.getLast? with
    | none => rw [hl] at h; simp at h
    | some last =>
      rw [hl] at h
      dsimp only at h
      obtain ⟨pre, hpre⟩ := List.getLast?_eq_some_iff.mp hl
      unfold BloomFilter.NumElements at h
      by_cases hgt : last.bf_.num_inserts_ > last.cutoff_size_
      · rw [if_pos hgt] at h; simp at h
      · rw [if_neg hgt] at h
        by_cases hfull : last.bf_.num_inserts_ = last.cutoff_size_
        · rw [if_pos hfull] at h
          by_cases hbad : (Insert.sums s.instances_ 0 0).2 < 0 ∨
              (Insert.sums s.instances_ 0 0).1 ≤ 0
          · rw [if_pos hbad] at h; simp at h
          · rw [if_neg hbad] at h
            dsimp only at h
            rw [List.getLast?_concat] at h
            dsimp only at h
            split_ifs at h with hr
            simp only [Option.some.injEq, Prod.mk.injEq] at h
            push_neg at hbad
            refine ⟨h.1.symm, by simpa using hc, by rw [← h.2], pre, last, hpre,
              not_lt.mp hgt, Or.inr ⟨hfull, hbad.1, by omega, ?_⟩⟩
            rw [← h.2, List.dropLast_concat]
        · rw [if_neg hfull] at h
          dsimp only at h
          rw [hl] at h
          dsimp only at h
          split_ifs at h with hr
          simp only [Option.some.injEq, Prod.mk.injEq] at h
          refine ⟨h.1.symm, by simpa using hc, by rw [← h.2], pre, last, hpre,
            not_lt.mp hgt, Or.inl ⟨hfull, hr, ?_⟩⟩
          rw [← h.2, hpre, List.dropLast_concat]

theorem capacity_pos (B : Nat) (s : ExpandableBloomFilter) (h : WF B s) : 1 ≤ s.capacity := by
  unfold capacity
  cases hl : s.instances_ with
  | nil => exact absurd hl h.nonempty
  | cons b rest =>
    simp only [List.map_cons, List.sum_cons]
    have h1 := (h.gens b (by rw [hl]; exact List.mem_cons_self _ _)).2.1
    have h2 : (0 : Int) ≤ (rest.map (fun b => b.cutoff_size_)).sum := by
      apply List.sum_nonneg
      intro x hx
      obtain ⟨y, hy, rfl⟩ := List.mem_map.mp hx
      have := (h.gens y (by rw [hl]; exact List.mem_cons_of_mem _ hy)).2.1
      omega
    omega

theorem sums_of_WF (B : Nat) (s : ExpandableBloomFilter) (h : WF B s)
    (hcap : s.capacity < 2 ^ 63) (hbits : s.bits < 2 ^ 63) :
    Insert.sums s.instances_ 0 0 = (s.capacity, s.bits) := by
  unfold capacity bits at *
  rw [Insert.sums_eq s.instances_ 0 0 (le_refl _) (le_refl _)
    (fun b hb => by have := (h.gens b hb).2.1; omega) (by omega) (by omega)]
  simp

theorem bits_nonneg (s : ExpandableBloomFilter) : 0 ≤ s.bits := by
  unfold bits
  apply List.sum_nonneg
  intro x hx
  obtain ⟨y, _, rfl⟩ := List.mem_map.mp hx
  unfold BloomFilter.BitSize
  exact Int.ofNat_nonneg _

/-- A call of `Insert` returns when the total capacity and the total bit size are
`int64` values: no `CHECK` fails. -/
theorem Insert_returns (hash : Nat → Nat → Nat) (rounded : Nat → Int → Nat) (rand_gen : Nat → Nat)
    (B : Nat) (s : ExpandableBloomFilter) (h : WF B s) (hcap : s.capacity < 2 ^ 63)
    (hbits : s.bits < 2 ^ 63) (key : Nat) :
    ∃ ret s1, Insert hash rounded rand_gen s key = some (ret, s1) := by
  unfold Insert
  by_cases hc : s.Contains hash key = true
  · rw [if_pos hc]; exact ⟨_, _, rfl⟩
  · rw [if_neg hc]
    cases hl : s.instances_.getLast? with
    | none => exact absurd (List.getLast?_eq_none_iff.mp hl) h.nonempty
    | some last =>
      dsimp only
      obtain ⟨pre, hpre⟩ := List.getLast?_eq_some_iff.mp hl
      have hlast := h.last last hl
      unfold BloomFilter.NumElements
      rw [if_neg (not_lt.mpr hlast)]
      have hnc : ∀ b ∈ s.instances_, BloomFilter.Contains hash b.bf_ key = false := by
        intro b hb
        rw [Contains_eq_any] at hc
        cases hbc : BloomFilter.Contains hash b.bf_ key
        · rfl
        · exact absurd (List.any_eq_true.mpr ⟨b, hb, hbc⟩) hc
      by_cases hfull : last.bf_.num_inserts_ = last.cutoff_size_
      · rw [if_pos hfull, sums_of_WF B s h hcap hbits]
        dsimp only
        have hbad : ¬ (s.bits < 0 ∨ s.capacity ≤ 0) := by
          have := bits_nonneg s
          have := capacity_pos B s h
          omega
        rw [if_neg hbad]
        dsimp only
        rw [List.getLast?_concat]
        dsimp only
        rw [BloomFilter.Insert_fst_eq_not_Contains hash _ key (BloomFilter.new_WF _ _ _ _),
          BloomFilter.Contains_new]
        exact ⟨_, _, rfl⟩
      · rw [if_neg hfull]
        dsimp only
        rw [hl]
        dsimp only
        have hmem : last ∈ s.instances_ := by rw [hpre]; simp
        rw [BloomFilter.Insert_fst_eq_not_Contains hash _ key (h.gens last hmem).1,
          hnc last hmem]
        exact ⟨_, _, rfl⟩

theorem bloom_Insert_count (hash : Nat → Nat → Nat) (b : BloomFilter) (key : Nat)
    (h0 : 0 ≤ b.num_inserts_) (h1 : b.num_inserts_ < 2 ^ 63 - 1) :
    (BloomFilter.Insert hash b key).2.num_inserts_ = b.num_inserts_ + 1 := by
  simp only [BloomFilter.Insert]
  exact BloomFilter.wrap_int64_succ _ h0 h1

theorem new_WF_ebf (B : Nat) (c : Int) (rounded : Nat → Int → Nat) (rand_gen : Nat → Nat)
    (hc : 1 ≤ c) (hc63 : c < 2 ^ 63) : WF B (new B c rounded rand_gen) :=
  { nonempty := by simp [new]
    gens := by
      intro b hb
      simp only [new, List.mem_singleton] at hb
      subst hb
      exact ⟨BloomFilter.new_WF _ _ _ _, hc, hc63, le_refl _⟩
    last := by
      intro b hb
      simp only [new, List.getLast?_singleton, Option.some.injEq] at hb
      subst hb
      show (0 : Int) ≤ c
      omega
    front := by
      intro b hb
      simp only [new, List.head?_cons, Option.some.injEq] at hb
      subst hb
      rfl }

theorem Insert_WF_ebf (hash : Nat → Nat → Nat) (rounded : Nat → Int → Nat)
    (rand_gen : Nat → Nat) (B : Nat) (s : ExpandableBloomFilter) (h : WF B s) (key : Nat)
    (ret : Bool) (s1 : ExpandableBloomFilter)
    (hi : Insert hash rounded rand_gen s key = some (ret, s1)) : WF B s1 := by
  rcases Insert_inv hash rounded rand_gen s key ret s1 hi with
    ⟨_, he, _⟩ | ⟨_, _, _, pre, last, hpre, hle, hcase⟩
  · rw [he]; exact h
  · have hmem : last ∈ s.instances_ := by rw [hpre]; simp
    obtain ⟨hwf, hc1, hc63, hn0⟩ := h.gens last hmem
    rcases hcase with ⟨hne, _, hs1⟩ | ⟨_, _, hcap, hs1⟩
    · have hcount := bloom_Insert_count hash last.bf_ key hn0 (by omega)
      exact
        { nonempty := by rw [hs1]; simp
          gens := by
            intro b hb
            rw [hs1, List.mem_append, List.mem_singleton] at hb
            rcases hb with hb | hb
            · exact h.gens b (by rw [hpre]; exact List.mem_append_left _ hb)
            · subst hb
              exact ⟨BloomFilter.Insert_WF hash _ key hwf, hc1, hc63, by rw [hcount]; omega⟩
          last := by
            intro b hb
            rw [hs1, List.getLast?_concat, Option.some.injEq] at hb
            subst hb
            show (BloomFilter.Insert hash last.bf_ key).2.num_inserts_ ≤ last.cutoff_size_
            rw [hcount]
            omega
          front := by
            intro b hb
            rw [hs1] at hb
            cases hp : pre with
            | nil =>
              rw [hp] at hb hpre
              simp only [List.nil_append, List.head?_cons, Option.some.injEq] at hb
              subst hb
              exact h.front last (by rw [hpre]; rfl)
            | cons p ps =>
              rw [hp] at hb hpre
              simp only [List.cons_append, List.head?_cons, Option.some.injEq] at hb
              subst hb
              exact h.front p (by rw [hpre]; rfl) }
    · have hcap63 := Insert.sums_fst_lt s.instances_ 0 0 (by norm_num)
      exact
        { nonempty := by rw [hs1]; simp
          gens := by
            intro b hb
            rw [hs1, List.mem_append, List.mem_singleton] at hb
            rcases hb with hb | hb
            · exact h.gens b hb
            · subst hb
              refine ⟨BloomFilter.Insert_WF hash _ key (BloomFilter.new_WF _ _ _ _), hcap, hcap63,
                ?_⟩
              rw [bloom_Insert_count hash _ key (le_refl _) (by norm_num [BloomFilter.new])]
              norm_num [BloomFilter.new]
          last := by
            intro b hb
            rw [hs1, List.getLast?_concat, Option.some.injEq] at hb
            subst hb
            show (BloomFilter.Insert hash _ key).2.num_inserts_ ≤ _
            rw [bloom_Insert_count hash _ key (le_refl _) (by norm_num [BloomFilter.new])]
            simpa [BloomFilter.new] using hcap
          front := by
            intro b hb
            rw [hs1] at hb
            cases hl : s.instances_ with
            | nil => exact absurd hl h.nonempty
            | cons p ps =>
              rw [hl] at hb
              simp only [List.cons_append, List.head?_cons, Option.some.injEq] at hb
              subst hb
              exact h.front p (by rw [hl]; rfl) }

theorem Clear_spec (hash : Nat → Nat → Nat) (B : Nat) (s : ExpandableBloomFilter) (h : WF B s) :
    ∃ s1, Clear s = some s1 ∧ WF B s1 ∧ s1.instances_.length = 1 ∧
      s1.BitSize = wrap_int64 ((((B - 1) / 8 + 1) * 8 : Nat) : Int) ∧ s1.NumInserts = 0 ∧
      ∀ k, s1.Contains hash k = false := by
  cases hl : s.instances_ with
  | nil => exact absurd hl h.nonempty
  | cons front rest =>
    have hmem : front ∈ s.instances_ := by rw [hl]; exact List.mem_cons_self _ _
    obtain ⟨hwf, hc1, hc63, _⟩ := h.gens front hmem
    have hfront := h.front front (by rw [hl]; rfl)
    refine ⟨{ instances_ := [{ front with bf_ := BloomFilter.Clear front.bf_ }],
              num_inserts_ := 0 }, ?_, ?_, rfl, ?_, rfl, ?_⟩
    · unfold Clear
      rw [hl]
    · exact
        { nonempty := by simp
          gens := by
            intro b hb
            simp only [List.mem_singleton] at hb
            subst hb
            exact ⟨BloomFilter.bloom_Clear_WF _ hwf, hc1, hc63, le_refl _⟩
          last := by
            intro b hb
            simp only [List.getLast?_singleton, Option.some.injEq] at hb
            subst hb
            show (0 : Int) ≤ front.cutoff_size_
            omega
          front := by
            intro b hb
            simp only [List.head?_cons, Option.some.injEq] at hb
            subst hb
            exact hfront }
    · simp only [BitSize, BitSize.loop, BloomFilter.BitSize, BloomFilter.Clear, hfront, zero_add]
    · intro k
      rw [Contains_eq_any]
      simp only [List.any_cons, List.any_nil, Bool.or_false]
      exact BloomFilter.Contains_Clear hash _ hwf k

theorem Reachable.ebf_wf {hash : Nat → Nat → Nat} {B : Nat} {c : Int}
    {rounded : Nat → Int → Nat} {rand_gen : Nat → Nat} {s : ExpandableBloomFilter}
    (hc : 1 ≤ c) (hc63 : c < 2 ^ 63) (h : Reachable hash B c rounded rand_gen s) : WF B s := by
  induction h with
  | constructed => exact new_WF_ebf B c rounded rand_gen hc hc63
  | insert s key ret s1 _ hi ih => exact Insert_WF_ebf hash rounded rand_gen B s ih key ret s1 hi
  | clear s s1 _ hcl ih =>
    obtain ⟨s2, h2, hwf, _⟩ := Clear_spec hash B s ih
    rw [hcl] at h2
    cases h2
    exact hwf

theorem sample_Insert :
    Insert (fun key seed => key + seed) (fun _ _ => 1) (fun i => i)
      (new 8 1 (fun _ _ => 1) (fun i => i)) 25 = some (true, sampleExpandable) := by
  rfl

theorem sample_Reachable :
    Reachable (fun key seed => key + seed) 8 1 (fun _ _ => 1) (fun i => i) sampleExpandable :=
  Reachable.insert _ 25 true _ Reachable.constructed sample_Insert

/-- C15. In every state of a filter constructed with `initial_bit_size >= 1` and
`initial_cutoff_size >= 1` whose total capacity and total bit size are `int64`
values, `Insert(k)` returns, it returns false exactly when `Contains(k)` was
true just before the call, and then the state is unchanged: the instances,
their bits, `BitSize()` and `NumInserts()`. -/
theorem Insert_false_iff_Contains (hash : Nat → Nat → Nat) (initial_bit_size : Nat)
    (initial_cutoff_size : Int) (rounded : Nat → Int → Nat) (rand_gen : Nat → Nat)
    (_hbits : 1 ≤ initial_bit_size) (hcut : 1 ≤ initial_cutoff_size)
    (hcut63 : initial_cutoff_size < 2 ^ 63) (s : ExpandableBloomFilter)
    (hs : Reachable hash initial_bit_size initial_cutoff_size rounded rand_gen s)
    (hcap : s.capacity < 2 ^ 63) (hsize : s.bits < 2 ^ 63) (k : Nat) :
    ∃ ret s1, Insert hash rounded rand_gen s k = some (ret, s1) ∧
      (ret = false ↔ s.Contains hash k = true) ∧
      (ret = false → s1 = s ∧ s1.BitSize = s.BitSize ∧ s1.NumInserts = s.NumInserts) := by
  have hwf := hs.ebf_wf hcut hcut63
  obtain ⟨ret, s1, hi⟩ := Insert_returns hash rounded rand_gen initial_bit_size s hwf hcap hsize k
  refine ⟨ret, s1, hi, ?_, ?_⟩
  · rcases Insert_inv hash rounded rand_gen s k ret s1 hi with ⟨h1, _, h3⟩ | ⟨h1, h2, _⟩
    · exact ⟨fun _ => h3, fun _ => h1⟩
    · constructor
      · intro h; rw [h1] at h; cases h
      · intro h; rw [h2] at h; cases h
  · intro hret
    rcases Insert_inv hash rounded rand_gen s k ret s1 hi with ⟨_, h2, _⟩ | ⟨h1, _, _⟩
    · rw [h2]; exact ⟨rfl, rfl, rfl⟩
    · rw [h1] at hret; cases hret

theorem Insert_false_iff_Contains_witness :
    (1 ≤ 8 ∧ (1 : Int) ≤ 1 ∧ (1 : Int) < 2 ^ 63 ∧
      Reachable (fun key seed => key + seed) 8 1 (fun _ _ => 1) (fun i => i) sampleExpandable ∧
      sampleExpandable.capacity < 2 ^ 63 ∧ sampleExpandable.bits < 2 ^ 63) ∧
    ∃ ret s1, Insert (fun key seed => key + seed) (fun _ _ => 1) (fun i => i)
        sampleExpandable 26 = some (ret, s1) ∧
      (ret = false ↔ sampleExpandable.Contains (fun key seed => key + seed) 26 = true) ∧
      (ret = false → s1 = sampleExpandable ∧ s1.BitSize = sampleExpandable.BitSize ∧
        s1.NumInserts = sampleExpandable.NumInserts) :=
  ⟨⟨by decide, by decide, by norm_num, sample_Reachable, by decide, by decide⟩,
    Insert_false_iff_Contains (fun key seed => key + seed) 8 1 (fun _ _ => 1) (fun i => i)
      (by decide) (by decide) (by norm_num) sampleExpandable sample_Reachable (by decide)
      (by decide) 26⟩

/-- C18. `Clear()` reverts the filter to its original state from any state of a
filter constructed with `initial_bit_size >= 1` and `initial_cutoff_size >= 1`:
it returns, and afterwards exactly one instance remains, `BitSize()` is the
`BitSize()` right after construction, `NumInserts()` is 0 and `Contains(k)` is
false for every key `k`. -/
theorem Clear_reverts_to_original (hash : Nat → Nat → Nat) (initial_bit_size : Nat)
    (initial_cutoff_size : Int) (rounded : Nat → Int → Nat) (rand_gen : Nat → Nat)
    (_hbits : 1 ≤ initial_bit_size) (hcut : 1 ≤ initial_cutoff_size)
    (hcut63 : initial_cutoff_size < 2 ^ 63) (s : ExpandableBloomFilter)
    (hs : Reachable hash initial_bit_size initial_cutoff_size rounded rand_gen s) :
    ∃ s1, Clear s = some s1 ∧ s1.instances_.length = 1 ∧
      s1.BitSize = (new initial_bit_size initial_cutoff_size rounded rand_gen).BitSize ∧
      s1.NumInserts = 0 ∧ ∀ k, s1.Contains hash k = false := by
  have hwf := hs.ebf_wf hcut hcut63
  obtain ⟨s1, h1, _, h3, h4, h5, h6⟩ := Clear_spec hash initial_bit_size s hwf
  refine ⟨s1, h1, h3, ?_, h5, h6⟩
  rw [h4]
  simp only [BitSize, BitSize.loop, new, BloomFilter.new, BloomFilter.BitSize, zero_add]

theorem Clear_reverts_to_original_witness :
    (1 ≤ 8 ∧ (1 : Int) ≤ 1 ∧ (1 : Int) < 2 ^ 63 ∧
      Reachable (fun key seed => key + seed) 8 1 (fun _ _ => 1) (fun i => i)
        sampleExpandable) ∧
    ∃ s1, Clear sampleExpandable = some s1 ∧ s1.instances_.length = 1 ∧
      s1.BitSize = (new 8 1 (fun _ _ => 1) (fun i => i)).BitSize ∧
      s1.NumInserts = 0 ∧ ∀ k, s1.Contains (fun key seed => key + seed) k = false :=
  ⟨⟨by decide, by decide, by norm_num, sample_Reachable⟩,
    Clear_reverts_to_original (fun key seed => key + seed) 8 1 (fun _ _ => 1) (fun i => i)
      (by decide) (by decide) (by norm_num) sampleExpandable sample_Reachable⟩

theorem Chain.ne_nil {B c : Nat} {l : List BfInstance} (h : Chain B c l) : l ≠ [] := by
  intro hl
  rw [hl] at h
  exact h

theorem Chain.sums {B c : Nat} :
    ∀ {l : List BfInstance}, Chain B c l →
      (l.map (fun b => b.cutoff_size_)).sum = ((c * 2 ^ (l.length - 1) : Nat) : Int) ∧
      (l.map (fun b => BloomFilter.BitSize b.bf_)).sum = ((B * 2 ^ (l.length - 1) : Nat) : Int)
  | [], h => absurd rfl h.ne_nil
  | [b], h => by
    obtain ⟨h1, h2⟩ := h
    simp [h1, h2, BloomFilter.BitSize]
  | b :: b1 :: rest, h => by
    obtain ⟨h1, h2, h3⟩ := h
    obtain ⟨i1, i2⟩ := Chain.sums h3
    rw [List.map_cons, List.sum_cons, i1, List.map_cons, List.sum_cons, i2, h1]
    simp only [BloomFilter.BitSize, h2, List.length_cons, Nat.add_sub_cancel]
    push_cast
    constructor <;> ring

theorem Chain.head_eq {B c : Nat} {b : BfInstance} {l : List BfInstance}
    (h : Chain B c (b :: l)) :
    b.cutoff_size_ = ((c * 2 ^ (l.length - 1) : Nat) : Int) ∧
      b.bf_.bit_size_ = B * 2 ^ (l.length - 1) := by
  cases l with
  | nil =>
    obtain ⟨h1, h2⟩ := h
    simp [h1, h2]
  | cons b1 rest =>
    obtain ⟨h1, h2, _⟩ := h
    simp [h1, h2]

theorem Chain.replace_head {B c : Nat} {b b2 : BfInstance} {l : List BfInstance}
    (h : Chain B c (b :: l)) (h1 : b2.cutoff_size_ = b.cutoff_size_)
    (h2 : b2.bf_.bit_size_ = b.bf_.bit_size_) : Chain B c (b2 :: l) := by
  cases l with
  | nil => exact ⟨h1.trans h.1, h2.trans h.2⟩
  | cons b1 rest => exact ⟨h1.trans h.1, h2.trans h.2.1, h.2.2⟩

theorem Chain.push {B c : Nat} {b : BfInstance} {l : List BfInstance} (h : Chain B c l)
    (h1 : b.cutoff_size_ = ((c * 2 ^ (l.length - 1) : Nat) : Int))
    (h2 : b.bf_.bit_size_ = B * 2 ^ (l.length - 1)) : Chain B c (b :: l) := by
  cases l with
  | nil => exact absurd rfl h.ne_nil
  | cons b1 rest =>
    simp only [List.length_cons, Nat.add_sub_cancel] at h1 h2
    exact ⟨h1, h2, h⟩

theorem Grown.capacity_eq {B c : Nat} {s : ExpandableBloomFilter} (h : Grown B c s) :
    s.capacity = ((c * 2 ^ (s.instances_.length - 1) : Nat) : Int) ∧
      s.bits = ((B * 2 ^ (s.instances_.length - 1) : Nat) : Int) := by
  obtain ⟨h1, h2⟩ := h.chain.sums
  rw [List.map_reverse, List.sum_reverse, List.length_reverse] at h1 h2
  exact ⟨h1, h2⟩

theorem new_bit_size_mul8 (k : Nat) (hk : 1 ≤ k) (e : Int) (r : Nat) (g : Nat → Nat) :
    (BloomFilter.new (8 * k) e r g).bit_size_ = 8 * k := by
  simp only [BloomFilter.new]
  omega

theorem new_Grown (B c : Nat) (rounded : Nat → Int → Nat) (rand_gen : Nat → Nat) :
    Grown (((B - 1) / 8 + 1) * 8) c (new B c rounded rand_gen) :=
  { chain := by
      simp only [new, List.reverse_cons, List.reverse_nil, List.nil_append]
      exact ⟨rfl, rfl⟩
    count := by
      intro b hb
      simp only [new, List.getLast?_singleton, Option.some.injEq] at hb
      subst hb
      refine ⟨le_refl _, ?_, fun _ => rfl, ?_⟩
      · show (0 : Int) ≤ (c : Int)
        exact Int.ofNat_nonneg c
      · intro h
        simp [new] at h }

theorem two_pow_pred_double (L : Nat) (hL : 1 ≤ L) : 2 ^ (L - 1) * 2 = 2 ^ L := by
  obtain ⟨n, rfl⟩ : ∃ n, L = n + 1 := ⟨L - 1, by omega⟩
  rw [Nat.add_sub_cancel, Nat.pow_succ]

/-- The facts about the last instance of a filter that has not overflowed, for
`pre.length + 1` instances. -/
theorem Grown.last_facts {B c : Nat} {s : ExpandableBloomFilter} (h : Grown B c s)
    (pre : List BfInstance) (last : BfInstance) (hpre : s.instances_ = pre ++ [last]) :
    Chain B c (last :: pre.reverse) ∧
    last.cutoff_size_ = ((c * 2 ^ (pre.length - 1) : Nat) : Int) ∧
    last.bf_.bit_size_ = B * 2 ^ (pre.length - 1) ∧
    0 ≤ last.bf_.num_inserts_ ∧ last.bf_.num_inserts_ ≤ last.cutoff_size_ ∧
    (pre.length = 0 → s.num_inserts_ = last.bf_.num_inserts_) ∧
    (1 ≤ pre.length → 1 ≤ last.bf_.num_inserts_ ∧
      s.num_inserts_ = ((c * 2 ^ (pre.length - 1) : Nat) : Int) + last.bf_.num_inserts_) := by
  have hch := h.chain
  rw [hpre, List.reverse_concat] at hch
  obtain ⟨e1, e2⟩ := hch.head_eq
  rw [List.length_reverse] at e1 e2
  obtain ⟨c1, c2, c3, c4⟩ := h.count last (by rw [hpre, List.getLast?_concat])
  have hlen : s.instances_.length = pre.length + 1 := by rw [hpre]; simp
  refine ⟨hch, e1, e2, c1, c2, ?_, ?_⟩
  · intro h0
    exact c3 (by omega)
  · intro h1
    have := c4 (by omega)
    rw [hlen] at this
    exact this

theorem Grown_step (hash : Nat → Nat → Nat) (rounded : Nat → Int → Nat) (rand_gen : Nat → Nat)
    (B0 k c : Nat) (hk : 1 ≤ k) (hc : 1 ≤ c) (s : ExpandableBloomFilter) (hwf : WF B0 s)
    (hg : Grown (8 * k) c s) (hcap : c * 2 ^ (s.instances_.length - 1) < 2 ^ 63)
    (hbits : 8 * k * 2 ^ (s.instances_.length - 1) < 2 ^ 63)
    (hnum : s.num_inserts_ + 1 < 2 ^ 63) (key : Nat) (ret : Bool)
    (s1 : ExpandableBloomFilter) (hi : Insert hash rounded rand_gen s key = some (ret, s1)) :
    Grown (8 * k) c s1 ∧ s1.num_inserts_ = s.num_inserts_ + (if ret then 1 else 0) := by
  rcases Insert_inv hash rounded rand_gen s key ret s1 hi with
    ⟨hr, he, _⟩ | ⟨hr, _, hn1, pre, last, hpre, hle, hcase⟩
  · rw [he, hr]
    exact ⟨hg, by simp⟩
  · obtain ⟨hch, e1, e2, m0, m1, n0, n1⟩ := hg.last_facts pre last hpre
    have hlen : s.instances_.length = pre.length + 1 := by rw [hpre]; simp
    rw [hlen, Nat.add_sub_cancel] at hcap hbits
    have hmem : last ∈ s.instances_ := by rw [hpre]; simp
    obtain ⟨_, _, hc63, _⟩ := hwf.gens last hmem
    have hs0 : 0 ≤ s.num_inserts_ := by
      by_cases hL : pre.length = 0
      · rw [n0 hL]; exact m0
      · rw [(n1 (by omega)).2]
        have := Int.ofNat_nonneg (c * 2 ^ (pre.length - 1))
        omega
    have hnum1 : s1.num_inserts_ = s.num_inserts_ + 1 := by
      rw [hn1]
      exact BloomFilter.wrap_int64_succ _ hs0 (by omega)
    rw [hr]
    refine ⟨?_, by rw [hnum1]; simp⟩
    rcases hcase with ⟨hne, _, hs1⟩ | ⟨hfull, _, _, hs1⟩
    · have hcount := bloom_Insert_count hash last.bf_ key m0 (by omega)
      refine { chain := ?_, count := ?_ }
      · rw [hs1, List.reverse_concat]
        exact hch.replace_head rfl rfl
      · intro b hb
        rw [hs1, List.getLast?_concat, Option.some.injEq] at hb
        subst hb
        have hlen1 : s1.instances_.length = pre.length + 1 := by rw [hs1]; simp
        show 0 ≤ (BloomFilter.Insert hash last.bf_ key).2.num_inserts_ ∧
          (BloomFilter.Insert hash last.bf_ key).2.num_inserts_ ≤ last.cutoff_size_ ∧ _ ∧ _
        rw [hcount, hlen1, hnum1]
        refine ⟨by omega, by omega, ?_, ?_⟩
        · intro h0
          rw [n0 (by omega)]
        · intro h2
          have := n1 (by omega)
          have e : pre.length + 1 - 2 = pre.length - 1 := by omega
          rw [e, this.2]
          omega
    · have hce := hg.capacity_eq
      rw [hlen, Nat.add_sub_cancel] at hce
      have hsums := sums_of_WF B0 s hwf (by rw [hce.1]; exact_mod_cast hcap)
        (by rw [hce.2]; exact_mod_cast hbits)
      rw [hsums, hce.1, hce.2] at hs1
      simp only [Int.toNat_ofNat] at hs1
      have hkpos : 1 ≤ k * 2 ^ pre.length := Nat.one_le_iff_ne_zero.mpr (by positivity)
      have hbs := new_bit_size_mul8 (k * 2 ^ pre.length) hkpos
        ((c * 2 ^ pre.length : Nat) : Int)
        (rounded (8 * k * 2 ^ pre.length) ((c * 2 ^ pre.length : Nat) : Int)) rand_gen
      rw [← Nat.mul_assoc] at hbs
      have hcount := bloom_Insert_count hash
        (BloomFilter.new (8 * k * 2 ^ pre.length) ((c * 2 ^ pre.length : Nat) : Int)
          (rounded (8 * k * 2 ^ pre.length) ((c * 2 ^ pre.length : Nat) : Int)) rand_gen) key
        (le_refl _) (by norm_num [BloomFilter.new])
      have hzero : (BloomFilter.new (8 * k * 2 ^ pre.length) ((c * 2 ^ pre.length : Nat) : Int)
          (rounded (8 * k * 2 ^ pre.length) ((c * 2 ^ pre.length : Nat) : Int))
          rand_gen).num_inserts_ = 0 := rfl
      rw [hzero] at hcount
      have hsnum : s.num_inserts_ = ((c * 2 ^ pre.length : Nat) : Int) := by
        by_cases hL : pre.length = 0
        · rw [n0 hL, hfull, e1, hL]
        · have h1 := (n1 (by omega)).2
          rw [h1, hfull, e1, ← two_pow_pred_double pre.length (by omega)]
          push_cast
          ring
      refine { chain := ?_, count := ?_ }
      · rw [hs1, List.reverse_concat]
        apply hg.chain.push
        · rw [List.length_reverse, hlen, Nat.add_sub_cancel]
        · rw [List.length_reverse, hlen, Nat.add_sub_cancel]
          exact hbs
      · intro b hb
        rw [hs1, List.getLast?_concat, Option.some.injEq] at hb
        subst hb
        have hlen1 : s1.instances_.length = pre.length + 2 := by rw [hs1, hpre]; simp
        rw [hlen1, hnum1]
        dsimp only
        rw [hcount]
        have hcpos : (1 : Int) ≤ ((c * 2 ^ pre.length : Nat) : Int) := by
          have : 1 ≤ c * 2 ^ pre.length := Nat.one_le_iff_ne_zero.mpr (by positivity)
          exact_mod_cast this
        refine ⟨by norm_num, by omega, fun h0 => by omega, fun _ => ⟨by norm_num, ?_⟩⟩
        rw [Nat.add_sub_cancel, hsnum]
        norm_num

/-- No key is lost by `Insert`: the inserted key is found afterwards, and so is
every key that was found before. -/
theorem Insert_Contains (hash : Nat → Nat → Nat) (rounded : Nat → Int → Nat)
    (rand_gen : Nat → Nat) (B0 : Nat) (s : ExpandableBloomFilter) (hwf : WF B0 s) (key : Nat)
    (ret : Bool) (s1 : ExpandableBloomFilter)
    (hi : Insert hash rounded rand_gen s key = some (ret, s1)) :
    s1.Contains hash key = true ∧ ∀ k, s.Contains hash k = true → s1.Contains hash k = true := by
  rcases Insert_inv hash rounded rand_gen s key ret s1 hi with
    ⟨_, he, hc⟩ | ⟨_, _, _, pre, last, hpre, _, hcase⟩
  · rw [he]
    exact ⟨hc, fun _ h => h⟩
  · have hmem : last ∈ s.instances_ := by rw [hpre]; simp
    have hlwf := (hwf.gens last hmem).1
    rcases hcase with ⟨_, _, hs1⟩ | ⟨_, _, _, hs1⟩
    · simp only [Contains_eq_any, hs1, hpre, List.any_append, List.any_cons, List.any_nil,
        Bool.or_false]
      refine ⟨?_, ?_⟩
      · rw [BloomFilter.Contains_Insert_self hash _ key hlwf]
        simp
      · intro k hk
        rcases Bool.or_eq_true _ _ |>.mp hk with h1 | h1
        · rw [h1]; rfl
        · rw [BloomFilter.Contains_Insert_mono hash _ key k hlwf h1]
          simp
    · simp only [Contains_eq_any, hs1, List.any_append, List.any_cons, List.any_nil,
        Bool.or_false]
      refine ⟨?_, ?_⟩
      · rw [BloomFilter.Contains_Insert_self hash _ key (BloomFilter.new_WF _ _ _ _)]
        simp
      · intro k hk
        rw [hk]
        rfl

theorem Grown.instances_concat {B c : Nat} {s : ExpandableBloomFilter} (h : Grown B c s) :
    ∃ pre last, s.instances_ = pre ++ [last] := by
  rcases List.eq_nil_or_concat s.instances_ with hn | ⟨pre, last, hl⟩
  · have := h.chain.ne_nil
    rw [hn] at this
    exact absurd rfl this
  · exact ⟨pre, last, by rw [hl, List.concat_eq_append]⟩

theorem Grown.length_le {B c : Nat} {s : ExpandableBloomFilter} (h : Grown B c s) (J : Nat)
    (hn : s.num_inserts_ ≤ ((c * 2 ^ J : Nat) : Int)) : s.instances_.length - 1 ≤ J := by
  obtain ⟨pre, last, hpre⟩ := h.instances_concat
  obtain ⟨_, _, _, _, _, _, n1⟩ := h.last_facts pre last hpre
  have hlen : s.instances_.length = pre.length + 1 := by rw [hpre]; simp
  rw [hlen, Nat.add_sub_cancel]
  by_contra hcon
  have hL : 1 ≤ pre.length := by omega
  obtain ⟨m1, hs⟩ := n1 hL
  have hpow : 2 ^ J ≤ 2 ^ (pre.length - 1) := Nat.pow_le_pow_right (by norm_num) (by omega)
  have hmul : c * 2 ^ J ≤ c * 2 ^ (pre.length - 1) := Nat.mul_le_mul_left c hpow
  have hmul2 : ((c * 2 ^ J : Nat) : Int) ≤ ((c * 2 ^ (pre.length - 1) : Nat) : Int) := by
    exact_mod_cast hmul
  omega

theorem Grown.num_nonneg {B c : Nat} {s : ExpandableBloomFilter} (h : Grown B c s) :
    0 ≤ s.num_inserts_ := by
  obtain ⟨pre, last, hpre⟩ := h.instances_concat
  obtain ⟨_, _, _, m0, _, n0, n1⟩ := h.last_facts pre last hpre
  by_cases hL : pre.length = 0
  · rw [n0 hL]; exact m0
  · rw [(n1 (by omega)).2]
    have := Int.ofNat_nonneg (c * 2 ^ (pre.length - 1))
    omega

theorem Grown.in_range {B c : Nat} {s : ExpandableBloomFilter} (h : Grown B c s) (J : Nat)
    (hn : s.num_inserts_ ≤ ((c * 2 ^ J : Nat) : Int)) (hJc : c * 2 ^ J < 2 ^ 63)
    (hJb : B * 2 ^ J < 2 ^ 63) :
    c * 2 ^ (s.instances_.length - 1) < 2 ^ 63 ∧ B * 2 ^ (s.instances_.length - 1) < 2 ^ 63 := by
  have hle := h.length_le J hn
  have hpow : 2 ^ (s.instances_.length - 1) ≤ 2 ^ J := Nat.pow_le_pow_right (by norm_num) hle
  exact ⟨lt_of_le_of_lt (Nat.mul_le_mul_left c hpow) hJc,
    lt_of_le_of_lt (Nat.mul_le_mul_left B hpow) hJb⟩

theorem InsertAll_grown (hash : Nat → Nat → Nat) (rounded : Nat → Int → Nat)
    (rand_gen : Nat → Nat) (B0 k c : Nat) (hk : 1 ≤ k) (hc : 1 ≤ c) (J : Nat)
    (hJc : c * 2 ^ J < 2 ^ 63) (hJb : 8 * k * 2 ^ J < 2 ^ 63) :
    ∀ (keys : List Nat) (s : ExpandableBloomFilter), WF B0 s → Grown (8 * k) c s →
      s.num_inserts_ + keys.length ≤ ((c * 2 ^ J : Nat) : Int) →
      ∃ flags s1, InsertAll hash rounded rand_gen s keys = some (flags, s1) ∧
        WF B0 s1 ∧ Grown (8 * k) c s1 ∧
        s1.num_inserts_ = s.num_inserts_ + flags.count true ∧
        s1.num_inserts_ ≤ ((c * 2 ^ J : Nat) : Int) ∧
        (∀ x ∈ keys, s1.Contains hash x = true) ∧
        ∀ x, s.Contains hash x = true → s1.Contains hash x = true := by
  intro keys
  induction keys with
  | nil =>
    intro s hwf hg hn
    exact ⟨[], s, rfl, hwf, hg, by simp, by simpa using hn, by simp, fun _ h => h⟩
  | cons key rest ih =>
    intro s hwf hg hn
    simp only [List.length_cons, Nat.cast_add, Nat.cast_one] at hn
    have hcJ : ((c * 2 ^ J : Nat) : Int) < 2 ^ 63 := by exact_mod_cast hJc
    obtain ⟨r1, r2⟩ := hg.in_range J (by omega) hJc hJb
    have hce := hg.capacity_eq
    obtain ⟨ret, s1, hi⟩ := Insert_returns hash rounded rand_gen B0 s hwf
      (by rw [hce.1]; exact_mod_cast r1) (by rw [hce.2]; exact_mod_cast r2) key
    have hwf1 := Insert_WF_ebf hash rounded rand_gen B0 s hwf key ret s1 hi
    obtain ⟨hg1, hnum1⟩ := Grown_step hash rounded rand_gen B0 k c hk hc s hwf hg r1 r2
      (by omega) key ret s1 hi
    obtain ⟨hck, hmono⟩ := Insert_Contains hash rounded rand_gen B0 s hwf key ret s1 hi
    have hstep : (if ret = true then (1 : Int) else 0) ≤ 1 := by split_ifs <;> norm_num
    obtain ⟨flags, s2, h2, hwf2, hg2, hnum2, hle2, hall, hmono2⟩ := ih s1 hwf1 hg1 (by omega)
    refine ⟨ret :: flags, s2, ?_, hwf2, hg2, ?_, hle2, ?_, fun x hx => hmono2 x (hmono x hx)⟩
    · simp only [InsertAll, hi, h2]
    · rw [hnum2, hnum1]
      cases ret <;> simp [List.count_cons] <;> ring
    · intro x hx
      rcases List.mem_cons.mp hx with hx | hx
      · rw [hx]; exact hmono2 key hck
      · exact hall x hx

theorem Grown.BitSize_eq {B c : Nat} {s : ExpandableBloomFilter} (h : Grown B c s)
    (hr : B * 2 ^ (s.instances_.length - 1) < 2 ^ 63) :
    s.BitSize = ((B * 2 ^ (s.instances_.length - 1) : Nat) : Int) := by
  have hb := h.capacity_eq.2
  unfold bits at hb
  unfold BitSize
  rw [BitSize.loop_eq _ 0 (le_refl _) (by rw [hb, zero_add]; exact_mod_cast hr), hb, zero_add]

/-- The number of expansions is the least `j` with `c * 2^j >= NumInserts()`. -/
theorem Grown.least {B c : Nat} {s : ExpandableBloomFilter} (h : Grown B c s) (j : Nat)
    (h1 : s.num_inserts_ ≤ ((c * 2 ^ j : Nat) : Int))
    (h2 : ∀ i, i < j → ((c * 2 ^ i : Nat) : Int) < s.num_inserts_) :
    j = s.instances_.length - 1 := by
  obtain ⟨pre, last, hpre⟩ := h.instances_concat
  obtain ⟨_, e1, _, m0, m1, n0, n1⟩ := h.last_facts pre last hpre
  have hlen : s.instances_.length = pre.length + 1 := by rw [hpre]; simp
  rw [hlen, Nat.add_sub_cancel]
  have hupper : s.num_inserts_ ≤ ((c * 2 ^ pre.length : Nat) : Int) := by
    by_cases hL : pre.length = 0
    · rw [n0 hL, hL]
      rw [e1, hL] at m1
      exact m1
    · have hs := (n1 (by omega)).2
      rw [e1] at m1
      rw [hs, ← two_pow_pred_double pre.length (by omega)]
      push_cast at m1 ⊢
      linarith
  apply le_antisymm
  · by_contra hcon
    have := h2 pre.length (by omega)
    omega
  · by_contra hcon
    have hL : 1 ≤ pre.length := by omega
    obtain ⟨hm, hs⟩ := n1 hL
    have hpow : 2 ^ j ≤ 2 ^ (pre.length - 1) := Nat.pow_le_pow_right (by norm_num) (by omega)
    have hmul : ((c * 2 ^ j : Nat) : Int) ≤ ((c * 2 ^ (pre.length - 1) : Nat) : Int) := by
      exact_mod_cast Nat.mul_le_mul_left c hpow
    omega

/-- C16. No false negatives across expansions: a sequence `keys` of `Insert` calls
on a filter constructed with `initial_bit_size >= 1` and
`initial_cutoff_size = c >= 1` returns, and every key of the sequence is found
by `Contains` in the state after it (so after its own call and after every
later call, the sequence being arbitrary), whether its `Insert` returned true
or false and whether instances were appended; the sequence has at most
`c * 2^J` calls, where `c * 2^J` and the bit size times `2^J` are `int64`
values. -/
theorem no_false_negatives_across_expansions (hash : Nat → Nat → Nat)
    (initial_bit_size c : Nat) (rounded : Nat → Int → Nat) (rand_gen : Nat → Nat)
    (_hbits : 1 ≤ initial_bit_size) (hc : 1 ≤ c) (keys : List Nat) (J : Nat)
    (hlen : keys.length ≤ c * 2 ^ J) (hJc : c * 2 ^ J < 2 ^ 63)
    (hJb : 8 * ((initial_bit_size - 1) / 8 + 1) * 2 ^ J < 2 ^ 63) :
    ∃ flags s1,
      InsertAll hash rounded rand_gen (new initial_bit_size c rounded rand_gen) keys =
        some (flags, s1) ∧
      ∀ k ∈ keys, s1.Contains hash k = true := by
  have hpow : 1 ≤ 2 ^ J := Nat.one_le_two_pow
  have hc63 : (c : Int) < 2 ^ 63 := by
    have : c ≤ c * 2 ^ J := Nat.le_mul_of_pos_right c hpow
    have h2 : c < 2 ^ 63 := lt_of_le_of_lt this hJc
    exact_mod_cast h2
  have hwf := new_WF_ebf initial_bit_size c rounded rand_gen (by exact_mod_cast hc) hc63
  have hg := new_Grown initial_bit_size c rounded rand_gen
  rw [Nat.mul_comm] at hg
  obtain ⟨flags, s1, h1, _, _, _, _, h6, _⟩ :=
    InsertAll_grown hash rounded rand_gen initial_bit_size ((initial_bit_size - 1) / 8 + 1) c
      (by omega) hc J hJc hJb keys _ hwf hg
      (by
        show (0 : Int) + (keys.length : Int) ≤ _
        rw [zero_add]
        exact_mod_cast hlen)
  exact ⟨flags, s1, h1, h6⟩

theorem no_false_negatives_across_expansions_witness :
    (1 ≤ 8 ∧ 1 ≤ 1 ∧ [25, 26, 25].length ≤ 1 * 2 ^ 2 ∧ 1 * 2 ^ 2 < 2 ^ 63 ∧
      8 * ((8 - 1) / 8 + 1) * 2 ^ 2 < 2 ^ 63) ∧
    ∃ flags s1,
      InsertAll (fun key seed => key + seed) (fun _ _ => 1) (fun i => i)
          (new 8 (1 : Nat) (fun _ _ => 1) (fun i => i)) [25, 26, 25] = some (flags, s1) ∧
      ∀ k ∈ [25, 26, 25], s1.Contains (fun key seed => key + seed) k = true :=
  ⟨⟨by decide, by decide, by decide, by norm_num, by norm_num⟩,
    no_false_negatives_across_expansions (fun key seed => key + seed) 8 1 (fun _ _ => 1)
      (fun i => i) (by decide) (by decide) [25, 26, 25] 2 (by decide) (by norm_num)
      (by norm_num)⟩

/-- C17. Capacity growth: on a filter constructed with the bit size `B = 8 * b`,
`b >= 1`, and the cutoff size `c >= 1`, a sequence of `Insert` calls returns,
`NumInserts()` is then the number of calls that returned true, `BitSize()` is
`B` while `NumInserts() <= c`, it is `2 * B` when `NumInserts()` is `c + 1`, and
in general it is `B * 2^j` for the least `j` with `c * 2^j >= NumInserts()`; the
sequence has at most `c * 2^J` calls, where `c * 2^J` and `B * 2^J` are `int64`
values. -/
theorem BitSize_doubles_at_cutoff (hash : Nat → Nat → Nat) (b c : Nat)
    (rounded : Nat → Int → Nat) (rand_gen : Nat → Nat) (hb : 1 ≤ b) (hc : 1 ≤ c)
    (keys : List Nat) (J : Nat) (hlen : keys.length ≤ c * 2 ^ J) (hJc : c * 2 ^ J < 2 ^ 63)
    (hJb : 8 * b * 2 ^ J < 2 ^ 63) :
    ∃ flags s1,
      InsertAll hash rounded rand_gen (new (8 * b) c rounded rand_gen) keys =
        some (flags, s1) ∧
      s1.NumInserts = flags.count true ∧
      (s1.NumInserts ≤ c → s1.BitSize = ((8 * b : Nat) : Int)) ∧
      (s1.NumInserts = c + 1 → s1.BitSize = 2 * ((8 * b : Nat) : Int)) ∧
      ∀ j, s1.NumInserts ≤ ((c * 2 ^ j : Nat) : Int) →
        (∀ i, i < j → ((c * 2 ^ i : Nat) : Int) < s1.NumInserts) →
        s1.BitSize = ((8 * b * 2 ^ j : Nat) : Int) := by
  have hpow : 1 ≤ 2 ^ J := Nat.one_le_two_pow
  have hc63 : (c : Int) < 2 ^ 63 := by
    have : c ≤ c * 2 ^ J := Nat.le_mul_of_pos_right c hpow
    have h2 : c < 2 ^ 63 := lt_of_le_of_lt this hJc
    exact_mod_cast h2
  have hwf := new_WF_ebf (8 * b) c rounded rand_gen (by exact_mod_cast hc) hc63
  have hg := new_Grown (8 * b) c rounded rand_gen
  have hb8 : ((8 * b - 1) / 8 + 1) * 8 = 8 * b := by omega
  rw [hb8] at hg
  obtain ⟨flags, s1, h1, _, hg1, hnum, hle, _, _⟩ :=
    InsertAll_grown hash rounded rand_gen (8 * b) b c hb hc J hJc hJb keys _ hwf hg
      (by
        show (0 : Int) + (keys.length : Int) ≤ _
        rw [zero_add]
        exact_mod_cast hlen)
  have hr := (hg1.in_range J hle hJc hJb).2
  have hbs := hg1.BitSize_eq hr
  have hgen : ∀ j, s1.NumInserts ≤ ((c * 2 ^ j : Nat) : Int) →
      (∀ i, i < j → ((c * 2 ^ i : Nat) : Int) < s1.NumInserts) →
      s1.BitSize = ((8 * b * 2 ^ j : Nat) : Int) := by
    intro j hj1 hj2
    rw [hbs, hg1.least j hj1 hj2]
  refine ⟨flags, s1, h1, ?_, ?_, ?_, hgen⟩
  · unfold NumInserts
    rw [hnum]
    show (0 : Int) + _ = _
    rw [zero_add]
  · intro hle1
    have := hgen 0 (by simpa using hle1) (fun i hi => by omega)
    simpa using this
  · intro heq
    have := hgen 1 (by rw [heq]; push_cast; omega)
      (fun i hi => by
        have hi0 : i = 0 := by omega
        rw [hi0, heq]
        push_cast
        omega)
    rw [this]
    push_cast
    ring

theorem BitSize_doubles_at_cutoff_witness :
    (1 ≤ 1 ∧ 1 ≤ 1 ∧ [25, 26].length ≤ 1 * 2 ^ 1 ∧ 1 * 2 ^ 1 < 2 ^ 63 ∧
      8 * 1 * 2 ^ 1 < 2 ^ 63) ∧
    ∃ flags s1,
      InsertAll (fun key seed => key + seed) (fun _ _ => 1) (fun i => i)
          (new (8 * 1) (1 : Nat) (fun _ _ => 1) (fun i => i)) [25, 26] = some (flags, s1) ∧
      s1.NumInserts = flags.count true ∧
      (s1.NumInserts ≤ (1 : Nat) → s1.BitSize = ((8 * 1 : Nat) : Int)) ∧
      (s1.NumInserts = (1 : Nat) + 1 → s1.BitSize = 2 * ((8 * 1 : Nat) : Int)) ∧
      ∀ j, s1.NumInserts ≤ ((1 * 2 ^ j : Nat) : Int) →
        (∀ i, i < j → ((1 * 2 ^ i : Nat) : Int) < s1.NumInserts) →
        s1.BitSize = ((8 * 1 * 2 ^ j : Nat) : Int) :=
  ⟨⟨by decide, by decide, by decide, by norm_num, by norm_num⟩,
    BitSize_doubles_at_cutoff (fun key seed => key + seed) 1 1 (fun _ _ => 1) (fun i => i)
      (by decide) (by decide) [25, 26] 1 (by decide) (by norm_num) (by norm_num)⟩

end ExpandableBloomFilter

namespace BloomFilter

theorem Reachable.sizes {hash : Nat → Nat → Nat} {bit_size : Nat} {expected_num_elements : Int}
    {rounded : Nat} {rand_gen : Nat → Nat} {s : BloomFilter}
    (h : Reachable hash bit_size expected_num_elements rounded rand_gen s) :
    s.byte_size_ = (bit_size - 1) / 8 + 1 ∧ s.bit_size_ = ((bit_size - 1) / 8 + 1) * 8 := by
  induction h with
  | constructed => exact ⟨rfl, rfl⟩
  | insert s key _ ih => exact ih
  | clear s _ ih => exact ih

/-- C27. `BloomFilter` rounds its size up to a byte boundary: in every state of a
filter constructed with `bit_size >= 1`, `BitSize()` is the least multiple of 8
that is at least `bit_size` (it is positive, a multiple of 8, and
`bit_size <= BitSize() < bit_size + 8`), and the buffer has `BitSize() / 8` bytes. -/
theorem BitSize_rounds_up_to_byte (hash : Nat → Nat → Nat) (bit_size : Nat)
    (expected_num_elements : Int) (rounded : Nat) (rand_gen : Nat → Nat)
    (hbits : 1 ≤ bit_size) (_hrange : bit_size + 7 < 2 ^ 63) (s : BloomFilter)
    (hs : Reachable hash bit_size expected_num_elements rounded rand_gen s) :
    0 < BitSize s ∧ BitSize s % 8 = 0 ∧ (bit_size : Int) ≤ BitSize s ∧
      BitSize s < (bit_size : Int) + 8 ∧
      (∀ m : Int, m % 8 = 0 → (bit_size : Int) ≤ m → BitSize s ≤ m) ∧
      (s.data_.length : Int) = BitSize s / 8 ∧ (s.byte_size_ : Int) = BitSize s / 8 := by
  obtain ⟨h1, h2⟩ := hs.sizes
  have hlen := hs.bloom_wf.len
  unfold BitSize
  rw [hlen, h1, h2]
  push_cast
  refine ⟨by omega, by omega, by omega, by omega, ?_, by omega, by omega⟩
  intro m hm hle
  omega

theorem BitSize_rounds_up_to_byte_witness :
    (1 ≤ 1001 ∧ 1001 + 7 < 2 ^ 63 ∧
      Reachable (fun key seed => key + seed) 1001 100 7 (fun i => i)
        (new 1001 100 7 (fun i => i))) ∧
    0 < BitSize (new 1001 100 7 (fun i => i)) ∧
      BitSize (new 1001 100 7 (fun i => i)) % 8 = 0 ∧
      ((1001 : Nat) : Int) ≤ BitSize (new 1001 100 7 (fun i => i)) ∧
      BitSize (new 1001 100 7 (fun i => i)) < ((1001 : Nat) : Int) + 8 ∧
      (∀ m : Int, m % 8 = 0 → ((1001 : Nat) : Int) ≤ m →
        BitSize (new 1001 100 7 (fun i => i)) ≤ m) ∧
      ((new 1001 100 7 (fun i => i)).data_.length : Int) =
        BitSize (new 1001 100 7 (fun i => i)) / 8 ∧
      ((new 1001 100 7 (fun i => i)).byte_size_ : Int) =
        BitSize (new 1001 100 7 (fun i => i)) / 8 :=
  ⟨⟨by decide, by norm_num, Reachable.constructed⟩,
    BitSize_rounds_up_to_byte (fun key seed => key + seed) 1001 100 7 (fun i => i) (by decide)
      (by norm_num) _ Reachable.constructed⟩

end BloomFilter

namespace CuckooFilter

theorem TagHash_eq (f : CuckooFilter) (hb : f.bits_per_element_ ≤ 32) (val : Nat)
    (_hv : val < 2 ^ 32) :
    f.TagHash val =
      if val % 2 ^ f.bits_per_element_ = 0 then 1 else val % 2 ^ f.bits_per_element_ := by
  have hp : 2 ^ f.bits_per_element_ ≤ 2 ^ 32 := Nat.pow_le_pow_right (by norm_num) hb
  have hpos : 0 < 2 ^ f.bits_per_element_ := Nat.two_pow_pos _
  have hmask : ((1 <<< f.bits_per_element_) % 2 ^ 64 + 2 ^ 64 - 1) % 2 ^ 64 =
      2 ^ f.bits_per_element_ - 1 := by
    rw [Nat.shiftLeft_eq, Nat.one_mul]
    generalize 2 ^ f.bits_per_element_ = a at hp hpos
    norm_num at hp ⊢
    omega
  unfold TagHash
  rw [hmask, Nat.and_pow_two_sub_one_eq_mod]
  have hlt := Nat.mod_lt val hpos
  generalize val % 2 ^ f.bits_per_element_ = v at hlt
  generalize 2 ^ f.bits_per_element_ = a at hp hpos hlt
  norm_num at hp ⊢
  have e : v % 4294967296 = v := Nat.mod_eq_of_lt (by omega)
  rw [e]
  split_ifs with hz
  · subst hz
    rfl
  · rw [Nat.add_zero]
    exact e

/-- C26. `GetIndexAndTag` never yields an empty tag or an out-of-range bucket: for
every key, every `bits_per_element` in 1..32 and every `num_buckets >= 1`, the
tag satisfies `1 <= tag <= 2^bits_per_element - 1`, the bucket index is below
`num_buckets`, and `TagHash` replaces a masked value of zero by 1. -/
theorem GetIndexAndTag_in_range (hash : Nat → Nat → Nat) (f : CuckooFilter) (key : Nat)
    (hb1 : 1 ≤ f.bits_per_element_) (hb32 : f.bits_per_element_ ≤ 32)
    (hn : 1 ≤ f.table_.NumBuckets) :
    1 ≤ (GetIndexAndTag hash f key).2 ∧
      (GetIndexAndTag hash f key).2 ≤ 2 ^ f.bits_per_element_ - 1 ∧
      (GetIndexAndTag hash f key).1 < f.table_.NumBuckets ∧
      ∀ val, val < 2 ^ 32 →
        f.TagHash val =
          if val % 2 ^ f.bits_per_element_ = 0 then 1 else val % 2 ^ f.bits_per_element_ := by
  have h2 : 2 ≤ 2 ^ f.bits_per_element_ := by
    calc 2 = 2 ^ 1 := rfl
      _ ≤ 2 ^ f.bits_per_element_ := Nat.pow_le_pow_right (by norm_num) hb1
  refine ⟨?_, ?_, ?_, fun val hv => TagHash_eq f hb32 val hv⟩
  · unfold GetIndexAndTag
    dsimp only
    rw [TagHash_eq f hb32 _ (Nat.mod_lt _ (by norm_num))]
    split_ifs with hz
    · exact le_refl _
    · omega
  · unfold GetIndexAndTag
    dsimp only
    rw [TagHash_eq f hb32 _ (Nat.mod_lt _ (by norm_num))]
    split_ifs with hz
    · omega
    · have := Nat.mod_lt ((hash key 0xa5b85c5e198ed849 % 2 ^ 64 &&& 0xFFFFFFFF) % 2 ^ 32)
        (Nat.two_pow_pos f.bits_per_element_)
      omega
  · unfold GetIndexAndTag BucketIndexHash
    exact Nat.mod_lt _ hn

theorem GetIndexAndTag_in_range_witness :
    (1 ≤ sampleFilter.bits_per_element_ ∧ sampleFilter.bits_per_element_ ≤ 32 ∧
      1 ≤ sampleFilter.table_.NumBuckets) ∧
    1 ≤ (GetIndexAndTag sampleHash sampleFilter 7).2 ∧
      (GetIndexAndTag sampleHash sampleFilter 7).2 ≤ 2 ^ sampleFilter.bits_per_element_ - 1 ∧
      (GetIndexAndTag sampleHash sampleFilter 7).1 < sampleFilter.table_.NumBuckets ∧
      ∀ val, val < 2 ^ 32 →
        sampleFilter.TagHash val =
          if val % 2 ^ sampleFilter.bits_per_element_ = 0 then 1
          else val % 2 ^ sampleFilter.bits_per_element_ :=
  ⟨⟨by decide, by decide, by decide⟩,
    GetIndexAndTag_in_range sampleHash sampleFilter 7 (by decide) (by decide) (by decide)⟩

end CuckooFilter

namespace SingleTable

/-- C28, counterexample. The constructor does not reject an unsupported tag width:
`SingleTable(1, 4, 3)` is constructed, with `bits_per_tag_` 3. -/
theorem unsupported_width_is_constructed :
    ∃ t, new 1 4 3 (fun _ => 0) (fun _ => 0) = some t ∧ t.bits_per_tag_ = 3 ∧
      ¬ (3 = 2 ∨ 3 = 4 ∨ 3 = 8 ∨ 3 = 12 ∨ 3 = 16 ∨ 3 = 32) :=
  ⟨_, rfl, rfl, by decide⟩

theorem new_eq_none_iff (num_buckets tags_per_bucket bits_per_tag : Nat)
    (uninit rand_gen : Nat → Nat) (_hshift : bits_per_tag < 64)
    (_hint : bits_per_tag * tags_per_bucket + 7 < 2 ^ 31)
    (_hsize : num_buckets * ((bits_per_tag * tags_per_bucket + 7) / 8) + 8 < 2 ^ 63) :
    new num_buckets tags_per_bucket bits_per_tag uninit rand_gen = none ↔
      num_buckets = 0 ∨ tags_per_bucket = 0 ∨ bits_per_tag = 0 := by
  unfold new
  dsimp only
  rw [Nat.shiftRight_eq_div_pow]
  constructor
  · intro h
    by_contra hc
    push_neg at hc
    obtain ⟨h1, h2, h3⟩ := hc
    have hprod : 1 ≤ bits_per_tag * tags_per_bucket :=
      Nat.one_le_iff_ne_zero.mpr (Nat.mul_ne_zero h3 h2)
    rw [if_pos ⟨Nat.pos_of_ne_zero h1, Nat.pos_of_ne_zero h2, by omega,
      Nat.pos_of_ne_zero h3⟩] at h
    cases h
  · intro h
    rw [if_neg]
    intro hc
    omega

/-- C28, amended. The constructor rejects only arguments that are not positive:
within the range of its arithmetic (`bits_per_tag < 64` for the shift,
`bits_per_tag * tags_per_bucket + 7` an `int` value, the buffer size an `int64`
value), for `num_buckets >= 1`, `tags_per_bucket >= 1` and every
`bits_per_tag >= 1` outside {2, 4, 8, 12, 16, 32} the table is constructed with
that width; on it every `ReadTag` call is fatal
(`LOG(FATAL) << "Unsupported bits_per_tag"`) and `WriteTag` changes nothing. -/
theorem unsupported_width_fatal_in_ReadTag (num_buckets tags_per_bucket bits_per_tag : Nat)
    (uninit rand_gen : Nat → Nat) (hn : 1 ≤ num_buckets) (ht : 1 ≤ tags_per_bucket)
    (hb : 1 ≤ bits_per_tag) (hshift : bits_per_tag < 64)
    (hint : bits_per_tag * tags_per_bucket + 7 < 2 ^ 31)
    (hsize : num_buckets * ((bits_per_tag * tags_per_bucket + 7) / 8) + 8 < 2 ^ 63)
    (hw : ¬ (bits_per_tag = 2 ∨ bits_per_tag = 4 ∨ bits_per_tag = 8 ∨ bits_per_tag = 12 ∨
      bits_per_tag = 16 ∨ bits_per_tag = 32)) :
    (new num_buckets tags_per_bucket bits_per_tag uninit rand_gen = none ↔
      num_buckets = 0 ∨ tags_per_bucket = 0 ∨ bits_per_tag = 0) ∧
    ∃ t, new num_buckets tags_per_bucket bits_per_tag uninit rand_gen = some t ∧
      t.bits_per_tag_ = bits_per_tag ∧ (∀ i j, t.ReadTag i j = none) ∧
      ∀ i j tag, t.WriteTag i j tag = t := by
  refine ⟨new_eq_none_iff _ _ _ _ _ hshift hint hsize, ?_⟩
  cases hnew : new num_buckets tags_per_bucket bits_per_tag uninit rand_gen with
  | none =>
    have := (new_eq_none_iff _ _ _ _ _ hshift hint hsize).mp hnew
    omega
  | some t =>
    have hbits : t.bits_per_tag_ = bits_per_tag := by
      unfold new at hnew
      dsimp only at hnew
      split_ifs at hnew
      simp only [Option.some.injEq] at hnew
      rw [← hnew]
    push_neg at hw
    obtain ⟨w2, w4, w8, w12, w16, w32⟩ := hw
    refine ⟨t, rfl, hbits, ?_, ?_⟩
    · intro i j
      unfold ReadTag
      simp only [hbits, w2, w4, w8, w12, w16, w32, ↓reduceIte]
    · intro i j tag
      unfold WriteTag
      simp only [hbits, w2, w4, w8, w12, w16, w32, ↓reduceIte]

theorem unsupported_width_fatal_in_ReadTag_witness :
    (1 ≤ 1 ∧ 1 ≤ 4 ∧ 1 ≤ 3 ∧ 3 < 64 ∧ 3 * 4 + 7 < 2 ^ 31 ∧
      1 * ((3 * 4 + 7) / 8) + 8 < 2 ^ 63 ∧
      ¬ (3 = 2 ∨ 3 = 4 ∨ 3 = 8 ∨ 3 = 12 ∨ 3 = 16 ∨ 3 = 32)) ∧
    (new 1 4 3 (fun _ => 0) (fun _ => 0) = none ↔ 1 = 0 ∨ 4 = 0 ∨ 3 = 0) ∧
    ∃ t, new 1 4 3 (fun _ => 0) (fun _ => 0) = some t ∧
      t.bits_per_tag_ = 3 ∧ (∀ i j, t.ReadTag i j = none) ∧
      ∀ i j tag, t.WriteTag i j tag = t :=
  ⟨⟨by decide, by decide, by decide, by decide, by norm_num, by norm_num, by decide⟩,
    unsupported_width_fatal_in_ReadTag 1 4 3 (fun _ => 0) (fun _ => 0) (by decide) (by decide)
      (by decide) (by decide) (by norm_num) (by norm_num) (by decide)⟩

end SingleTable

namespace CuckooFilter

theorem new_num_buckets_eq (e bits : Nat) (uninit rand_gen : Nat → Nat) (f : CuckooFilter)
    (he : 1 ≤ e) (he63 : e < 2 ^ 63) (h : new e bits uninit rand_gen = some f) :
    f.table_.num_buckets_ =
      if e * 2 ^ 50 ≥ 1080863910568919 * (4 * 2 ^ ((e + 3) / 4 - 1).size) then
        2 ^ ((e + 3) / 4 - 1).size * 2
      else 2 ^ ((e + 3) / 4 - 1).size := by
  have hx1 : 1 ≤ (e + 3) / 4 := by omega
  have hx2 : (e + 3) / 4 ≤ 2 ^ 63 := by omega
  have hup := upperpower2_eq _ hx1 hx2
  unfold new at h
  dsimp only at h
  rw [hup] at h
  split at h
  · simp at h
  · rename_i table ht
    simp only [Option.some.injEq] at h
    rw [← h]
    dsimp only
    rw [(SingleTable.new_num_buckets _ _ _ _ _ _ ht).1]

theorem size_least (x : Nat) (hx : 1 ≤ x) :
    x ≤ 2 ^ (x - 1).size ∧ ∀ j, x ≤ 2 ^ j → (x - 1).size ≤ j := by
  constructor
  · have := Nat.lt_size_self (x - 1)
    omega
  · intro j hj
    exact Nat.size_le.mpr (by omega)

/-- The sizing in terms of the `double` constant: for
`1 <= expected_num_elements = n <= 2^53` the constructor's `num_buckets` is `p`
or `2 * p`, where `p` is the least power of two that is at least `ceil(n / 4)`;
it is `2 * p` exactly when `(n / 4) / p` is at least the `double` nearest to
0.96, which is `1080863910568919 / 2^50`; afterwards `4 * num_buckets >= n` and
`n / (4 * num_buckets) < 0.96`. -/
theorem sizing_of_num_buckets (n bits : Nat) (uninit rand_gen : Nat → Nat) (f : CuckooFilter)
    (hn1 : 1 ≤ n) (hn53 : n ≤ 2 ^ 53) (hf : new n bits uninit rand_gen = some f) :
    ∃ k, (n + 3) / 4 ≤ 2 ^ k ∧ (∀ j, (n + 3) / 4 ≤ 2 ^ j → k ≤ j) ∧
      (f.table_.NumBuckets = 2 ^ k ∨ f.table_.NumBuckets = 2 * 2 ^ k) ∧
      (f.table_.NumBuckets = 2 * 2 ^ k ↔ n * 2 ^ 50 ≥ 1080863910568919 * (4 * 2 ^ k)) ∧
      n ≤ 4 * f.table_.NumBuckets ∧ 25 * n < 24 * (4 * f.table_.NumBuckets) := by
  have hx1 : 1 ≤ (n + 3) / 4 := by omega
  obtain ⟨l1, l2⟩ := size_least ((n + 3) / 4) hx1
  have hnb := new_num_buckets_eq n bits uninit rand_gen f hn1
    (lt_of_le_of_lt hn53 (by norm_num)) hf
  unfold SingleTable.NumBuckets
  refine ⟨((n + 3) / 4 - 1).size, l1, l2, ?_⟩
  have hpos : 0 < 2 ^ ((n + 3) / 4 - 1).size := Nat.two_pow_pos _
  generalize 2 ^ ((n + 3) / 4 - 1).size = p at *
  rw [hnb]
  split_ifs with hc
  · refine ⟨Or.inr (by omega), ⟨fun _ => hc, fun _ => by omega⟩, by omega, by omega⟩
  · refine ⟨Or.inl rfl, ⟨fun h => by omega, fun h => absurd h hc⟩, by omega, by omega⟩

/-- C25. Sizing of the table: for `1 <= expected_num_elements = n <= 2^53` and
a table of at most `2^48` buckets, the constructor's `num_buckets` is `p` or
`2 * p`, where `p` is the least power of two that is at least `ceil(n / 4)`;
it is `2 * p` exactly when `(n / 4) / p >= 0.96`; afterwards
`4 * num_buckets >= n` and `n / (4 * num_buckets) < 0.96`. For such tables the
comparison `frac >= 0.96` with the `double` nearest to 0.96 decides as the
comparison with 0.96 itself does. -/
theorem sizing_by_load_factor (n bits : Nat) (uninit rand_gen : Nat → Nat) (f : CuckooFilter)
    (hn1 : 1 ≤ n) (hn53 : n ≤ 2 ^ 53) (hf : new n bits uninit rand_gen = some f)
    (hsize : f.table_.NumBuckets ≤ 2 ^ 48) :
    ∃ k, (n + 3) / 4 ≤ 2 ^ k ∧ (∀ j, (n + 3) / 4 ≤ 2 ^ j → k ≤ j) ∧
      (f.table_.NumBuckets = 2 ^ k ∨ f.table_.NumBuckets = 2 * 2 ^ k) ∧
      (f.table_.NumBuckets = 2 * 2 ^ k ↔ 25 * n ≥ 24 * (4 * 2 ^ k)) ∧
      n ≤ 4 * f.table_.NumBuckets ∧ 25 * n < 24 * (4 * f.table_.NumBuckets) := by
  obtain ⟨k, h1, h2, h3, h4, h5, h6⟩ :=
    sizing_of_num_buckets n bits uninit rand_gen f hn1 hn53 hf
  refine ⟨k, h1, h2, h3, ?_, h5, h6⟩
  have hpos : 0 < 2 ^ k := Nat.two_pow_pos k
  generalize 2 ^ k = p at *
  generalize f.table_.NumBuckets = nb at *
  norm_num at h4 hsize ⊢
  constructor
  · intro e
    have ha := h4.mp e
    omega
  · intro hb
    apply h4.mpr
    omega

set_option maxRecDepth 100000 in
/-- The constructor `CuckooFilter(16, 8)` makes 8 buckets. -/
theorem new_16_buckets :
    (new 16 8 (fun _ => 0) (fun _ => 0)).map (fun f => f.table_.NumBuckets) = some 8 := by
  rfl

theorem sizing_by_load_factor_witness :
    (1 ≤ 10 ∧ 10 ≤ 2 ^ 53 ∧ new 10 8 (fun _ => 0) (fun _ => 0) = some sampleFilter ∧
      sampleFilter.table_.NumBuckets ≤ 2 ^ 48) ∧
    (sampleFilter.table_.NumBuckets = 4 ∧
      (new 16 8 (fun _ => 0) (fun _ => 0)).map (fun f => f.table_.NumBuckets) = some 8) ∧
    ∃ k, (10 + 3) / 4 ≤ 2 ^ k ∧ (∀ j, (10 + 3) / 4 ≤ 2 ^ j → k ≤ j) ∧
      (sampleFilter.table_.NumBuckets = 2 ^ k ∨ sampleFilter.table_.NumBuckets = 2 * 2 ^ k) ∧
      (sampleFilter.table_.NumBuckets = 2 * 2 ^ k ↔ 25 * 10 ≥ 24 * (4 * 2 ^ k)) ∧
      10 ≤ 4 * sampleFilter.table_.NumBuckets ∧
      25 * 10 < 24 * (4 * sampleFilter.table_.NumBuckets) :=
  ⟨⟨by decide, by norm_num, sample_new, by decide⟩, ⟨rfl, new_16_buckets⟩,
    sizing_by_load_factor 10 8 (fun _ => 0) (fun _ => 0) sampleFilter (by decide)
      (by norm_num) sample_new (by decide)⟩

end CuckooFilter

namespace CountMinSketch

/-! ## CountMinSketch: construction, `Clear` and `SumCounts` -/

theorem Clear.loop_rows (nc : Nat) :
    ∀ (n row : Nat) (M : List (List Nat)),
      (Clear.loop nc n row M).length = M.length ∧
      ∀ r, (Clear.loop nc n row M).getD r [] =
        if row ≤ r ∧ r < row + n ∧ r < M.length
        then List.replicate nc 0 ++ (M.getD r []).drop nc else M.getD r [] := by
  intro n
  induction n with
  | zero =>
    intro row M
    refine ⟨rfl, fun r => ?_⟩
    rw [Clear.loop, if_neg (by omega)]
  | succ n ih =>
    intro row M
    rw [Clear.loop]
    obtain ⟨h1, h2⟩ := ih (row + 1)
      (M.set row (List.replicate nc 0 ++ (M.getD row []).drop nc))
    rw [List.length_set] at h1
    refine ⟨h1, fun r => ?_⟩
    rw [h2 r, List.length_set, getD_set_any]
    by_cases hr : row = r
    · subst hr
      have c1 : ¬ (row + 1 ≤ row ∧ row < row + 1 + n ∧ row < M.length) := by omega
      rw [if_neg c1]
      by_cases hl : row < M.length
      · have c2 : row ≤ row ∧ row < row + (n + 1) ∧ row < M.length := ⟨le_refl _, by omega, hl⟩
        rw [if_pos ⟨rfl, hl⟩, if_pos c2]
      · have c2 : ¬ (row ≤ row ∧ row < row + (n + 1) ∧ row < M.length) := by omega
        have c3 : ¬ (row = row ∧ row < M.length) := by omega
        rw [if_neg c3, if_neg c2]
    · have c3 : ¬ (row = r ∧ row < M.length) := fun h => hr h.1
      rw [if_neg c3]
      by_cases hc : row + 1 ≤ r ∧ r < row + 1 + n ∧ r < M.length
      · have c2 : row ≤ r ∧ r < row + (n + 1) ∧ r < M.length := ⟨by omega, by omega, hc.2.2⟩
        rw [if_pos hc, if_pos c2]
      · have c2 : ¬ (row ≤ r ∧ r < row + (n + 1) ∧ r < M.length) := by omega
        rw [if_neg hc, if_neg c2]

theorem Clear_row {T : Nat} (s : CountMinSketch T) (h : WF s) (r : Nat)
    (hr : r < s.matrix_.length) :
    (Clear s).matrix_.getD r [] = List.replicate s.num_cols_.toNat 0 := by
  obtain ⟨_, h2⟩ := Clear.loop_rows s.num_cols_.toNat s.num_rows_.toNat 0 s.matrix_
  show (Clear.loop s.num_cols_.toNat s.num_rows_.toNat 0 s.matrix_).getD r [] = _
  have hlen := getD_mem_length s.matrix_ s.num_cols_.toNat r h.cols hr
  rw [h2 r, if_pos ⟨Nat.zero_le _, by rw [← h.rows]; omega, hr⟩,
    List.drop_eq_nil_of_le (by omega), List.append_nil]

theorem Clear_length {T : Nat} (s : CountMinSketch T) :
    (Clear s).matrix_.length = s.matrix_.length :=
  (Clear.loop_rows s.num_cols_.toNat s.num_rows_.toNat 0 s.matrix_).1

theorem Clear_rows_zero {T : Nat} (s : CountMinSketch T) (h : WF s) :
    ∀ row ∈ (Clear s).matrix_, row = List.replicate s.num_cols_.toNat 0 := by
  intro row hrow
  obtain ⟨r, hr, hre⟩ := List.getElem_of_mem hrow
  have e := Clear_row s h r (by rw [← Clear_length s]; exact hr)
  rw [List.getD_eq_getElem _ _ hr, hre] at e
  exact e

theorem Clear_WF_cms {T : Nat} (s : CountMinSketch T) (h : WF s) : WF (Clear s) :=
  { width := h.width, rows_pos := h.rows_pos, cols_pos := h.cols_pos
    rows := by rw [Clear_length]; exact h.rows
    cols := by
      intro row hrow
      rw [Clear_rows_zero s h row hrow, List.length_replicate]
      rfl
    cells := by
      intro row hrow x hx
      rw [Clear_rows_zero s h row hrow] at hx
      rw [List.eq_of_mem_replicate hx]
      exact Nat.two_pow_pos T }

/-- A sketch whose cells are all zero. -/
theorem cell_eq_zero_of_rows {T : Nat} (s : CountMinSketch T) (nc : Nat)
    (h : ∀ row ∈ s.matrix_, row = List.replicate nc 0) (r c : Nat) : s.cell r c = 0 := by
  unfold cell
  by_cases hr : r < s.matrix_.length
  · have hm : s.matrix_.getD r [] ∈ s.matrix_ := by
      rw [List.getD_eq_getElem _ _ hr]
      exact List.getElem_mem hr
    rw [h _ hm]
    by_cases hc : c < (List.replicate nc 0).length
    · rw [List.getD_eq_getElem _ _ hc, List.getElem_replicate]
    · rw [List.getD_eq_default _ _ (not_lt.mp hc)]
  · rw [List.getD_eq_default _ _ (not_lt.mp hr)]
    rfl

theorem Clear_cell {T : Nat} (s : CountMinSketch T) (h : WF s) (r c : Nat) :
    (Clear s).cell r c = 0 :=
  cell_eq_zero_of_rows (Clear s) _ (Clear_rows_zero s h) r c

theorem new_cell (T : Nat) (mem_budget_bytes rows : Int) (s : CountMinSketch T)
    (h : new T mem_budget_bytes rows = some s) (r c : Nat) : s.cell r c = 0 := by
  unfold new at h
  dsimp only at h
  split_ifs at h with h1 h2
  simp only [Option.some.injEq] at h
  subst h
  exact cell_eq_zero_of_rows _ (mem_budget_bytes.toNat / (T / 8) / rows.toNat)
    (fun row hrow => List.eq_of_mem_replicate hrow) r c

theorem new_sum_counts (T : Nat) (mem_budget_bytes rows : Int) (s : CountMinSketch T)
    (h : new T mem_budget_bytes rows = some s) : s.sum_counts_ = 0 := by
  unfold new at h
  dsimp only at h
  split_ifs at h with h1 h2
  simp only [Option.some.injEq] at h
  subst h
  rfl

theorem Reachable.to_WF_cms {T : Nat} (hT : T = 8 ∨ T = 16 ∨ T = 32) (hash : Nat → Nat → Nat)
    (mem_budget_bytes rows : Int) (s : CountMinSketch T)
    (hs : Reachable hash T mem_budget_bytes rows s) : WF s := by
  induction hs with
  | constructed s h => exact cms_new_WF T hT mem_budget_bytes rows s h
  | addCount s key inc _ ih => exact AddCount_WF hash s ih key inc
  | clear s _ ih => exact Clear_WF_cms s ih

theorem Fresh.spec {T : Nat} (hT : T = 8 ∨ T = 16 ∨ T = 32) (hash : Nat → Nat → Nat)
    (mem_budget_bytes rows : Int) (s : CountMinSketch T)
    (hs : Fresh hash T mem_budget_bytes rows s) :
    WF s ∧ s.sum_counts_ = 0 ∧ ∀ r c, s.cell r c = 0 := by
  cases hs with
  | constructed _ h =>
    exact ⟨cms_new_WF T hT mem_budget_bytes rows s h, new_sum_counts T _ _ s h,
      new_cell T _ _ s h⟩
  | cleared s1 h =>
    have hw := Reachable.to_WF_cms hT hash mem_budget_bytes rows s1 h
    exact ⟨Clear_WF_cms s1 hw, rfl, Clear_cell s1 hw⟩

/-- The sketch `CountMinSketch<uint8>(2, delta)` of one row and two columns. -/
theorem new_8_2_1 :
    new 8 2 1 = some ({ num_rows_ := 1, num_cols_ := 2, matrix_ := [[0, 0]], sum_counts_ := 0 } :
      CountMinSketch 8) := rfl

/-- C21. On a sketch right after construction or `Clear()`, for every key
and every `delta` with `0 ≤ delta ≤ 2^63 - 1`, `AddCount(key, delta)` returns
`min(delta, max(T))`, and for every `delta < 0` it returns 0. -/
theorem AddCount_on_fresh_sketch {T : Nat} (hT : T = 8 ∨ T = 16 ∨ T = 32)
    (hash : Nat → Nat → Nat) (mem_budget_bytes rows : Int) (s : CountMinSketch T)
    (hs : Fresh hash T mem_budget_bytes rows s) (key : Nat) (delta : Int) :
    (0 ≤ delta → delta ≤ 2 ^ 63 - 1 →
      ((AddCount hash s key delta).1 : Int) = min delta (2 ^ T - 1)) ∧
    (-2 ^ 63 ≤ delta → delta < 0 → (AddCount hash s key delta).1 = 0) := by
  obtain ⟨hw, _, hz⟩ := Fresh.spec hT hash mem_budget_bytes rows s hs
  obtain ⟨_, r, hr, he⟩ := GetCount_is_min hash _ (AddCount_WF hash s hw key delta) key
  have hrows : (AddCount hash s key delta).2.num_rows_ = s.num_rows_ := rfl
  have hcol : (AddCount hash s key delta).2.column hash key r = s.column hash key r := rfl
  rw [hrows] at hr
  rw [← AddCount_fst hash s hw, hcol, AddCount_cell hash s hw, if_pos ⟨hr, rfl⟩, hz] at he
  have hp : (1 : Int) ≤ 2 ^ T := by exact_mod_cast Nat.one_le_two_pow
  constructor
  · intro h0 h1
    have h := stored_in_range T 0 delta (by push_cast; omega) (by push_cast; omega)
    rw [he, h]
    push_cast
    rw [zero_add]
    rcases le_total delta (2 ^ T - 1) with hle | hle
    · rw [min_eq_left hle, max_eq_right h0]
    · rw [min_eq_right hle, max_eq_right (by omega)]
  · intro h0 h1
    have h := stored_in_range T 0 delta (by push_cast; omega) (by push_cast; omega)
    push_cast at h
    rw [zero_add] at h
    have hm : min delta (2 ^ T - 1) ≤ 0 := le_trans (min_le_left _ _) (le_of_lt h1)
    rw [max_eq_left hm] at h
    rw [he]
    exact_mod_cast h

theorem AddCount_on_fresh_sketch_witness :
    Fresh CuckooFilter.sampleHash 8 2 1
      ({ num_rows_ := 1, num_cols_ := 2, matrix_ := [[0, 0]], sum_counts_ := 0 } :
        CountMinSketch 8) ∧
    ((AddCount CuckooFilter.sampleHash
      ({ num_rows_ := 1, num_cols_ := 2, matrix_ := [[0, 0]], sum_counts_ := 0 } :
        CountMinSketch 8) 5 300).1 : Int) = min 300 (2 ^ 8 - 1) ∧
    (AddCount CuckooFilter.sampleHash
      ({ num_rows_ := 1, num_cols_ := 2, matrix_ := [[0, 0]], sum_counts_ := 0 } :
        CountMinSketch 8) 5 (-7)).1 = 0 :=
  ⟨Fresh.constructed _ new_8_2_1,
    (AddCount_on_fresh_sketch (Or.inl rfl) CuckooFilter.sampleHash 2 1 _
      (Fresh.constructed _ new_8_2_1) 5 300).1 (by norm_num) (by norm_num),
    (AddCount_on_fresh_sketch (Or.inl rfl) CuckooFilter.sampleHash 2 1 _
      (Fresh.constructed _ new_8_2_1) 5 (-7)).2 (by norm_num) (by norm_num)⟩

theorem wrap_int64_add_wrap (a b : Int) : wrap_int64 (wrap_int64 a + b) = wrap_int64 (a + b) := by
  unfold wrap_int64
  omega

theorem Call.run_sum_counts {T : Nat} (hash : Nat → Nat → Nat) (s : CountMinSketch T) (c : Call) :
    (c.run hash s).sum_counts_ = wrap_int64 (s.sum_counts_ + c.delta) := by
  cases c <;> rfl

theorem runAll_sum_counts {T : Nat} (hash : Nat → Nat → Nat) (calls : List Call) :
    ∀ (s : CountMinSketch T) (a : Int), s.sum_counts_ = wrap_int64 a →
      (runAll hash s calls).sum_counts_ = wrap_int64 (a + (calls.map Call.delta).sum) := by
  induction calls with
  | nil =>
    intro s a h
    simp [runAll, h]
  | cons c rest ih =>
    intro s a h
    rw [runAll, ih (c.run hash s) (a + c.delta)]
    · simp only [List.map_cons, List.sum_cons, add_assoc]
    · rw [Call.run_sum_counts, h, wrap_int64_add_wrap]

theorem wrap_int64_eq_self_iff (n : Int) : wrap_int64 n = n ↔ -2 ^ 63 ≤ n ∧ n < 2 ^ 63 := by
  unfold wrap_int64
  omega

/-- C22, counterexample. The total of the deltas can leave the range of `int64`: on the
fresh sketch `CountMinSketch<uint8>(2, delta)` of one row, after
`AddCount(5, INT64_MAX)` and `Increment(5)` the deltas sum to `2^63`, which is
no `int64` value, so `SumCounts()`, an `int64`, differs from it. -/
theorem SumCounts_differs_from_total :
    Fresh CuckooFilter.sampleHash 8 2 1
      ({ num_rows_ := 1, num_cols_ := 2, matrix_ := [[0, 0]], sum_counts_ := 0 } :
        CountMinSketch 8) ∧
    ([Call.addCount 5 (2 ^ 63 - 1), Call.increment 5].map Call.delta).sum = 2 ^ 63 ∧
    SumCounts (runAll CuckooFilter.sampleHash
      ({ num_rows_ := 1, num_cols_ := 2, matrix_ := [[0, 0]], sum_counts_ := 0 } :
        CountMinSketch 8) [Call.addCount 5 (2 ^ 63 - 1), Call.increment 5]) ≤ 2 ^ 63 - 1 ∧
    SumCounts (runAll CuckooFilter.sampleHash
      ({ num_rows_ := 1, num_cols_ := 2, matrix_ := [[0, 0]], sum_counts_ := 0 } :
        CountMinSketch 8) [Call.addCount 5 (2 ^ 63 - 1), Call.increment 5]) ≠
      ([Call.addCount 5 (2 ^ 63 - 1), Call.increment 5].map Call.delta).sum := by
  have e : SumCounts (runAll CuckooFilter.sampleHash
      ({ num_rows_ := 1, num_cols_ := 2, matrix_ := [[0, 0]], sum_counts_ := 0 } :
        CountMinSketch 8) [Call.addCount 5 (2 ^ 63 - 1), Call.increment 5]) = -2 ^ 63 := by
    unfold SumCounts
    rw [runAll_sum_counts CuckooFilter.sampleHash _ _ 0 (by norm_num [wrap_int64])]
    norm_num [wrap_int64, Call.delta]
  have t : ([Call.addCount 5 (2 ^ 63 - 1), Call.increment 5].map Call.delta).sum = 2 ^ 63 := by
    norm_num [Call.delta]
  refine ⟨Fresh.constructed _ new_8_2_1, t, ?_, ?_⟩
  · rw [e]
    norm_num
  · rw [e, t]
    norm_num

set_option maxRecDepth 100000 in
/-- After +3, -2 and -10 for one key on a fresh sketch every cell is 0. -/
theorem runAll_sample_cells :
    (runAll CuckooFilter.sampleHash
      ({ num_rows_ := 1, num_cols_ := 2, matrix_ := [[0, 0]], sum_counts_ := 0 } :
        CountMinSketch 8) [Call.addCount 5 3, Call.addCount 5 (-2), Call.addCount 5 (-10)]).matrix_ =
      [[0, 0]] := rfl

/-- C22, amended. `SumCounts()` is the unclamped signed total while the running
total is an `int64` value: after any sequence of `AddCount`, `Increment` and
`Decrement` calls since construction or the last `Clear()` in which the sum of
the deltas passed so far is in `[-2^63, 2^63 - 1]` after every call,
`SumCounts()` is the sum of all deltas passed, whatever happened to the cells,
and so it was after every call of the sequence. -/
theorem SumCounts_is_total_within_int64 {T : Nat} (hash : Nat → Nat → Nat)
    (mem_budget_bytes rows : Int) (s : CountMinSketch T)
    (hs : Fresh hash T mem_budget_bytes rows s) (calls : List Call)
    (hrange : ∀ n, -2 ^ 63 ≤ ((calls.take n).map Call.delta).sum ∧
      ((calls.take n).map Call.delta).sum < 2 ^ 63) :
    SumCounts (runAll hash s calls) = (calls.map Call.delta).sum ∧
    ∀ n, SumCounts (runAll hash s (calls.take n)) = ((calls.take n).map Call.delta).sum := by
  have h0 : s.sum_counts_ = wrap_int64 0 := by
    have : s.sum_counts_ = 0 := by
      cases hs with
      | constructed _ h => exact new_sum_counts T _ _ s h
      | cleared s1 _ => rfl
    rw [this]
    rfl
  have hall : ∀ n, SumCounts (runAll hash s (calls.take n)) =
      ((calls.take n).map Call.delta).sum := by
    intro n
    unfold SumCounts
    rw [runAll_sum_counts hash (calls.take n) s 0 h0, zero_add]
    exact (wrap_int64_eq_self_iff _).mpr (hrange n)
  refine ⟨?_, hall⟩
  have := hall calls.length
  rw [List.take_length] at this
  exact this

theorem sample_running_totals (n : Nat) :
    -2 ^ 63 ≤ (([Call.addCount 5 3, Call.addCount 5 (-2), Call.addCount 5 (-10)].take n).map
      Call.delta).sum ∧
    (([Call.addCount 5 3, Call.addCount 5 (-2), Call.addCount 5 (-10)].take n).map
      Call.delta).sum < 2 ^ 63 := by
  rcases n with _ | _ | _ | n <;> simp [Call.delta]

theorem SumCounts_is_total_within_int64_witness :
    (Fresh CuckooFilter.sampleHash 8 2 1
      ({ num_rows_ := 1, num_cols_ := 2, matrix_ := [[0, 0]], sum_counts_ := 0 } :
        CountMinSketch 8) ∧
      ∀ n, -2 ^ 63 ≤ (([Call.addCount 5 3, Call.addCount 5 (-2), Call.addCount 5 (-10)].take
          n).map Call.delta).sum ∧
        (([Call.addCount 5 3, Call.addCount 5 (-2), Call.addCount 5 (-10)].take n).map
          Call.delta).sum < 2 ^ 63) ∧
    ((runAll CuckooFilter.sampleHash
      ({ num_rows_ := 1, num_cols_ := 2, matrix_ := [[0, 0]], sum_counts_ := 0 } :
        CountMinSketch 8) [Call.addCount 5 3, Call.addCount 5 (-2), Call.addCount 5 (-10)]).matrix_ =
      [[0, 0]] ∧
    ([Call.addCount 5 3, Call.addCount 5 (-2), Call.addCount 5 (-10)].map Call.delta).sum = -9) ∧
    SumCounts (runAll CuckooFilter.sampleHash
      ({ num_rows_ := 1, num_cols_ := 2, matrix_ := [[0, 0]], sum_counts_ := 0 } :
        CountMinSketch 8) [Call.addCount 5 3, Call.addCount 5 (-2), Call.addCount 5 (-10)]) =
      ([Call.addCount 5 3, Call.addCount 5 (-2), Call.addCount 5 (-10)].map Call.delta).sum :=
  ⟨⟨Fresh.constructed _ new_8_2_1, sample_running_totals⟩, ⟨runAll_sample_cells, rfl⟩,
    (SumCounts_is_total_within_int64 CuckooFilter.sampleHash 2 1 _
      (Fresh.constructed _ new_8_2_1) _ sample_running_totals).1⟩

/-- C23. An empty sketch estimates zero everywhere: right after construction,
and right after `Clear()` from any state, `GetCount(key)` is 0 for every key
and `SumCounts()` is 0. -/
theorem empty_sketch_estimates_zero {T : Nat} (hT : T = 8 ∨ T = 16 ∨ T = 32)
    (hash : Nat → Nat → Nat) (mem_budget_bytes rows : Int) (s : CountMinSketch T)
    (hs : Fresh hash T mem_budget_bytes rows s) (key : Nat) :
    GetCount hash s key = 0 ∧ SumCounts s = 0 := by
  obtain ⟨hw, h0, hz⟩ := Fresh.spec hT hash mem_budget_bytes rows s hs
  obtain ⟨_, r, _, he⟩ := GetCount_is_min hash s hw key
  exact ⟨by rw [he, hz], h0⟩

theorem empty_sketch_estimates_zero_witness :
    Reachable CuckooFilter.sampleHash 8 2 1
      (AddCount CuckooFilter.sampleHash
        ({ num_rows_ := 1, num_cols_ := 2, matrix_ := [[0, 0]], sum_counts_ := 0 } :
          CountMinSketch 8) 5 3).2 ∧
    GetCount CuckooFilter.sampleHash
      (Clear (AddCount CuckooFilter.sampleHash
        ({ num_rows_ := 1, num_cols_ := 2, matrix_ := [[0, 0]], sum_counts_ := 0 } :
          CountMinSketch 8) 5 3).2) 5 = 0 ∧
    SumCounts
      (Clear (AddCount CuckooFilter.sampleHash
        ({ num_rows_ := 1, num_cols_ := 2, matrix_ := [[0, 0]], sum_counts_ := 0 } :
          CountMinSketch 8) 5 3).2) = 0 :=
  ⟨Reachable.addCount _ 5 3 (Reachable.constructed _ new_8_2_1),
    empty_sketch_estimates_zero (Or.inl rfl) CuckooFilter.sampleHash 2 1 _
      (Fresh.cleared _ (Reachable.addCount _ 5 3 (Reachable.constructed _ new_8_2_1))) 5⟩

theorem toNat_emod_of_pos (a : Int) (h0 : 0 < a) (h1 : a < 2 ^ 63) :
    (a % 2 ^ 64).toNat = a.toNat := by
  rw [Int.emod_eq_of_lt (le_of_lt h0) (by omega)]

theorem cols_cast (sz : Nat) (mem_budget_bytes rows : Int) (hm : 0 < mem_budget_bytes)
    (hr : 0 < rows) :
    ((mem_budget_bytes.toNat / sz / rows.toNat : Nat) : Int) =
      mem_budget_bytes / ((sz : Int) * rows) := by
  rw [Nat.div_div_eq_div_mul]
  push_cast
  rw [Int.toNat_of_nonneg (le_of_lt hm), Int.toNat_of_nonneg (le_of_lt hr)]

theorem cols_lt (sz : Nat) (mem_budget_bytes rows : Int) (hm : 0 < mem_budget_bytes)
    (hm1 : mem_budget_bytes < 2 ^ 63) :
    ((mem_budget_bytes.toNat / sz / rows.toNat : Nat) : Int) < 2 ^ 63 := by
  have h1 : mem_budget_bytes.toNat / sz / rows.toNat ≤ mem_budget_bytes.toNat :=
    le_trans (Nat.div_le_self _ _) (Nat.div_le_self _ _)
  have h2 : (mem_budget_bytes.toNat : Int) = mem_budget_bytes :=
    Int.toNat_of_nonneg (le_of_lt hm)
  omega

theorem construct_false (T : Nat) (mem_budget_bytes rows : Int) :
    construct T mem_budget_bytes false rows = none := by
  unfold construct
  dsimp only
  by_cases hr0 : rows = 0
  · rw [if_pos hr0]
  · rw [if_neg hr0]
    by_cases h1 : mem_budget_bytes > 0
    · rw [if_neg (not_not.mpr h1), if_pos (by simp)]
    · rw [if_pos h1]

/-- For `int64` arguments the constructor with `delta > 0` is `new`. -/
theorem construct_eq_new (T : Nat) (mem_budget_bytes rows : Int)
    (hm : mem_budget_bytes < 2 ^ 63) (hr : rows < 2 ^ 63) :
    construct T mem_budget_bytes true rows = new T mem_budget_bytes rows := by
  unfold construct new
  dsimp only
  by_cases hr0 : rows = 0
  · rw [if_pos hr0, if_pos (Or.inr (le_of_eq hr0))]
  · rw [if_neg hr0]
    by_cases h1 : mem_budget_bytes > 0
    · rw [if_neg (not_not.mpr h1), if_neg (not_not.mpr rfl)]
      by_cases h2 : rows > 0
      · have c := cols_lt (T / 8) mem_budget_bytes rows h1 hm
        have c0 : (0 : Int) ≤ ((mem_budget_bytes.toNat / (T / 8) / rows.toNat : Nat) : Int) :=
          Int.ofNat_nonneg _
        have hn : ¬ (mem_budget_bytes ≤ 0 ∨ rows ≤ 0) := by
          rintro (h | h)
          · exact absurd h1 (not_lt.mpr h)
          · exact absurd h2 (not_lt.mpr h)
        rw [if_neg (not_not.mpr h2), if_neg hn, toNat_emod_of_pos _ h1 hm,
          toNat_emod_of_pos _ h2 hr,
          CuckooFilter.wrap_int64_small _ (le_trans (by norm_num) c0) c]
        by_cases h3 : mem_budget_bytes.toNat / (T / 8) / rows.toNat = 0
        · rw [if_pos h3, h3, if_pos (by simp)]
        · have h4 : ((mem_budget_bytes.toNat / (T / 8) / rows.toNat : Nat) : Int) > 0 := by
            exact_mod_cast Nat.pos_of_ne_zero h3
          rw [if_neg h3, if_neg (not_not.mpr h4), Int.toNat_ofNat]
      · rw [if_pos h2, if_pos (Or.inr (not_lt.mp h2))]
    · rw [if_pos h1, if_pos (Or.inl (not_lt.mp h1))]

theorem new_isSome_iff (T : Nat) (mem_budget_bytes rows : Int) :
    (∃ s, new T mem_budget_bytes rows = some s) ↔
      0 < mem_budget_bytes ∧ 0 < rows ∧ 0 < mem_budget_bytes / (((T / 8 : Nat) : Int) * rows) := by
  unfold new
  by_cases h1 : mem_budget_bytes ≤ 0 ∨ rows ≤ 0
  · rw [if_pos h1]
    constructor
    · rintro ⟨s, hs⟩
      exact absurd hs (by simp)
    · rintro ⟨a, b, _⟩
      omega
  · rw [if_neg h1]
    push_neg at h1
    dsimp only
    rw [← cols_cast (T / 8) mem_budget_bytes rows h1.1 h1.2]
    by_cases h3 : mem_budget_bytes.toNat / (T / 8) / rows.toNat = 0
    · rw [if_pos h3, h3]
      simp
    · rw [if_neg h3]
      constructor
      · intro _
        exact ⟨h1.1, h1.2, by exact_mod_cast Nat.pos_of_ne_zero h3⟩
      · intro _
        exact ⟨_, rfl⟩

theorem new_fields (T : Nat) (mem_budget_bytes rows : Int) (s : CountMinSketch T)
    (h : new T mem_budget_bytes rows = some s) :
    s.num_rows_ = rows ∧ s.num_cols_ = mem_budget_bytes / (((T / 8 : Nat) : Int) * rows) ∧
    s.matrix_ = List.replicate s.num_rows_.toNat (List.replicate s.num_cols_.toNat 0) ∧
    s.sum_counts_ = 0 := by
  unfold new at h
  dsimp only at h
  split_ifs at h with h1 h2
  simp only [Option.some.injEq] at h
  subst h
  push_neg at h1
  refine ⟨rfl, cols_cast (T / 8) mem_budget_bytes rows h1.1 h1.2, ?_, rfl⟩
  show List.replicate rows.toNat
      (List.replicate (mem_budget_bytes.toNat / (T / 8) / rows.toNat) 0) =
    List.replicate rows.toNat (List.replicate
      (Int.toNat ((mem_budget_bytes.toNat / (T / 8) / rows.toNat : Nat) : Int)) 0)
  rw [Int.toNat_ofNat]

/-- C24. Construction is rejected exactly on invalid dimensions: with
`rows = ceil(ln(1/delta))` and `num_cols = floor(mem_budget_bytes / (sizeof(T) * rows))`,
the constructor yields a sketch if and only if `mem_budget_bytes > 0`,
`delta > 0`, `rows > 0` and `num_cols > 0`, the sketch then has these
dimensions and only zero cells, and otherwise the constructor is fatal; in
particular for every budget smaller than `sizeof(T) * rows`, and when `rows`
is 0 or negative. -/
theorem construct_succeeds_iff (T : Nat) (mem_budget_bytes : Int) (delta_gt_0 : Bool)
    (rows : Int) (hm : mem_budget_bytes < 2 ^ 63) (hr : rows < 2 ^ 63) :
    ((∃ s, construct T mem_budget_bytes delta_gt_0 rows = some s) ↔
      0 < mem_budget_bytes ∧ delta_gt_0 = true ∧ 0 < rows ∧
        0 < mem_budget_bytes / (((T / 8 : Nat) : Int) * rows)) ∧
    (construct T mem_budget_bytes delta_gt_0 rows = none ↔
      ¬ (0 < mem_budget_bytes ∧ delta_gt_0 = true ∧ 0 < rows ∧
        0 < mem_budget_bytes / (((T / 8 : Nat) : Int) * rows))) ∧
    (∀ s, construct T mem_budget_bytes delta_gt_0 rows = some s →
      s.num_rows_ = rows ∧ s.num_cols_ = mem_budget_bytes / (((T / 8 : Nat) : Int) * rows) ∧
      s.matrix_ = List.replicate s.num_rows_.toNat (List.replicate s.num_cols_.toNat 0) ∧
      s.sum_counts_ = 0) ∧
    (mem_budget_bytes < ((T / 8 : Nat) : Int) * rows →
      construct T mem_budget_bytes delta_gt_0 rows = none) ∧
    (rows ≤ 0 → construct T mem_budget_bytes delta_gt_0 rows = none) := by
  have hiff : (∃ s, construct T mem_budget_bytes delta_gt_0 rows = some s) ↔
      0 < mem_budget_bytes ∧ delta_gt_0 = true ∧ 0 < rows ∧
        0 < mem_budget_bytes / (((T / 8 : Nat) : Int) * rows) := by
    cases delta_gt_0 with
    | true =>
      rw [construct_eq_new T _ _ hm hr, new_isSome_iff]
      simp
    | false =>
      rw [construct_false]
      simp
  have hnone : construct T mem_budget_bytes delta_gt_0 rows = none ↔
      ¬ (0 < mem_budget_bytes ∧ delta_gt_0 = true ∧ 0 < rows ∧
        0 < mem_budget_bytes / (((T / 8 : Nat) : Int) * rows)) := by
    rw [← hiff]
    cases construct T mem_budget_bytes delta_gt_0 rows <;> simp
  refine ⟨hiff, hnone, ?_, ?_, ?_⟩
  · intro s hs
    have hd : delta_gt_0 = true := (hiff.mp ⟨s, hs⟩).2.1
    subst hd
    rw [construct_eq_new T _ _ hm hr] at hs
    exact new_fields T _ _ s hs
  · intro hlt
    rw [hnone]
    rintro ⟨h1, _, h3, h4⟩
    have hs : (0 : Int) ≤ ((T / 8 : Nat) : Int) := Int.ofNat_nonneg _
    have hpos : (0 : Int) ≤ ((T / 8 : Nat) : Int) * rows := mul_nonneg hs (le_of_lt h3)
    rw [Int.ediv_eq_zero_of_lt (le_of_lt h1) hlt] at h4
    omega
  · intro hle
    rw [hnone]
    rintro ⟨_, _, h3, _⟩
    omega

theorem construct_succeeds_iff_witness :
    ((2 : Int) < 2 ^ 63 ∧ (1 : Int) < 2 ^ 63) ∧
    (((∃ s, construct 8 2 true 1 = some s) ↔
      (0 : Int) < 2 ∧ true = true ∧ (0 : Int) < 1 ∧ 0 < (2 : Int) / (((8 / 8 : Nat) : Int) * 1)) ∧
    (construct 8 2 true 1 = none ↔
      ¬ ((0 : Int) < 2 ∧ true = true ∧ (0 : Int) < 1 ∧
        0 < (2 : Int) / (((8 / 8 : Nat) : Int) * 1))) ∧
    (∀ s, construct 8 2 true 1 = some s →
      s.num_rows_ = 1 ∧ s.num_cols_ = (2 : Int) / (((8 / 8 : Nat) : Int) * 1) ∧
      s.matrix_ = List.replicate s.num_rows_.toNat (List.replicate s.num_cols_.toNat 0) ∧
      s.sum_counts_ = 0) ∧
    ((2 : Int) < ((8 / 8 : Nat) : Int) * 1 → construct 8 2 true 1 = none) ∧
    ((1 : Int) ≤ 0 → construct 8 2 true 1 = none)) :=
  ⟨⟨by norm_num, by norm_num⟩,
    construct_succeeds_iff 8 2 true 1 (by norm_num) (by norm_num)⟩

end CountMinSketch

namespace LruMap

/-! ## LruMap -/

theorem find?_of_nodup_map {α β : Type} [DecidableEq β] (f : α → β) :
    ∀ (l : List α), (l.map f).Nodup → ∀ a ∈ l,
      l.find? (fun x => decide (f x = f a)) = some a := by
  intro l
  induction l with
  | nil => intro _ a ha; cases ha
  | cons b l ih =>
    intro hn a ha
    rw [List.map_cons, List.nodup_cons] at hn
    rcases List.mem_cons.mp ha with h | h
    · subst h
      simp
    · have hne : f b ≠ f a := by
        intro e
        exact hn.1 (e ▸ List.mem_map_of_mem f h)
      rw [List.find?_cons_of_neg _ (by simpa using hne)]
      exact ih hn.2 a h

theorem find?_none_of_not_mem {α β : Type} [DecidableEq β] (f : α → β) (l : List α) (b : β)
    (h : b ∉ l.map f) : l.find? (fun x => decide (f x = b)) = none := by
  rw [List.find?_eq_none]
  intro x hx
  simp only [decide_eq_true_eq]
  intro e
  exact h (e ▸ List.mem_map_of_mem f hx)

theorem filter_ne_self_of_not_mem {α β : Type} [DecidableEq β] (f : α → β) (l : List α) (b : β)
    (h : b ∉ l.map f) : l.filter (fun x => decide (f x ≠ b)) = l := by
  rw [List.filter_eq_self]
  intro x hx
  simp only [decide_eq_true_eq]
  intro e
  exact h (e ▸ List.mem_map_of_mem f hx)

theorem filter_ne_of_nodup_map {α β : Type} [DecidableEq β] (f : α → β) (l1 l2 : List α) (a : α)
    (h : ((l1 ++ a :: l2).map f).Nodup) :
    (l1 ++ a :: l2).filter (fun x => decide (f x ≠ f a)) = l1 ++ l2 := by
  rw [List.map_append, List.map_cons] at h
  have h1 : f a ∉ l1.map f := by
    intro hm
    exact (List.nodup_append.mp h).2.2 hm (List.mem_cons_self _ _)
  have h2 : f a ∉ l2.map f := (List.nodup_cons.mp (List.nodup_append.mp h).2.1).1
  rw [List.filter_append, List.filter_cons_of_neg (by simp),
    filter_ne_self_of_not_mem f l1 _ h1, filter_ne_self_of_not_mem f l2 _ h2]

theorem filter_id_eq_filter_first {K V : Type} [DecidableEq K] (l : List (Node K V))
    (hk : (l.map Node.first).Nodup) (hi : (l.map Node.id).Nodup) (n : Node K V) (hn : n ∈ l) :
    l.filter (fun m => decide (m.id ≠ n.id)) = l.filter (fun m => decide (m.first ≠ n.first)) := by
  apply List.filter_congr
  intro x hx
  by_cases e : x = n
  · subst e
    simp
  · have e1 : x.id ≠ n.id := fun h => e (List.inj_on_of_nodup_map hi hx hn h)
    have e2 : x.first ≠ n.first := fun h => e (List.inj_on_of_nodup_map hk hx hn h)
    simp [e1, e2]

theorem fresh_gt {K V : Type} (l : List (Node K V)) : ∀ n ∈ l, n.id < ListType.fresh l := by
  unfold ListType.fresh
  induction l with
  | nil => intro n hn; cases hn
  | cons a l ih =>
    intro n hn
    rw [List.map_cons, List.foldr_cons]
    rcases List.mem_cons.mp hn with h | h
    · subst h
      have := le_max_left n.id ((l.map Node.id).foldr max 0)
      omega
    · have := ih n h
      have := le_max_right a.id ((l.map Node.id).foldr max 0)
      omega

theorem fresh_not_mem {K V : Type} (l : List (Node K V)) : ListType.fresh l ∉ l.map Node.id := by
  intro h
  obtain ⟨n, hn, e⟩ := List.mem_map.mp h
  have := fresh_gt l n hn
  omega

/-- The keys of `map_` are those of `list_`, up to the order. -/
theorem WF.map_keys {K V : Type} {s : LruMap K V} (h : WF s) :
    (s.map_.map Prod.fst).Perm (s.list_.map Node.first) := by
  have := h.perm.map Prod.fst
  rwa [List.map_map] at this

theorem WF.map_nodup {K V : Type} {s : LruMap K V} (h : WF s) : (s.map_.map Prod.fst).Nodup :=
  h.map_keys.nodup_iff.mpr h.keys

theorem WF.length_eq {K V : Type} {s : LruMap K V} (h : WF s) :
    s.map_.length = s.list_.length := by
  rw [h.perm.length_eq, List.length_map]

theorem WF.mem_map_iff {K V : Type} {s : LruMap K V} (h : WF s) (key : K) (it : Nat) :
    (key, it) ∈ s.map_ ↔ ∃ n ∈ s.list_, n.first = key ∧ n.id = it := by
  rw [h.perm.mem_iff, List.mem_map]
  constructor
  · rintro ⟨n, hn, e⟩
    simp only [Prod.mk.injEq] at e
    exact ⟨n, hn, e.1, e.2⟩
  · rintro ⟨n, hn, e1, e2⟩
    exact ⟨n, hn, by rw [e1, e2]⟩

/-- A key that is in `list_` is found in `map_`, with an iterator to its node. -/
theorem WF.find_of_mem {K V : Type} [DecidableEq K] {s : LruMap K V} (h : WF s) (n : Node K V)
    (hn : n ∈ s.list_) :
    MapType.find s.map_ n.first = some n.id ∧ ListType.deref s.list_ n.id = some n := by
  constructor
  · have hm : (n.first, n.id) ∈ s.map_ := (h.mem_map_iff _ _).mpr ⟨n, hn, rfl, rfl⟩
    unfold MapType.find
    have := find?_of_nodup_map Prod.fst s.map_ h.map_nodup (n.first, n.id) hm
    simp only at this
    rw [this]
    rfl
  · unfold ListType.deref
    exact find?_of_nodup_map Node.id s.list_ h.ids n hn

/-- A key that is not in `list_` is not found in `map_`. -/
theorem WF.find_of_not_mem {K V : Type} [DecidableEq K] {s : LruMap K V} (h : WF s) (key : K)
    (hk : key ∉ s.list_.map Node.first) : MapType.find s.map_ key = none := by
  unfold MapType.find
  rw [find?_none_of_not_mem Prod.fst s.map_ key (fun hm => hk (h.map_keys.mem_iff.mp hm))]
  rfl

/-- What `map_.find(key)` returns, in terms of `list_`. -/
theorem WF.find_cases {K V : Type} [DecidableEq K] {s : LruMap K V} (h : WF s) (key : K) :
    (key ∉ s.list_.map Node.first ∧ MapType.find s.map_ key = none) ∨
    ∃ n ∈ s.list_, n.first = key ∧ MapType.find s.map_ key = some n.id ∧
      ListType.deref s.list_ n.id = some n := by
  by_cases hk : key ∈ s.list_.map Node.first
  · right
    obtain ⟨n, hn, e⟩ := List.mem_map.mp hk
    have := h.find_of_mem n hn
    rw [e] at this
    exact ⟨n, hn, e, this.1, this.2⟩
  · left
    exact ⟨hk, h.find_of_not_mem key hk⟩

theorem capacity_u64_eq {K V : Type} (s : LruMap K V) (h0 : 0 ≤ s.capacity_)
    (h1 : s.capacity_ < 2 ^ 63) : ((capacity_u64 s : Nat) : Int) = s.capacity_ := by
  unfold capacity_u64
  rw [Int.emod_eq_of_lt h0 (by omega), Int.toNat_of_nonneg h0]

theorem erase_perm {K V : Type} [DecidableEq K] {s : LruMap K V} (h : WF s) (key : K) :
    (MapType.erase s.map_ key).Perm
      ((s.list_.filter (fun m => decide (m.first ≠ key))).map (fun n => (n.first, n.id))) := by
  unfold MapType.erase
  have := h.perm.filter (fun p => decide (p.1 ≠ key))
  rw [List.filter_map] at this
  exact this

/-- Removing the entry of a key from `list_` and `map_` keeps the invariant. -/
theorem WF_remove {K V : Type} [DecidableEq K] {s : LruMap K V} (h : WF s) (key : K) :
    WF ({ list_ := s.list_.filter (fun m => decide (m.first ≠ key)),
          map_ := MapType.erase s.map_ key, capacity_ := s.capacity_ } : LruMap K V) :=
  { keys := List.Nodup.sublist ((List.filter_sublist s.list_).map Node.first) h.keys
    ids := List.Nodup.sublist ((List.filter_sublist s.list_).map Node.id) h.ids
    perm := erase_perm h key }

theorem erase_of_not_mem {K V : Type} [DecidableEq K] {s : LruMap K V} (h : WF s) (key : K)
    (hk : key ∉ s.list_.map Node.first) : MapType.erase s.map_ key = s.map_ := by
  unfold MapType.erase
  exact filter_ne_self_of_not_mem Prod.fst s.map_ key (fun hm => hk (h.map_keys.mem_iff.mp hm))

/-- Pushing a node with a new key and a new identity to the front keeps the
invariant. -/
theorem WF_push {K V : Type} [DecidableEq K] {s : LruMap K V} (h : WF s) (n : Node K V)
    (hk : n.first ∉ s.list_.map Node.first) (hi : n.id ∉ s.list_.map Node.id) :
    WF ({ list_ := n :: s.list_, map_ := MapType.assign s.map_ n.first n.id,
          capacity_ := s.capacity_ } : LruMap K V) :=
  { keys := by
      show (List.map Node.first (n :: s.list_)).Nodup
      rw [List.map_cons]
      exact List.nodup_cons.mpr ⟨hk, h.keys⟩
    ids := by
      show (List.map Node.id (n :: s.list_)).Nodup
      rw [List.map_cons]
      exact List.nodup_cons.mpr ⟨hi, h.ids⟩
    perm := by
      show (MapType.assign s.map_ n.first n.id).Perm
        (List.map (fun n => (n.first, n.id)) (n :: s.list_))
      unfold MapType.assign
      rw [erase_of_not_mem h _ hk, List.map_cons]
      exact List.Perm.cons _ h.perm }

theorem not_mem_filter_first {K V : Type} [DecidableEq K] (l : List (Node K V)) (key : K) :
    key ∉ (l.filter (fun m => decide (m.first ≠ key))).map Node.first := by
  intro hm
  obtain ⟨n, hn, e⟩ := List.mem_map.mp hm
  have := (List.mem_filter.mp hn).2
  simp only [decide_eq_true_eq] at this
  exact this e

theorem not_mem_filter_id {K V : Type} [DecidableEq K] (l : List (Node K V))
    (hk : (l.map Node.first).Nodup) (hi : (l.map Node.id).Nodup) (n : Node K V) (hn : n ∈ l) :
    n.id ∉ (l.filter (fun m => decide (m.first ≠ n.first))).map Node.id := by
  rw [← filter_id_eq_filter_first l hk hi n hn]
  intro hm
  obtain ⟨m, hm1, e⟩ := List.mem_map.mp hm
  have := (List.mem_filter.mp hm1).2
  simp only [decide_eq_true_eq] at this
  exact this e

theorem length_filter_first {K V : Type} [DecidableEq K] (l : List (Node K V))
    (hk : (l.map Node.first).Nodup) (n : Node K V) (hn : n ∈ l) :
    (l.filter (fun m => decide (m.first ≠ n.first))).length + 1 = l.length := by
  obtain ⟨l1, l2, e⟩ := List.append_of_mem hn
  subst e
  rw [filter_ne_of_nodup_map Node.first l1 l2 n hk]
  simp only [List.length_append, List.length_cons]
  omega

/-- The node at the front: removing its key leaves the tail. -/
theorem filter_first_of_head {K V : Type} [DecidableEq K] (n : Node K V) (l : List (Node K V))
    (hk : ((n :: l).map Node.first).Nodup) :
    (n :: l).filter (fun m => decide (m.first ≠ n.first)) = l :=
  filter_ne_of_nodup_map Node.first [] l n hk

/-- The statement that moves the node of `key` to the front: afterwards the
node is at the front, followed by the other nodes in their order. -/
theorem move_to_begin_spec {K V : Type} [DecidableEq K] {s : LruMap K V} (h : WF s)
    (n : Node K V) (hn : n ∈ s.list_) :
    WF (move_to_begin s n.first n.id) ∧
    (move_to_begin s n.first n.id).list_ =
      n :: s.list_.filter (fun m => decide (m.first ≠ n.first)) ∧
    (move_to_begin s n.first n.id).capacity_ = s.capacity_ ∧
    (move_to_begin s n.first n.id).map_.length = s.map_.length := by
  have hd := (h.find_of_mem n hn).2
  unfold move_to_begin
  by_cases hb : some n.id ≠ ListType.begin s.list_
  · rw [if_pos hb]
    have hl : ListType.splice_begin s.list_ n.id =
        n :: s.list_.filter (fun m => decide (m.first ≠ n.first)) := by
      unfold ListType.splice_begin
      rw [hd]
      unfold ListType.erase
      rw [filter_id_eq_filter_first s.list_ h.keys h.ids n hn]
    have hw := WF_push (WF_remove h n.first) n (not_mem_filter_first s.list_ n.first)
      (not_mem_filter_id s.list_ h.keys h.ids n hn)
    have hm : MapType.assign (MapType.erase s.map_ n.first) n.first n.id =
        MapType.assign s.map_ n.first n.id := by
      unfold MapType.assign MapType.erase
      rw [List.filter_filter]
      simp
    rw [hm] at hw
    dsimp only at hw ⊢
    rw [hl]
    refine ⟨hw, rfl, rfl, ?_⟩
    have h1 := hw.length_eq
    dsimp only at h1
    rw [h1, List.length_cons, length_filter_first s.list_ h.keys n hn, h.length_eq]
  · rw [if_neg hb]
    push_neg at hb
    unfold ListType.begin at hb
    cases hl : s.list_ with
    | nil => rw [hl] at hn; cases hn
    | cons m l =>
      rw [hl] at hb hn
      have hb2 : n.id = m.id := by
        simpa using hb
      have hk := h.keys
      have hi := h.ids
      rw [hl] at hk hi
      have e : m = n := List.inj_on_of_nodup_map hi (List.mem_cons_self _ _) hn hb2.symm
      subst e
      rw [filter_first_of_head m l hk]
      exact ⟨h, rfl, rfl, rfl⟩

theorem WF_set_second {K V : Type} {s : LruMap K V} (h : WF s) (it : Nat) (value : V) :
    WF ({ s with list_ := ListType.set_second s.list_ it value } : LruMap K V) := by
  have e1 : (ListType.set_second s.list_ it value).map Node.first = s.list_.map Node.first := by
    unfold ListType.set_second
    rw [List.map_map]
    apply List.map_congr_left
    intro a _
    simp only [Function.comp]
    split_ifs <;> rfl
  have e2 : (ListType.set_second s.list_ it value).map Node.id = s.list_.map Node.id := by
    unfold ListType.set_second
    rw [List.map_map]
    apply List.map_congr_left
    intro a _
    simp only [Function.comp]
    split_ifs <;> rfl
  have e3 : (ListType.set_second s.list_ it value).map (fun n => (n.first, n.id)) =
      s.list_.map (fun n => (n.first, n.id)) := by
    unfold ListType.set_second
    rw [List.map_map]
    apply List.map_congr_left
    intro a _
    simp only [Function.comp]
    split_ifs <;> rfl
  exact
    { keys := by show (List.map Node.first (ListType.set_second s.list_ it value)).Nodup
                 rw [e1]; exact h.keys
      ids := by show (List.map Node.id (ListType.set_second s.list_ it value)).Nodup
                rw [e2]; exact h.ids
      perm := by
        show s.map_.Perm (List.map (fun n => (n.first, n.id))
          (ListType.set_second s.list_ it value))
        rw [e3]; exact h.perm }

theorem mem_set_second {K V : Type} (l : List (Node K V)) (n : Node K V) (hn : n ∈ l)
    (value : V) : ({ n with second := value } : Node K V) ∈ ListType.set_second l n.id value := by
  unfold ListType.set_second
  refine List.mem_map.mpr ⟨n, hn, ?_⟩
  rw [if_pos rfl]

theorem filter_set_second {K V : Type} [DecidableEq K] (l : List (Node K V))
    (hi : (l.map Node.id).Nodup) (n : Node K V) (hn : n ∈ l) (value : V) :
    (ListType.set_second l n.id value).filter (fun m => decide (m.first ≠ n.first)) =
      l.filter (fun m => decide (m.first ≠ n.first)) := by
  unfold ListType.set_second
  induction l with
  | nil => rfl
  | cons a l ih =>
    rw [List.map_cons] at hi
    have hi2 := (List.nodup_cons.mp hi).2
    by_cases e : a = n
    · subst e
      have hnot : a.id ∉ l.map Node.id := (List.nodup_cons.mp hi).1
      have hrest : List.map (fun m : Node K V => if m.id = a.id then { m with second := value }
          else m) l = l := by
        conv_rhs => rw [← List.map_id l]
        apply List.map_congr_left
        intro m hm
        have : m.id ≠ a.id := fun e => hnot (e ▸ List.mem_map_of_mem Node.id hm)
        rw [if_neg this]
        rfl
      rw [List.map_cons, hrest, if_pos rfl, List.filter_cons_of_neg (by simp),
        List.filter_cons_of_neg (by simp)]
    · have hn2 : n ∈ l := by
        rcases List.mem_cons.mp hn with h | h
        · exact absurd h.symm e
        · exact h
      have hne : a.id ≠ n.id := by
        intro e2
        exact (List.nodup_cons.mp hi).1 (e2 ▸ List.mem_map_of_mem Node.id hn2)
      rw [List.map_cons, if_neg hne, List.filter_cons, List.filter_cons, ih hi2 hn2]

theorem entries_cons {K V : Type} (s : LruMap K V) (n : Node K V) (l : List (Node K V))
    (h : s.list_ = n :: l) :
    entries s = (l.map (fun n => (n.first, n.second))).reverse ++ [(n.first, n.second)] := by
  unfold entries
  rw [h, List.map_cons, List.reverse_cons]

theorem entries_concat {K V : Type} (s : LruMap K V) (n : Node K V) (l : List (Node K V))
    (h : s.list_ = l ++ [n]) :
    entries s = (n.first, n.second) :: (l.map (fun n => (n.first, n.second))).reverse := by
  unfold entries
  rw [h, List.map_append, List.reverse_append]
  rfl

theorem entries_filter {K V : Type} [DecidableEq K] (s : LruMap K V) (key : K) :
    ((s.list_.filter (fun m => decide (m.first ≠ key))).map
      (fun n => (n.first, n.second))).reverse =
      (entries s).filter (fun p => decide (p.1 ≠ key)) := by
  unfold entries
  rw [List.filter_reverse, List.filter_map]
  rfl

theorem entries_keys {K V : Type} (s : LruMap K V) :
    (entries s).map Prod.fst = (s.list_.map Node.first).reverse := by
  unfold entries
  rw [List.map_reverse, List.map_map]
  rfl

theorem entries_length {K V : Type} (s : LruMap K V) : (entries s).length = s.list_.length := by
  unfold entries
  rw [List.length_reverse, List.length_map]

theorem entries_nodup {K V : Type} {s : LruMap K V} (h : WF s) :
    ((entries s).map Prod.fst).Nodup := by
  rw [entries_keys]
  exact List.nodup_reverse.mpr h.keys

theorem mem_entries {K V : Type} (s : LruMap K V) (n : Node K V) (hn : n ∈ s.list_) :
    (n.first, n.second) ∈ entries s := by
  unfold entries
  rw [List.mem_reverse]
  exact List.mem_map.mpr ⟨n, hn, rfl⟩

theorem lookup_of_mem {K V : Type} [DecidableEq K] {s : LruMap K V} (h : WF s) (n : Node K V)
    (hn : n ∈ s.list_) : RecencyList.lookup (entries s) n.first = some n.second := by
  unfold RecencyList.lookup
  have := find?_of_nodup_map Prod.fst (entries s) (entries_nodup h) (n.first, n.second)
    (mem_entries s n hn)
  simp only at this
  rw [this]
  rfl

theorem lookup_of_not_mem {K V : Type} [DecidableEq K] (s : LruMap K V) (key : K)
    (hk : key ∉ s.list_.map Node.first) : RecencyList.lookup (entries s) key = none := by
  unfold RecencyList.lookup
  rw [find?_none_of_not_mem Prod.fst (entries s) key]
  · rfl
  · rw [entries_keys, List.mem_reverse]
    exact hk

/-- On a well-formed map `RawList()` is the list of the entries, oldest first. -/
theorem RawList_eq {K V : Type} {s : LruMap K V} (h : WF s) (init : K × V) :
    RawList init s = some (entries s) := by
  unfold RawList
  rw [if_pos (le_of_eq h.length_eq.symm), h.length_eq, Nat.sub_self]
  rfl

theorem Size_eq {K V : Type} {s : LruMap K V} (h : WF s) : Size s = (entries s).length := by
  rw [entries_length]
  exact h.length_eq

theorem Contains_lookup {K V : Type} [DecidableEq K] {s : LruMap K V} (h : WF s) (key : K) :
    Contains s key = (RecencyList.lookup (entries s) key).isSome := by
  unfold Contains
  rcases h.find_cases key with ⟨hk, hf⟩ | ⟨n, hn, e, hf, _⟩
  · rw [hf, lookup_of_not_mem s key hk]
    rfl
  · subst e
    rw [hf, lookup_of_mem h n hn]
    rfl

theorem Contains_iff {K V : Type} [DecidableEq K] {s : LruMap K V} (h : WF s) (key : K) :
    Contains s key = true ↔ key ∈ s.list_.map Node.first := by
  unfold Contains
  rcases h.find_cases key with ⟨hk, hf⟩ | ⟨n, hn, e, hf, _⟩
  · rw [hf]
    simp [hk]
  · rw [hf]
    subst e
    simp only [Option.isSome_some, true_iff]
    exact List.mem_map_of_mem Node.first hn

theorem OldestKey_eq {K V : Type} (s : LruMap K V) :
    OldestKey s = (entries s).head?.map Prod.fst := by
  unfold OldestKey entries
  rw [List.head?_reverse, List.getLast?_map]
  cases s.list_.getLast? <;> rfl

theorem OldestValue_eq {K V : Type} (s : LruMap K V) :
    OldestValue s = (entries s).head?.map Prod.snd := by
  unfold OldestValue entries
  rw [List.head?_reverse, List.getLast?_map]
  cases s.list_.getLast? <;> rfl

theorem GetWithoutTouch_spec {K V : Type} [DecidableEq K] {s : LruMap K V} (h : WF s) (key : K) :
    GetWithoutTouch s key =
      some ((RecencyList.lookup (entries s) key).isSome, RecencyList.lookup (entries s) key) := by
  unfold GetWithoutTouch
  rcases h.find_cases key with ⟨hk, hf⟩ | ⟨n, hn, e, hf, hd⟩
  · rw [hf, lookup_of_not_mem s key hk]
    rfl
  · subst e
    rw [hf]
    dsimp only
    rw [hd]
    dsimp only
    rw [if_neg (not_not.mpr rfl), lookup_of_mem h n hn]
    rfl

theorem GetWithTouch_spec {K V : Type} [DecidableEq K] {s : LruMap K V} (h : WF s) (key : K) :
    ∃ s1, GetWithTouch s key =
        some ((RecencyList.Touch (entries s) key).1, RecencyList.lookup (entries s) key, s1) ∧
      WF s1 ∧ s1.capacity_ = s.capacity_ ∧ s1.map_.length = s.map_.length ∧
      entries s1 = (RecencyList.Touch (entries s) key).2 := by
  unfold GetWithTouch RecencyList.Touch
  rcases h.find_cases key with ⟨hk, hf⟩ | ⟨n, hn, e, hf, hd⟩
  · rw [hf, lookup_of_not_mem s key hk]
    exact ⟨s, rfl, h, rfl, rfl, rfl⟩
  · subst e
    rw [hf]
    dsimp only
    rw [hd]
    dsimp only
    rw [if_neg (not_not.mpr rfl), lookup_of_mem h n hn]
    obtain ⟨m1, m2, m3, m4⟩ := move_to_begin_spec h n hn
    refine ⟨_, rfl, m1, m3, m4, ?_⟩
    dsimp only
    rw [entries_cons _ n _ m2, entries_filter]
    rfl

theorem Erase_spec {K V : Type} [DecidableEq K] {s : LruMap K V} (h : WF s) (key : K) :
    ∃ s1, Erase s key =
        some ((RecencyList.Erase (entries s) key).1, RecencyList.lookup (entries s) key, s1) ∧
      WF s1 ∧ s1.capacity_ = s.capacity_ ∧ s1.map_.length ≤ s.map_.length ∧
      entries s1 = (RecencyList.Erase (entries s) key).2 := by
  unfold Erase RecencyList.Erase
  rcases h.find_cases key with ⟨hk, hf⟩ | ⟨n, hn, e, hf, hd⟩
  · rw [hf, lookup_of_not_mem s key hk]
    refine ⟨s, rfl, h, rfl, le_refl _, ?_⟩
    dsimp only
    rw [filter_ne_self_of_not_mem Prod.fst (entries s) key]
    rw [entries_keys, List.mem_reverse]
    exact hk
  · subst e
    rw [hf]
    dsimp only
    rw [hd]
    dsimp only
    rw [if_neg (not_not.mpr rfl), lookup_of_mem h n hn]
    have hl : ListType.erase s.list_ n.id =
        s.list_.filter (fun m => decide (m.first ≠ n.first)) := by
      unfold ListType.erase
      exact filter_id_eq_filter_first s.list_ h.keys h.ids n hn
    rw [hl]
    refine ⟨_, rfl, WF_remove h n.first, rfl, ?_, ?_⟩
    · exact List.length_filter_le _ _
    · exact entries_filter s n.first

theorem EvictOldest_spec {K V : Type} [DecidableEq K] {s : LruMap K V} (h : WF s) :
    ∃ s1, EvictOldest s =
        some ((RecencyList.EvictOldest (entries s)).1, (entries s).head?.map Prod.snd, s1) ∧
      WF s1 ∧ s1.capacity_ = s.capacity_ ∧ s1.map_.length ≤ s.map_.length ∧
      entries s1 = (RecencyList.EvictOldest (entries s)).2 ∧
      (s.list_ ≠ [] → s1.map_.length + 1 = s.map_.length) ∧
      (∀ k, k ∈ s1.list_.map Node.first → k ∈ s.list_.map Node.first) := by
  unfold EvictOldest RecencyList.EvictOldest
  cases hl : s.list_.getLast? with
  | none =>
    have hnil : s.list_ = [] := List.getLast?_eq_none_iff.mp hl
    have he : entries s = [] := by unfold entries; rw [hnil]; rfl
    rw [he]
    exact ⟨s, rfl, h, rfl, le_refl _, he, fun hne => absurd hnil hne, fun k hk => hk⟩
  | some back =>
    have hdec : s.list_.dropLast ++ [back] = s.list_ :=
      List.dropLast_append_getLast? back (by rw [hl]; rfl)
    have hk := h.keys
    rw [← hdec] at hk
    have hf : s.list_.filter (fun m => decide (m.first ≠ back.first)) = s.list_.dropLast := by
      conv_lhs => rw [← hdec]
      rw [filter_ne_of_nodup_map Node.first s.list_.dropLast [] back hk, List.append_nil]
    have hw := WF_remove h back.first
    rw [hf] at hw
    have hlen : s.list_.dropLast.length + 1 = s.list_.length := by
      conv_rhs => rw [← hdec]
      rw [List.length_append]
      rfl
    have h1 := hw.length_eq
    dsimp only at h1
    have h2 := h.length_eq
    have he := entries_concat s back s.list_.dropLast hdec.symm
    dsimp only
    rw [if_pos (by omega), he]
    refine ⟨_, rfl, hw, rfl, by dsimp only; omega, rfl, fun _ => by dsimp only; omega, ?_⟩
    intro k hk
    exact (List.Sublist.map Node.first (List.dropLast_sublist s.list_)).subset hk

/-- The statements that push a new key to the front. -/
theorem push_front_spec {K V : Type} [DecidableEq K] {s : LruMap K V} (h : WF s) (key : K)
    (value : V) (hk : key ∉ s.list_.map Node.first) :
    WF (push_front s key value) ∧ (push_front s key value).capacity_ = s.capacity_ ∧
    (push_front s key value).map_.length = s.map_.length + 1 ∧
    entries (push_front s key value) = entries s ++ [(key, value)] := by
  have hw := WF_push h ({ id := ListType.fresh s.list_, first := key, second := value } : Node K V)
    hk (fresh_not_mem s.list_)
  refine ⟨hw, rfl, ?_, ?_⟩
  · show (MapType.assign s.map_ key (ListType.fresh s.list_)).length = s.map_.length + 1
    unfold MapType.assign
    rw [erase_of_not_mem h key hk, List.length_cons]
  · exact entries_cons (push_front s key value) _ _ rfl

theorem Put_spec {K V : Type} [DecidableEq K] {s : LruMap K V} (h : WF s)
    (hc0 : 1 ≤ s.capacity_) (hc1 : s.capacity_ < 2 ^ 63)
    (hsz : (s.map_.length : Int) ≤ s.capacity_) (key : K) (value : V) :
    ∃ ev s1, Put s key value =
        some ((RecencyList.Put s.capacity_.toNat (entries s) key value).1, ev, s1) ∧
      WF s1 ∧ s1.capacity_ = s.capacity_ ∧ (s1.map_.length : Int) ≤ s.capacity_ ∧
      entries s1 = (RecencyList.Put s.capacity_.toNat (entries s) key value).2 := by
  have hu := capacity_u64_eq s (by omega) hc1
  unfold Put RecencyList.Put
  rcases h.find_cases key with ⟨hk, hf⟩ | ⟨n, hn, e, hf, hd⟩
  · rw [hf, lookup_of_not_mem s key hk]
    dsimp only
    rw [if_neg (not_not.mpr (by omega))]
    by_cases hfull : s.map_.length = capacity_u64 s
    · rw [if_pos hfull]
      obtain ⟨s1, e1, w1, c1, _, en1, len1, sub1⟩ := EvictOldest_spec h
      have hne : s.list_ ≠ [] := by
        intro hnil
        have := h.length_eq
        rw [hnil] at this
        simp only [List.length_nil] at this
        omega
      have hne2 : entries s ≠ [] := by
        intro hnil
        have := entries_length s
        rw [hnil] at this
        exact hne (List.length_eq_zero.mp this.symm)
      have ht : (RecencyList.EvictOldest (entries s)).1 = true := by
        unfold RecencyList.EvictOldest
        cases hes : entries s with
        | nil => exact absurd hes hne2
        | cons a l => rfl
      rw [ht] at e1
      rw [e1]
      dsimp only
      have hk1 : key ∉ s1.list_.map Node.first := fun hm => hk (sub1 key hm)
      obtain ⟨p1, p2, p3, p4⟩ := push_front_spec w1 key value hk1
      have hu1 : capacity_u64 (push_front s1 key value) = capacity_u64 s := by
        unfold capacity_u64
        rw [p2, c1]
      have hl := len1 hne
      rw [if_neg (not_not.mpr (by rw [hu1, p3]; omega))]
      refine ⟨_, _, rfl, p1, by rw [p2, c1], by rw [p3]; omega, ?_⟩
      have hlen : (entries s).length = s.capacity_.toNat := by
        rw [entries_length, ← h.length_eq]
        omega
      rw [p4, en1, if_pos hlen]
      rfl
    · rw [if_neg hfull]
      dsimp only
      obtain ⟨p1, p2, p3, p4⟩ := push_front_spec h key value hk
      have hu1 : capacity_u64 (push_front s key value) = capacity_u64 s := by
        unfold capacity_u64
        rw [p2]
      rw [if_neg (not_not.mpr (by rw [hu1, p3]; omega))]
      refine ⟨_, _, rfl, p1, p2, by rw [p3]; omega, ?_⟩
      have hlen : ¬ (entries s).length = s.capacity_.toNat := by
        rw [entries_length, ← h.length_eq]
        omega
      rw [p4, if_neg hlen]
  · subst e
    rw [hf]
    dsimp only
    rw [hd]
    dsimp only
    rw [if_neg (not_not.mpr rfl), lookup_of_mem h n hn]
    dsimp only
    have w1 := WF_set_second h n.id value
    have hn1 := mem_set_second s.list_ n hn value
    obtain ⟨m1, m2, m3, m4⟩ := move_to_begin_spec w1 _ hn1
    dsimp only at m1 m2 m3 m4
    have hu1 : capacity_u64 (move_to_begin
        ({ s with list_ := ListType.set_second s.list_ n.id value } : LruMap K V)
        n.first n.id) = capacity_u64 s := by
      unfold capacity_u64
      rw [m3]
    rw [if_neg (not_not.mpr (by rw [hu1, m4]; omega))]
    refine ⟨_, _, rfl, m1, m3, by rw [m4]; exact hsz, ?_⟩
    rw [entries_cons _ _ _ m2, filter_set_second s.list_ h.ids n hn value, entries_filter]
    rfl

theorem new_WF_lru (K V : Type) (capacity : Int) : WF (new K V capacity) :=
  { keys := List.nodup_nil, ids := List.nodup_nil, perm := List.Perm.nil }

theorem Clear_WF_lru {K V : Type} (s : LruMap K V) : WF (Clear s) :=
  { keys := List.nodup_nil, ids := List.nodup_nil, perm := List.Perm.nil }

/-- No call is fatal on a well-formed map within its capacity, and each call
keeps the map well formed and within its capacity. -/
theorem Op.run_spec {K V : Type} [DecidableEq K] {s : LruMap K V} (h : WF s)
    (hc0 : 1 ≤ s.capacity_) (hc1 : s.capacity_ < 2 ^ 63)
    (hsz : (s.map_.length : Int) ≤ s.capacity_) (op : Op K V) :
    ∃ s1, op.run s = some s1 ∧ WF s1 ∧ s1.capacity_ = s.capacity_ ∧
      (s1.map_.length : Int) ≤ s.capacity_ := by
  cases op with
  | Put key value =>
    obtain ⟨ev, s1, e, w, c, l, _⟩ := Put_spec h hc0 hc1 hsz key value
    exact ⟨s1, by rw [Op.run, e]; rfl, w, c, l⟩
  | GetWithTouch key =>
    obtain ⟨s1, e, w, c, l, _⟩ := GetWithTouch_spec h key
    exact ⟨s1, by rw [Op.run, e]; rfl, w, c, by rw [l]; exact hsz⟩
  | GetWithoutTouch key =>
    exact ⟨s, by rw [Op.run, GetWithoutTouch_spec h key]; rfl, h, rfl, hsz⟩
  | Touch key =>
    obtain ⟨s1, e, w, c, l, _⟩ := GetWithTouch_spec h key
    exact ⟨s1, by rw [Op.run, LruMap.Touch, e]; rfl, w, c, by rw [l]; exact hsz⟩
  | Erase key =>
    obtain ⟨s1, e, w, c, l, _⟩ := Erase_spec h key
    exact ⟨s1, by rw [Op.run, e]; rfl, w, c, by omega⟩
  | EvictOldest =>
    obtain ⟨s1, e, w, c, l, _⟩ := EvictOldest_spec h
    exact ⟨s1, by rw [Op.run, e]; rfl, w, c, by omega⟩
  | Clear =>
    exact ⟨LruMap.Clear s, rfl, Clear_WF_lru s, rfl, by
      show ((0 : Nat) : Int) ≤ s.capacity_
      omega⟩

theorem Reachable.inv {K V : Type} [DecidableEq K] (capacity : Int) (hc0 : 1 ≤ capacity)
    (hc1 : capacity < 2 ^ 63) (s : LruMap K V) (hs : Reachable capacity s) :
    WF s ∧ s.capacity_ = capacity ∧ (s.map_.length : Int) ≤ capacity := by
  induction hs with
  | constructed =>
    exact ⟨new_WF_lru K V capacity, rfl, by
      show ((0 : Nat) : Int) ≤ capacity
      omega⟩
  | step s op s1 _ hrun ih =>
    obtain ⟨w, c, l⟩ := ih
    obtain ⟨s2, e, w2, c2, l2⟩ := Op.run_spec w (by rw [c]; exact hc0) (by rw [c]; exact hc1)
      (by rw [c]; exact l) op
    rw [hrun] at e
    cases e
    exact ⟨w2, by rw [c2, c], by rw [← c]; exact l2⟩

/-- The sample map is what three calls of `Put` make of `LruMap(3)`. -/
theorem sampleLru_reachable : Reachable 3 sampleLru :=
  Reachable.step _ (Op.Put 6 60) _
    (Reachable.step _ (Op.Put 3 30) _
      (Reachable.step _ (Op.Put 1 10) _ Reachable.constructed rfl) rfl) rfl

/-- C29. An `LruMap` never exceeds its capacity: for every capacity of at
least 1 set at construction and every sequence of `Put`, `GetWithTouch`,
`GetWithoutTouch`, `Touch`, `Erase`, `EvictOldest` and `Clear`, after each
call `Size()` is at most the capacity, `list_` and `map_` hold exactly the
same keys, each once, with every iterator in `map_` pointing to the node of
its key, and in that state no `CHECK` of `Put` fails, nor is any other call
fatal. -/
theorem Size_le_capacity {K V : Type} [DecidableEq K] (capacity : Int) (hc0 : 1 ≤ capacity)
    (hc1 : capacity < 2 ^ 63) (s : LruMap K V) (hs : Reachable capacity s) :
    (Size s : Int) ≤ capacity ∧
    s.capacity_ = capacity ∧
    (∀ key, Contains s key = true ↔ key ∈ s.list_.map Node.first) ∧
    (∀ key it, (key, it) ∈ s.map_ ↔ ∃ n ∈ s.list_, n.first = key ∧ n.id = it) ∧
    (s.map_.map Prod.fst).Nodup ∧ (s.list_.map Node.first).Nodup ∧
    s.map_.length = s.list_.length ∧
    (∀ key value, ∃ existed evicted s1, Put s key value = some (existed, evicted, s1)) ∧
    (∀ op : Op K V, ∃ s1, op.run s = some s1) ∧
    (∀ ops : List (Op K V), ∃ s1, runOps s ops = some s1 ∧ (Size s1 : Int) ≤ capacity) := by
  obtain ⟨w, c, l⟩ := Reachable.inv capacity hc0 hc1 s hs
  refine ⟨l, c, Contains_iff w, w.mem_map_iff, w.map_nodup, w.keys, w.length_eq, ?_, ?_, ?_⟩
  · intro key value
    obtain ⟨ev, s1, e, _⟩ := Put_spec w (by rw [c]; exact hc0) (by rw [c]; exact hc1)
      (by rw [c]; exact l) key value
    exact ⟨_, ev, s1, e⟩
  · intro op
    obtain ⟨s1, e, _⟩ := Op.run_spec w (by rw [c]; exact hc0) (by rw [c]; exact hc1)
      (by rw [c]; exact l) op
    exact ⟨s1, e⟩
  · intro ops
    induction ops generalizing s with
    | nil => exact ⟨s, rfl, l⟩
    | cons op rest ih =>
      obtain ⟨s1, e, _⟩ := Op.run_spec w (by rw [c]; exact hc0) (by rw [c]; exact hc1)
        (by rw [c]; exact l) op
      have hs1 : Reachable capacity s1 := Reachable.step s op s1 hs e
      obtain ⟨w1, c1, l1⟩ := Reachable.inv capacity hc0 hc1 s1 hs1
      obtain ⟨s2, e2, l2⟩ := ih s1 hs1 w1 c1 l1
      refine ⟨s2, ?_, l2⟩
      rw [runOps, e]
      exact e2

theorem Size_le_capacity_witness :
    ((1 : Int) ≤ 3 ∧ (3 : Int) < 2 ^ 63 ∧ Reachable 3 sampleLru) ∧
    ((Size sampleLru : Int) ≤ 3 ∧
    sampleLru.capacity_ = 3 ∧
    (∀ key, Contains sampleLru key = true ↔ key ∈ sampleLru.list_.map Node.first) ∧
    (∀ key it, (key, it) ∈ sampleLru.map_ ↔
      ∃ n ∈ sampleLru.list_, n.first = key ∧ n.id = it) ∧
    (sampleLru.map_.map Prod.fst).Nodup ∧ (sampleLru.list_.map Node.first).Nodup ∧
    sampleLru.map_.length = sampleLru.list_.length ∧
    (∀ key value, ∃ existed evicted s1, Put sampleLru key value = some (existed, evicted, s1)) ∧
    (∀ op : Op Nat Nat, ∃ s1, op.run sampleLru = some s1) ∧
    (∀ ops : List (Op Nat Nat), ∃ s1, runOps sampleLru ops = some s1 ∧ (Size s1 : Int) ≤ 3)) :=
  ⟨⟨by norm_num, by norm_num, sampleLru_reachable⟩,
    Size_le_capacity 3 (by norm_num) (by norm_num) sampleLru sampleLru_reachable⟩

/-- C30. An `LruMap` keeps its entries in recency order: `RawList()` returns
the list `l` of the (key, value) pairs, with distinct keys, oldest first, and
on this list `Put` of a new key appends it as newest after removing the
oldest entry when `Size()` is the capacity, `Put` of an existing key (which
returns true), `GetWithTouch` and `Touch` move that key to the newest position
and keep the relative order of the others, `GetWithoutTouch` and `Contains`
change nothing, `Erase` removes only that key, and `OldestKey`, `OldestValue`
and `EvictOldest` refer to the first entry of the list. -/
theorem RawList_in_recency_order {K V : Type} [DecidableEq K] (capacity : Int)
    (hc0 : 1 ≤ capacity) (hc1 : capacity < 2 ^ 63) (s : LruMap K V)
    (hs : Reachable capacity s) (init : K × V) :
    ∃ l : List (K × V), RawList init s = some l ∧ (l.map Prod.fst).Nodup ∧ Size s = l.length ∧
      (∀ key value, ∃ evicted s1,
        Put s key value = some ((RecencyList.Put capacity.toNat l key value).1, evicted, s1) ∧
        RawList init s1 = some (RecencyList.Put capacity.toNat l key value).2) ∧
      (∀ key, ∃ s1,
        GetWithTouch s key =
          some ((RecencyList.Touch l key).1, RecencyList.lookup l key, s1) ∧
        RawList init s1 = some (RecencyList.Touch l key).2) ∧
      (∀ key, ∃ s1,
        Touch s key = some ((RecencyList.Touch l key).1, s1) ∧
        RawList init s1 = some (RecencyList.Touch l key).2) ∧
      (∀ key, GetWithoutTouch s key =
          some ((RecencyList.lookup l key).isSome, RecencyList.lookup l key) ∧
        Op.run s (Op.GetWithoutTouch key) = some s) ∧
      (∀ key, Contains s key = (RecencyList.lookup l key).isSome) ∧
      (∀ key, ∃ s1,
        Erase s key = some ((RecencyList.Erase l key).1, RecencyList.lookup l key, s1) ∧
        RawList init s1 = some (RecencyList.Erase l key).2) ∧
      (∃ s1,
        EvictOldest s = some ((RecencyList.EvictOldest l).1, l.head?.map Prod.snd, s1) ∧
        RawList init s1 = some (RecencyList.EvictOldest l).2) ∧
      OldestKey s = l.head?.map Prod.fst ∧ OldestValue s = l.head?.map Prod.snd := by
  obtain ⟨w, c, hl⟩ := Reachable.inv capacity hc0 hc1 s hs
  refine ⟨entries s, RawList_eq w init, entries_nodup w, Size_eq w, ?_, ?_, ?_, ?_,
    Contains_lookup w, ?_, ?_, OldestKey_eq s, OldestValue_eq s⟩
  · intro key value
    obtain ⟨ev, s1, e, w1, _, _, en⟩ := Put_spec w (by rw [c]; exact hc0) (by rw [c]; exact hc1)
      (by rw [c]; exact hl) key value
    rw [c] at e en
    exact ⟨ev, s1, e, by rw [RawList_eq w1 init, en]⟩
  · intro key
    obtain ⟨s1, e, w1, _, _, en⟩ := GetWithTouch_spec w key
    exact ⟨s1, e, by rw [RawList_eq w1 init, en]⟩
  · intro key
    obtain ⟨s1, e, w1, _, _, en⟩ := GetWithTouch_spec w key
    exact ⟨s1, by unfold Touch; rw [e]; rfl, by rw [RawList_eq w1 init, en]⟩
  · intro key
    have e := GetWithoutTouch_spec w key
    exact ⟨e, by rw [Op.run, e]; rfl⟩
  · intro key
    obtain ⟨s1, e, w1, _, _, en⟩ := Erase_spec w key
    exact ⟨s1, e, by rw [RawList_eq w1 init, en]⟩
  · obtain ⟨s1, e, w1, _, _, en, _⟩ := EvictOldest_spec w
    exact ⟨s1, e, by rw [RawList_eq w1 init, en]⟩

theorem RawList_in_recency_order_witness :
    ((1 : Int) ≤ 3 ∧ (3 : Int) < 2 ^ 63 ∧ Reachable 3 sampleLru) ∧
    ∃ l : List (Nat × Nat), RawList (0, 0) sampleLru = some l ∧ (l.map Prod.fst).Nodup ∧
      Size sampleLru = l.length ∧
      (∀ key value, ∃ evicted s1,
        Put sampleLru key value =
          some ((RecencyList.Put (3 : Int).toNat l key value).1, evicted, s1) ∧
        RawList (0, 0) s1 = some (RecencyList.Put (3 : Int).toNat l key value).2) ∧
      (∀ key, ∃ s1,
        GetWithTouch sampleLru key =
          some ((RecencyList.Touch l key).1, RecencyList.lookup l key, s1) ∧
        RawList (0, 0) s1 = some (RecencyList.Touch l key).2) ∧
      (∀ key, ∃ s1,
        Touch sampleLru key = some ((RecencyList.Touch l key).1, s1) ∧
        RawList (0, 0) s1 = some (RecencyList.Touch l key).2) ∧
      (∀ key, GetWithoutTouch sampleLru key =
          some ((RecencyList.lookup l key).isSome, RecencyList.lookup l key) ∧
        Op.run sampleLru (Op.GetWithoutTouch key) = some sampleLru) ∧
      (∀ key, Contains sampleLru key = (RecencyList.lookup l key).isSome) ∧
      (∀ key, ∃ s1,
        Erase sampleLru key =
          some ((RecencyList.Erase l key).1, RecencyList.lookup l key, s1) ∧
        RawList (0, 0) s1 = some (RecencyList.Erase l key).2) ∧
      (∃ s1,
        EvictOldest sampleLru =
          some ((RecencyList.EvictOldest l).1, l.head?.map Prod.snd, s1) ∧
        RawList (0, 0) s1 = some (RecencyList.EvictOldest l).2) ∧
      OldestKey sampleLru = l.head?.map Prod.fst ∧
      OldestValue sampleLru = l.head?.map Prod.snd :=
  ⟨⟨by norm_num, by norm_num, sampleLru_reachable⟩,
    RawList_in_recency_order 3 (by norm_num) (by norm_num) sampleLru sampleLru_reachable (0, 0)⟩

/-- The order of the entries in `TestListOrder`: after `Put` of 1, 3, 6 the list
is 1, 3, 6; `Touch(3)` makes it 1, 6, 3; `Put` of the new key 4 at capacity 3
evicts the oldest entry. -/
theorem sampleLru_order :
    RawList (0, 0) sampleLru = some [(1, 10), (3, 30), (6, 60)] ∧
    (runOps sampleLru [Op.Touch 3]).bind (RawList (0, 0)) = some [(1, 10), (6, 60), (3, 30)] ∧
    (runOps sampleLru [Op.Put 4 40]).bind (RawList (0, 0)) = some [(3, 30), (6, 60), (4, 40)] ∧
    (runOps sampleLru [Op.Put 1 11]).bind (RawList (0, 0)) = some [(3, 30), (6, 60), (1, 11)] :=
  ⟨rfl, rfl, rfl, rfl⟩

end LruMap

namespace RingBuffer

/-! ## RingBuffer -/

theorem wrap_int32_small (n : Int) (h0 : -2 ^ 31 ≤ n) (h1 : n < 2 ^ 31) : wrap_int32 n = n := by
  unfold wrap_int32
  omega

theorem mod_add_ne (f k c cap : Nat) (hk : k < c) (hc : c < cap) :
    (f + k) % cap ≠ (f + c) % cap := by
  intro h
  have h1 : k ≡ c [MOD cap] := Nat.ModEq.add_left_cancel (Nat.ModEq.refl f) h
  have h2 : k % cap = c % cap := h1
  rw [Nat.mod_eq_of_lt (by omega), Nat.mod_eq_of_lt hc] at h2
  omega

theorem new_spec_ring {T : Type} (init : T) (capacity : Nat) (hpos : 0 < capacity) :
    ∃ s, new init (capacity : Int) = some s ∧ WF capacity s ∧
      Holds s (DequeBasedRingBuffer.new (capacity : Int)) := by
  refine ⟨{ capacity_ := capacity, front_ := 0, count_ := 0,
            data_ := List.replicate capacity init }, ?_, ?_, ?_⟩
  · unfold new
    rw [if_neg (by omega), Int.toNat_ofNat]
  · exact { cap := rfl, pos := hpos
            front := ⟨le_refl _, by
              show (0 : Int) < capacity
              exact_mod_cast hpos⟩
            count := ⟨le_refl _, by
              show (0 : Int) ≤ capacity
              exact_mod_cast Nat.zero_le _⟩
            len := List.length_replicate _ _ }
  · exact { cap := rfl, len := rfl, elems := fun k hk => by cases hk }

/-- What is observed on the ring buffer is what is observed on the queue it holds. -/
theorem Holds.observed {T : Type} {capacity : Nat} {s : RingBuffer T}
    {q : DequeBasedRingBuffer T} (hw : WF capacity s) (h : Holds s q)
    (h31 : (capacity : Int) < 2 ^ 31) :
    s.Count = q.Count ∧ s.Empty = q.Empty ∧ s.Full = q.Full := by
  have hl := h.len
  have hc := hw.count
  have hcap := hw.cap
  have hqc : (q.capacity_ % 2 ^ 64).toNat = capacity := by
    rw [h.cap, hcap, Int.emod_eq_of_lt (by omega) (by omega), Int.toNat_ofNat]
  refine ⟨?_, ?_, ?_⟩
  · unfold Count DequeBasedRingBuffer.Count
    rw [hl, wrap_int32_small _ (by omega) (by omega)]
  · unfold Empty DequeBasedRingBuffer.Empty
    cases hq : q.queue_ with
    | nil =>
      rw [hq] at hl
      simp only [List.length_nil, Nat.cast_zero] at hl
      simp [← hl]
    | cons a l =>
      rw [hq] at hl
      simp only [List.length_cons, Nat.cast_add, Nat.cast_one] at hl
      have : s.count_ ≠ 0 := by omega
      simp [this]
  · unfold Full DequeBasedRingBuffer.Full
    rw [hqc, hcap]
    by_cases hf : s.count_ = (capacity : Int)
    · have : q.queue_.length ≥ capacity := by omega
      simp [hf, this]
    · have : ¬ q.queue_.length ≥ capacity := by omega
      simp [hf, this]

/-- One `TryPut` while `front_ + count_` is an `int`: the call returns what the
reference returns, and the ring buffer holds the queue of the reference. -/
theorem TryPut_spec {T : Type} {capacity : Nat} {s : RingBuffer T}
    {q : DequeBasedRingBuffer T} (hw : WF capacity s) (h : Holds s q)
    (h31 : (capacity : Int) < 2 ^ 31) (hsum : s.front_ + s.count_ < 2 ^ 31) (element : T) :
    ∃ s1, s.TryPut element = some ((q.TryPut element).1, s1) ∧ WF capacity s1 ∧
      Holds s1 (q.TryPut element).2 ∧ s1.front_ = s.front_ ∧
      s1.count_ = s.count_ + (if s.count_ = capacity then 0 else 1) := by
  have hl := h.len
  have hc := hw.count
  have hf := hw.front
  have hcap := hw.cap
  have hqc : (q.capacity_ % 2 ^ 64).toNat = capacity := by
    rw [h.cap, hcap, Int.emod_eq_of_lt (by omega) (by omega), Int.toNat_ofNat]
  by_cases hfull : s.count_ = (capacity : Int)
  · refine ⟨s, ?_, hw, ?_, rfl, by rw [if_pos hfull]; omega⟩
    · unfold TryPut DequeBasedRingBuffer.TryPut
      rw [hqc, if_neg (not_not.mpr (by omega)), if_pos (by omega),
        if_pos (show q.queue_.length ≥ capacity by omega)]
    · unfold DequeBasedRingBuffer.TryPut
      rw [hqc, if_pos (show q.queue_.length ≥ capacity by omega)]
      exact h
  · obtain ⟨f, hf2⟩ : ∃ f : Nat, s.front_ = f := ⟨s.front_.toNat, (Int.toNat_of_nonneg hf.1).symm⟩
    obtain ⟨c, hc2⟩ : ∃ c : Nat, s.count_ = c := ⟨s.count_.toNat, (Int.toNat_of_nonneg hc.1).symm⟩
    have hcq : q.queue_.length = c := by omega
    have hclt : c < capacity := by omega
    have hend : Int.tmod (wrap_int32 (s.front_ + s.count_)) s.capacity_ =
        (((f + c) % capacity : Nat) : Int) := by
      rw [wrap_int32_small _ (by omega) hsum, hf2, hc2, hcap,
        Int.tmod_eq_emod (by omega) (by omega)]
      push_cast
      rfl
    have hlt : (f + c) % capacity < capacity := Nat.mod_lt _ hw.pos
    have hq1 : q.TryPut element = (true, { q with queue_ := q.queue_ ++ [element] }) := by
      unfold DequeBasedRingBuffer.TryPut
      rw [hqc, if_neg (show ¬ q.queue_.length ≥ capacity by omega)]
    have hs1 : s.TryPut element = some (true,
        { s with data_ := s.data_.set ((f + c) % capacity) element,
                 count_ := s.count_ + 1 }) := by
      unfold TryPut
      rw [if_neg (not_not.mpr (by omega)), if_neg (by omega)]
      dsimp only
      rw [hend, if_pos ⟨by omega, by rw [hw.len]; exact_mod_cast hlt⟩, Int.toNat_ofNat,
        wrap_int32_small _ (by omega) (by omega)]
    rw [hq1, hs1]
    refine ⟨_, rfl, ?_, ?_, rfl, ?_⟩
    · exact { cap := hcap, pos := hw.pos, front := hf
              count := by
                show 0 ≤ s.count_ + 1 ∧ s.count_ + 1 ≤ capacity
                omega
              len := by
                show (s.data_.set _ element).length = capacity
                rw [List.length_set]
                exact hw.len }
    · refine { cap := h.cap, len := ?_, elems := ?_ }
      · show ((q.queue_ ++ [element]).length : Int) = s.count_ + 1
        rw [List.length_append]
        simp only [List.length_singleton, Nat.cast_add, Nat.cast_one]
        omega
      · intro k hk
        have hk1 : k < (q.queue_ ++ [element]).length := hk
        show (q.queue_ ++ [element])[k]? =
          (s.data_.set ((f + c) % capacity) element)[(s.front_.toNat + k) % s.capacity_.toNat]?
        rw [hcap, hf2, Int.toNat_ofNat, Int.toNat_ofNat, List.getElem?_set]
        rw [List.length_append, List.length_singleton, hcq] at hk1
        by_cases hkc : k = c
        · subst hkc
          rw [if_pos rfl, if_pos (by rw [hw.len]; exact hlt), ← hcq,
            List.getElem?_concat_length]
        · have hk2 : k < c := by omega
          rw [if_neg (fun e => mod_add_ne f k c capacity hk2 hclt e.symm),
            List.getElem?_append_left (by omega)]
          have := h.elems k (by omega)
          rw [hcap, hf2, Int.toNat_ofNat, Int.toNat_ofNat] at this
          exact this
    · show s.count_ + 1 = s.count_ + (if s.count_ = capacity then 0 else 1)
      rw [if_neg hfull]

/-- One `TryGet`: the call returns what the reference returns, with the same
element, and the ring buffer holds the queue of the reference. -/
theorem TryGet_spec {T : Type} {capacity : Nat} {s : RingBuffer T}
    {q : DequeBasedRingBuffer T} (hw : WF capacity s) (h : Holds s q)
    (h31 : (capacity : Int) < 2 ^ 31) :
    ∃ s1, s.TryGet = some (q.TryGet.1, q.TryGet.2.1, s1) ∧ WF capacity s1 ∧
      Holds s1 q.TryGet.2.2 ∧
      s1.front_ = (if s.count_ = 0 then s.front_ else (s.front_ + 1) % capacity) ∧
      s1.count_ = s.count_ - (if s.count_ = 0 then 0 else 1) := by
  have hl := h.len
  have hc := hw.count
  have hf := hw.front
  have hcap := hw.cap
  cases hq : q.queue_ with
  | nil =>
    rw [hq] at hl
    simp only [List.length_nil, Nat.cast_zero] at hl
    have hq1 : q.TryGet = (false, none, q) := by
      unfold DequeBasedRingBuffer.TryGet
      rw [hq]
    rw [hq1]
    refine ⟨s, ?_, hw, h, by rw [if_pos hl.symm], by rw [if_pos hl.symm]; omega⟩
    unfold TryGet
    rw [if_neg (not_not.mpr hc.1), if_pos hl.symm]
  | cons x rest =>
    rw [hq] at hl
    simp only [List.length_cons, Nat.cast_add, Nat.cast_one] at hl
    have hne : s.count_ ≠ 0 := by omega
    obtain ⟨f, hf2⟩ : ∃ f : Nat, s.front_ = f := ⟨s.front_.toNat, (Int.toNat_of_nonneg hf.1).symm⟩
    have hflt : f < capacity := by omega
    have hx : s.data_[s.front_.toNat]? = some x := by
      have := h.elems 0 (by rw [hq]; simp)
      rw [hq, hcap, hf2, Int.toNat_ofNat, Int.toNat_ofNat, Nat.add_zero,
        Nat.mod_eq_of_lt hflt] at this
      rw [hf2, Int.toNat_ofNat, ← this]
      simp
    have hfront : Int.tmod (wrap_int32 (s.front_ + 1)) s.capacity_ =
        (((f + 1) % capacity : Nat) : Int) := by
      rw [wrap_int32_small _ (by omega) (by omega), hf2, hcap,
        Int.tmod_eq_emod (by omega) (by omega)]
      push_cast
      rfl
    have hlt : (f + 1) % capacity < capacity := Nat.mod_lt _ hw.pos
    have hq1 : q.TryGet = (true, some x, { q with queue_ := rest }) := by
      unfold DequeBasedRingBuffer.TryGet
      rw [hq]
    have hs1 : s.TryGet = some (true, some x,
        { s with front_ := (((f + 1) % capacity : Nat) : Int), count_ := s.count_ - 1 }) := by
      unfold TryGet
      rw [if_neg (not_not.mpr hc.1), if_neg hne, if_pos hf.1, hx]
      dsimp only
      rw [hfront, wrap_int32_small _ (by omega) (by omega)]
    rw [hq1, hs1]
    refine ⟨_, rfl, ?_, ?_, ?_, ?_⟩
    · exact { cap := hcap, pos := hw.pos
              front := by
                show (0 : Int) ≤ (((f + 1) % capacity : Nat) : Int) ∧
                  (((f + 1) % capacity : Nat) : Int) < capacity
                exact ⟨Int.ofNat_nonneg _, by exact_mod_cast hlt⟩
              count := by
                show 0 ≤ s.count_ - 1 ∧ s.count_ - 1 ≤ capacity
                omega
              len := hw.len }
    · refine { cap := h.cap, len := ?_, elems := ?_ }
      · show ((rest.length : Nat) : Int) = s.count_ - 1
        omega
      · intro k hk
        have hk1 : k < rest.length := hk
        show rest[k]? = s.data_[((((f + 1) % capacity : Nat) : Int).toNat + k) %
          s.capacity_.toNat]?
        have := h.elems (k + 1) (by rw [hq]; simpa using hk1)
        rw [hq, hcap, hf2, Int.toNat_ofNat, Int.toNat_ofNat] at this
        rw [hcap, Int.toNat_ofNat, Int.toNat_ofNat, Nat.mod_add_mod]
        have e : f + 1 + k = f + (k + 1) := by omega
        rw [e, ← this]
        simp
    · show (((f + 1) % capacity : Nat) : Int) = _
      rw [if_neg hne, hf2]
      push_cast
      rfl
    · show s.count_ - 1 = _
      rw [if_neg hne]

/-- One call while `front_ + count_` is an `int`: it is not fatal, what is
observed is what is observed on the reference, and the ring buffer holds the
queue of the reference afterwards. -/
theorem step_spec {T : Type} {capacity : Nat} {s : RingBuffer T}
    {q : DequeBasedRingBuffer T} (hw : WF capacity s) (h : Holds s q)
    (h31 : (capacity : Int) < 2 ^ 31) (hsum : s.front_ + s.count_ < 2 ^ 31) (op : QueueOp T) :
    ∃ s1, s.step op = some ((q.step op).1, s1) ∧ WF capacity s1 ∧ Holds s1 (q.step op).2 := by
  cases op with
  | TryPut element =>
    obtain ⟨s1, e, w1, h1, _⟩ := TryPut_spec hw h h31 hsum element
    obtain ⟨o1, o2, o3⟩ := Holds.observed w1 h1 h31
    refine ⟨s1, ?_, w1, h1⟩
    simp only [step, DequeBasedRingBuffer.step, e, o1, o2, o3]
  | TryGet =>
    obtain ⟨s1, e, w1, h1, _⟩ := TryGet_spec hw h h31
    obtain ⟨o1, o2, o3⟩ := Holds.observed w1 h1 h31
    refine ⟨s1, ?_, w1, h1⟩
    simp only [step, DequeBasedRingBuffer.step, e, o1, o2, o3]

/-- A sequence of calls on a ring buffer of a capacity of at most `2^30`: no
call is fatal and the observations are those of the reference. -/
theorem run_refines {T : Type} {capacity : Nat} (h30 : capacity ≤ 2 ^ 30) (ops : List (QueueOp T)) :
    ∀ (s : RingBuffer T) (q : DequeBasedRingBuffer T), WF capacity s → Holds s q →
      ∃ s1, s.run ops = some ((q.run ops).1, s1) ∧ WF capacity s1 ∧ Holds s1 (q.run ops).2 := by
  induction ops with
  | nil => intro s q hw h; exact ⟨s, rfl, hw, h⟩
  | cons op rest ih =>
    intro s q hw h
    have hf := hw.front
    have hc := hw.count
    obtain ⟨s1, e1, w1, h1⟩ := step_spec hw h (by omega) (by omega) op
    obtain ⟨s2, e2, w2, h2⟩ := ih s1 _ w1 h1
    refine ⟨s2, ?_, w2, h2⟩
    rw [run, e1]
    dsimp only
    rw [e2]
    rfl

theorem run_append {T : Type} (a b : List (QueueOp T)) :
    ∀ (s : RingBuffer T) (os : List (Observation T)) (s1 : RingBuffer T),
      s.run a = some (os, s1) →
      s.run (a ++ b) = (s1.run b).map (fun r => (os ++ r.1, r.2)) := by
  induction a with
  | nil =>
    intro s os s1 h
    rw [run] at h
    cases h
    cases hb : s.run b with
    | none => simp [hb]
    | some r => simp [hb]
  | cons op rest ih =>
    intro s os s1 h
    rw [run] at h
    rw [List.cons_append, run]
    cases hs : s.step op with
    | none => rw [hs] at h; cases h
    | some r =>
      obtain ⟨o, s2⟩ := r
      rw [hs] at h
      dsimp only at h ⊢
      cases hr : s2.run rest with
      | none => rw [hr] at h; cases h
      | some r2 =>
        obtain ⟨os2, s3⟩ := r2
        rw [hr] at h
        simp only [Option.some.injEq, Prod.mk.injEq] at h
        obtain ⟨h1, h2⟩ := h
        subst h1
        subst h2
        rw [ih s2 os2 s3 hr]
        cases hb : s3.run b with
        | none => simp
        | some r3 => simp

/-- The calls `TryPut(element)`, `n` times, while the buffer has room and
`front_ + count_` stays an `int`. -/
theorem run_puts {T : Type} {capacity : Nat} (h31 : (capacity : Int) < 2 ^ 31) (element : T)
    (n : Nat) :
    ∀ (s : RingBuffer T) (q : DequeBasedRingBuffer T), WF capacity s → Holds s q →
      s.count_ + n ≤ capacity → s.front_ + s.count_ + n ≤ 2 ^ 31 →
      ∃ os s1, s.run (List.replicate n (QueueOp.TryPut element)) = some (os, s1) ∧
        WF capacity s1 ∧
        Holds s1 (q.run (List.replicate n (QueueOp.TryPut element))).2 ∧
        s1.front_ = s.front_ ∧ s1.count_ = s.count_ + n := by
  induction n with
  | zero =>
    intro s q hw h _ _
    exact ⟨[], s, rfl, hw, h, rfl, by simp⟩
  | succ n ih =>
    intro s q hw h hroom hsum
    push_cast at hroom hsum
    obtain ⟨s1, e1, w1, h1, f1, c1⟩ := TryPut_spec hw h h31 (by omega) element
    rw [if_neg (by omega)] at c1
    have hst : s.step (QueueOp.TryPut element) =
        some ({ ret := (q.TryPut element).1, element := none, count := s1.Count,
                empty := s1.Empty, full := s1.Full }, s1) := by
      simp only [step, e1]
    obtain ⟨os, s2, e2, w2, h2, f2, c2⟩ := ih s1 _ w1 h1 (by omega) (by omega)
    refine ⟨{ ret := (q.TryPut element).1, element := none, count := s1.Count,
              empty := s1.Empty, full := s1.Full } :: os, s2, ?_, w2, ?_, by rw [f2, f1],
      by rw [c2, c1]; push_cast; omega⟩
    · rw [List.replicate_succ, run, hst]
      dsimp only
      rw [e2]
    · rw [List.replicate_succ]
      exact h2

/-- The calls `TryGet(&element)`, `n` times, while the buffer holds elements and
`front_` does not pass the end of `data_`. -/
theorem run_gets {T : Type} {capacity : Nat} (h31 : (capacity : Int) < 2 ^ 31) (n : Nat) :
    ∀ (s : RingBuffer T) (q : DequeBasedRingBuffer T), WF capacity s → Holds s q →
      (n : Int) ≤ s.count_ → s.front_ + n < capacity →
      ∃ os s1, s.run (List.replicate n QueueOp.TryGet) = some (os, s1) ∧
        WF capacity s1 ∧ Holds s1 (q.run (List.replicate n QueueOp.TryGet)).2 ∧
        s1.front_ = s.front_ + n ∧ s1.count_ = s.count_ - n := by
  induction n with
  | zero =>
    intro s q hw h _ _
    exact ⟨[], s, rfl, hw, h, by simp, by simp⟩
  | succ n ih =>
    intro s q hw h hcnt hfr
    push_cast at hcnt hfr
    have hf := hw.front
    obtain ⟨s1, e1, w1, h1, f1, c1⟩ := TryGet_spec hw h h31
    rw [if_neg (by omega)] at c1 f1
    rw [Int.emod_eq_of_lt (by omega) (by omega)] at f1
    have hst : s.step QueueOp.TryGet =
        some ({ ret := q.TryGet.1, element := q.TryGet.2.1, count := s1.Count,
                empty := s1.Empty, full := s1.Full }, s1) := by
      simp only [step, e1]
    obtain ⟨os, s2, e2, w2, h2, f2, c2⟩ := ih s1 _ w1 h1 (by omega) (by omega)
    refine ⟨{ ret := q.TryGet.1, element := q.TryGet.2.1, count := s1.Count,
              empty := s1.Empty, full := s1.Full } :: os, s2, ?_, w2, ?_,
      by rw [f2, f1]; push_cast; omega, by rw [c2, c1]; push_cast; omega⟩
    · rw [List.replicate_succ, run, hst]
      dsimp only
      rw [e2]
    · rw [List.replicate_succ]
      exact h2

end RingBuffer

namespace DequeBasedRingBuffer

theorem run_append_snd {T : Type} (a b : List (QueueOp T)) :
    ∀ q : DequeBasedRingBuffer T, (q.run (a ++ b)).2 = ((q.run a).2.run b).2 := by
  induction a with
  | nil => intro q; rfl
  | cons op rest ih =>
    intro q
    rw [List.cons_append, run, run]
    exact ih _

end DequeBasedRingBuffer

namespace RingBuffer

/-- For a capacity between 1 and `2^30` the ring buffer behaves as the reference
queue: no call of a sequence of `TryPut` and `TryGet` calls is fatal, each
call returns what the reference returns, `TryGet` yields the same element, and
`Count()`, `Empty()` and `Full()` agree after every call. -/
theorem run_eq_reference {T : Type} (init : T) (capacity : Nat) (h1 : 1 ≤ capacity)
    (h30 : capacity ≤ 2 ^ 30) (ops : List (QueueOp T)) :
    ∃ s0 s1, new init (capacity : Int) = some s0 ∧
      s0.run ops =
        some (((DequeBasedRingBuffer.new (capacity : Int)).run ops).1, s1) := by
  obtain ⟨s0, e0, w0, h0⟩ := new_spec_ring init capacity h1
  obtain ⟨s1, e1, _, _⟩ := run_refines h30 ops s0 _ w0 h0
  exact ⟨s0, s1, e0, e1⟩

theorem tmod_overflowed : Int.tmod (wrap_int32 (1073741824 + 1073741824)) 2147483647 = -1 := by
  decide

/-- C31, at the failing input. On `RingBuffer<T>(2147483647)`, after `2^30` calls
of `TryPut`, `2^30` calls of `TryGet` and `2^30` calls of `TryPut`, none of
which is fatal, `front_` and `count_` are both `2^30`, and one more `TryPut` is
fatal: `front_ + count_` overflows `int`, `end` is -1, not an index of
`data_`; the reference returns true. -/
theorem TryPut_overflows_above_2_pow_30 {T : Type} (init element : T) :
    ∃ s0 os s3,
      new init 2147483647 = some s0 ∧
      s0.run (List.replicate 1073741824 (QueueOp.TryPut element) ++
        (List.replicate 1073741824 QueueOp.TryGet ++
          List.replicate 1073741824 (QueueOp.TryPut element))) = some (os, s3) ∧
      s3.Capacity = 2147483647 ∧ s3.front_ = 1073741824 ∧ s3.Count = 1073741824 ∧
      s3.TryPut element = none ∧
      (((DequeBasedRingBuffer.new 2147483647).run
        (List.replicate 1073741824 (QueueOp.TryPut element) ++
          (List.replicate 1073741824 QueueOp.TryGet ++
            List.replicate 1073741824 (QueueOp.TryPut element)))).2.TryPut element).1 = true ∧
      s0.run (List.replicate 1073741824 (QueueOp.TryPut element) ++
        (List.replicate 1073741824 QueueOp.TryGet ++
          List.replicate 1073741824 (QueueOp.TryPut element)) ++
        [QueueOp.TryPut element]) = none := by
  have h31 : ((2147483647 : Nat) : Int) < 2 ^ 31 := by norm_num
  obtain ⟨s0, e0, w0, h0⟩ := new_spec_ring init 2147483647 (by norm_num)
  have f0 : s0.front_ = 0 := by
    unfold new at e0
    rw [if_neg (by norm_num)] at e0
    cases e0
    rfl
  have c0 : s0.count_ = 0 := by
    unfold new at e0
    rw [if_neg (by norm_num)] at e0
    cases e0
    rfl
  obtain ⟨os1, s1, e1, w1, h1, f1, c1⟩ := run_puts h31 element 1073741824 s0 _ w0 h0
    (by rw [c0]; norm_num) (by rw [f0, c0]; norm_num)
  obtain ⟨os2, s2, e2, w2, h2, f2, c2⟩ := run_gets h31 1073741824 s1 _ w1 h1
    (by rw [c1, c0]; norm_num) (by rw [f1, f0]; norm_num)
  obtain ⟨os3, s3, e3, w3, h3, f3, c3⟩ := run_puts h31 element 1073741824 s2 _ w2 h2
    (by rw [c2, c1, c0]; norm_num) (by rw [f2, f1, f0, c2, c1, c0]; norm_num)
  have hf3 : s3.front_ = 1073741824 := by rw [f3, f2, f1, f0]; norm_num
  have hc3 : s3.count_ = 1073741824 := by rw [c3, c2, c1, c0]; norm_num
  have hcap3 : s3.capacity_ = 2147483647 := by rw [w3.cap]; norm_num
  have e23 := run_append (List.replicate 1073741824 QueueOp.TryGet)
    (List.replicate 1073741824 (QueueOp.TryPut element)) s1 os2 s2 e2
  rw [e3] at e23
  have e123 := run_append (List.replicate 1073741824 (QueueOp.TryPut element))
    (List.replicate 1073741824 QueueOp.TryGet ++
      List.replicate 1073741824 (QueueOp.TryPut element)) s0 os1 s1 e1
  rw [e23] at e123
  have hput : s3.TryPut element = none := by
    unfold TryPut
    rw [hf3, hc3, hcap3, if_neg (by norm_num), if_neg (by norm_num)]
    dsimp only
    rw [tmod_overflowed, if_neg (by norm_num)]
  have href : (((DequeBasedRingBuffer.new 2147483647).run
      (List.replicate 1073741824 (QueueOp.TryPut element) ++
        (List.replicate 1073741824 QueueOp.TryGet ++
          List.replicate 1073741824 (QueueOp.TryPut element)))).2.TryPut element).1 = true := by
    rw [DequeBasedRingBuffer.run_append_snd, DequeBasedRingBuffer.run_append_snd]
    have hl := h3.len
    have hc := h3.cap
    rw [hc3] at hl
    rw [hcap3] at hc
    unfold DequeBasedRingBuffer.TryPut
    have hl2 : ((DequeBasedRingBuffer.run
        ((DequeBasedRingBuffer.run
          ((DequeBasedRingBuffer.run (DequeBasedRingBuffer.new ((2147483647 : Nat) : Int))
            (List.replicate 1073741824 (QueueOp.TryPut element))).2)
          (List.replicate 1073741824 QueueOp.TryGet)).2)
        (List.replicate 1073741824 (QueueOp.TryPut element))).2).queue_.length = 1073741824 := by
      exact_mod_cast hl
    have hnew : (DequeBasedRingBuffer.new (2147483647 : Int) : DequeBasedRingBuffer T) =
        DequeBasedRingBuffer.new ((2147483647 : Nat) : Int) := rfl
    rw [hnew, hl2, hc, if_neg (by norm_num)]
  refine ⟨s0, _, s3, e0, e123, hcap3, hf3, hc3, hput, href, ?_⟩
  rw [run_append _ [QueueOp.TryPut element] s0 _ s3 e123]
  have : s3.run [QueueOp.TryPut element] = none := by
    rw [run, step, hput]
  rw [this]
  rfl

end RingBuffer

namespace BloomFilter

/-! ## BloomFilter: the hash keys and the warning -/

theorem land_pred_eq_zero_iff (m : Nat) (hm : 1 ≤ m) :
    m &&& (m - 1) = 0 ↔ ∃ j, m = 2 ^ j := by
  constructor
  · intro h
    by_contra hne
    push_neg at hne
    have h1 : 0 < m.size := Nat.size_pos.mpr (by omega)
    have h2 : 2 ^ (m.size - 1) ≤ m := Nat.lt_size.mp (by omega)
    have h3 : m < 2 ^ m.size := Nat.lt_size_self m
    have h4 : 2 ^ (m.size - 1) ≠ m := fun e => hne (m.size - 1) e.symm
    have h5 : 2 ^ (m.size - 1) ≤ m - 1 := by omega
    have h6 : (m - 1).size = m.size := by
      apply le_antisymm
      · exact Nat.size_le.mpr (by omega)
      · have : m.size - 1 < (m - 1).size := Nat.lt_size.mpr h5
        omega
    have hpos : 0 < 2 ^ (m.size - 1) := Nat.two_pow_pos _
    have b1 := testBit_top m (by omega)
    have b2 := testBit_top (m - 1) (by omega)
    rw [h6] at b2
    have b3 : (m &&& (m - 1)).testBit (m.size - 1) = true := by
      rw [Nat.testBit_and, b1, b2]
      rfl
    rw [h, Nat.zero_testBit] at b3
    cases b3
  · rintro ⟨j, rfl⟩
    rw [Nat.and_pow_two_sub_one_eq_mod, Nat.mod_self]

/-- The helper `IsPowerOf2` on a positive `int64`: whether it is a power of two. -/
theorem IsPowerOf2_iff (x : Int) (hx : 1 ≤ x) : IsPowerOf2 x = true ↔ ∃ j : Nat, x = 2 ^ j := by
  obtain ⟨m, rfl⟩ : ∃ m : Nat, x = m := ⟨x.toNat, (Int.toNat_of_nonneg (by omega)).symm⟩
  have hm : 1 ≤ m := by exact_mod_cast hx
  have hsub : ((m : Int) - 1) = ((m - 1 : Nat) : Int) := by omega
  have hland : Int.land (m : Int) ((m : Int) - 1) = ((m &&& (m - 1) : Nat) : Int) := by
    rw [hsub]
    rfl
  unfold IsPowerOf2
  rw [hland]
  simp only [Bool.or_eq_true, beq_iff_eq]
  constructor
  · rintro (h | h)
    · have h0 : m &&& (m - 1) = 0 := by exact_mod_cast h
      obtain ⟨j, hj⟩ := (land_pred_eq_zero_iff m hm).mp h0
      exact ⟨j, by rw [hj]; push_cast; rfl⟩
    · exact ⟨0, by rw [h]; rfl⟩
  · rintro ⟨j, hj⟩
    left
    have : m = 2 ^ j := by exact_mod_cast hj
    have h0 := (land_pred_eq_zero_iff m hm).mpr ⟨j, this⟩
    rw [h0]
    rfl

theorem Overused.log_regulator {hash : Nat → Nat → Nat} {bit_size : Nat}
    {expected_num_elements : Int} {rounded : Nat} {rand_gen : Nat → Nat} {s : BloomFilter}
    {n : Nat} (hs : Overused hash bit_size expected_num_elements rounded rand_gen s n)
    (hn : (n : Int) < 2 ^ 63) :
    s.log_regulator_ = n ∧ s.expected_num_elements_ = expected_num_elements := by
  induction hs with
  | constructed => exact ⟨rfl, rfl⟩
  | insert s n key _ ih =>
    have hle : ((n : Nat) : Int) < 2 ^ 63 := by
      split_ifs at hn
      · push_cast at hn; omega
      · exact hn
    obtain ⟨i1, i2⟩ := ih hle
    have hnum : (Insert hash s key).2.NumElements = wrap_int64 (s.num_inserts_ + 1) := rfl
    have hexp : (Insert hash s key).2.expected_num_elements_ = s.expected_num_elements_ := rfl
    have hreg : (Insert hash s key).2.log_regulator_ =
        if wrap_int64 (s.num_inserts_ + 1) > s.expected_num_elements_
        then wrap_int64 (s.log_regulator_ + 1) else s.log_regulator_ := rfl
    rw [hexp, hreg, hnum, i2]
    refine ⟨?_, rfl⟩
    split_ifs with hc
    · rw [hnum, if_pos hc] at hn
      push_cast at hn ⊢
      rw [i1, CuckooFilter.wrap_int64_small _ (by omega) (by omega)]
    · exact i1
  | clear s n _ ih => exact ih hn

theorem six_not_power_of_two : ¬ ∃ j : Nat, (6 : Int) = 2 ^ j := by
  rintro ⟨j, hj⟩
  have h : (6 : Nat) = 2 ^ j := by exact_mod_cast hj
  have hj3 : j < 3 := by
    by_contra hge
    have : 2 ^ 3 ≤ 2 ^ j := Nat.pow_le_pow_right (by norm_num) (by omega)
    omega
  interval_cases j <;> omega

set_option maxRecDepth 100000 in
/-- Five inserts into `BloomFilter(8, 5)`: the counters afterwards, and after a
sixth insert. -/
theorem sample_counters :
    (InsertAll (fun key seed => key + seed) (new 8 5 1 (fun i => i))
      [1, 2, 3, 4, 5]).num_inserts_ = 5 ∧
    (InsertAll (fun key seed => key + seed) (new 8 5 1 (fun i => i))
      [1, 2, 3, 4, 5]).log_regulator_ = 0 ∧
    (InsertAll (fun key seed => key + seed) (new 8 5 1 (fun i => i))
      [1, 2, 3, 4, 5]).expected_num_elements_ = 5 ∧
    (Insert (fun key seed => key + seed)
      (InsertAll (fun key seed => key + seed) (new 8 5 1 (fun i => i)) [1, 2, 3, 4, 5])
      6).2.num_inserts_ = 6 :=
  ⟨rfl, rfl, rfl, rfl⟩

/-- C36, counterexample. On `BloomFilter(8, 5)` the sixth `Insert` logs the
warning, and `NumElements()` is then 6, which exceeds 5 and is not a power of
two. -/
theorem warns_at_six_inserts :
    Insert.warns (InsertAll (fun key seed => key + seed) (new 8 5 1 (fun i => i))
      [1, 2, 3, 4, 5]) = true ∧
    (Insert (fun key seed => key + seed)
      (InsertAll (fun key seed => key + seed) (new 8 5 1 (fun i => i)) [1, 2, 3, 4, 5])
      6).2.NumElements = 6 ∧
    ¬ ∃ j : Nat, (6 : Int) = 2 ^ j := by
  obtain ⟨h1, h2, h3, h4⟩ := sample_counters
  refine ⟨?_, h4, six_not_power_of_two⟩
  unfold Insert.warns
  rw [h1, h2, h3]
  decide

set_option maxRecDepth 100000 in
/-- Five inserts into `BloomFilter(8, 5)`: none has exceeded the expected number. -/
theorem sample_Overused :
    Overused (fun key seed => key + seed) 8 5 1 (fun i => i)
      (InsertAll (fun key seed => key + seed) (new 8 5 1 (fun i => i)) [1, 2, 3, 4, 5]) 0 :=
  Overused.insert _ 0 5 (Overused.insert _ 0 4 (Overused.insert _ 0 3
    (Overused.insert _ 0 2 (Overused.insert _ 0 1 Overused.constructed))))

/-- C36, amended. The warning is throttled on `log_regulator_`, the number of
`Insert` calls since the construction after which `NumElements()` exceeded
`expected_num_elements`, which `Clear()` does not reset: an `Insert` call logs
the warning exactly when, after the call, `NumElements()` exceeds
`expected_num_elements` and `log_regulator_` is a power of two. -/
theorem warns_iff_regulator_power_of_two (hash : Nat → Nat → Nat) (bit_size : Nat)
    (expected_num_elements : Int) (rounded : Nat) (rand_gen : Nat → Nat) (s : BloomFilter)
    (n : Nat) (hs : Overused hash bit_size expected_num_elements rounded rand_gen s n)
    (hn : (n : Int) < 2 ^ 63 - 1) (key : Nat) :
    s.log_regulator_ = n ∧
    (Insert hash s key).2.log_regulator_ =
      (if (Insert hash s key).2.NumElements > expected_num_elements then (n : Int) + 1 else n) ∧
    (Insert.warns s = true ↔
      (Insert hash s key).2.NumElements > expected_num_elements ∧
        ∃ j : Nat, (Insert hash s key).2.log_regulator_ = 2 ^ j) ∧
    (Clear s).log_regulator_ = s.log_regulator_ := by
  obtain ⟨i1, i2⟩ := hs.log_regulator (by omega)
  have hnum : (Insert hash s key).2.NumElements = wrap_int64 (s.num_inserts_ + 1) := rfl
  have hreg : (Insert hash s key).2.log_regulator_ =
      if wrap_int64 (s.num_inserts_ + 1) > s.expected_num_elements_
      then wrap_int64 (s.log_regulator_ + 1) else s.log_regulator_ := rfl
  have hw : wrap_int64 (s.log_regulator_ + 1) = (n : Int) + 1 := by
    rw [i1, CuckooFilter.wrap_int64_small _ (by omega) (by omega)]
  rw [hreg, hnum, i2, hw]
  refine ⟨i1, ?_, ?_, rfl⟩
  · split_ifs
    · rfl
    · exact i1
  · unfold Insert.warns
    dsimp only
    rw [i2, hw, Bool.and_eq_true, decide_eq_true_iff,
      IsPowerOf2_iff _ (by omega)]
    constructor
    · rintro ⟨h1, h2⟩
      exact ⟨h1, by rw [if_pos h1]; exact h2⟩
    · rintro ⟨h1, h2⟩
      rw [if_pos h1] at h2
      exact ⟨h1, h2⟩

theorem warns_iff_regulator_power_of_two_witness :
    (Overused (fun key seed => key + seed) 8 5 1 (fun i => i)
      (InsertAll (fun key seed => key + seed) (new 8 5 1 (fun i => i)) [1, 2, 3, 4, 5]) 0 ∧
      ((0 : Nat) : Int) < 2 ^ 63 - 1) ∧
    (Insert.warns (InsertAll (fun key seed => key + seed) (new 8 5 1 (fun i => i))
        [1, 2, 3, 4, 5]) = true ↔
      (Insert (fun key seed => key + seed)
        (InsertAll (fun key seed => key + seed) (new 8 5 1 (fun i => i)) [1, 2, 3, 4, 5])
        6).2.NumElements > 5 ∧
        ∃ j : Nat, (Insert (fun key seed => key + seed)
          (InsertAll (fun key seed => key + seed) (new 8 5 1 (fun i => i)) [1, 2, 3, 4, 5])
          6).2.log_regulator_ = 2 ^ j) :=
  ⟨⟨sample_Overused, by norm_num⟩,
    (warns_iff_regulator_power_of_two (fun key seed => key + seed) 8 5 1 (fun i => i) _ 0
      sample_Overused (by norm_num) 6).2.2.1⟩

end BloomFilter

namespace ExpandableBloomFilter

/-! ## ExpandableBloomFilter: the generations -/

theorem concat_inj {α : Type} {a b : List α} {x y : α} (h : a ++ [x] = b ++ [y]) :
    a = b ∧ x = y := by
  have h2 := congrArg List.reverse h
  simp only [List.reverse_append, List.reverse_cons, List.reverse_nil, List.nil_append,
    List.singleton_append, List.cons.injEq, List.reverse_inj] at h2
  exact ⟨h2.2, h2.1⟩

theorem singleton_eq_concat {α : Type} {pre : List α} {x last : α}
    (h : [x] = pre ++ [last]) : pre = [] := by
  have hlen := congrArg List.length h
  rw [List.length_append] at hlen
  simp only [List.length_singleton] at hlen
  exact List.length_eq_zero.mp (by omega)

/-- Every instance but the last is full. -/
theorem Reachable.full_but_last {hash : Nat → Nat → Nat} {B : Nat} {c : Int}
    {rounded : Nat → Int → Nat} {rand_gen : Nat → Nat} {s : ExpandableBloomFilter}
    (h : Reachable hash B c rounded rand_gen s) :
    ∀ pre last, s.instances_ = pre ++ [last] →
      ∀ b ∈ pre, b.bf_.num_inserts_ = b.cutoff_size_ := by
  induction h with
  | constructed =>
    intro pre last hpre b hb
    have : pre = [] := singleton_eq_concat hpre
    rw [this] at hb
    cases hb
  | insert s key ret s1 _ hi ih =>
    intro pre last hpre b hb
    rcases Insert_inv hash rounded rand_gen s key ret s1 hi with
      ⟨_, he, _⟩ | ⟨_, _, _, pre0, last0, hpre0, _, hcase⟩
    · rw [he] at hpre
      exact ih pre last hpre b hb
    · rcases hcase with ⟨_, _, hs1⟩ | ⟨hfull, _, _, hs1⟩
      · rw [hs1] at hpre
        obtain ⟨e, _⟩ := concat_inj hpre
        rw [← e] at hb
        exact ih pre0 last0 hpre0 b hb
      · rw [hs1] at hpre
        obtain ⟨e, _⟩ := concat_inj hpre
        rw [← e, hpre0] at hb
        rcases List.mem_append.mp hb with hb | hb
        · exact ih pre0 last0 hpre0 b hb
        · rw [List.mem_singleton] at hb
          rw [hb]
          exact hfull
  | clear s s1 _ hcl _ =>
    intro pre last hpre b hb
    unfold Clear at hcl
    cases hl : s.instances_ with
    | nil => rw [hl] at hcl; cases hcl
    | cons front rest =>
      rw [hl] at hcl
      simp only [Option.some.injEq] at hcl
      rw [← hcl] at hpre
      have : pre = [] := singleton_eq_concat hpre
      rw [this] at hb
      cases hb

/-- C32. The generation invariant: in every state reachable by `Insert` and
`Clear` from the construction with `initial_cutoff_size >= 1`, `NumElements()`
of every generation is at most its `cutoff_size_`, every generation except the
last is exactly at its cutoff, and so the `CHECK_LE` at the start of `Insert`
does not fail; while the total capacity and the total bit size are `int64`
values no other `CHECK` of `Insert` fails either. -/
theorem generations_within_cutoff (hash : Nat → Nat → Nat) (initial_bit_size : Nat)
    (initial_cutoff_size : Int) (rounded : Nat → Int → Nat) (rand_gen : Nat → Nat)
    (hcut : 1 ≤ initial_cutoff_size) (hcut63 : initial_cutoff_size < 2 ^ 63)
    (s : ExpandableBloomFilter)
    (hs : Reachable hash initial_bit_size initial_cutoff_size rounded rand_gen s) :
    (∀ b ∈ s.instances_, b.bf_.NumElements ≤ b.cutoff_size_) ∧
    (∀ pre last, s.instances_ = pre ++ [last] →
      ∀ b ∈ pre, b.bf_.NumElements = b.cutoff_size_) ∧
    (∃ last, s.instances_.getLast? = some last ∧
      ¬ last.bf_.NumElements > last.cutoff_size_) ∧
    (s.capacity < 2 ^ 63 → s.bits < 2 ^ 63 →
      ∀ key, ∃ ret s1, Insert hash rounded rand_gen s key = some (ret, s1)) := by
  have hwf := hs.ebf_wf hcut hcut63
  have hfull := hs.full_but_last
  obtain ⟨pre, last, hpre⟩ : ∃ pre last, s.instances_ = pre ++ [last] := by
    rcases List.eq_nil_or_concat s.instances_ with h | ⟨pre, last, h⟩
    · exact absurd h hwf.nonempty
    · exact ⟨pre, last, by rw [h, List.concat_eq_append]⟩
  have hl : s.instances_.getLast? = some last := by rw [hpre, List.getLast?_concat]
  have hlast := hwf.last last hl
  refine ⟨?_, hfull, ⟨last, hl, not_lt.mpr hlast⟩, ?_⟩
  · intro b hb
    rw [hpre] at hb
    rcases List.mem_append.mp hb with hb | hb
    · exact le_of_eq (hfull pre last hpre b hb)
    · rw [List.mem_singleton] at hb
      rw [hb]
      exact hlast
  · intro hcap hbits key
    exact Insert_returns hash rounded rand_gen initial_bit_size s hwf hcap hbits key

theorem generations_within_cutoff_witness :
    ((1 : Int) ≤ 1 ∧ (1 : Int) < 2 ^ 63 ∧
      Reachable (fun key seed => key + seed) 8 1 (fun _ _ => 1) (fun i => i) sampleExpandable) ∧
    ((∀ b ∈ sampleExpandable.instances_, b.bf_.NumElements ≤ b.cutoff_size_) ∧
    (∀ pre last, sampleExpandable.instances_ = pre ++ [last] →
      ∀ b ∈ pre, b.bf_.NumElements = b.cutoff_size_) ∧
    (∃ last, sampleExpandable.instances_.getLast? = some last ∧
      ¬ last.bf_.NumElements > last.cutoff_size_) ∧
    (sampleExpandable.capacity < 2 ^ 63 → sampleExpandable.bits < 2 ^ 63 →
      ∀ key, ∃ ret s1, Insert (fun key seed => key + seed) (fun _ _ => 1) (fun i => i)
        sampleExpandable key = some (ret, s1))) :=
  ⟨⟨by decide, by norm_num, sample_Reachable⟩,
    generations_within_cutoff (fun key seed => key + seed) 8 1 (fun _ _ => 1) (fun i => i)
      (by decide) (by norm_num) sampleExpandable sample_Reachable⟩

/-- C33. The insert into the last generation always succeeds: in every state
of a filter constructed with `initial_bit_size >= 1` and
`initial_cutoff_size >= 1` whose total capacity and total bit size are `int64`
values, for every key with `Contains(key) == false`, `Insert` returns true, and
the `BloomFilter::Insert` it performs returns true: on the last generation when
that one is not full, and else on the generation it appends, which has the bit
size and the cutoff size of all generations together. -/
theorem last_generation_Insert_succeeds (hash : Nat → Nat → Nat) (initial_bit_size : Nat)
    (initial_cutoff_size : Int) (rounded : Nat → Int → Nat) (rand_gen : Nat → Nat)
    (_hbits : 1 ≤ initial_bit_size) (hcut : 1 ≤ initial_cutoff_size)
    (hcut63 : initial_cutoff_size < 2 ^ 63) (s : ExpandableBloomFilter)
    (hs : Reachable hash initial_bit_size initial_cutoff_size rounded rand_gen s)
    (hcap : s.capacity < 2 ^ 63) (hsize : s.bits < 2 ^ 63) (key : Nat)
    (hkey : s.Contains hash key = false) :
    ∃ s1 pre last, Insert hash rounded rand_gen s key = some (true, s1) ∧
      s.instances_ = pre ++ [last] ∧
      (last.bf_.NumElements ≠ last.cutoff_size_ →
        (BloomFilter.Insert hash last.bf_ key).1 = true ∧
        s1.instances_ =
          pre ++ [{ last with bf_ := (BloomFilter.Insert hash last.bf_ key).2 }]) ∧
      (last.bf_.NumElements = last.cutoff_size_ →
        (BloomFilter.Insert hash
          (BloomFilter.new s.bits.toNat s.capacity (rounded s.bits.toNat s.capacity) rand_gen)
          key).1 = true ∧
        s1.instances_ = s.instances_ ++
          [{ bf_ := (BloomFilter.Insert hash
                (BloomFilter.new s.bits.toNat s.capacity (rounded s.bits.toNat s.capacity)
                  rand_gen) key).2
             cutoff_size_ := s.capacity }]) := by
  have hwf := hs.ebf_wf hcut hcut63
  obtain ⟨ret, s1, hi⟩ := Insert_returns hash rounded rand_gen initial_bit_size s hwf hcap hsize key
  have hsums := sums_of_WF initial_bit_size s hwf hcap hsize
  rcases Insert_inv hash rounded rand_gen s key ret s1 hi with
    ⟨_, _, hc⟩ | ⟨hret, _, _, pre, last, hpre, _, hcase⟩
  · rw [hkey] at hc
    cases hc
  · subst hret
    refine ⟨s1, pre, last, hi, hpre, ?_, ?_⟩
    · intro hne
      rcases hcase with ⟨_, h2, h3⟩ | ⟨hfull, _⟩
      · exact ⟨h2, h3⟩
      · exact absurd hfull hne
    · intro hfull
      rcases hcase with ⟨hne, _⟩ | ⟨_, _, _, h4⟩
      · exact absurd hfull hne
      · rw [hsums] at h4
        refine ⟨?_, h4⟩
        rw [BloomFilter.Insert_fst_eq_not_Contains hash _ key (BloomFilter.new_WF _ _ _ _),
          BloomFilter.Contains_new]
        rfl

theorem last_generation_Insert_succeeds_witness :
    (1 ≤ 8 ∧ (1 : Int) ≤ 1 ∧ (1 : Int) < 2 ^ 63 ∧
      Reachable (fun key seed => key + seed) 8 1 (fun _ _ => 1) (fun i => i) sampleExpandable ∧
      sampleExpandable.capacity < 2 ^ 63 ∧ sampleExpandable.bits < 2 ^ 63 ∧
      sampleExpandable.Contains (fun key seed => key + seed) 26 = false) ∧
    ∃ s1 pre last, Insert (fun key seed => key + seed) (fun _ _ => 1) (fun i => i)
        sampleExpandable 26 = some (true, s1) ∧
      sampleExpandable.instances_ = pre ++ [last] ∧
      (last.bf_.NumElements ≠ last.cutoff_size_ →
        (BloomFilter.Insert (fun key seed => key + seed) last.bf_ 26).1 = true ∧
        s1.instances_ =
          pre ++ [{ last with
            bf_ := (BloomFilter.Insert (fun key seed => key + seed) last.bf_ 26).2 }]) ∧
      (last.bf_.NumElements = last.cutoff_size_ →
        (BloomFilter.Insert (fun key seed => key + seed)
          (BloomFilter.new sampleExpandable.bits.toNat sampleExpandable.capacity
            ((fun _ _ => 1) sampleExpandable.bits.toNat sampleExpandable.capacity) (fun i => i))
          26).1 = true ∧
        s1.instances_ = sampleExpandable.instances_ ++
          [{ bf_ := (BloomFilter.Insert (fun key seed => key + seed)
                (BloomFilter.new sampleExpandable.bits.toNat sampleExpandable.capacity
                  ((fun _ _ => 1) sampleExpandable.bits.toNat sampleExpandable.capacity)
                  (fun i => i)) 26).2
             cutoff_size_ := sampleExpandable.capacity }]) :=
  ⟨⟨by decide, by decide, by norm_num, sample_Reachable, by decide, by decide, by decide⟩,
    last_generation_Insert_succeeds (fun key seed => key + seed) 8 1 (fun _ _ => 1)
      (fun i => i) (by decide) (by decide) (by norm_num) sampleExpandable sample_Reachable
      (by decide) (by decide) 26 (by decide)⟩

theorem Counted.to_Reachable {hash : Nat → Nat → Nat} {B : Nat} {c : Int}
    {rounded : Nat → Int → Nat} {rand_gen : Nat → Nat} {s : ExpandableBloomFilter} {n : Nat}
    (h : Counted hash B c rounded rand_gen s n) : Reachable hash B c rounded rand_gen s := by
  induction h with
  | constructed => exact Reachable.constructed
  | insert s _ key ret s1 _ hi ih => exact Reachable.insert s key ret s1 ih hi
  | clear s _ s1 _ hcl ih => exact Reachable.clear s s1 ih hcl

/-- Every reachable state has a count of the `Insert` calls that returned
true. -/
theorem Reachable.counted {hash : Nat → Nat → Nat} {B : Nat} {c : Int}
    {rounded : Nat → Int → Nat} {rand_gen : Nat → Nat} {s : ExpandableBloomFilter}
    (h : Reachable hash B c rounded rand_gen s) :
    ∃ n, Counted hash B c rounded rand_gen s n := by
  induction h with
  | constructed => exact ⟨0, Counted.constructed⟩
  | insert s key ret s1 _ hi ih =>
    obtain ⟨n, hn⟩ := ih
    exact ⟨_, Counted.insert s n key ret s1 hn hi⟩
  | clear s s1 _ hcl ih =>
    obtain ⟨n, hn⟩ := ih
    exact ⟨0, Counted.clear s n s1 hn hcl⟩

theorem elements_concat (pre : List BfInstance) (last : BfInstance) (num : Int) :
    elements { instances_ := pre ++ [last], num_inserts_ := num } =
      (pre.map (fun b => b.bf_.NumElements)).sum + last.bf_.NumElements := by
  simp [elements]

theorem elements_eq (s : ExpandableBloomFilter) (l : List BfInstance)
    (h : s.instances_ = l) : s.elements = (l.map (fun b => b.bf_.NumElements)).sum := by
  rw [← h]
  rfl

theorem Counted.num_inserts_eq {hash : Nat → Nat → Nat} {B : Nat} {c : Int}
    {rounded : Nat → Int → Nat} {rand_gen : Nat → Nat} (hc : 1 ≤ c) (hc63 : c < 2 ^ 63)
    {s : ExpandableBloomFilter} {n : Nat}
    (h : Counted hash B c rounded rand_gen s n) :
    (n : Int) < 2 ^ 63 → s.num_inserts_ = n ∧ s.elements = n := by
  induction h with
  | constructed =>
    intro _
    exact ⟨rfl, by simp [elements, new, BloomFilter.NumElements, BloomFilter.new]⟩
  | insert s n key ret s1 hcnt hi ih =>
    intro hn
    have hwf := hcnt.to_Reachable.ebf_wf hc hc63
    rcases Insert_inv hash rounded rand_gen s key ret s1 hi with
      ⟨hret, he, _⟩ | ⟨hret, _, hnum, pre, last, hpre, hle, hcase⟩
    · subst hret
      rw [he]
      exact ih (by simpa using hn)
    · subst hret
      rw [if_pos rfl] at hn ⊢
      push_cast at hn ⊢
      obtain ⟨ih1, ih2⟩ := ih (by omega)
      have hmem : last ∈ s.instances_ := by rw [hpre]; simp
      obtain ⟨_, _, hc63l, hn0⟩ := hwf.gens last hmem
      have hs : s.elements = (pre.map (fun b => b.bf_.NumElements)).sum +
          last.bf_.NumElements := by
        rw [elements_eq s _ hpre]
        simp
      refine ⟨?_, ?_⟩
      · rw [hnum, ih1]
        exact BloomFilter.wrap_int64_succ _ (by omega) (by omega)
      · rcases hcase with ⟨hne, _, hs1⟩ | ⟨_, _, _, hs1⟩
        · have hle2 : last.bf_.num_inserts_ ≤ last.cutoff_size_ := hle
          have hne2 : last.bf_.num_inserts_ ≠ last.cutoff_size_ := hne
          have hcount := bloom_Insert_count hash last.bf_ key hn0 (by omega)
          rw [elements_eq s1 _ hs1]
          simp only [List.map_append, List.sum_append, List.map_cons, List.map_nil,
            List.sum_cons, List.sum_nil, add_zero]
          show _ + (BloomFilter.Insert hash last.bf_ key).2.num_inserts_ = _
          rw [hcount, ← ih2, hs]
          show _ = _ + last.bf_.num_inserts_ + 1
          omega
        · rw [elements_eq s1 _ hs1]
          simp only [List.map_append, List.sum_append, List.map_cons, List.map_nil,
            List.sum_cons, List.sum_nil, add_zero]
          have hcount := bloom_Insert_count hash
            (BloomFilter.new (Insert.sums s.instances_ 0 0).2.toNat
              (Insert.sums s.instances_ 0 0).1
              (rounded (Insert.sums s.instances_ 0 0).2.toNat (Insert.sums s.instances_ 0 0).1)
              rand_gen) key (le_refl _) (by show (0 : Int) < 2 ^ 63 - 1; norm_num)
          show _ + (BloomFilter.Insert hash _ key).2.num_inserts_ = _
          rw [hcount, ← ih2]
          show s.elements + (0 + 1) = _
          omega
  | clear s n s1 _ hcl _ =>
    intro _
    unfold Clear at hcl
    cases hl : s.instances_ with
    | nil => rw [hl] at hcl; cases hcl
    | cons front rest =>
      rw [hl] at hcl
      simp only [Option.some.injEq] at hcl
      rw [← hcl]
      exact ⟨rfl, by simp [elements, BloomFilter.NumElements, BloomFilter.Clear]⟩

/-- C34. In every state reachable by `Insert` and `Clear` from the construction
with `initial_cutoff_size >= 1`, `NumInserts()` equals the number of `Insert`
calls that returned true since the construction or the last `Clear()` (a number
below 2^63, the range of the `int64` counter), and equals the sum of
`NumElements()` over all generations. -/
theorem NumInserts_counts_successful_inserts (hash : Nat → Nat → Nat)
    (initial_bit_size : Nat) (initial_cutoff_size : Int) (rounded : Nat → Int → Nat)
    (rand_gen : Nat → Nat) (hcut : 1 ≤ initial_cutoff_size)
    (hcut63 : initial_cutoff_size < 2 ^ 63) (s : ExpandableBloomFilter) (n : Nat)
    (hs : Counted hash initial_bit_size initial_cutoff_size rounded rand_gen s n)
    (hn : (n : Int) < 2 ^ 63) :
    Reachable hash initial_bit_size initial_cutoff_size rounded rand_gen s ∧
    s.NumInserts = n ∧ s.NumInserts = s.elements := by
  obtain ⟨h1, h2⟩ := hs.num_inserts_eq hcut hcut63 hn
  exact ⟨hs.to_Reachable, h1, by rw [h2]; exact h1⟩

theorem NumInserts_counts_successful_inserts_witness :
    ((1 : Int) ≤ 1 ∧ (1 : Int) < 2 ^ 63 ∧
      Counted (fun key seed => key + seed) 8 1 (fun _ _ => 1) (fun i => i) sampleExpandable 1 ∧
      ((1 : Nat) : Int) < 2 ^ 63) ∧
    (Reachable (fun key seed => key + seed) 8 1 (fun _ _ => 1) (fun i => i) sampleExpandable ∧
      sampleExpandable.NumInserts = (1 : Nat) ∧
      sampleExpandable.NumInserts = sampleExpandable.elements) :=
  ⟨⟨by decide, by norm_num,
      Counted.insert _ 0 25 true _ Counted.constructed sample_Insert, by norm_num⟩,
    NumInserts_counts_successful_inserts (fun key seed => key + seed) 8 1 (fun _ _ => 1)
      (fun i => i) (by decide) (by norm_num) sampleExpandable 1
      (Counted.insert _ 0 25 true _ Counted.constructed sample_Insert) (by norm_num)⟩

end ExpandableBloomFilter

namespace CountMinSketch

/-! ## CountMinSketch: lower bound and undoing an update -/

theorem Call.run_eq {T : Nat} (hash : Nat → Nat → Nat) (s : CountMinSketch T) (c : Call) :
    c.run hash s = (AddCount hash s c.key c.delta).2 := by
  cases c <;> rfl

theorem two_pow_width_le {T : Nat} (hT : T = 8 ∨ T = 16 ∨ T = 32) :
    (2 : Int) ^ T ≤ 2 ^ 32 := by
  rcases hT with h | h | h <;> subst h <;> norm_num

theorem Lower.step {T : Nat} (hash : Nat → Nat → Nat) (s : CountMinSketch T) (k : Nat)
    (tot m : Int) (h : Lower hash s k tot m) (key : Nat) (d : Int) (hd : 0 ≤ d)
    (ht : tot + d < 2 ^ 63) :
    Lower hash (AddCount hash s key d).2 k (tot + d) (m + if key = k then d else 0) := by
  have hw := h.wf
  have h32 := two_pow_width_le hw.width
  have hp : (1 : Int) ≤ 2 ^ T := by exact_mod_cast Nat.one_le_two_pow
  have hst : ∀ r c, ((stored T (s.cell r c) d : Nat) : Int) =
      max 0 (min ((s.cell r c : Int) + d) (2 ^ T - 1)) := by
    intro r c
    have := h.below r c
    exact stored_in_range T _ d (by omega) (by omega)
  refine
    { wf := AddCount_WF hash s hw key d
      tot_nonneg := by have := h.tot_nonneg; omega
      below := ?_
      above := ?_ }
  · intro r c
    rw [AddCount_cell hash s hw]
    have hb := h.below r c
    split_ifs with hc
    · rw [hst]
      have h0 : (0 : Int) ≤ (s.cell r c : Int) := Int.natCast_nonneg _
      rcases le_total ((s.cell r c : Int) + d) (2 ^ T - 1) with hle | hle
      · rw [min_eq_left hle, max_eq_right (by omega)]
        omega
      · rw [min_eq_right hle, max_eq_right (by omega)]
        omega
    · omega
  · intro r hr
    have hrows : (AddCount hash s key d).2.num_rows_ = s.num_rows_ := rfl
    have hcol : (AddCount hash s key d).2.column hash k r = s.column hash k r := rfl
    rw [hrows] at hr
    rw [hcol, AddCount_cell hash s hw]
    have ha := h.above r hr
    have hlt : (s.cell r (s.column hash k r) : Int) < 2 ^ T := by
      exact_mod_cast cell_lt s hw r (s.column hash k r)
    have h0 : (0 : Int) ≤ (s.cell r (s.column hash k r) : Int) := Int.natCast_nonneg _
    by_cases hc : r < s.num_rows_.toNat ∧ s.column hash k r = s.column hash key r
    · rw [if_pos hc, hst]
      have hmd : min (2 ^ T - 1) (m + if key = k then d else 0) ≤
          max (min (2 ^ T - 1) m + d) (min (2 ^ T - 1) m) := by
        split_ifs
        · rcases le_total (2 ^ T - 1) m with hm | hm
          · rw [min_eq_left hm]
            exact le_trans (min_le_left _ _) (le_trans (by omega) (le_max_left _ _))
          · rw [min_eq_right hm]
            exact le_trans (min_le_right _ _) (le_max_left _ _)
        · rw [add_zero]
          exact le_max_right _ _
      have hm1 : min (2 ^ T - 1) (m + if key = k then d else 0) ≤ 2 ^ T - 1 := min_le_left _ _
      have hm2 : min (2 ^ T - 1) (m + if key = k then d else 0) ≤
          (s.cell r (s.column hash k r) : Int) + d := by
        refine le_trans hmd (max_le (by omega) (by omega))
      rcases le_total ((s.cell r (s.column hash k r) : Int) + d) (2 ^ T - 1) with hle | hle
      · rw [min_eq_left hle, max_eq_right (by omega)]
        exact hm2
      · rw [min_eq_right hle, max_eq_right (by omega)]
        exact hm1
    · rw [if_neg hc]
      have hk : ¬ key = k := by
        intro hk
        apply hc
        subst hk
        exact ⟨hr, rfl⟩
      rw [if_neg hk, add_zero]
      exact ha

theorem keyMass_cons (c : Call) (rest : List Call) (k : Nat) :
    keyMass (c :: rest) k = (if c.key = k then c.delta else 0) + keyMass rest k := by
  unfold keyMass
  by_cases h : c.key = k
  · simp [List.filter_cons, h]
  · simp [List.filter_cons, h]

theorem Lower.runAll {T : Nat} (hash : Nat → Nat → Nat) (k : Nat) (calls : List Call) :
    ∀ (s : CountMinSketch T) (tot m : Int), Lower hash s k tot m →
      (∀ c ∈ calls, 0 ≤ c.delta) → tot + (calls.map Call.delta).sum < 2 ^ 63 →
      Lower hash (CountMinSketch.runAll hash s calls) k (tot + (calls.map Call.delta).sum)
        (m + keyMass calls k) := by
  induction calls with
  | nil =>
    intro s tot m h _ _
    simpa [CountMinSketch.runAll, keyMass] using h
  | cons c rest ih =>
    intro s tot m h hpos ht
    have hc := hpos c (List.mem_cons_self _ _)
    have hrest : ∀ c ∈ rest, 0 ≤ c.delta := fun x hx => hpos x (List.mem_cons_of_mem _ hx)
    have hsum : 0 ≤ (rest.map Call.delta).sum := by
      apply List.sum_nonneg
      intro x hx
      obtain ⟨y, hy, rfl⟩ := List.mem_map.mp hx
      exact hrest y hy
    simp only [List.map_cons, List.sum_cons] at ht ⊢
    have h1 := Lower.step hash s k tot m h c.key c.delta hc (by omega)
    rw [← Call.run_eq] at h1
    have h2 := ih (c.run hash s) _ _ h1 hrest (by omega)
    rw [keyMass_cons]
    show Lower hash (CountMinSketch.runAll hash (c.run hash s) rest) k _ _
    rw [← add_assoc, ← add_assoc]
    exact h2

/-- C39. The sketch never underestimates under non-negative updates: after
every sequence of `AddCount` (and `Increment`) calls with deltas `>= 0` on a
sketch right after construction or `Clear()`, with a total added mass below
2^63, for every key `k` the count `GetCount(k)` is at least the sum of the
deltas added for `k`, cut to the maximum of `T`, for every hash function and
however the other keys collide with `k`. -/
theorem GetCount_never_underestimates {T : Nat} (hT : T = 8 ∨ T = 16 ∨ T = 32)
    (hash : Nat → Nat → Nat) (mem_budget_bytes rows : Int) (s : CountMinSketch T)
    (hs : Fresh hash T mem_budget_bytes rows s) (calls : List Call)
    (hpos : ∀ c ∈ calls, 0 ≤ c.delta) (htotal : (calls.map Call.delta).sum < 2 ^ 63)
    (k : Nat) :
    min (2 ^ T - 1) (keyMass calls k) ≤ (GetCount hash (runAll hash s calls) k : Int) := by
  obtain ⟨hw, _, hz⟩ := Fresh.spec hT hash mem_budget_bytes rows s hs
  have hp : (1 : Int) ≤ 2 ^ T := by exact_mod_cast Nat.one_le_two_pow
  have h0 : Lower hash s k 0 0 :=
    { wf := hw
      tot_nonneg := le_refl _
      below := by intro r c; rw [hz]; rfl
      above := by
        intro r _
        rw [hz]
        exact min_le_right _ _ }
  have h1 := Lower.runAll hash k calls s 0 0 h0 hpos (by omega)
  rw [zero_add, zero_add] at h1
  obtain ⟨_, r, hr, he⟩ := GetCount_is_min hash _ h1.wf k
  rw [he]
  exact h1.above r hr

theorem GetCount_never_underestimates_witness :
    (Fresh CuckooFilter.sampleHash 8 2 1
      ({ num_rows_ := 1, num_cols_ := 2, matrix_ := [[0, 0]], sum_counts_ := 0 } :
        CountMinSketch 8) ∧
      (∀ c ∈ [Call.addCount 5 3, Call.increment 6, Call.addCount 5 300], 0 ≤ c.delta) ∧
      ([Call.addCount 5 3, Call.increment 6, Call.addCount 5 300].map Call.delta).sum < 2 ^ 63 ∧
      keyMass [Call.addCount 5 3, Call.increment 6, Call.addCount 5 300] 5 = 303) ∧
    min (2 ^ 8 - 1) (keyMass [Call.addCount 5 3, Call.increment 6, Call.addCount 5 300] 5) ≤
      (GetCount CuckooFilter.sampleHash (runAll CuckooFilter.sampleHash
        ({ num_rows_ := 1, num_cols_ := 2, matrix_ := [[0, 0]], sum_counts_ := 0 } :
          CountMinSketch 8)
        [Call.addCount 5 3, Call.increment 6, Call.addCount 5 300]) 5 : Int) :=
  ⟨⟨Fresh.constructed _ new_8_2_1, by simp [Call.delta], by simp [Call.delta],
      by simp [keyMass, Call.key, Call.delta]⟩,
    GetCount_never_underestimates (Or.inl rfl) CuckooFilter.sampleHash 2 1 _
      (Fresh.constructed _ new_8_2_1) _ (by simp [Call.delta]) (by simp [Call.delta]) 5⟩

theorem cell_getElem {T : Nat} (s : CountMinSketch T) (r c : Nat) (hr : r < s.matrix_.length)
    (hc : c < (s.matrix_.get ⟨r, hr⟩).length) :
    s.cell r c = (s.matrix_.get ⟨r, hr⟩).get ⟨c, hc⟩ := by
  unfold cell
  rw [List.getD_eq_getElem _ _ hr]
  exact List.getD_eq_getElem _ _ hc

/-- Two well-formed sketches of the same shape with the same cells have the
same matrix. -/
theorem matrix_ext {T : Nat} (s t : CountMinSketch T) (hs : WF s) (ht : WF t)
    (hr : s.num_rows_ = t.num_rows_) (hc : s.num_cols_ = t.num_cols_)
    (h : ∀ r c, s.cell r c = t.cell r c) : s.matrix_ = t.matrix_ := by
  apply List.ext_getElem
  · rw [hs.rows, ht.rows, hr]
  · intro i h1 h2
    have l1 := hs.cols _ (List.getElem_mem h1)
    have l2 := ht.cols _ (List.getElem_mem h2)
    apply List.ext_getElem
    · rw [l1, l2, hc]
    · intro j j1 j2
      have e := h i j
      rw [cell_getElem s i j h1 j1, cell_getElem t i j h2 j2] at e
      exact e

theorem AddCount_twice_cell {T : Nat} (hash : Nat → Nat → Nat) (s : CountMinSketch T)
    (hw : WF s) (k : Nat) (d e : Int)
    (h : ∀ r, r < s.num_rows_.toNat →
      stored T (stored T (s.cell r (s.column hash k r)) d) e = s.cell r (s.column hash k r))
    (r c : Nat) :
    (AddCount hash (AddCount hash s k d).2 k e).2.cell r c = s.cell r c := by
  have hw1 := AddCount_WF hash s hw k d
  have hrows : (AddCount hash s k d).2.num_rows_ = s.num_rows_ := rfl
  have hcol : (AddCount hash s k d).2.column hash k r = s.column hash k r := rfl
  rw [AddCount_cell hash _ hw1, AddCount_cell hash s hw, hrows, hcol]
  by_cases hc : r < s.num_rows_.toNat ∧ c = s.column hash k r
  · rw [if_pos hc, if_pos hc, hc.2]
    exact h r hc.1
  · rw [if_neg hc, if_neg hc]

theorem AddCount_twice_state {T : Nat} (hash : Nat → Nat → Nat) (s : CountMinSketch T)
    (hw : WF s) (hsum : -2 ^ 63 ≤ s.sum_counts_ ∧ s.sum_counts_ < 2 ^ 63) (k : Nat) (d : Int)
    (e : Int) (hde : d + e = 0)
    (h : ∀ r c, (AddCount hash (AddCount hash s k d).2 k e).2.cell r c = s.cell r c) :
    (AddCount hash (AddCount hash s k d).2 k e).2.SumCounts = s.SumCounts ∧
    (AddCount hash (AddCount hash s k d).2 k e).2 = s := by
  have hw1 := AddCount_WF hash s hw k d
  have hw2 := AddCount_WF hash _ hw1 k e
  have hm := matrix_ext _ s hw2 hw rfl rfl h
  have hsc : (AddCount hash (AddCount hash s k d).2 k e).2.sum_counts_ = s.sum_counts_ := by
    show wrap_int64 (wrap_int64 (s.sum_counts_ + d) + e) = s.sum_counts_
    rw [wrap_int64_add_wrap, add_assoc, hde, add_zero]
    exact (wrap_int64_eq_self_iff _).mpr hsum
  refine ⟨hsc, ?_⟩
  have e1 : (AddCount hash (AddCount hash s k d).2 k e).2 =
      { num_rows_ := s.num_rows_, num_cols_ := s.num_cols_
        matrix_ := (AddCount hash (AddCount hash s k d).2 k e).2.matrix_
        sum_counts_ := (AddCount hash (AddCount hash s k d).2 k e).2.sum_counts_ } := rfl
  rw [e1, hm, hsc]

/-- C40. An unsaturated update can be undone. For every sketch state (a
matrix of `num_rows_` by `num_cols_` cells of `T` and an `int64` sum), every
key `k` and every `d >= 0`: when none of the cells of `k` exceeds `max(T) - d`,
`AddCount(k, d)` followed by `AddCount(k, -d)` restores every cell of the
matrix and `SumCounts()`, so the whole state; and when every cell of `k` is at
least `d`, `AddCount(k, -d)` followed by `AddCount(k, d)` restores the state. -/
theorem AddCount_undone {T : Nat} (hash : Nat → Nat → Nat) (s : CountMinSketch T)
    (hw : WF s) (hsum : -2 ^ 63 ≤ s.sum_counts_ ∧ s.sum_counts_ < 2 ^ 63) (k : Nat) (d : Int)
    (hd : 0 ≤ d) :
    ((∀ r, r < s.num_rows_.toNat → (s.cell r (s.column hash k r) : Int) ≤ 2 ^ T - 1 - d) →
      (∀ r c, (AddCount hash (AddCount hash s k d).2 k (-d)).2.cell r c = s.cell r c) ∧
      (AddCount hash (AddCount hash s k d).2 k (-d)).2.SumCounts = s.SumCounts ∧
      (AddCount hash (AddCount hash s k d).2 k (-d)).2 = s) ∧
    ((∀ r, r < s.num_rows_.toNat → d ≤ (s.cell r (s.column hash k r) : Int)) →
      (∀ r c, (AddCount hash (AddCount hash s k (-d)).2 k d).2.cell r c = s.cell r c) ∧
      (AddCount hash (AddCount hash s k (-d)).2 k d).2.SumCounts = s.SumCounts ∧
      (AddCount hash (AddCount hash s k (-d)).2 k d).2 = s) := by
  have h32 := two_pow_width_le hw.width
  have hp : (1 : Int) ≤ 2 ^ T := by exact_mod_cast Nat.one_le_two_pow
  constructor
  · intro h
    have hc : ∀ r c, (AddCount hash (AddCount hash s k d).2 k (-d)).2.cell r c = s.cell r c := by
      apply AddCount_twice_cell hash s hw k d (-d)
      intro r hr
      have hx := h r hr
      have h0 : (0 : Int) ≤ (s.cell r (s.column hash k r) : Int) := Int.natCast_nonneg _
      have e1 := stored_in_range T (s.cell r (s.column hash k r)) d (by omega) (by omega)
      rw [min_eq_left (by omega), max_eq_right (by omega)] at e1
      have e2 := stored_in_range T (stored T (s.cell r (s.column hash k r)) d) (-d)
        (by rw [e1]; omega) (by rw [e1]; omega)
      rw [e1, min_eq_left (by omega), max_eq_right (by omega)] at e2
      have e3 : ((stored T (stored T (s.cell r (s.column hash k r)) d) (-d) : Nat) : Int) =
          (s.cell r (s.column hash k r) : Int) := by rw [e2]; omega
      exact_mod_cast e3
    exact ⟨hc, AddCount_twice_state hash s hw hsum k d (-d) (by omega) hc⟩
  · intro h
    have hc : ∀ r c, (AddCount hash (AddCount hash s k (-d)).2 k d).2.cell r c = s.cell r c := by
      apply AddCount_twice_cell hash s hw k (-d) d
      intro r hr
      have hx := h r hr
      have hlt : (s.cell r (s.column hash k r) : Int) < 2 ^ T := by
        exact_mod_cast cell_lt s hw r (s.column hash k r)
      have e1 := stored_in_range T (s.cell r (s.column hash k r)) (-d) (by omega) (by omega)
      rw [min_eq_left (by omega), max_eq_right (by omega)] at e1
      have e2 := stored_in_range T (stored T (s.cell r (s.column hash k r)) (-d)) d
        (by rw [e1]; omega) (by rw [e1]; omega)
      rw [e1, min_eq_left (by omega), max_eq_right (by omega)] at e2
      have e3 : ((stored T (stored T (s.cell r (s.column hash k r)) (-d)) d : Nat) : Int) =
          (s.cell r (s.column hash k r) : Int) := by rw [e2]; omega
      exact_mod_cast e3
    exact ⟨hc, AddCount_twice_state hash s hw hsum k (-d) d (by omega) hc⟩

theorem sampleSketch_cells (r : Nat) (hr : r < sampleSketch.num_rows_.toNat) :
    (1 : Int) ≤ (sampleSketch.cell r (sampleSketch.column (fun _ _ => 0) 4 r) : Int) ∧
    (sampleSketch.cell r (sampleSketch.column (fun _ _ => 0) 4 r) : Int) ≤ 2 ^ 8 - 1 - 1 := by
  have h2 : sampleSketch.num_rows_.toNat = 2 := rfl
  rw [h2] at hr
  interval_cases r
  · exact ⟨by decide, by decide⟩
  · exact ⟨by decide, by decide⟩

theorem AddCount_undone_witness :
    (WF sampleSketch ∧
      (-2 ^ 63 ≤ sampleSketch.sum_counts_ ∧ sampleSketch.sum_counts_ < 2 ^ 63) ∧
      (0 : Int) ≤ 1 ∧
      (∀ r, r < sampleSketch.num_rows_.toNat →
        (sampleSketch.cell r (sampleSketch.column (fun _ _ => 0) 4 r) : Int) ≤ 2 ^ 8 - 1 - 1) ∧
      (∀ r, r < sampleSketch.num_rows_.toNat →
        (1 : Int) ≤ (sampleSketch.cell r (sampleSketch.column (fun _ _ => 0) 4 r) : Int))) ∧
    ((∀ r c, (AddCount (fun _ _ => 0) (AddCount (fun _ _ => 0) sampleSketch 4 1).2 4 (-1)).2.cell
        r c = sampleSketch.cell r c) ∧
      (AddCount (fun _ _ => 0) (AddCount (fun _ _ => 0) sampleSketch 4 1).2 4 (-1)).2.SumCounts =
        sampleSketch.SumCounts ∧
      (AddCount (fun _ _ => 0) (AddCount (fun _ _ => 0) sampleSketch 4 1).2 4 (-1)).2 =
        sampleSketch) ∧
    ((∀ r c, (AddCount (fun _ _ => 0) (AddCount (fun _ _ => 0) sampleSketch 4 (-1)).2 4 1).2.cell
        r c = sampleSketch.cell r c) ∧
      (AddCount (fun _ _ => 0) (AddCount (fun _ _ => 0) sampleSketch 4 (-1)).2 4 1).2.SumCounts =
        sampleSketch.SumCounts ∧
      (AddCount (fun _ _ => 0) (AddCount (fun _ _ => 0) sampleSketch 4 (-1)).2 4 1).2 =
        sampleSketch) :=
  ⟨⟨sampleSketch_WF, ⟨by decide, by decide⟩, by decide,
      fun r hr => (sampleSketch_cells r hr).2, fun r hr => (sampleSketch_cells r hr).1⟩,
    (AddCount_undone (fun _ _ => 0) sampleSketch sampleSketch_WF ⟨by decide, by decide⟩ 4 1
      (by decide)).1 (fun r hr => (sampleSketch_cells r hr).2),
    (AddCount_undone (fun _ _ => 0) sampleSketch sampleSketch_WF ⟨by decide, by decide⟩ 4 1
      (by decide)).2 (fun r hr => (sampleSketch_cells r hr).1)⟩

end CountMinSketch

/-! ## Sums over the slots of a table -/

theorem sum_range_congr (n : Nat) (g g2 : Nat → Nat) (h : ∀ k, k < n → g2 k = g k) :
    ((List.range n).map g2).sum = ((List.range n).map g).sum := by
  congr 1
  apply List.map_congr_left
  intro k hk
  exact h k (List.mem_range.mp hk)

/-- A sum over `0 .. n - 1` whose terms change at the index `i` only. -/
theorem sum_range_update (n : Nat) (g g2 : Nat → Nat) (i a b : Nat) (hi : i < n)
    (hne : ∀ k, k < n → k ≠ i → g2 k = g k) (hi2 : g2 i + a = g i + b) :
    ((List.range n).map g2).sum + a = ((List.range n).map g).sum + b := by
  induction n with
  | zero => omega
  | succ n ih =>
    rw [List.sum_range_succ, List.sum_range_succ]
    by_cases hin : i = n
    · subst hin
      rw [sum_range_congr i g g2 (fun k hk => hne k (by omega) (by omega))]
      omega
    · have h1 := ih (by omega) (fun k hk hki => hne k (by omega) hki)
      have h2 := hne n (by omega) (fun e => hin e.symm)
      omega

theorem sum_range_le (n c : Nat) (g : Nat → Nat) (h : ∀ k, k < n → g k ≤ c) :
    ((List.range n).map g).sum ≤ n * c := by
  induction n with
  | zero => simp
  | succ n ih =>
    rw [List.sum_range_succ]
    have h1 := ih (fun k hk => h k (by omega))
    have h2 := h n (by omega)
    rw [Nat.succ_mul]
    omega

theorem sum_range_pos (n : Nat) (g : Nat → Nat) (h : 0 < ((List.range n).map g).sum) :
    ∃ k, k < n ∧ 0 < g k := by
  induction n with
  | zero => simp at h
  | succ n ih =>
    rw [List.sum_range_succ] at h
    by_cases hn : 0 < g n
    · exact ⟨n, by omega, hn⟩
    · obtain ⟨k, hk, hg⟩ := ih (by omega)
      exact ⟨k, by omega, hg⟩

theorem sum_range_zero (n : Nat) (g : Nat → Nat) (h : ∀ k, k < n → g k = 0) :
    ((List.range n).map g).sum = 0 := by
  have := sum_range_le n 0 g (fun k hk => by rw [h k hk])
  omega

namespace SingleTable

/-- The effect of `WriteTag(i, j, x)` on a count of slots: the old tag of the
slot leaves the count and the written tag enters it. -/
theorem countSlots_WriteTag (t : SingleTable) (h : WF t) (p : Nat → Nat → Bool) (i j x : Nat)
    (hi : i < t.num_buckets_) (hj : j < 4) :
    (t.WriteTag i j x).countSlots p + (if p i (t.slot i j) = true then 1 else 0) =
      t.countSlots p + (if p i (x % 2 ^ t.bits_per_tag_) = true then 1 else 0) := by
  obtain ⟨h1, h2, _⟩ := WriteTag_frame t i j x
  unfold countSlots
  rw [h1, h2, h.tags]
  apply sum_range_update t.num_buckets_ _ _ i _ _ hi
  · intro b hb hbi
    apply sum_range_congr
    intro k hk
    have e := slot_WriteTag t h i b x j k hi hb hj hk
    rw [if_neg (fun c => hbi c.1)] at e
    show (if p b ((t.WriteTag i j x).slot b k) = true then 1 else 0) = _
    rw [e]
  · apply sum_range_update 4 _ _ j _ _ hj
    · intro k hk hkj
      have e := slot_WriteTag t h i i x j k hi hi hj hk
      rw [if_neg (fun c => hkj c.2)] at e
      show (if p i ((t.WriteTag i j x).slot i k) = true then 1 else 0) = _
      rw [e]
    · have e := slot_WriteTag t h i i x j j hi hi hj hj
      rw [if_pos ⟨rfl, rfl⟩] at e
      show (if p i ((t.WriteTag i j x).slot i j) = true then 1 else 0) + _ = _
      rw [e]
      omega

theorem countSlots_rand_pos (t : SingleTable) (n : Nat) (p : Nat → Nat → Bool) :
    ({ t with rand_pos_ := n } : SingleTable).countSlots p = t.countSlots p := rfl

theorem countSlots_le (t : SingleTable) (h : WF t) (p : Nat → Nat → Bool) :
    t.countSlots p ≤ t.num_buckets_ * 4 := by
  unfold countSlots
  rw [h.tags]
  apply sum_range_le
  intro b _
  have := sum_range_le 4 1 (fun j => if p b (t.slot b j) = true then 1 else 0)
    (fun k _ => by dsimp only; split_ifs <;> omega)
  omega

theorem countSlots_pos (t : SingleTable) (h : WF t) (p : Nat → Nat → Bool)
    (hc : 0 < t.countSlots p) :
    ∃ b j, b < t.num_buckets_ ∧ j < 4 ∧ p b (t.slot b j) = true := by
  unfold countSlots at hc
  rw [h.tags] at hc
  obtain ⟨b, hb, hg⟩ := sum_range_pos _ _ hc
  obtain ⟨j, hj, hg2⟩ := sum_range_pos _ _ hg
  refine ⟨b, j, hb, hj, ?_⟩
  split_ifs at hg2 with hp
  · exact hp
  · omega

theorem countSlots_zero (t : SingleTable) (h : WF t) (p : Nat → Nat → Bool)
    (hz : ∀ i j, i < t.num_buckets_ → j < 4 → t.slot i j = 0) (hp : ∀ b, p b 0 = false) :
    t.countSlots p = 0 := by
  unfold countSlots
  rw [h.tags]
  apply sum_range_zero
  intro b hb
  apply sum_range_zero
  intro j hj
  rw [hz b j hb hj, hp b]
  rfl

/-- The number of non-zero slots is the sum of `occupied` over the buckets. -/
theorem numOccupied_eq (t : SingleTable) (h : WF t) :
    t.numOccupied = ((List.range t.num_buckets_).map t.occupied).sum := by
  unfold numOccupied countSlots
  rw [h.tags]
  apply sum_range_congr
  intro b _
  unfold occupied
  simp only [List.range_succ, List.range_zero, List.nil_append, List.map_append, List.map_cons,
    List.map_nil, List.sum_append, List.sum_cons, List.sum_nil, decide_eq_true_eq]
  split_ifs <;> simp_all

end SingleTable

namespace CuckooFilter

/-! ## CuckooFilter: counting the copies of a tag -/

theorem weight_no_victim (f : CuckooFilter) (p : Nat → Nat → Bool)
    (hv : f.last_victim_.used = false) : f.weight p = f.table_.countSlots p := by
  unfold weight
  rw [hv]
  simp

/-- The kick loop of `AddInternal` keeps every count that ignores the tag 0
and does not depend on which of its two buckets a tag is in: the carried tag
ends in a slot or as the victim, and a kicked tag is carried on. -/
theorem AddInternal_loop_weight (p : Nat → Nat → Bool) (hp0 : ∀ b, p b 0 = false) (n : Nat) :
    ∀ (f : CuckooFilter) (count ci ct : Nat), WF f → f.last_victim_.used = false →
      f.validIndex ci → f.validTag ct →
      (∀ b t, f.validIndex b → f.validTag t → p (f.AltIndex b t) t = p b t) →
      ∀ r f2, AddInternal.loop n f count ci ct = some (r, f2) →
        f2.weight p = f.table_.countSlots p + (if p ci ct = true then 1 else 0) := by
  induction n with
  | zero =>
    intro f count ci ct _ _ _ _ _ r f2 hres
    simp only [AddInternal.loop, Option.some.injEq, Prod.mk.injEq] at hres
    obtain ⟨_, rfl⟩ := hres
    show f.table_.countSlots p + (if (true && p ci ct) = true then 1 else 0) = _
    rw [Bool.true_and]
  | succ n ih =>
    intro f count ci ct h hv hci hct hpa r f2 hloop
    rcases SingleTable.InsertTagToBucket_cases f.table_ h.table ci ct (decide (count > 0)) 0 with
      ⟨j, hj, hz, hres⟩ | ⟨hfull, hk, hres⟩ | ⟨hfull, hk, r1, hr, hres⟩
    · -- a free slot
      simp only [AddInternal.loop, hres, Option.some.injEq, Prod.mk.injEq] at hloop
      obtain ⟨_, rfl⟩ := hloop
      have hw := weight_no_victim
        ({ f with table_ := f.table_.WriteTag ci j ct,
                  num_elements_ := wrap_int64 (f.num_elements_ + 1) } : CuckooFilter) p hv
      refine hw.trans ?_
      have hc := SingleTable.countSlots_WriteTag f.table_ h.table p ci j ct hci.1 hj
      rw [hz, hp0, Nat.mod_eq_of_lt (validTag_lt f h ct hct)] at hc
      simpa using hc
    · -- bucket full, first iteration: no kick
      rw [hk] at hres
      simp only [AddInternal.loop, hk, hres, Bool.false_eq_true, ↓reduceIte] at hloop
      have h1 := ih f (count + 1) (f.AltIndex ci ct) ct h hv (AltIndex_valid f h ci ct) hct hpa
        r f2 hloop
      rw [h1, hpa ci ct hci hct]
    · -- bucket full: kick out the tag of slot r1
      obtain ⟨t1, ht1⟩ : ∃ t1, t1 =
          ({ f.table_ with rand_pos_ := f.table_.rand_pos_ + 1 } : SingleTable).WriteTag ci r1 ct :=
        ⟨_, rfl⟩
      rw [← ht1, hk] at hres
      have hwf := SingleTable.WF_rand_pos f.table_ h.table (f.table_.rand_pos_ + 1)
      have hfr := SingleTable.WriteTag_frame
        ({ f.table_ with rand_pos_ := f.table_.rand_pos_ + 1 } : SingleTable) ci r1 ct
      rw [← ht1] at hfr
      have hwf1 : t1.WF := by rw [ht1]; exact SingleTable.WriteTag_WF _ hwf _ _ _
      have hf1 : WF ({ f with table_ := t1 } : CuckooFilter) :=
        WF_set_table f h _ hwf1 hfr.2.2.2.1 hfr.1 f.num_elements_
      have hold : f.validTag (f.table_.slot ci r1) :=
        ⟨Nat.pos_of_ne_zero (hfull r1 hr), by
          rw [h.bits]; exact SingleTable.slot_lt f.table_ h.table ci r1⟩
      have halt : ∀ a b, ({ f with table_ := t1 } : CuckooFilter).AltIndex a b = f.AltIndex a b :=
        fun a b => AltIndex_congr f _ hfr.1 a b
      simp only [AddInternal.loop, hk, hres, ↓reduceIte, halt] at hloop
      have hpa1 : ∀ b t, ({ f with table_ := t1 } : CuckooFilter).validIndex b →
          ({ f with table_ := t1 } : CuckooFilter).validTag t →
          p (({ f with table_ := t1 } : CuckooFilter).AltIndex b t) t = p b t := by
        intro b t hb ht
        rw [halt]
        exact hpa b t ⟨by rw [← hfr.1]; exact hb.1, hb.2⟩ ht
      have h1 := ih _ (count + 1) (f.AltIndex ci (f.table_.slot ci r1)) (f.table_.slot ci r1)
        hf1 hv ⟨by rw [hfr.1]; exact (AltIndex_valid f h ci _).1, (AltIndex_valid f h ci _).2⟩
        hold hpa1 r f2 hloop
      have hc := SingleTable.countSlots_WriteTag _ hwf p ci r1 ct hci.1 hr
      rw [← ht1, SingleTable.slot_rand_pos, SingleTable.countSlots_rand_pos] at hc
      have hm : ct % 2 ^ f.table_.bits_per_tag_ = ct := Nat.mod_eq_of_lt (validTag_lt f h ct hct)
      have hm2 : ct % 2 ^ ({ f.table_ with rand_pos_ := f.table_.rand_pos_ + 1 } :
          SingleTable).bits_per_tag_ = ct := hm
      rw [hm2] at hc
      rw [h1, hpa ci _ hci hold]
      exact hc

theorem AddInternal_weight (p : Nat → Nat → Bool) (hp0 : ∀ b, p b 0 = false)
    (f : CuckooFilter) (h : WF f) (hv : f.last_victim_.used = false) (ci ct : Nat)
    (hci : f.validIndex ci) (hct : f.validTag ct)
    (hpa : ∀ b t, f.validIndex b → f.validTag t → p (f.AltIndex b t) t = p b t)
    (r : Bool) (f2 : CuckooFilter) (hres : f.AddInternal ci ct = some (r, f2)) :
    f2.weight p = f.weight p + (if p ci ct = true then 1 else 0) := by
  rw [weight_no_victim f p hv]
  exact AddInternal_loop_weight p hp0 kMaxCuckooCount f 0 ci ct h hv hci hct hpa r f2 hres

/-- The two ways through the code after the label `TryEliminateVictim`. -/
theorem TryEliminateVictim_cases (f : CuckooFilter) (h : WF f) :
    (f.last_victim_.used = false ∧ TryEliminateVictim f = some (true, f)) ∨
    (f.last_victim_.used = true ∧ ∃ f2,
      ({ f with last_victim_ := { f.last_victim_ with used := false } } :
        CuckooFilter).AddInternal f.last_victim_.index f.last_victim_.tag = some (true, f2) ∧
      TryEliminateVictim f = some (true, f2)) := by
  unfold TryEliminateVictim
  cases hv : f.last_victim_.used
  · exact Or.inl ⟨rfl, by simp⟩
  · obtain ⟨hvi, hvt⟩ := h.victim hv
    have hf1 : WF ({ f with last_victim_ := { f.last_victim_ with used := false } } :
        CuckooFilter) :=
      { table := h.table, bits := h.bits, pow2 := h.pow2, victim := fun hu => by cases hu }
    obtain ⟨f2, h1, _⟩ := AddInternal_spec _ hf1 rfl _ _ hvi hvt
    refine Or.inr ⟨rfl, f2, h1, ?_⟩
    simp only [↓reduceIte, h1]

/-- The three ways through `Delete`: a slot of one of the two buckets of the
key is zeroed and the code goes on to `TryEliminateVictim`; the victim is
dropped; nothing is found. -/
theorem Delete_cases (hash : Nat → Nat → Nat) (f : CuckooFilter) (h : WF f) (key : Nat) :
    (∃ b j, (b = (GetIndexAndTag hash f key).1 ∨
          b = f.AltIndex (GetIndexAndTag hash f key).1 (GetIndexAndTag hash f key).2) ∧
        f.validIndex b ∧ j < 4 ∧ f.table_.slot b j = (GetIndexAndTag hash f key).2 ∧
        Delete hash f key = TryEliminateVictim
          { f with table_ := f.table_.WriteTag b j 0,
                   num_elements_ := wrap_int64 (f.num_elements_ - 1) }) ∨
    (f.last_victim_.used = true ∧ (GetIndexAndTag hash f key).2 = f.last_victim_.tag ∧
        ((GetIndexAndTag hash f key).1 = f.last_victim_.index ∨
          f.AltIndex (GetIndexAndTag hash f key).1 (GetIndexAndTag hash f key).2 =
            f.last_victim_.index) ∧
        Delete hash f key =
          some (true, { f with last_victim_ := { f.last_victim_ with used := false } })) ∨
    Delete hash f key = some (false, f) := by
  obtain ⟨hi, ht⟩ := GetIndexAndTag_valid hash f h key
  have htl := validTag_lt f h _ ht
  unfold Delete
  simp only [AltIndex_AltIndex f h _ _ hi, ne_eq, not_true_eq_false, ↓reduceIte]
  generalize (GetIndexAndTag hash f key).1 = i at *
  generalize (GetIndexAndTag hash f key).2 = tag at *
  rcases SingleTable.DeleteTagFromBucket_cases f.table_ h.table i tag htl with
    ⟨j, hj, hs, hres⟩ | ⟨hno, hres⟩
  · left
    refine ⟨i, j, Or.inl rfl, hi, hj, hs, ?_⟩
    simp only [hres]
  · rcases SingleTable.DeleteTagFromBucket_cases f.table_ h.table (f.AltIndex i tag) tag htl with
      ⟨j, hj, hs, hres2⟩ | ⟨hno2, hres2⟩
    · left
      refine ⟨f.AltIndex i tag, j, Or.inr rfl, AltIndex_valid f h i tag, hj, hs, ?_⟩
      simp only [hres, hres2]
    · right
      simp only [hres, hres2]
      by_cases hc : f.last_victim_.used = true ∧ tag = f.last_victim_.tag ∧
          (i = f.last_victim_.index ∨ f.AltIndex i tag = f.last_victim_.index)
      · left
        refine ⟨hc.1, hc.2.1, hc.2.2, ?_⟩
        rw [if_pos hc]
      · right
        rw [if_neg hc]

theorem TryEliminateVictim_weight (p : Nat → Nat → Bool) (hp0 : ∀ b, p b 0 = false)
    (f : CuckooFilter) (h : WF f)
    (hpa : ∀ b t, f.validIndex b → f.validTag t → p (f.AltIndex b t) t = p b t)
    (r : Bool) (f2 : CuckooFilter) (hres : TryEliminateVictim f = some (r, f2)) :
    r = true ∧ f2.weight p = f.weight p := by
  rcases TryEliminateVictim_cases f h with ⟨_, h1⟩ | ⟨hv, f3, h1, h2⟩
  · rw [h1] at hres
    simp only [Option.some.injEq, Prod.mk.injEq] at hres
    obtain ⟨rfl, rfl⟩ := hres
    exact ⟨rfl, rfl⟩
  · rw [h2] at hres
    simp only [Option.some.injEq, Prod.mk.injEq] at hres
    obtain ⟨rfl, rfl⟩ := hres
    refine ⟨rfl, ?_⟩
    obtain ⟨hvi, hvt⟩ := h.victim hv
    have hf1 : WF ({ f with last_victim_ := { f.last_victim_ with used := false } } :
        CuckooFilter) :=
      { table := h.table, bits := h.bits, pow2 := h.pow2, victim := fun hu => by cases hu }
    have hw := AddInternal_weight p hp0 _ hf1 rfl _ _ hvi hvt hpa true f3 h1
    rw [hw]
    show f.table_.countSlots p + (if (false && _) = true then 1 else 0) + _ =
      f.table_.countSlots p + (if (f.last_victim_.used && _) = true then 1 else 0)
    rw [hv]
    simp

theorem Insert_weight (hash : Nat → Nat → Nat) (p : Nat → Nat → Bool)
    (hp0 : ∀ b, p b 0 = false) (f : CuckooFilter) (h : WF f)
    (hpa : ∀ b t, f.validIndex b → f.validTag t → p (f.AltIndex b t) t = p b t)
    (key : Nat) (ret : Bool) (f2 : CuckooFilter) (hres : Insert hash f key = some (ret, f2)) :
    f2.weight p = f.weight p +
      (if ret = true ∧ p (GetIndexAndTag hash f key).1 (GetIndexAndTag hash f key).2 = true
        then 1 else 0) := by
  cases hv : f.last_victim_.used
  · obtain ⟨hi, ht⟩ := GetIndexAndTag_valid hash f h key
    obtain ⟨f1, h1, _⟩ := AddInternal_spec f h hv _ _ hi ht
    have hw := AddInternal_weight p hp0 f h hv _ _ hi ht hpa true f1 h1
    unfold Insert at hres
    simp only [hv, Bool.false_eq_true, ↓reduceIte, h1, Option.some.injEq, Prod.mk.injEq] at hres
    obtain ⟨rfl, rfl⟩ := hres
    show f1.weight p = _
    rw [hw]
    simp
  · rw [Insert_pending hash f key hv] at hres
    simp only [Option.some.injEq, Prod.mk.injEq] at hres
    obtain ⟨rfl, rfl⟩ := hres
    simp

theorem Delete_weight (hash : Nat → Nat → Nat) (p : Nat → Nat → Bool)
    (hp0 : ∀ b, p b 0 = false) (f : CuckooFilter) (h : WF f)
    (hpa : ∀ b t, f.validIndex b → f.validTag t → p (f.AltIndex b t) t = p b t)
    (key : Nat) (ret : Bool) (f2 : CuckooFilter) (hres : Delete hash f key = some (ret, f2)) :
    f2.weight p +
      (if ret = true ∧ p (GetIndexAndTag hash f key).1 (GetIndexAndTag hash f key).2 = true
        then 1 else 0) = f.weight p := by
  obtain ⟨hi, ht⟩ := GetIndexAndTag_valid hash f h key
  rcases Delete_cases hash f h key with ⟨b, j, hb, hbv, hj, hs, hd⟩ | ⟨hv, htag, hidx, hd⟩ | hd
  · have hfr := SingleTable.WriteTag_frame f.table_ b j 0
    obtain ⟨f1, hf1e⟩ : ∃ f1 : CuckooFilter, f1 =
        { f with table_ := f.table_.WriteTag b j 0,
                 num_elements_ := wrap_int64 (f.num_elements_ - 1) } := ⟨_, rfl⟩
    rw [← hf1e] at hd
    rw [hd] at hres
    have hf1 : WF f1 := by
      rw [hf1e]
      exact WF_set_table f h _ (SingleTable.WriteTag_WF _ h.table _ _ _) hfr.2.2.2.1 hfr.1 _
    have hnb : f1.table_.num_buckets_ = f.table_.num_buckets_ := by rw [hf1e]; exact hfr.1
    have halt : ∀ a c, f1.AltIndex a c = f.AltIndex a c := fun a c => AltIndex_congr f _ hnb a c
    have hpa1 : ∀ a t, f1.validIndex a → f1.validTag t → p (f1.AltIndex a t) t = p a t := by
      intro a t ha ht2
      rw [halt]
      exact hpa a t ⟨by rw [← hnb]; exact ha.1, ha.2⟩ (by rw [hf1e] at ht2; exact ht2)
    obtain ⟨rfl, hw⟩ := TryEliminateVictim_weight p hp0 f1 hf1 hpa1 ret f2 hres
    rw [hw]
    have hc := SingleTable.countSlots_WriteTag f.table_ h.table p b j 0 hbv.1 hj
    rw [hs, Nat.zero_mod, hp0] at hc
    have hpb : p b (GetIndexAndTag hash f key).2 =
        p (GetIndexAndTag hash f key).1 (GetIndexAndTag hash f key).2 := by
      rcases hb with hb | hb
      · rw [hb]
      · rw [hb]
        exact hpa _ _ hi ht
    rw [hpb] at hc
    have hw1 : f1.weight p = (f.table_.WriteTag b j 0).countSlots p +
        (if (f.last_victim_.used && p f.last_victim_.index f.last_victim_.tag) = true
          then 1 else 0) := by
      rw [hf1e]
      rfl
    rw [hw1]
    unfold weight
    simp only [true_and]
    simp only [Bool.false_eq_true, if_false, add_zero] at hc
    omega
  · rw [hd] at hres
    simp only [Option.some.injEq, Prod.mk.injEq] at hres
    obtain ⟨rfl, rfl⟩ := hres
    have hpv : p f.last_victim_.index f.last_victim_.tag =
        p (GetIndexAndTag hash f key).1 (GetIndexAndTag hash f key).2 := by
      rw [← htag]
      rcases hidx with hb | hb
      · rw [hb]
      · rw [← hb]
        exact hpa _ _ hi ht
    show f.table_.countSlots p + (if (false && _) = true then 1 else 0) + _ =
      f.table_.countSlots p +
        (if (f.last_victim_.used && p f.last_victim_.index f.last_victim_.tag) = true
          then 1 else 0)
    rw [hv, hpv]
    simp
  · rw [hd] at hres
    simp only [Option.some.injEq, Prod.mk.injEq] at hres
    obtain ⟨rfl, rfl⟩ := hres
    simp

/-! ## CuckooFilter: `NumElements()` and the non-zero slots -/

theorem weight_nonzero (f : CuckooFilter) (h : WF f) :
    f.weight (fun _ x => decide (x ≠ 0)) =
      f.table_.numOccupied + (if f.last_victim_.used = true then 1 else 0) := by
  unfold weight SingleTable.numOccupied
  cases hv : f.last_victim_.used
  · simp
  · have := (h.victim hv).2.1
    have hne : f.last_victim_.tag ≠ 0 := by omega
    simp [hne]

theorem numOccupied_WriteTag (t : SingleTable) (h : t.WF) (i j x : Nat)
    (hi : i < t.num_buckets_) (hj : j < 4) :
    (t.WriteTag i j x).numOccupied + (if t.slot i j ≠ 0 then 1 else 0) =
      t.numOccupied + (if x % 2 ^ t.bits_per_tag_ ≠ 0 then 1 else 0) := by
  have := SingleTable.countSlots_WriteTag t h (fun _ x => decide (x ≠ 0)) i j x hi hj
  simpa [SingleTable.numOccupied] using this

theorem numOccupied_le (t : SingleTable) (h : t.WF) : t.numOccupied ≤ t.num_buckets_ * 4 :=
  SingleTable.countSlots_le t h _

theorem AddInternal_count (f : CuckooFilter) (h : WF f) (hv : f.last_victim_.used = false)
    (ci ct : Nat) (hci : f.validIndex ci) (hct : f.validTag ct)
    (hn : f.num_elements_ = (f.table_.numOccupied : Int))
    (hb : f.table_.num_buckets_ ≤ 2 ^ 53)
    (r : Bool) (f2 : CuckooFilter) (hres : f.AddInternal ci ct = some (r, f2)) :
    f2.num_elements_ = (f2.table_.numOccupied : Int) := by
  obtain ⟨f3, h1, h2, _, h4, _, _, _, h8⟩ := AddInternal_spec f h hv ci ct hci hct
  rw [h1] at hres
  simp only [Option.some.injEq, Prod.mk.injEq] at hres
  obtain ⟨_, rfl⟩ := hres
  have hw := AddInternal_weight (fun _ x => decide (x ≠ 0)) (fun _ => by simp) f h hv ci ct
    hci hct (fun _ _ _ _ => rfl) true f3 h1
  rw [weight_nonzero f3 h2, weight_nonzero f h, hv] at hw
  have hct0 : ct ≠ 0 := by have := hct.1; omega
  simp only [Bool.false_eq_true, if_false, add_zero, hct0, ne_eq, not_false_eq_true,
    decide_True, if_true] at hw
  have hle := numOccupied_le f3.table_ h2.table
  rw [h4] at hle
  rcases h8 with ⟨e1, e2⟩ | ⟨e1, e2⟩
  · rw [e2] at hw
    simp only [Bool.false_eq_true, if_false, add_zero] at hw
    rw [e1, hn, hw]
    push_cast
    apply wrap_int64_small <;> have : (f.table_.numOccupied : Int) + 1 ≤ 2 ^ 53 * 4 := by
      exact_mod_cast (by omega : f.table_.numOccupied + 1 ≤ 2 ^ 53 * 4)
    all_goals omega
  · rw [e2] at hw
    simp only [if_true] at hw
    rw [e1, hn]
    have : f3.table_.numOccupied = f.table_.numOccupied := by omega
    rw [this]

theorem Insert_count (hash : Nat → Nat → Nat) (f : CuckooFilter) (h : WF f)
    (hn : f.num_elements_ = (f.table_.numOccupied : Int))
    (hb : f.table_.num_buckets_ ≤ 2 ^ 53) (key : Nat)
    (ret : Bool) (f2 : CuckooFilter) (hres : Insert hash f key = some (ret, f2)) :
    f2.num_elements_ = (f2.table_.numOccupied : Int) := by
  cases hv : f.last_victim_.used
  · obtain ⟨hi, ht⟩ := GetIndexAndTag_valid hash f h key
    obtain ⟨f1, h1, _⟩ := AddInternal_spec f h hv _ _ hi ht
    have hc := AddInternal_count f h hv _ _ hi ht hn hb true f1 h1
    unfold Insert at hres
    simp only [hv, Bool.false_eq_true, ↓reduceIte, h1, Option.some.injEq, Prod.mk.injEq] at hres
    obtain ⟨_, rfl⟩ := hres
    exact hc
  · rw [Insert_pending hash f key hv] at hres
    simp only [Option.some.injEq, Prod.mk.injEq] at hres
    obtain ⟨_, rfl⟩ := hres
    exact hn

theorem TryEliminateVictim_count (f : CuckooFilter) (h : WF f)
    (hn : f.num_elements_ = (f.table_.numOccupied : Int))
    (hb : f.table_.num_buckets_ ≤ 2 ^ 53)
    (r : Bool) (f2 : CuckooFilter) (hres : TryEliminateVictim f = some (r, f2)) :
    f2.num_elements_ = (f2.table_.numOccupied : Int) := by
  rcases TryEliminateVictim_cases f h with ⟨_, h1⟩ | ⟨hv, f3, h1, h2⟩
  · rw [h1] at hres
    simp only [Option.some.injEq, Prod.mk.injEq] at hres
    obtain ⟨_, rfl⟩ := hres
    exact hn
  · rw [h2] at hres
    simp only [Option.some.injEq, Prod.mk.injEq] at hres
    obtain ⟨_, rfl⟩ := hres
    obtain ⟨hvi, hvt⟩ := h.victim hv
    have hf1 : WF ({ f with last_victim_ := { f.last_victim_ with used := false } } :
        CuckooFilter) :=
      { table := h.table, bits := h.bits, pow2 := h.pow2, victim := fun hu => by cases hu }
    exact AddInternal_count _ hf1 rfl _ _ hvi hvt hn hb true f3 h1

theorem Delete_count (hash : Nat → Nat → Nat) (f : CuckooFilter) (h : WF f)
    (hn : f.num_elements_ = (f.table_.numOccupied : Int))
    (hb : f.table_.num_buckets_ ≤ 2 ^ 53) (key : Nat)
    (ret : Bool) (f2 : CuckooFilter) (hres : Delete hash f key = some (ret, f2)) :
    f2.num_elements_ = (f2.table_.numOccupied : Int) := by
  obtain ⟨_, ht⟩ := GetIndexAndTag_valid hash f h key
  rcases Delete_cases hash f h key with ⟨b, j, _, hbv, hj, hs, hd⟩ | ⟨_, _, _, hd⟩ | hd
  · have hfr := SingleTable.WriteTag_frame f.table_ b j 0
    obtain ⟨f1, hf1e⟩ : ∃ f1 : CuckooFilter, f1 =
        { f with table_ := f.table_.WriteTag b j 0,
                 num_elements_ := wrap_int64 (f.num_elements_ - 1) } := ⟨_, rfl⟩
    rw [← hf1e] at hd
    rw [hd] at hres
    have hf1 : WF f1 := by
      rw [hf1e]
      exact WF_set_table f h _ (SingleTable.WriteTag_WF _ h.table _ _ _) hfr.2.2.2.1 hfr.1 _
    have hnb : f1.table_.num_buckets_ = f.table_.num_buckets_ := by rw [hf1e]; exact hfr.1
    have hc := numOccupied_WriteTag f.table_ h.table b j 0 hbv.1 hj
    have ht0 : (GetIndexAndTag hash f key).2 ≠ 0 := by have := ht.1; omega
    rw [hs, if_pos ht0, Nat.zero_mod, if_neg (by simp)] at hc
    have hle := numOccupied_le f.table_ h.table
    have hn1 : f1.num_elements_ = (f1.table_.numOccupied : Int) := by
      have e1 : f1.num_elements_ = wrap_int64 (f.num_elements_ - 1) := by rw [hf1e]
      have e2 : f1.table_.numOccupied = (f.table_.WriteTag b j 0).numOccupied := by rw [hf1e]
      rw [e1, hn, e2]
      have e4 : ((f.table_.numOccupied : Nat) : Int) - 1 =
          (((f.table_.WriteTag b j 0).numOccupied : Nat) : Int) := by
        omega
      rw [e4]
      apply wrap_int64_small <;> omega
    exact TryEliminateVictim_count f1 hf1 hn1 (by rw [hnb]; exact hb) ret f2 hres
  · rw [hd] at hres
    simp only [Option.some.injEq, Prod.mk.injEq] at hres
    obtain ⟨_, rfl⟩ := hres
    exact hn
  · rw [hd] at hres
    simp only [Option.some.injEq, Prod.mk.injEq] at hres
    obtain ⟨_, rfl⟩ := hres
    exact hn

theorem IsEmpty.num_elements_eq {f : CuckooFilter} (h : WF f) (he : IsEmpty f) :
    f.num_elements_ = (f.table_.numOccupied : Int) := by
  have : f.table_.numOccupied = 0 :=
    SingleTable.countSlots_zero f.table_ h.table _ he.slots (fun _ => by simp)
  rw [he.num, this]
  rfl

theorem new_num_buckets_le (e bits : Nat) (uninit rand_gen : Nat → Nat) (f : CuckooFilter)
    (he : 1 ≤ e) (he53 : e ≤ 2 ^ 53) (h : new e bits uninit rand_gen = some f) :
    f.table_.num_buckets_ ≤ 2 ^ 53 := by
  have hx1 : 1 ≤ (e + 3) / 4 := by omega
  obtain ⟨_, l2⟩ := size_least ((e + 3) / 4) hx1
  have hk := l2 51 (by norm_num; omega)
  have hpow : 2 ^ ((e + 3) / 4 - 1).size ≤ 2 ^ 51 := Nat.pow_le_pow_right (by norm_num) hk
  rw [new_num_buckets_eq e bits uninit rand_gen f he (lt_of_le_of_lt he53 (by norm_num)) h]
  generalize 2 ^ ((e + 3) / 4 - 1).size = q at hpow
  split_ifs <;> omega

theorem Reachable.num_buckets_le {hash : Nat → Nat → Nat} {e bits : Nat}
    {uninit rand_gen : Nat → Nat} {f : CuckooFilter} (he : 1 ≤ e) (he53 : e ≤ 2 ^ 53)
    (h : Reachable hash e bits uninit rand_gen f) : f.table_.num_buckets_ ≤ 2 ^ 53 := by
  induction h with
  | constructed f h => exact new_num_buckets_le e bits uninit rand_gen f he he53 h
  | insert f key ret f1 _ h ih => rw [Insert_num_buckets hash f key ret f1 h]; exact ih
  | delete f key ret f1 _ h ih => rw [Delete_num_buckets hash f key ret f1 h]; exact ih
  | clear f _ ih => exact ih

theorem Reachable.num_occupied {hash : Nat → Nat → Nat} {e b : Nat} {u r : Nat → Nat}
    (he : 1 ≤ e) (he53 : e ≤ 2 ^ 53)
    (hw : b = 4 ∨ b = 8 ∨ b = 12 ∨ b = 16 ∨ b = 32) {f : CuckooFilter}
    (h : Reachable hash e b u r f) : f.num_elements_ = (f.table_.numOccupied : Int) := by
  have he63 : e < 2 ^ 63 := lt_of_le_of_lt he53 (by norm_num)
  induction h with
  | constructed f hf =>
    obtain ⟨f0, h0, hwf, hem⟩ := new_spec e b u r he he63 hw
    rw [h0] at hf
    cases hf
    exact hem.num_elements_eq hwf
  | insert f key ret f1 hr hins ih =>
    exact Insert_count hash f (hr.wf he he63 hw) ih (hr.num_buckets_le he he53) key ret f1 hins
  | delete f key ret f1 hr hdel ih =>
    exact Delete_count hash f (hr.wf he he63 hw) ih (hr.num_buckets_le he he53) key ret f1 hdel
  | clear f hr _ =>
    exact (Clear_IsEmpty f (hr.wf he he63 hw)).num_elements_eq (Clear_WF f (hr.wf he he63 hw))

/-- C38. In every state reachable by `Insert`, `Delete` and `Clear` on a
filter constructed with `bits_per_element` in {4, 8, 12, 16, 32} (and
`1 <= expected_num_elements <= 2^53`), `NumElements()` equals the number of
non-zero slots of the table, the size of `{(i, j) : ReadTag(i, j) != 0}`; a
pending victim is in no slot and so is not counted; and
`0 <= NumElements() <= 4 * num_buckets`. No `ReadTag` is fatal. -/
theorem NumElements_counts_occupied_slots (hash : Nat → Nat → Nat)
    (expected_num_elements bits_per_element : Nat) (uninit rand_gen : Nat → Nat)
    (he : 1 ≤ expected_num_elements) (he53 : expected_num_elements ≤ 2 ^ 53)
    (hw : bits_per_element = 4 ∨ bits_per_element = 8 ∨ bits_per_element = 12 ∨
      bits_per_element = 16 ∨ bits_per_element = 32) (f : CuckooFilter)
    (hf : Reachable hash expected_num_elements bits_per_element uninit rand_gen f) :
    f.NumElements = (f.table_.numOccupied : Int) ∧
    (∀ i j, f.table_.ReadTag i j = some (f.table_.slot i j)) ∧
    f.table_.numOccupied = ((List.range f.table_.num_buckets_).map f.table_.occupied).sum ∧
    0 ≤ f.NumElements ∧ f.NumElements ≤ 4 * (f.table_.NumBuckets : Int) := by
  have hwf := hf.wf he (lt_of_le_of_lt he53 (by norm_num)) hw
  have hc := hf.num_occupied he he53 hw
  have hle := numOccupied_le f.table_ hwf.table
  unfold NumElements SingleTable.NumBuckets
  refine ⟨hc, SingleTable.ReadTag_some f.table_ hwf.table,
    SingleTable.numOccupied_eq f.table_ hwf.table, ?_, ?_⟩
  · rw [hc]
    exact Int.natCast_nonneg _
  · rw [hc]
    have : ((f.table_.numOccupied : Nat) : Int) ≤ ((f.table_.num_buckets_ * 4 : Nat) : Int) := by
      exact_mod_cast hle
    push_cast at this
    omega

theorem NumElements_counts_occupied_slots_witness :
    (1 ≤ 10 ∧ 10 ≤ 2 ^ 53 ∧ (8 = 4 ∨ 8 = 8 ∨ 8 = 12 ∨ 8 = 16 ∨ 8 = 32) ∧
      Reachable sampleHash 10 8 (fun _ => 0) (fun _ => 0) sampleInsertedTwice) ∧
    (sampleInsertedTwice.table_.ReadTag 1 0 = some 25 ∧
      sampleInsertedTwice.table_.ReadTag 3 0 = some 35 ∧
      sampleInsertedTwice.table_.numOccupied = 2 ∧ sampleInsertedTwice.NumElements = 2) ∧
    (sampleInsertedTwice.NumElements = (sampleInsertedTwice.table_.numOccupied : Int) ∧
      (∀ i j, sampleInsertedTwice.table_.ReadTag i j =
        some (sampleInsertedTwice.table_.slot i j)) ∧
      sampleInsertedTwice.table_.numOccupied =
        ((List.range sampleInsertedTwice.table_.num_buckets_).map
          sampleInsertedTwice.table_.occupied).sum ∧
      0 ≤ sampleInsertedTwice.NumElements ∧
      sampleInsertedTwice.NumElements ≤ 4 * (sampleInsertedTwice.table_.NumBuckets : Int)) :=
  ⟨⟨by decide, by norm_num, by decide, sampleInsertedTwice_reachable⟩,
    ⟨sampleInsertedTwice_holds.2.2.1, sampleInsertedTwice_holds.2.2.2.1,
      sampleInsertedTwice_holds.2.2.2.2.1, sampleInsertedTwice_holds.2.2.2.2.2⟩,
    NumElements_counts_occupied_slots sampleHash 10 8 (fun _ => 0) (fun _ => 0) (by decide)
      (by norm_num) (by decide) sampleInsertedTwice sampleInsertedTwice_reachable⟩

theorem sameClass_zero (f : CuckooFilter) (i tag : Nat) (ht : f.validTag tag) (b : Nat) :
    f.sameClass i tag b 0 = false := by
  unfold sameClass
  have := ht.1
  simp only [decide_eq_false_iff_not, not_and]
  intro e
  omega

theorem sameClass_alt (f : CuckooFilter) (h : WF f) (i tag : Nat) (hi : f.validIndex i)
    (b t : Nat) (hb : f.validIndex b) :
    f.sameClass i tag (f.AltIndex b t) t = f.sameClass i tag b t := by
  unfold sameClass
  by_cases ht : t = tag
  · subst ht
    have e1 := AltIndex_AltIndex f h b t hb
    have e2 := AltIndex_AltIndex f h i t hi
    have hiff : (f.AltIndex b t = i ∨ f.AltIndex b t = f.AltIndex i t) ↔
        (b = i ∨ b = f.AltIndex i t) := by
      constructor
      · rintro (e | e)
        · right; rw [← e, e1]
        · left; rw [← e1, e, e2]
      · rintro (e | e)
        · right; rw [e]
        · left; rw [e, e2]
    simp only [true_and, hiff]
  · simp [ht]

theorem sameClass_congr (f g : CuckooFilter)
    (hn : g.table_.num_buckets_ = f.table_.num_buckets_) (i tag : Nat) :
    g.sameClass i tag = f.sameClass i tag := by
  funext b t
  unfold sameClass
  rw [AltIndex_congr f g hn]

theorem sameClass_self (f : CuckooFilter) (i tag : Nat) : f.sameClass i tag i tag = true := by
  unfold sameClass
  simp

/-- A key of which the filter keeps a copy is reported by `Contains`. -/
theorem holds_of_copies (f : CuckooFilter) (h : WF f) (i tag : Nat)
    (hc : 0 < f.copies i tag) : f.holds i tag = true := by
  unfold copies weight at hc
  unfold holds
  by_cases hs : 0 < f.table_.countSlots (f.sameClass i tag)
  · obtain ⟨b, j, _, hj, hp⟩ := SingleTable.countSlots_pos f.table_ h.table _ hs
    unfold sameClass at hp
    rw [decide_eq_true_iff] at hp
    obtain ⟨e, hb⟩ := hp
    have hb2 : f.table_.hasTag b tag = true := (SingleTable.hasTag_iff _ _ _).mpr ⟨j, hj, e⟩
    rcases hb with hb | hb
    · rw [← hb, hb2]
      rfl
    · rw [← hb, hb2]
      simp
  · have hv : (f.last_victim_.used &&
        f.sameClass i tag f.last_victim_.index f.last_victim_.tag) = true := by
      by_contra hne
      rw [if_neg hne] at hc
      omega
    rw [Bool.and_eq_true] at hv
    obtain ⟨hu, hp⟩ := hv
    unfold sameClass at hp
    rw [decide_eq_true_iff] at hp
    obtain ⟨e, hb⟩ := hp
    simp only [hu, Bool.true_and, Bool.or_eq_true, Bool.and_eq_true, decide_eq_true_eq]
    right
    exact ⟨e.symm, hb.imp Eq.symm Eq.symm⟩

theorem storedLike_cons (hash : Nat → Nat → Nat) (f : CuckooFilter) (st : List Nat)
    (key i tag : Nat) :
    f.storedLike hash (key :: st) i tag = f.storedLike hash st i tag +
      (if f.sameClass i tag (GetIndexAndTag hash f key).1 (GetIndexAndTag hash f key).2 = true
        then 1 else 0) := by
  unfold storedLike
  rw [List.countP_cons]

theorem storedLike_erase (hash : Nat → Nat → Nat) (f : CuckooFilter) (st : List Nat)
    (key i tag : Nat) (hk : key ∈ st) :
    f.storedLike hash (st.erase key) i tag +
      (if f.sameClass i tag (GetIndexAndTag hash f key).1 (GetIndexAndTag hash f key).2 = true
        then 1 else 0) = f.storedLike hash st i tag := by
  rw [← storedLike_cons]
  unfold storedLike
  exact (List.Perm.countP_eq _ (List.perm_cons_erase hk)).symm

theorem storedLike_congr (hash : Nat → Nat → Nat) (f g : CuckooFilter)
    (hn : g.table_.num_buckets_ = f.table_.num_buckets_)
    (hb : g.bits_per_element_ = f.bits_per_element_) (st : List Nat) (i tag : Nat) :
    g.storedLike hash st i tag = f.storedLike hash st i tag := by
  unfold storedLike
  rw [sameClass_congr f g hn]
  simp only [GetIndexAndTag_congr hash f g hn hb]

theorem storedLike_pos (hash : Nat → Nat → Nat) (f : CuckooFilter) (st : List Nat)
    (key : Nat) (hk : key ∈ st) :
    0 < f.storedLike hash st (GetIndexAndTag hash f key).1 (GetIndexAndTag hash f key).2 := by
  unfold storedLike
  rw [List.countP_pos_iff]
  exact ⟨key, hk, sameClass_self f _ _⟩

/-- The invariant of disciplined use: the filter is well formed, and for every
bucket index and tag it keeps as many copies as there are stored keys with
these two buckets and this tag. -/
theorem Disciplined.copies_eq {hash : Nat → Nat → Nat} {e b : Nat} {u r : Nat → Nat}
    (he : 1 ≤ e) (he63 : e < 2 ^ 63)
    (hw : b = 4 ∨ b = 8 ∨ b = 12 ∨ b = 16 ∨ b = 32) {f : CuckooFilter} {st : List Nat}
    (h : Disciplined hash e b u r f st) :
    WF f ∧ ∀ i tag, f.validIndex i → f.validTag tag →
      f.copies i tag = f.storedLike hash st i tag := by
  induction h with
  | constructed f hf =>
    obtain ⟨f0, h0, hwf, hem⟩ := new_spec e b u r he he63 hw
    rw [h0] at hf
    cases hf
    refine ⟨hwf, ?_⟩
    intro i tag _ ht
    unfold copies
    rw [weight_no_victim _ _ hem.victim,
      SingleTable.countSlots_zero _ hwf.table _ hem.slots (sameClass_zero _ i tag ht)]
    rfl
  | insert f st key ret f1 _ hins ih =>
    obtain ⟨hwf, hcount⟩ := ih
    obtain ⟨ret2, f2, h1, h2, h3, h4, _⟩ := Insert_total hash f hwf key
    rw [h1] at hins
    simp only [Option.some.injEq, Prod.mk.injEq] at hins
    obtain ⟨rfl, rfl⟩ := hins
    refine ⟨h2, ?_⟩
    intro i tag hi ht
    have hi0 := (validIndex_congr f f2 h4 i).mp hi
    have ht0 := (validTag_congr f f2 h3 tag).mp ht
    have hwt := Insert_weight hash (f.sameClass i tag) (sameClass_zero f i tag ht0) f hwf
      (fun b t hb _ => sameClass_alt f hwf i tag hi0 b t hb) key ret2 f2 h1
    unfold copies
    rw [sameClass_congr f f2 h4, hwt]
    have hc := hcount i tag hi0 ht0
    unfold copies at hc
    rw [hc]
    cases ret2
    · simp only [Bool.false_eq_true, false_and, if_false, add_zero]
      exact (storedLike_congr hash f f2 h4 h3 st i tag).symm
    · simp only [true_and, if_true]
      rw [storedLike_congr hash f f2 h4 h3, storedLike_cons]
  | delete f st key ret f1 _ hkey hdel ih =>
    obtain ⟨hwf, hcount⟩ := ih
    obtain ⟨f2, h1, h2, h3, h4, _⟩ := Delete_spec hash f hwf key
    obtain ⟨hik, htk⟩ := GetIndexAndTag_valid hash f hwf key
    have hholds : f.holds (GetIndexAndTag hash f key).1 (GetIndexAndTag hash f key).2 = true := by
      apply holds_of_copies f hwf
      rw [hcount _ _ hik htk]
      exact storedLike_pos hash f st key hkey
    rw [hholds] at h1
    rw [h1] at hdel
    simp only [Option.some.injEq, Prod.mk.injEq] at hdel
    obtain ⟨rfl, rfl⟩ := hdel
    refine ⟨h2, ?_⟩
    intro i tag hi ht
    have hi0 := (validIndex_congr f f2 h4 i).mp hi
    have ht0 := (validTag_congr f f2 h3 tag).mp ht
    have hwt := Delete_weight hash (f.sameClass i tag) (sameClass_zero f i tag ht0) f hwf
      (fun b t hb _ => sameClass_alt f hwf i tag hi0 b t hb) key true f2 h1
    have hc := hcount i tag hi0 ht0
    have hse := storedLike_erase hash f st key i tag hkey
    unfold copies at hc ⊢
    rw [sameClass_congr f f2 h4, storedLike_congr hash f f2 h4 h3]
    simp only [true_and] at hwt
    omega

/-- C37. Disciplined deletes lose nothing. For a filter constructed with
`bits_per_element` in {4, 8, 12, 16, 32} and every sequence of `Insert` and
`Delete` calls in which each `Delete` targets a key that has been successfully
inserted more often than deleted: every key currently stored is reported by
`Contains`; a `Delete` of a stored key returns true; and after it every key
that is still stored is reported by `Contains`, whether its tag is in a slot,
was the pending victim and was put back by `AddInternal`, or is the victim
again. -/
theorem disciplined_deletes_lose_nothing (hash : Nat → Nat → Nat)
    (expected_num_elements bits_per_element : Nat) (uninit rand_gen : Nat → Nat)
    (he : 1 ≤ expected_num_elements) (he63 : expected_num_elements < 2 ^ 63)
    (hw : bits_per_element = 4 ∨ bits_per_element = 8 ∨ bits_per_element = 12 ∨
      bits_per_element = 16 ∨ bits_per_element = 32)
    (f : CuckooFilter) (stored : List Nat)
    (hf : Disciplined hash expected_num_elements bits_per_element uninit rand_gen f stored) :
    (∀ k ∈ stored, Contains hash f k = some true) ∧
    ∀ key ∈ stored, ∃ f1, Delete hash f key = some (true, f1) ∧
      Disciplined hash expected_num_elements bits_per_element uninit rand_gen f1
        (stored.erase key) ∧
      ∀ k ∈ stored.erase key, Contains hash f1 k = some true := by
  have hall : ∀ (g : CuckooFilter) (st : List Nat),
      Disciplined hash expected_num_elements bits_per_element uninit rand_gen g st →
      ∀ k ∈ st, Contains hash g k = some true := by
    intro g st hg k hk
    obtain ⟨hwf, hcount⟩ := hg.copies_eq he he63 hw
    obtain ⟨hik, htk⟩ := GetIndexAndTag_valid hash g hwf k
    rw [Contains_eq hash g hwf k, holds_of_copies g hwf _ _ (by
      rw [hcount _ _ hik htk]
      exact storedLike_pos hash g st k hk)]
  refine ⟨hall f stored hf, ?_⟩
  intro key hkey
  obtain ⟨hwf, _⟩ := hf.copies_eq he he63 hw
  obtain ⟨f2, h1, _⟩ := Delete_spec hash f hwf key
  have hc := hall f stored hf key hkey
  rw [Contains_eq hash f hwf key] at hc
  simp only [Option.some.injEq] at hc
  rw [hc] at h1
  have hd := Disciplined.delete f stored key true f2 hf hkey h1
  exact ⟨f2, h1, hd, hall f2 _ hd⟩

theorem sample_Disciplined :
    Disciplined sampleHash 10 8 (fun _ => 0) (fun _ => 0) sampleInsertedTwice [35, 25] :=
  Disciplined.insert sampleInserted [25] 35 true sampleInsertedTwice
    (Disciplined.insert sampleFilter [] 25 true sampleInserted
      (Disciplined.constructed _ sample_new) sample_Insert_25) sample_Insert_35

theorem disciplined_deletes_lose_nothing_witness :
    (1 ≤ 10 ∧ 10 < 2 ^ 63 ∧ (8 = 4 ∨ 8 = 8 ∨ 8 = 12 ∨ 8 = 16 ∨ 8 = 32) ∧
      Disciplined sampleHash 10 8 (fun _ => 0) (fun _ => 0) sampleInsertedTwice [35, 25]) ∧
    ((∀ k ∈ [35, 25], Contains sampleHash sampleInsertedTwice k = some true) ∧
      ∀ key ∈ [35, 25], ∃ f1, Delete sampleHash sampleInsertedTwice key = some (true, f1) ∧
        Disciplined sampleHash 10 8 (fun _ => 0) (fun _ => 0) f1 ([35, 25].erase key) ∧
        ∀ k ∈ [35, 25].erase key, Contains sampleHash f1 k = some true) :=
  ⟨⟨by decide, by norm_num, by decide, sample_Disciplined⟩,
    disciplined_deletes_lose_nothing sampleHash 10 8 (fun _ => 0) (fun _ => 0) (by decide)
      (by norm_num) (by decide) sampleInsertedTwice [35, 25] sample_Disciplined⟩

end CuckooFilter

namespace SingleTable

/-! ## What every operation keeps of a table -/

theorem InsertTagToBucket_loop_keeps (Q : SingleTable → Prop)
    (hQw : ∀ (t : SingleTable) (i j x : Nat), Q t → Q (t.WriteTag i j x))
    (t : SingleTable) (hq : Q t) (i tag : Nat) :
    ∀ (n j : Nat) (t1 : SingleTable), InsertTagToBucket.loop t i tag n j = some (some t1) →
      Q t1 := by
  intro n
  induction n with
  | zero => intro j t1 h; simp [InsertTagToBucket.loop] at h
  | succ n ih =>
    intro j t1 h
    unfold InsertTagToBucket.loop at h
    cases hr : t.ReadTag i j with
    | none => rw [hr] at h; simp at h
    | some a =>
      rw [hr] at h
      dsimp only at h
      split_ifs at h
      · simp only [Option.some.injEq] at h
        rw [← h]
        exact hQw t i j tag hq
      · exact ih _ _ h

theorem InsertTagToBucket_keeps (Q : SingleTable → Prop)
    (hQw : ∀ (t : SingleTable) (i j x : Nat), Q t → Q (t.WriteTag i j x))
    (hQr : ∀ (t : SingleTable) (n : Nat), Q t → Q { t with rand_pos_ := n })
    (t : SingleTable) (hq : Q t) (i tag : Nat) (kickout : Bool)
    (oldtag : Nat) (r : Bool) (old : Nat) (t1 : SingleTable)
    (h : t.InsertTagToBucket i tag kickout oldtag = some (r, old, t1)) : Q t1 := by
  unfold InsertTagToBucket at h
  cases hl : InsertTagToBucket.loop t i tag t.tags_per_bucket_ 0 with
  | none => rw [hl] at h; simp at h
  | some o =>
    rw [hl] at h
    cases o with
    | some t2 =>
      simp only [Option.some.injEq, Prod.mk.injEq] at h
      rw [← h.2.2]
      exact InsertTagToBucket_loop_keeps Q hQw t hq i tag _ _ _ hl
    | none =>
      dsimp only at h
      split_ifs at h
      · cases hr : ReadTag { t with rand_pos_ := t.rand_pos_ + 1 } i
            (t.rand_gen_ t.rand_pos_ % 2 ^ 64 % t.tags_per_bucket_) with
        | none => rw [hr] at h; simp at h
        | some a =>
          rw [hr] at h
          simp only [Option.some.injEq, Prod.mk.injEq] at h
          rw [← h.2.2]
          exact hQw _ i _ tag (hQr t _ hq)
      · simp only [Option.some.injEq, Prod.mk.injEq] at h
        rw [← h.2.2]
        exact hq

theorem DeleteTagFromBucket_loop_keeps (Q : SingleTable → Prop)
    (hQw : ∀ (t : SingleTable) (i j x : Nat), Q t → Q (t.WriteTag i j x))
    (t : SingleTable) (hq : Q t) (i tag : Nat) :
    ∀ (n j : Nat) (r : Bool) (t1 : SingleTable),
      DeleteTagFromBucket.loop t i tag n j = some (r, t1) → Q t1 := by
  intro n
  induction n with
  | zero =>
    intro j r t1 h
    simp only [DeleteTagFromBucket.loop, Option.some.injEq, Prod.mk.injEq] at h
    rw [← h.2]
    exact hq
  | succ n ih =>
    intro j r t1 h
    unfold DeleteTagFromBucket.loop at h
    cases hr : t.ReadTag i j with
    | none => rw [hr] at h; simp at h
    | some a =>
      rw [hr] at h
      dsimp only at h
      split_ifs at h
      · cases hf : t.FindTagInBucket i tag with
        | none => rw [hf] at h; simp at h
        | some b =>
          rw [hf] at h
          cases b with
          | false => simp at h
          | true =>
            simp only [Option.some.injEq, Prod.mk.injEq] at h
            rw [← h.2]
            exact hQw t i j 0 hq
      · exact ih _ _ _ h

theorem Packed.with_rand_pos {t : SingleTable} (h : Packed t) (n : Nat) :
    Packed ({ t with rand_pos_ := n } : SingleTable) :=
  { buckets_pos := h.buckets_pos, tags := h.tags, width := h.width,
    bucket_bytes := h.bucket_bytes, mask := h.mask, len := h.len, bytes := h.bytes }

theorem Packed.after_Clear {t : SingleTable} (h : Packed t) : Packed t.Clear :=
  { buckets_pos := h.buckets_pos, tags := h.tags, width := h.width,
    bucket_bytes := h.bucket_bytes, mask := h.mask
    len := by
      have hl := h.len
      simp only [SingleTable.Clear, List.length_append, List.length_replicate, List.length_drop]
      omega
    bytes := by
      intro x hx
      simp only [SingleTable.Clear, List.mem_append] at hx
      rcases hx with hx | hx
      · rw [List.eq_of_mem_replicate hx]; norm_num
      · exact h.bytes x (List.mem_of_mem_drop hx) }

/-- After `Clear()` every slot of a table of any of the six widths reads 0. -/
theorem Packed.slot_after_Clear {t : SingleTable} (h : Packed t) (i j : Nat)
    (hi : i < t.num_buckets_) (hj : j < 4) : t.Clear.slot i j = 0 := by
  by_cases hw : t.bits_per_tag_ = 2
  · have hc := h.after_Clear
    have hw2 : t.Clear.bits_per_tag_ = 2 := hw
    obtain ⟨hb, _⟩ := h.cases2 hw
    unfold slot
    rw [ReadTag_2 t.Clear hc hw2]
    have hd : t.Clear.data_.getD i 0 = 0 := by
      unfold SingleTable.Clear
      exact getD_replicate_append _ i _ (by rw [hb]; omega)
    rw [hd]
    simp
  · exact SingleTable.Clear_slot t (h.to_WF hw) i j hi hj

end SingleTable

namespace CuckooFilter

theorem AddInternal_loop_keeps (Q : SingleTable → Prop)
    (hQw : ∀ (t : SingleTable) (i j x : Nat), Q t → Q (t.WriteTag i j x))
    (hQr : ∀ (t : SingleTable) (n : Nat), Q t → Q { t with rand_pos_ := n }) :
    ∀ (n : Nat) (f : CuckooFilter) (count curindex curtag : Nat) (r : Bool) (f1 : CuckooFilter),
      Q f.table_ → AddInternal.loop n f count curindex curtag = some (r, f1) →
      Q f1.table_ ∧ f1.bits_per_element_ = f.bits_per_element_ := by
  intro n
  induction n with
  | zero =>
    intro f count curindex curtag r f1 hq h
    simp only [AddInternal.loop, Option.some.injEq, Prod.mk.injEq] at h
    rw [← h.2]
    exact ⟨hq, rfl⟩
  | succ n ih =>
    intro f count curindex curtag r f1 hq h
    unfold AddInternal.loop at h
    dsimp only at h
    cases hi : f.table_.InsertTagToBucket curindex curtag (decide (count > 0)) 0 with
    | none => rw [hi] at h; simp at h
    | some res =>
      obtain ⟨b, old, table⟩ := res
      have hq1 := SingleTable.InsertTagToBucket_keeps Q hQw hQr _ hq _ _ _ _ _ _ _ hi
      rw [hi] at h
      cases b with
      | true =>
        simp only [Option.some.injEq, Prod.mk.injEq] at h
        rw [← h.2]
        exact ⟨hq1, rfl⟩
      | false =>
        dsimp only at h
        have h3 := ih _ _ _ _ _ _ (by exact hq1) h
        exact ⟨h3.1, h3.2⟩

theorem Insert_keeps (Q : SingleTable → Prop)
    (hQw : ∀ (t : SingleTable) (i j x : Nat), Q t → Q (t.WriteTag i j x))
    (hQr : ∀ (t : SingleTable) (n : Nat), Q t → Q { t with rand_pos_ := n })
    (hash : Nat → Nat → Nat) (f : CuckooFilter) (hq : Q f.table_) (key : Nat) (r : Bool)
    (f1 : CuckooFilter) (h : Insert hash f key = some (r, f1)) :
    Q f1.table_ ∧ f1.bits_per_element_ = f.bits_per_element_ := by
  unfold Insert at h
  split_ifs at h
  · simp only [Option.some.injEq, Prod.mk.injEq] at h
    rw [← h.2]
    exact ⟨hq, rfl⟩
  · dsimp only at h
    cases ha : f.AddInternal (GetIndexAndTag hash f key).1 (GetIndexAndTag hash f key).2 with
    | none => rw [ha] at h; simp at h
    | some res =>
      obtain ⟨b, f2⟩ := res
      rw [ha] at h
      simp only [Option.some.injEq, Prod.mk.injEq] at h
      rw [← h.2]
      exact AddInternal_loop_keeps Q hQw hQr _ _ _ _ _ b f2 hq ha

theorem TryEliminateVictim_keeps (Q : SingleTable → Prop)
    (hQw : ∀ (t : SingleTable) (i j x : Nat), Q t → Q (t.WriteTag i j x))
    (hQr : ∀ (t : SingleTable) (n : Nat), Q t → Q { t with rand_pos_ := n })
    (f : CuckooFilter) (hq : Q f.table_) (r : Bool) (f1 : CuckooFilter)
    (h : TryEliminateVictim f = some (r, f1)) :
    Q f1.table_ ∧ f1.bits_per_element_ = f.bits_per_element_ := by
  unfold TryEliminateVictim at h
  split_ifs at h
  · dsimp only at h
    cases ha : AddInternal { f with last_victim_ := { f.last_victim_ with used := false } }
        f.last_victim_.index f.last_victim_.tag with
    | none => rw [ha] at h; simp at h
    | some res =>
      obtain ⟨b, f2⟩ := res
      rw [ha] at h
      simp only [Option.some.injEq, Prod.mk.injEq] at h
      rw [← h.2]
      have h3 := AddInternal_loop_keeps Q hQw hQr _ _ _ _ _ b f2 (by exact hq) ha
      exact ⟨h3.1, h3.2⟩
  · simp only [Option.some.injEq, Prod.mk.injEq] at h
    rw [← h.2]
    exact ⟨hq, rfl⟩

theorem Delete_keeps (Q : SingleTable → Prop)
    (hQw : ∀ (t : SingleTable) (i j x : Nat), Q t → Q (t.WriteTag i j x))
    (hQr : ∀ (t : SingleTable) (n : Nat), Q t → Q { t with rand_pos_ := n })
    (hash : Nat → Nat → Nat) (f : CuckooFilter) (hq : Q f.table_) (key : Nat) (r : Bool)
    (f1 : CuckooFilter) (h : Delete hash f key = some (r, f1)) :
    Q f1.table_ ∧ f1.bits_per_element_ = f.bits_per_element_ := by
  unfold Delete at h
  dsimp only at h
  split_ifs at h <;>
  cases h1 : f.table_.DeleteTagFromBucket (GetIndexAndTag hash f key).1
      (GetIndexAndTag hash f key).2 with
  | none => rw [h1] at h; simp at h
  | some res =>
    obtain ⟨b, table⟩ := res
    have hn1 := SingleTable.DeleteTagFromBucket_loop_keeps Q hQw _ hq _ _ _ _ _ _ h1
    rw [h1] at h
    cases b with
    | true =>
      dsimp only at h
      have h3 := TryEliminateVictim_keeps Q hQw hQr _ (by exact hn1) _ _ h
      exact ⟨h3.1, h3.2⟩
    | false =>
      dsimp only at h
      cases h2 : table.DeleteTagFromBucket
          (f.AltIndex (GetIndexAndTag hash f key).1 (GetIndexAndTag hash f key).2)
          (GetIndexAndTag hash f key).2 with
      | none => rw [h2] at h; simp at h
      | some res2 =>
        obtain ⟨b2, table2⟩ := res2
        have hn2 := SingleTable.DeleteTagFromBucket_loop_keeps Q hQw _ hn1 _ _ _ _ _ _ h2
        rw [h2] at h
        cases b2 with
        | true =>
          dsimp only at h
          have h3 := TryEliminateVictim_keeps Q hQw hQr _ (by exact hn2) _ _ h
          exact ⟨h3.1, h3.2⟩
        | false =>
          simp only [Option.some.injEq, Prod.mk.injEq] at h
          rw [← h.2]
          exact ⟨hn2, rfl⟩

/-- In every state of a filter constructed with one of the six widths the
table has four tags per bucket of that width, and `bits_per_element_` is the
width of the table. -/
theorem Reachable.table_packed {hash : Nat → Nat → Nat} {e b : Nat} {u r : Nat → Nat}
    (hw : b = 2 ∨ b = 4 ∨ b = 8 ∨ b = 12 ∨ b = 16 ∨ b = 32) {f : CuckooFilter}
    (h : Reachable hash e b u r f) :
    (f.table_.Packed ∧ f.table_.bits_per_tag_ = b) ∧ f.bits_per_element_ = b := by
  have hQw : ∀ (t : SingleTable) (i j x : Nat), (t.Packed ∧ t.bits_per_tag_ = b) →
      ((t.WriteTag i j x).Packed ∧ (t.WriteTag i j x).bits_per_tag_ = b) := by
    intro t i j x hq
    exact ⟨SingleTable.WriteTag_packed t hq.1 i j x,
      (SingleTable.WriteTag_frame t i j x).2.2.2.1.trans hq.2⟩
  have hQr : ∀ (t : SingleTable) (n : Nat), (t.Packed ∧ t.bits_per_tag_ = b) →
      (({ t with rand_pos_ := n } : SingleTable).Packed ∧
        ({ t with rand_pos_ := n } : SingleTable).bits_per_tag_ = b) :=
    fun t n hq => ⟨hq.1.with_rand_pos n, hq.2⟩
  induction h with
  | constructed f hf =>
    unfold new at hf
    dsimp only at hf
    split at hf
    · simp at hf
    · rename_i table ht
      simp only [Option.some.injEq] at hf
      obtain ⟨_, hpos⟩ := SingleTable.new_num_buckets _ _ _ _ _ _ ht
      obtain ⟨t, h1, hp, _, hb, _⟩ := SingleTable.new_packed _ b u r hpos hw
      rw [ht] at h1
      cases h1
      rw [← hf]
      exact ⟨⟨hp, hb⟩, rfl⟩
  | insert f key ret f1 _ hins ih =>
    obtain ⟨h1, h2⟩ := Insert_keeps _ hQw hQr hash f ih.1 key ret f1 hins
    exact ⟨h1, h2.trans ih.2⟩
  | delete f key ret f1 _ hdel ih =>
    obtain ⟨h1, h2⟩ := Delete_keeps _ hQw hQr hash f ih.1 key ret f1 hdel
    exact ⟨h1, h2.trans ih.2⟩
  | clear f _ ih => exact ⟨⟨ih.1.1.after_Clear, ih.1.2⟩, ih.2⟩

end CuckooFilter

namespace SingleTable

/-- `InsertTagToBucket` on a bucket whose slot 0 reads 0 writes the tag there. -/
theorem Packed.InsertTagToBucket_free {t : SingleTable} (h : Packed t) (i tag : Nat)
    (kickout : Bool) (oldtag : Nat) (h0 : t.slot i 0 = 0) :
    t.InsertTagToBucket i tag kickout oldtag = some (true, oldtag, t.WriteTag i 0 tag) := by
  unfold InsertTagToBucket
  rw [h.tags]
  unfold InsertTagToBucket.loop
  rw [h.ReadTag_slot, h0]
  rfl

end SingleTable

namespace CuckooFilter

theorem GetIndexAndTag_tag_range (hash : Nat → Nat → Nat) (f : CuckooFilter) (key : Nat)
    (hb1 : 1 ≤ f.bits_per_element_) (hb32 : f.bits_per_element_ ≤ 32) :
    0 < (GetIndexAndTag hash f key).2 ∧
      (GetIndexAndTag hash f key).2 < 2 ^ f.bits_per_element_ := by
  have h2 : 2 ^ 1 ≤ 2 ^ f.bits_per_element_ := Nat.pow_le_pow_right (by norm_num) hb1
  unfold GetIndexAndTag
  dsimp only
  rw [TagHash_eq f hb32 _ (Nat.mod_lt _ (by norm_num))]
  have hlt := Nat.mod_lt ((hash key 0xa5b85c5e198ed849 % 2 ^ 64 &&& 0xFFFFFFFF) % 2 ^ 32)
    (Nat.two_pow_pos f.bits_per_element_)
  generalize ((hash key 0xa5b85c5e198ed849 % 2 ^ 64 &&& 0xFFFFFFFF) % 2 ^ 32) %
    2 ^ f.bits_per_element_ = v at hlt ⊢
  generalize 2 ^ f.bits_per_element_ = a at h2 hlt ⊢
  split_ifs <;> omega

/-- C10. `Clear()` returns the filter to the empty state from any state `g` of a
filter constructed with `expected_num_elements >= 1` and `bits_per_element` one
of the six widths `ReadTag` reads, {2, 4, 8, 12, 16, 32}: afterwards every table
slot reads 0, no victim is pending, `NumElements()` is 0, `Contains(k)` is false
for every key and the next `Insert` returns true. -/
theorem Clear_returns_to_empty (hash : Nat → Nat → Nat)
    (expected_num_elements bits_per_element : Nat) (uninit rand_gen : Nat → Nat)
    (he : 1 ≤ expected_num_elements) (he63 : expected_num_elements < 2 ^ 63)
    (hw : bits_per_element = 2 ∨ bits_per_element = 4 ∨ bits_per_element = 8 ∨
      bits_per_element = 12 ∨ bits_per_element = 16 ∨ bits_per_element = 32)
    (g : CuckooFilter)
    (hg : Reachable hash expected_num_elements bits_per_element uninit rand_gen g) :
    (∀ i j, i < (Clear g).table_.NumBuckets → j < 4 →
      (Clear g).table_.ReadTag i j = some 0) ∧
    (Clear g).last_victim_.used = false ∧ NumElements (Clear g) = 0 ∧
    (∀ k, Contains hash (Clear g) k = some false) ∧
    (∀ k, ∃ f1, Insert hash (Clear g) k = some (true, f1)) := by
  obtain ⟨⟨hp, hb⟩, hbe⟩ := Reachable.table_packed hw hg
  have hpow : ∃ k, (Clear g).table_.num_buckets_ = 2 ^ k :=
    Reachable.num_buckets_pow2 he he63 (Reachable.clear g hg)
  have hpc : (Clear g).table_.Packed := hp.after_Clear
  have hz : ∀ i j, i < (Clear g).table_.num_buckets_ → j < 4 →
      (Clear g).table_.slot i j = 0 := fun i j hi hj => hp.slot_after_Clear i j hi hj
  have hbe2 : (Clear g).bits_per_element_ = bits_per_element := hbe
  have hb1 : 1 ≤ (Clear g).bits_per_element_ ∧ (Clear g).bits_per_element_ ≤ 32 := by
    rw [hbe2]
    omega
  have hbt : (Clear g).table_.bits_per_tag_ = (Clear g).bits_per_element_ :=
    hb.trans hbe.symm
  have hv : (Clear g).last_victim_.used = false := rfl
  refine ⟨fun i j hi hj => by rw [hpc.ReadTag_slot, hz i j hi hj], rfl, rfl, ?_, ?_⟩
  · intro k
    obtain ⟨hi1, hi2⟩ := GetIndexAndTag_index_lt hash (Clear g) hpow k
    obtain ⟨ht0, ht1⟩ := GetIndexAndTag_tag_range hash (Clear g) k hb1.1 hb1.2
    unfold Contains
    dsimp only
    rw [AltIndex_twice (Clear g) hpow _ _ hi1 hi2, if_neg (by simp),
      if_neg (by simp [hv]),
      hpc.FindTagInBuckets_hasTag _ _ _ (by rw [hbt]; exact ht1),
      hasTag_empty _ _ _ hi1 hz ht0, hasTag_empty _ _ _ (AltIndex_lt _ hpow _ _) hz ht0]
    rfl
  · intro k
    obtain ⟨hi1, _⟩ := GetIndexAndTag_index_lt hash (Clear g) hpow k
    have hins := hpc.InsertTagToBucket_free (GetIndexAndTag hash (Clear g) k).1
      (GetIndexAndTag hash (Clear g) k).2 (decide (0 > 0)) 0 (hz _ 0 hi1 (by norm_num))
    unfold Insert AddInternal
    simp only [hv, Bool.false_eq_true, ↓reduceIte, kMaxCuckooCount, AddInternal.loop, hins]
    exact ⟨_, rfl⟩

/-- Witness of C10: `Clear()` on `CuckooFilter(10, 8)` after `Insert(25)` and
`Insert(35)`, which holds two tags and reports both keys. -/
theorem Clear_returns_to_empty_witness :
    (1 ≤ 10 ∧ 10 < 2 ^ 63 ∧ (8 = 2 ∨ 8 = 4 ∨ 8 = 8 ∨ 8 = 12 ∨ 8 = 16 ∨ 8 = 32) ∧
      Reachable sampleHash 10 8 (fun _ => 0) (fun _ => 0) sampleInsertedTwice) ∧
    (Contains sampleHash sampleInsertedTwice 25 = some true ∧
      Contains sampleHash sampleInsertedTwice 35 = some true ∧
      sampleInsertedTwice.table_.ReadTag 1 0 = some 25 ∧
      sampleInsertedTwice.NumElements = 2) ∧
    ((∀ i j, i < (Clear sampleInsertedTwice).table_.NumBuckets → j < 4 →
        (Clear sampleInsertedTwice).table_.ReadTag i j = some 0) ∧
      (Clear sampleInsertedTwice).last_victim_.used = false ∧
      NumElements (Clear sampleInsertedTwice) = 0 ∧
      (∀ k, Contains sampleHash (Clear sampleInsertedTwice) k = some false) ∧
      (∀ k, ∃ f1, Insert sampleHash (Clear sampleInsertedTwice) k = some (true, f1))) :=
  ⟨⟨by decide, by norm_num, by decide, sampleInsertedTwice_reachable⟩,
    ⟨sampleInsertedTwice_holds.1, sampleInsertedTwice_holds.2.1,
      sampleInsertedTwice_holds.2.2.1, sampleInsertedTwice_holds.2.2.2.2.2⟩,
    Clear_returns_to_empty sampleHash 10 8 (fun _ => 0) (fun _ => 0) (by decide)
      (by norm_num) (by decide) sampleInsertedTwice sampleInsertedTwice_reachable⟩

end CuckooFilter

end cpp_base
